import Mathlib

/-!
# Segment colouring engine: geometry primitives, intersection map, greedy heuristic

A shallow embedding of `primitives.hpp` (Point, Segment, orientation, cross),
of the packed intersection matrix of `conflict.cpp`
(generate_intersection_map, crosses) and of the greedy heuristic of
`greedy.hpp` (first_available, greedy, build_colorv, color), followed by the
properties proved about them.

Conventions of the embedding:
* an `i64` value is an `Int`; every arithmetic operation of the source on `i64`
  is followed by `wrap64`, the reduction to the signed 64-bit range;
* an `unsigned int` word of the bit matrix is a `Nat`; the only operations on
  words are bitwise or / and with a single bit below position 32;
* a `std::vector` is a `List`; `v[i]` is `List.getD` with the value a fresh
  element of the vector would have;
* a loop over an index range is a fold over the list of the indices visited,
  in the order the source visits them;
* indices and sizes (`int`, `unsigned`, `size_t` in the source) are natural
  numbers: a run that can allocate its vectors keeps them far below `2^31`.
-/

namespace Shadoks

/-! ## primitives.hpp -/

/-- Reduction of an integer to the signed 64-bit range (two's complement):
the value an `i64` holds after an arithmetic operation. -/
def wrap64 (n : Int) : Int := (n + 2 ^ 63) % 2 ^ 64 - 2 ^ 63

/-- Class `Point`: integer coordinates `x`, `y`. `operator==` is structural
equality. -/
structure Point where
  x : Int
  y : Int
deriving DecidableEq, Repr

namespace Point

/-- The source's `operator<` on points: `p.x < q.x || (p.x == q.x && p.y < q.y)`. -/
def lt (p q : Point) : Bool :=
  decide (p.x < q.x) || (decide (p.x = q.x) && decide (p.y < q.y))

/-- The source's `Point::inside`: `r.inside p q` is the call `r.inside(p, q)`, true
when `r` lies in the closed bounding box of `p` and `q`. -/
def inside (r p q : Point) : Bool :=
  let minx := min p.x q.x
  let miny := min p.y q.y
  let maxx := max p.x q.x
  let maxy := max p.y q.y
  decide (r.x ≥ minx) && decide (r.x ≤ maxx) && decide (r.y ≥ miny) && decide (r.y ≤ maxy)

end Point

/-- Class `Segment`: the two stored endpoints `p`, `q`. `operator==` compares
`p` with `p` and `q` with `q`, which is structural equality. -/
structure Segment where
  p : Point
  q : Point
deriving DecidableEq, Repr

namespace Segment

/-- The constructor `Segment(_p, _q)`: stores the smaller point (for `operator<`)
in `p`. -/
def build (a b : Point) : Segment :=
  if Point.lt a b then { p := a, q := b } else { p := b, q := a }

/-- The accessor `get_p`. -/
def get_p (s : Segment) : Point := s.p

/-- The accessor `get_q`. -/
def get_q (s : Segment) : Point := s.q

/-- The source's `Segment::orientation`: `s.orientation r` is the call
`s.orientation(r)`. All four differences, both products and their difference
are `i64` operations. The result is `(val > 0) - (val < 0)`. -/
def orientation (s : Segment) (r : Point) : Int :=
  let d1 := wrap64 (s.q.y - s.p.y)
  let d2 := wrap64 (r.x - s.q.x)
  let d3 := wrap64 (s.q.x - s.p.x)
  let d4 := wrap64 (r.y - s.q.y)
  let val := wrap64 (wrap64 (d1 * d2) - wrap64 (d3 * d4))
  (if val > 0 then 1 else 0) - (if val < 0 then 1 else 0)

/-- The source's `Segment::cross`: `t.cross s` is the call `t.cross(s)`, so `t` is
`*this` (whose endpoints the source writes `p`, `q`) and `s` is the argument
(endpoints `s.p`, `s.q`). The branches are those of the source, in order. -/
def cross (t s : Segment) : Bool :=
  let o1 := t.orientation s.p
  let o2 := t.orientation s.q
  let o3 := s.orientation t.p
  let o4 := s.orientation t.q
  -- No 3 colinear points
  if o1 ≠ 0 ∧ o2 ≠ 0 ∧ o3 ≠ 0 ∧ o4 ≠ 0 then
    decide (o1 ≠ o2) && decide (o3 ≠ o4)
  -- Colinear but 4 distinct points
  else if s.p ≠ t.p ∧ s.q ≠ t.q ∧ s.p ≠ t.q ∧ s.q ≠ t.p then
    s.p.inside t.p t.q || s.q.inside t.p t.q || t.p.inside s.p s.q || t.q.inside s.p s.q
  -- Same segment twice
  else if t = s then
    false
  -- 3 points among 4 vertices, not all colinear
  else if o1 ≠ 0 ∨ o2 ≠ 0 ∨ o3 ≠ 0 ∨ o4 ≠ 0 then
    false
  -- 3 points among 4 vertices, all colinear
  else if s.p = t.p then
    t.q.inside s.p s.q || s.q.inside t.p t.q
  else if s.q = t.q then
    t.p.inside s.p s.q || s.p.inside t.p t.q
  else if s.p = t.q then
    t.p.inside s.p s.q || s.q.inside t.p t.q
  else
    t.q.inside s.p s.q || s.p.inside t.p t.q

end Segment

/-- The read `segments[i]` of the vector of segments. -/
def segAt (segments : List Segment) (i : Nat) : Segment :=
  segments.getD i { p := { x := 0, y := 0 }, q := { x := 0, y := 0 } }

/-! ## conflict.cpp: the packed intersection matrix -/

namespace Conflict

/-- Number of words of a row: `((m - 1) / 32) + 1` in `int` arithmetic, whose
division truncates toward zero. -/
def rowSize (m : Nat) : Nat := (Int.tdiv ((m : Int) - 1) 32 + 1).toNat

/-- The source's `Conflict::crosses`: the bit `sj % 32` of word `sj / 32` of row `si`;
the `unsigned int` result of the `&` is converted to `bool`, true when nonzero. -/
def crosses (crossings : List (List Nat)) (si sj : Nat) : Bool :=
  let index_j := sj / 32
  let shift_j := sj % 32
  ((crossings.getD si []).getD index_j 0 &&& (1 <<< shift_j)) != 0

/-- The assignment `crossings[i][index] = crossings[i][index] | (1 << shift)`,
with `shift < 32`. The `int` value `1 << shift` is converted to `unsigned int`
for the `|`, which gives the word with the single bit `shift` (for `shift = 31`
too, where the `int` is the most negative one); the result stays below `2^32`. -/
def orBit (crossings : List (List Nat)) (i index shift : Nat) : List (List Nat) :=
  crossings.set i
    ((crossings.getD i []).set index ((crossings.getD i []).getD index 0 ||| (1 <<< shift)))

/-- Body of the inner loop of `generate_intersection_map` for the pair `i`, `j`. -/
def markPair (segments : List Segment) (i : Nat) (crossings : List (List Nat)) (j : Nat) :
    List (List Nat) :=
  if (segAt segments i).cross (segAt segments j) then
    orBit (orBit crossings i (j / 32) (j % 32)) j (i / 32) (i % 32)
  else crossings

/-- Body of the outer loop of `generate_intersection_map`: `j` runs from `i + 1`
to `m - 1`. -/
def markRow (segments : List Segment) (crossings : List (List Nat)) (i : Nat) :
    List (List Nat) :=
  (List.range' (i + 1) (segments.length - (i + 1))).foldl (markPair segments i) crossings

/-- The source's `Conflict::generate_intersection_map` on a geometric instance (the
branch `!dimacs`): `m` rows of `size` zero words, then the double loop. -/
def generate_intersection_map (segments : List Segment) : List (List Nat) :=
  let m := segments.length
  let size := rowSize m
  (List.range m).foldl (markRow segments) (List.replicate m (List.replicate size 0))

/-- Bit `k` of word `w` of row `a` of the matrix, the unit in which "no other
bit is set" is stated. -/
def wordBit (crossings : List (List Nat)) (a w k : Nat) : Bool :=
  ((crossings.getD a []).getD w 0).testBit k

/-- Shape of the matrix after the two `resize` calls: `m` rows of `sz` words. -/
def Shaped (cr : List (List Nat)) (m sz : Nat) : Prop :=
  cr.length = m ∧ ∀ a, a < m → (cr.getD a []).length = sz

end Conflict

/-! ## greedy.hpp -/

/-- The members of class `Greedy` that `color` writes: `classes` and the map
`colorv` inherited from `Solution` (`-1` means unlabeled). -/
structure Greedy where
  classes : List (List Nat)
  colorv : List Int
deriving DecidableEq, Repr

namespace Greedy

/-- The inner loop of `first_available`: `valid` stays true when `segments[si]`
crosses no member of the class. -/
def classValid (segments : List Segment) (si : Nat) (cl : List Nat) : Bool :=
  cl.all (fun ti => !(segAt segments si).cross (segAt segments ti))

/-- The outer loop of `first_available` from counter value `c` over the
remaining classes: stops at the first valid class, or at `classes.size()`. -/
def scanClasses (segments : List Segment) (si : Nat) : List (List Nat) → Nat → Nat
  | [], c => c
  | cl :: rest, c =>
    if classValid segments si cl then c else scanClasses segments si rest (c + 1)

/-- The source's `Greedy::first_available`: the returned colour and the classes, to
which an empty class has been appended when no class was compatible. -/
def first_available (segments : List Segment) (classes : List (List Nat)) (si : Nat) :
    Nat × List (List Nat) :=
  let c := scanClasses segments si classes 0
  (c, if c = classes.length then classes ++ [[]] else classes)

/-- One iteration of the loop of `greedy`: `classes[first_available(vi)].push_back(vi)`. -/
def place (segments : List Segment) (vi : Nat) (classes : List (List Nat)) :
    List (List Nat) :=
  let r := first_available segments classes vi
  r.2.set r.1 (r.2.getD r.1 [] ++ [vi])

/-- The source's `Greedy::build_colorv`: `colorv[vi] = c` for every class `c` in
increasing order and every member `vi` of it. -/
def build_colorv (classes : List (List Nat)) (colorv : List Int) : List Int :=
  (List.range classes.length).foldl
    (fun cv c => (classes.getD c []).foldl (fun cv vi => cv.set vi (c : Int)) cv) colorv

/-- The source's `Greedy::greedy`: the loop takes `uncolored.back()` and pops it until
the vector is empty, so the elements are handled from the last to the first,
which is the order of `List.foldr`; then `build_colorv`. -/
def greedy (segments : List Segment) (uncolored : List Nat) (g : Greedy) : Greedy :=
  let classes := uncolored.foldr (place segments) g.classes
  { classes := classes, colorv := build_colorv classes g.colorv }

/-- The source's `Greedy::clearSol`: `Solution::clear` sets every label to `-1`, and the
classes are emptied. -/
def clearSol (segments : List Segment) : Greedy :=
  { classes := [], colorv := List.replicate segments.length (-1) }

/-- The source's `Greedy::color`: `uncolored` receives `size - si - 1` for `si` from `0`
to `size - 1`, then `greedy` runs on it. -/
def color (segments : List Segment) : Greedy :=
  let uncolored := (List.range segments.length).map (fun si => segments.length - si - 1)
  greedy segments uncolored (clearSol segments)

/-- A class is crossing-free when no two distinct members cross, whichever of
the two is the receiver of `cross`. -/
def CrossFree (segments : List Segment) (cl : List Nat) : Prop :=
  ∀ i ∈ cl, ∀ j ∈ cl, i ≠ j → (segAt segments i).cross (segAt segments j) = false

end Greedy

/-! ## Notions used to state the properties -/

/-- The exact integer `(q.y - p.y) (r.x - q.x) - (q.x - p.x) (r.y - q.y)` whose
sign `Segment::orientation` computes in 64-bit arithmetic. -/
def orientVal (s : Segment) (r : Point) : Int :=
  (s.q.y - s.p.y) * (r.x - s.q.x) - (s.q.x - s.p.x) * (r.y - s.q.y)

/-- The coordinates fit the type `int` (32 bits): the constructor of `Instance`
builds every point from the `int` vectors `x_vec`, `y_vec`. -/
def Point.isInt32 (p : Point) : Prop :=
  -2 ^ 31 ≤ p.x ∧ p.x < 2 ^ 31 ∧ -2 ^ 31 ≤ p.y ∧ p.y < 2 ^ 31

instance (p : Point) : Decidable p.isInt32 := by
  unfold Point.isInt32; infer_instance

namespace Spec

/-- Geometry of the specification: the real point `(x, y)` lies on the closed
segment between the endpoints of `s`. -/
def onSegment (s : Segment) (x y : ℝ) : Prop :=
  ∃ u : ℝ, 0 ≤ u ∧ u ≤ 1 ∧
    x = (s.p.x : ℝ) + u * ((s.q.x : ℝ) - s.p.x) ∧ y = (s.p.y : ℝ) + u * ((s.q.y : ℝ) - s.p.y)

/-- The point `r` is one of the two endpoints of `s`. -/
def isEndpoint (s : Segment) (r : Point) : Prop := r = s.p ∨ r = s.q

/-- The only common point of the closed segments `t` and `s` is `e`, an endpoint
of both. -/
def onlyCommonPoint (t s : Segment) (e : Point) : Prop :=
  isEndpoint t e ∧ isEndpoint s e ∧
    ∀ x y : ℝ, onSegment t x y → onSegment s x y → x = (e.x : ℝ) ∧ y = (e.y : ℝ)

/-- The segments `t` and `s` share exactly one endpoint: exactly one point is an
endpoint of both. -/
def shareExactlyOneEndpoint (t s : Segment) : Prop :=
  ∃! e : Point, isEndpoint t e ∧ isEndpoint s e

/-- The non-shared endpoint of one of the two segments lies in the closed
bounding box of the other: some endpoint of `t` that is not an endpoint of `s`
is inside the box of `s`, or the same with `t` and `s` exchanged. -/
def nonSharedInside (t s : Segment) : Prop :=
  ∃ r : Point, (isEndpoint t r ∧ ¬ isEndpoint s r ∧ r.inside s.p s.q = true) ∨
    (isEndpoint s r ∧ ¬ isEndpoint t r ∧ r.inside t.p t.q = true)

end Spec

/-- The coordinates lie in the range of the instances: `0 ≤ x, y < 2^31`. -/
def Point.isNat31 (p : Point) : Prop :=
  0 ≤ p.x ∧ p.x < 2 ^ 31 ∧ 0 ≤ p.y ∧ p.y < 2 ^ 31

instance (p : Point) : Decidable p.isNat31 := by
  unfold Point.isNat31; infer_instance

/-! ## Outcomes of a run -/

/-- How a run of a routine ends: it returns a value; or it reads or writes a
vector outside its bounds (or divides by zero); or an `assert` fails; or it
calls `exit(EXIT_FAILURE)`; or it calls `exit(0)`; or the number of loop
iterations allowed to the embedding is used up before the loop condition
fails. -/
inductive Outcome (α : Type) where
  | returned (a : α)
  | outOfBounds
  | assertFailed
  | exitFailure
  | exitSuccess
  | outOfFuel
deriving DecidableEq, Repr

/-- Sequencing: the run continues with `f` when the first part returned, and
ends as the first part ended otherwise. -/
def Outcome.bind {α β : Type} (x : Outcome α) (f : α → Outcome β) : Outcome β :=
  match x with
  | Outcome.returned a => f a
  | Outcome.outOfBounds => Outcome.outOfBounds
  | Outcome.assertFailed => Outcome.assertFailed
  | Outcome.exitFailure => Outcome.exitFailure
  | Outcome.exitSuccess => Outcome.exitSuccess
  | Outcome.outOfFuel => Outcome.outOfFuel

/-! ## solution.hpp -/

/-- The source's `Solution::numColors`: `1 + *max_element(colorv.begin(), colorv.end())`;
dereferencing the end iterator of an empty vector is out of bounds. -/
def Solution.numColors (colorv : List Int) : Outcome Int :=
  match colorv.max? with
  | some m => Outcome.returned (1 + m)
  | none => Outcome.outOfBounds

/-- The model of `std::sort(first, last)` and `std::sort(first, last, comp)` for a
comparator `lt`: insertion sort, which yields the one sorted arrangement when
`lt` is a strict total order on the elements. -/
def stdSort {α : Type} (lt : α → α → Bool) (l : List α) : List α :=
  l.insertionSort (fun a b => lt b a = false)

/-! ## dsatur.hpp -/

/-- The members of class `DSatur` and of its subclass `DSatHull`, with the local
variable `uncolored` of `color`: `neighbor_colors`, `dsat`, `degree`, the map
`colorv` inherited from `Solution`, and `colorhulls` (used by `DSatHull` only).
The `unordered_set` `uncolored` is a list without repetition; the source only
iterates over it for order-independent effects. -/
structure DSatur where
  neighbor_colors : List (List Bool)
  dsat : List Int
  degree : List Int
  colorv : List Int
  colorhulls : List (List Point)
  uncolored : List Nat
deriving DecidableEq, Repr

namespace DSatur

/-- The source's `DSatur::build_deg`: `degree[i]` counts the segments `t` with
`segments[i].cross(t)`. -/
def build_deg (segments : List Segment) : List Int :=
  segments.map (fun s => ((segments.filter (fun t => s.cross t)).length : Int))

/-- The loop of `first_available` on the row `neighbor_colors[si]`:
`for (c = 0; c < size && row[c]; c++)`. -/
def firstFree : List Bool → Nat
  | [] => 0
  | b :: rest => if b then firstFree rest + 1 else 0

/-- The source's `DSatur::first_available`. -/
def first_available (st : DSatur) (si : Nat) : Nat :=
  firstFree (st.neighbor_colors.getD si [])

/-- The source's `operator<` on the tuples `(-dsat, -degree, si)`: lexicographic. -/
def tupleLt (a b : Int × Int × Nat) : Bool :=
  decide (a.1 < b.1) ||
    (decide (a.1 = b.1) && (decide (a.2.1 < b.2.1) ||
      (decide (a.2.1 = b.2.1) && decide (a.2.2 < b.2.2))))

/-- The constructor followed by `clearSol`: `degree` from `build_deg`, every label
`-1`, `dsat` zero, every row of `neighbor_colors` empty, no hull; and the first
loop of `color`, which inserts every index into `uncolored`. -/
def start (segments : List Segment) : DSatur :=
  { neighbor_colors := List.replicate segments.length []
    dsat := List.replicate segments.length 0
    degree := build_deg segments
    colorv := List.replicate segments.length (-1)
    colorhulls := []
    uncolored := List.range segments.length }

/-- Body of the last loop of an iteration of `color`, for the uncoloured `si`
after `vi` received colour `c`: when `segments[si].cross(segments[vi])`, the row
is resized to `c + 1` if shorter, and if `row[c]` is not set it is set and
`dsat[si]` is incremented. -/
def mark (segments : List Segment) (vi c : Nat) (st : DSatur) (si : Nat) : DSatur :=
  if (segAt segments si).cross (segAt segments vi) then
    let row := st.neighbor_colors.getD si []
    let row1 := if row.length < c + 1 then row ++ List.replicate (c + 1 - row.length) false
      else row
    if row1.getD c false = false then
      { st with
        neighbor_colors := st.neighbor_colors.set si (row1.set c true)
        dsat := st.dsat.set si (st.dsat.getD si 0 + 1) }
    else { st with neighbor_colors := st.neighbor_colors.set si row1 }
  else st

/-- The vector `candidates` of an iteration of `color`, after the sort: `maxdsat`
starts at `-1`; the candidates are the tuples of the uncoloured segments with
`dsat = maxdsat`. -/
def candidates (st : DSatur) : List (Int × Int × Nat) :=
  let maxdsat := st.uncolored.foldl (fun m si => max m (st.dsat.getD si 0)) (-1)
  stdSort tupleLt ((st.uncolored.filter (fun si => st.dsat.getD si 0 = maxdsat)).map
    (fun si => (-(st.dsat.getD si 0), -(st.degree.getD si 0), si)))

/-- The choice of `vi` in an iteration of `color`: the candidate at position
`rand() % min(size, 8)` after the sort, `r` being the value of `rand()`. With
no candidate the modulus is zero and the division is undefined. -/
def pick (st : DSatur) (r : Nat) : Outcome Nat :=
  let sorted := candidates st
  if min sorted.length 8 = 0 then Outcome.outOfBounds
  else Outcome.returned (sorted.getD (r % min sorted.length 8) (0, 0, 0)).2.2

/-- The end of an iteration of `color`, once `vi` and its colour `c` are known:
`colorv[vi] = c`, `vi` is erased from `uncolored`, its row is cleared and the
rows of the remaining uncoloured segments are updated. -/
def paint (segments : List Segment) (vi c : Nat) (st1 : DSatur) : DSatur :=
  let st2 : DSatur :=
    { st1 with
      colorv := st1.colorv.set vi (c : Int)
      uncolored := st1.uncolored.erase vi
      neighbor_colors := st1.neighbor_colors.set vi [] }
  st2.uncolored.foldl (mark segments vi c) st2

/-- One iteration of the `while` loop of `color`: pick `vi`, ask `colorChoice` for
its colour `c` (the choice may update the state, and fails when the source
would index a vector out of bounds), then `paint`. -/
def colorStep (segments : List Segment) (colorChoice : DSatur → Nat → Outcome (Nat × DSatur))
    (r : Nat) (st : DSatur) : Outcome DSatur :=
  (pick st r).bind fun vi =>
    (colorChoice st vi).bind fun res =>
      Outcome.returned (paint segments vi res.1 res.2)

/-- The `while (!uncolored.empty())` loop of `color`, allowed `fuel` iterations;
`rnd k` is the value returned by the `k`-th call of `rand()`. -/
def colorLoop (segments : List Segment) (colorChoice : DSatur → Nat → Outcome (Nat × DSatur))
    (rnd : Nat → Nat) : Nat → Nat → DSatur → Outcome DSatur
  | 0, _, st => if st.uncolored = [] then Outcome.returned st else Outcome.outOfFuel
  | fuel + 1, k, st =>
    if st.uncolored = [] then Outcome.returned st
    else
      (colorStep segments colorChoice (rnd k) st).bind fun st1 =>
        colorLoop segments colorChoice rnd fuel (k + 1) st1

/-- The source's `DSatur::color(colorChoice)`, the loop being allowed one iteration
per segment. -/
def colorWith (segments : List Segment) (colorChoice : DSatur → Nat → Outcome (Nat × DSatur))
    (rnd : Nat → Nat) : Outcome DSatur :=
  colorLoop segments colorChoice rnd segments.length 0 (start segments)

/-- The source's `DSatur::color()`: `colorChoice` is `first_available`. -/
def color (segments : List Segment) (rnd : Nat → Nat) : Outcome DSatur :=
  colorWith segments (fun st vi => Outcome.returned (first_available st vi, st)) rnd

/-- The invariant of the loop of `color`: the vectors keep their sizes, the
uncoloured indices are distinct and in range, `dsat` is nonnegative, the row of
an uncoloured segment marks exactly the colours of the coloured segments it
crosses, and the coloured segments carry a valid partial colouring. -/
structure Inv (segments : List Segment) (st : DSatur) : Prop where
  len_cv : st.colorv.length = segments.length
  len_nc : st.neighbor_colors.length = segments.length
  nodup : st.uncolored.Nodup
  lt : ∀ u ∈ st.uncolored, u < segments.length
  ds : ∀ u, 0 ≤ st.dsat.getD u 0
  nc : ∀ u ∈ st.uncolored, ∀ c : Nat,
    (st.neighbor_colors.getD u []).getD c false = true ↔
      ∃ v, v < segments.length ∧ v ∉ st.uncolored ∧
        (segAt segments u).cross (segAt segments v) = true ∧ st.colorv.getD v (-1) = (c : Int)
  col : ∀ v, v < segments.length → v ∉ st.uncolored → 0 ≤ st.colorv.getD v (-1)
  valid : ∀ i j, i < segments.length → j < segments.length →
    i ∉ st.uncolored → j ∉ st.uncolored →
    (segAt segments i).cross (segAt segments j) = true →
    st.colorv.getD i (-1) ≠ st.colorv.getD j (-1)

end DSatur

/-! ## conflict.cpp: the initial solution -/

namespace Conflict

/-- The source's `Conflict::edge_can_be_added_to_graph`: no member `sj` of
`classes.at(c)` has `crosses(si, sj)`. Every call site passes `c` below
`classes.size()`. -/
def edge_can_be_added_to_graph (crossings : List (List Nat)) (classes : List (List Nat))
    (si c : Nat) : Bool :=
  (classes.getD c []).all (fun sj => !crosses crossings si sj)

/-- The inner loop shared by `init_solution` and `add_easy_segs`: the first class
`c`, in increasing order, with `edge_can_be_added_to_graph(si, c)`, if any. -/
def firstAdmissible (crossings : List (List Nat)) (classes : List (List Nat)) (si : Nat) :
    Option Nat :=
  (List.range classes.length).find? (fun c => edge_can_be_added_to_graph crossings classes si c)

/-- Body of the loop of `init_solution` (branch without a solution to read):
`si` is pushed at the back of the first admissible class, or of a new class
pushed at the back of `classes`. -/
def insertNew (crossings : List (List Nat)) (classes : List (List Nat)) (si : Nat) :
    List (List Nat) :=
  match firstAdmissible crossings classes si with
  | some c => classes.set c (classes.getD c [] ++ [si])
  | none => classes ++ [[si]]

/-- The source's `Conflict::init_solution` when `param.solution_name` is empty: the
loop over `si` from `0` to `n_segments - 1`. -/
def init_solution (n_segments : Nat) (crossings : List (List Nat))
    (classes : List (List Nat)) : List (List Nat) :=
  (List.range n_segments).foldl (insertNew crossings) classes

end Conflict

/-! ## angle.hpp, bad.hpp -/

namespace Angle

/-- The source's `Angle::color`. The slopes are `double` values, which are not
modelled: `indices` is the vector `indices` after `std::sort` with `cmp`, and
`r` the value of `rand()`. With no segment `rand() % indices.size()` divides by
zero. -/
def color (segments : List Segment) (indices : List Nat) (r : Nat) : Outcome Greedy :=
  if indices.length = 0 then Outcome.outOfBounds
  else
    let start := r % indices.length
    let uncolored := (List.range segments.length).map
      (fun si => indices.getD ((si + start) % segments.length) 0)
    Outcome.returned (Greedy.greedy segments uncolored (Greedy.clearSol segments))

end Angle

/-- The members of class `Bad`: those of `Greedy` and the ordered sets `good`,
`bad`, each a list in the order of the comparator. -/
structure Bad where
  greedy : Greedy
  good : List Nat
  bad : List Nat
deriving DecidableEq, Repr

namespace Bad

/-- The source's `Bad::color`. The order of a `std::set<int, Compare>` depends on
the `double` slopes, which are not modelled: `ord l` is the ordered listing of
the set with the elements of `l`. `classes.back()` of an empty vector is out of
bounds. -/
def color (segments : List Segment) (ord : List Nat → List Nat) (st : Bad) : Outcome Bad :=
  let good := if st.good = [] ∧ st.bad = [] then ord (List.range segments.length) else st.good
  let uncolored := good ++ st.bad
  let g := Greedy.greedy segments uncolored (Greedy.clearSol segments)
  match g.classes.getLast? with
  | none => Outcome.outOfBounds
  | some last =>
    Outcome.returned
      { greedy := g
        good := good.filter (fun vi => !last.contains vi)
        bad := ord (st.bad ++ last.filter (fun vi => !st.bad.contains vi)) }

end Bad

/-! ## dsathull.hpp -/

/-- The source's `Point::l2sq`: `a.l2sq p` is the call `a.l2sq(p)`, the `i64` value
`(x - p.x) * (x - p.x) + (y - p.y) * (x - p.x)`. -/
def Point.l2sq (a p : Point) : Int :=
  wrap64 (wrap64 (wrap64 (a.x - p.x) * wrap64 (a.x - p.x))
    + wrap64 (wrap64 (a.y - p.y) * wrap64 (a.x - p.x)))

namespace DSatHull

/-- The value `LLONG_MAX`. -/
def LLONG_MAX : Int := 2 ^ 63 - 1

/-- The source's `DSatHull::orientation(p, q, r)`, in `i64` arithmetic. -/
def orientation (p q r : Point) : Int :=
  let d1 := wrap64 (q.y - p.y)
  let d2 := wrap64 (r.x - q.x)
  let d3 := wrap64 (q.x - p.x)
  let d4 := wrap64 (r.y - q.y)
  let val := wrap64 (wrap64 (d1 * d2) - wrap64 (d3 * d4))
  (if val > 0 then 1 else 0) - (if val < 0 then 1 else 0)

/-- The `while` loop of `convex_hull_sorted` for the point `pt`: the last point of
`hull` is popped while the hull has two points or more and
`orientation(pt, hull[size-1], hull[size-2]) >= 0`. Each iteration pops, so
`hull.size()` iterations are enough. -/
def popWhile (pt : Point) : Nat → List Point → List Point
  | 0, hull => hull
  | fuel + 1, hull =>
    if 2 ≤ hull.length ∧
        0 ≤ orientation pt (hull.getD (hull.length - 1) ⟨0, 0⟩) (hull.getD (hull.length - 2) ⟨0, 0⟩)
    then popWhile pt fuel hull.dropLast
    else hull

/-- The source's `DSatHull::convex_hull_sorted`: the hull starts with `points.back()`,
the points `points[0..size-2]` are pushed in turn after the pops, and the
`assert(hull[0] != hull.back())` is checked. It is called with three points or
more. -/
def convex_hull_sorted (points : List Point) : Outcome (List Point) :=
  let hull := points.dropLast.foldl
    (fun hull pt => popWhile pt hull.length hull ++ [pt]) [points.getD (points.length - 1) ⟨0, 0⟩]
  if hull.getD 0 ⟨0, 0⟩ ≠ hull.getD (hull.length - 1) ⟨0, 0⟩ then Outcome.returned hull
  else Outcome.assertFailed

/-- The source's `DSatHull::polyArea2` in `i64` arithmetic. It is called with
nonempty vectors. -/
def polyArea2 (poly : List Point) : Int :=
  let back := poly.getD (poly.length - 1) ⟨0, 0⟩
  let first := poly.getD 0 ⟨0, 0⟩
  (List.range' 1 (poly.length - 1)).foldl
    (fun a i =>
      wrap64 (a + wrap64 (wrap64 ((poly.getD (i - 1) ⟨0, 0⟩).x + (poly.getD i ⟨0, 0⟩).x)
        * wrap64 ((poly.getD (i - 1) ⟨0, 0⟩).y - (poly.getD i ⟨0, 0⟩).y))))
    (wrap64 (wrap64 (back.x + first.x) * wrap64 (back.y - first.y)))

/-- The comparator of `angular_sort` around `p0`. -/
def compare (p0 p1 p2 : Point) : Bool :=
  let o := orientation p0 p1 p2
  if o = 0 then decide (p0.l2sq p1 < p0.l2sq p2) else decide (o = 1)

/-- The source's `DSatHull::angular_sort`: the points are sorted by `operator<`, the
last one `p0` is taken out, the others are sorted by `compare` and `p0` is
pushed at the back. It is called with three points or more. -/
def angular_sort (points : List Point) : List Point :=
  let sorted := stdSort Point.lt points
  let p0 := sorted.getD (sorted.length - 1) ⟨0, 0⟩
  stdSort (compare p0) sorted.dropLast ++ [p0]

/-- The source's `DSatHull::convex_hull`. -/
def convex_hull (points : List Point) : Outcome (List Point) :=
  if points.length ≤ 2 then Outcome.returned points
  else convex_hull_sorted (angular_sort points)

/-- The two `push_back` of `bestAvailable`: the endpoints `p`, then `q`, of the
segment are appended to `ch` when `std::count` finds no occurrence. -/
def pushEnds (ch : List Point) (s : Segment) : List Point :=
  let ch1 := if ch.count s.get_p = 0 then ch ++ [s.get_p] else ch
  if ch1.count s.get_q = 0 then ch1 ++ [s.get_q] else ch1

/-- The loop of `bestAvailable` over the possible colours: `(bestc, bestdiff)` is
replaced by `(c, diff)` when `diff < bestdiff`. -/
def scanPossible (colorhulls : List (List Point)) (s : Segment) :
    List Nat → Int × Int → Outcome (Int × Int)
  | [], best => Outcome.returned best
  | c :: rest, best =>
    let ch := colorhulls.getD c []
    let a1 := polyArea2 ch
    (convex_hull (pushEnds ch s)).bind fun ch2 =>
      let a2 := polyArea2 ch2
      let diff := wrap64 (a2 - a1)
      scanPossible colorhulls s rest (if diff < best.2 then ((c : Int), diff) else best)

/-- The source's `DSatHull::bestAvailable`: the returned colour and the state with
the updated hulls. With no possible colour a new hull `{p, q}` is pushed.
Otherwise the scan starts from `bestc = -1`, `bestdiff = LLONG_MAX`, and
`colorhulls[bestc]` is then read and written: out of bounds when `bestc` is
still `-1`. -/
def bestAvailable (segments : List Segment) (st : DSatur) (si : Nat) :
    Outcome (Nat × DSatur) :=
  let row := st.neighbor_colors.getD si []
  let possible := (List.range st.colorhulls.length).filter
    (fun c => decide (row.length ≤ c) || !row.getD c false)
  if possible = [] then
    let hulls := st.colorhulls ++ [[(segAt segments si).get_p, (segAt segments si).get_q]]
    Outcome.returned (hulls.length - 1, { st with colorhulls := hulls })
  else
    (scanPossible st.colorhulls (segAt segments si) possible (-1, LLONG_MAX)).bind fun best =>
      if best.1 < 0 then Outcome.outOfBounds
      else
        let bestc := best.1.toNat
        (convex_hull (pushEnds (st.colorhulls.getD bestc []) (segAt segments si))).bind fun ch =>
          Outcome.returned (bestc, { st with colorhulls := st.colorhulls.set bestc ch })

/-- The source's `DSatHull::color()`: the loop of `DSatur::color` with `bestAvailable`
as `colorChoice`; `clearSol` has emptied `colorhulls`. -/
def color (segments : List Segment) (rnd : Nat → Nat) : Outcome DSatur :=
  DSatur.colorWith segments (bestAvailable segments) rnd

/-- Two segments from the corner `(-1161911544, -1984525431)` of a right triangle
whose legs have lengths `2323823089` and `3969050863`, of product `2^63 - 1`:
`(-1161911544,-1984525431)-(1161911545,-1984525431)` and
`(-1161911544,-1984525431)-(-1161911544,1984525432)`. Every coordinate is an
`int` of absolute value below `2^31`. -/
def bigTriangle : List Segment :=
  [Segment.build ⟨-1161911544, -1984525431⟩ ⟨1161911545, -1984525431⟩,
    Segment.build ⟨-1161911544, -1984525431⟩ ⟨-1161911544, 1984525432⟩]

end DSatHull

/-! ## conflict.cpp: moves, the depth-first search and its undo stack -/

namespace Conflict

/-- The struct `stack_event_t`: an event records either that `edge` was added to the
class `was_added_to` (`was_it_added`), or that it was removed from the class
`was_removed_from` (`was_it_removed`). -/
inductive stack_event_t where
  | added (was_added_to : Nat) (edge : Nat)
  | removed (was_removed_from : Nat) (edge : Nat)
deriving DecidableEq, Repr

/-- The source's `Conflict::in_list`. -/
def in_list (i : Nat) (l : List Nat) : Bool := l.any (fun j => i == j)

/-- The loop of `get_intersectors` over the remaining members of the class, with
the running `count` and the list `intersectors`; `none` is the return value
`-1`. -/
def intersectorsFrom (crossings : List (List Nat)) (e : Nat) (max_intersections : Int)
    (forbidden : List Nat) : List Nat → Int → List Nat → Option (List Nat)
  | [], _, intersectors => some intersectors
  | si :: rest, count, intersectors =>
    if crosses crossings e si then
      if count + 1 > max_intersections then none
      else if in_list si forbidden then none
      else intersectorsFrom crossings e max_intersections forbidden rest (count + 1)
        (intersectors ++ [si])
    else intersectorsFrom crossings e max_intersections forbidden rest count intersectors

/-- The source's `Conflict::get_intersectors` on an empty list `intersectors`: `some`
of the members of `classes.at(c)` crossing `e` when the return value is `0`,
`none` when it is `-1`. -/
def get_intersectors (crossings : List (List Nat)) (classes : List (List Nat)) (c e : Nat)
    (max_intersections : Int) (forbidden : List Nat) : Option (List Nat) :=
  intersectorsFrom crossings e max_intersections forbidden (classes.getD c []) 0 []

/-- The source's `Conflict::get_colors_with_small_conflict_number`: the pairs
`(c, intersectors)`, for `c` increasing, for which `get_intersectors` is not
`-1`. -/
def get_colors_with_small_conflict_number (crossings : List (List Nat))
    (classes : List (List Nat)) (e : Nat) (breadth : Int) (forbidden : List Nat) :
    List (Nat × List Nat) :=
  (List.range classes.length).filterMap
    (fun c => (get_intersectors crossings classes c e breadth forbidden).map (fun x => (c, x)))

/-- The source's `Conflict::remove_edges_from_color`: `std::list::remove` erases every
element equal to `seg`. Every call passes a colour below `classes.size()`. -/
def remove_edges_from_color (classes : List (List Nat)) (color : Nat) (conflicts : List Nat) :
    List (List Nat) :=
  conflicts.foldl
    (fun cls seg => cls.set color ((cls.getD color []).filter (fun x => x != seg))) classes

/-- The source's `Conflict::add_edges_to_color`: `push_back` of every conflict. -/
def add_edges_to_color (classes : List (List Nat)) (color : Nat) (conflicts : List Nat) :
    List (List Nat) :=
  conflicts.foldl (fun cls si => cls.set color (cls.getD color [] ++ [si])) classes

/-- The source's `Conflict::undo_change`: `undo_added` erases the first occurrence of
the edge in the class, `undo_removed` pushes the edge at the back of the class. -/
def undo_change (classes : List (List Nat)) : stack_event_t → List (List Nat)
  | stack_event_t.added c e => classes.set c ((classes.getD c []).erase e)
  | stack_event_t.removed c e => classes.set c (classes.getD c [] ++ [e])

/-- The source's `Conflict::undo_changes`: the events are undone from the back of the
list to its front, which is the order of `List.foldr`. -/
def undo_changes (classes : List (List Nat)) (changes : List stack_event_t) :
    List (List Nat) :=
  changes.foldr (fun evt cls => undo_change cls evt) classes

/-- The loop of `dfsOptimize` over `conflict_colors` for the edge `e`; `dfs` is the
recursive call. The edge is pushed on the class, the conflicts are removed and
the search continues on them with `forbidden` extended by `e` and an empty
`status`. When the call returns `-1` the edge is removed and the conflicts are
pushed back; otherwise the events are returned: the edge added, the conflicts
removed, then `status`. `none` means that no colour succeeded. -/
def tryColors
    (dfs : List (List Nat) → List Nat → List Nat → Int → Int → List stack_event_t →
      Outcome (Int × List (List Nat) × List stack_event_t))
    (e : Nat) (forbidden : List Nat) (breadth depth : Int) :
    List (Nat × List Nat) → List (List Nat) →
      Outcome (List (List Nat) × Option (List stack_event_t))
  | [], classes => Outcome.returned (classes, none)
  | (c, conflicts) :: rest, classes =>
    let classes1 := remove_edges_from_color (classes.set c (classes.getD c [] ++ [e])) c conflicts
    (dfs classes1 conflicts (forbidden ++ [e]) breadth (depth - 1) []).bind fun r =>
      if r.1 = -1 then
        tryColors dfs e forbidden breadth depth rest
          (add_edges_to_color (remove_edges_from_color r.2.1 c [e]) c conflicts)
      else
        Outcome.returned (r.2.1,
          some (stack_event_t.added c e :: conflicts.map (stack_event_t.removed c) ++ r.2.2))

/-- The loop of `dfsOptimize` over `todo`: the returned triple is the return value,
the classes and the list `changes`. When no colour succeeds for an edge, all the
changes are undone (the list is left empty) and `-1` is returned. -/
def colorTodo
    (dfs : List (List Nat) → List Nat → List Nat → Int → Int → List stack_event_t →
      Outcome (Int × List (List Nat) × List stack_event_t))
    (crossings : List (List Nat)) (forbidden : List Nat) (breadth depth : Int) :
    List Nat → List (List Nat) → List stack_event_t →
      Outcome (Int × List (List Nat) × List stack_event_t)
  | [], classes, changes => Outcome.returned (0, classes, changes)
  | e :: rest, classes, changes =>
    let conflict_colors :=
      get_colors_with_small_conflict_number crossings classes e breadth forbidden
    (tryColors dfs e forbidden breadth depth conflict_colors classes).bind fun r =>
      match r.2 with
      | some events =>
        colorTodo dfs crossings forbidden breadth depth rest r.1 (changes ++ events)
      | none => Outcome.returned (-1, undo_changes r.1 changes, [])

/-- The source's `Conflict::dfsOptimize`, allowed `fuel` nested calls: the returned
triple is the return value (`0` or `-1`), the classes and the list `changes`.
With `depth ≥ 1` the nesting is at most `depth` (at `depth = 1` the breadth is
`0`, so every recursive `todo` is empty). -/
def dfsOptimize (crossings : List (List Nat)) :
    Nat → List (List Nat) → List Nat → List Nat → Int → Int → List stack_event_t →
      Outcome (Int × List (List Nat) × List stack_event_t)
  | 0, classes, todo, _, _, _, changes =>
    if todo = [] then Outcome.returned (0, classes, changes) else Outcome.outOfFuel
  | fuel + 1, classes, todo, forbidden, breadth, depth, changes =>
    if todo = [] then Outcome.returned (0, classes, changes)
    else
      let breadth1 := if depth = 1 then 0 else breadth
      colorTodo (dfsOptimize crossings fuel) crossings forbidden breadth1 depth todo classes
        changes

/-- The source's `Conflict::move_segments`: for every member `si` of class `c` the
first class `c2 ≠ c` admitting it is looked up in the classes as they are on
entry; then every pair is applied by `remove` and `push_back`. -/
def move_segments (crossings : List (List Nat)) (classes : List (List Nat)) (c : Nat) :
    List (List Nat) :=
  let moving_segs := (classes.getD c []).filterMap (fun si =>
    ((List.range classes.length).find?
      (fun c2 => c != c2 && edge_can_be_added_to_graph crossings classes si c2)).map
        (fun c2 => (si, c2)))
  moving_segs.foldl
    (fun cls pair =>
      let cls1 := cls.set c ((cls.getD c []).filter (fun x => x != pair.1))
      cls1.set pair.2 (cls1.getD pair.2 [] ++ [pair.1]))
    classes

/-- The loop of `shuffle_once` from index `c`: `move_segments(c)`, and the class is
erased (the index staying) when it became empty. `size - c` decreases at each
iteration, so `fuel = size` iterations are enough. -/
def shuffleFrom (crossings : List (List Nat)) : Nat → Nat → List (List Nat) → List (List Nat)
  | 0, _, classes => classes
  | fuel + 1, c, classes =>
    if c < classes.length then
      let classes1 := move_segments crossings classes c
      if classes1.getD c [] = [] then shuffleFrom crossings fuel c (classes1.eraseIdx c)
      else shuffleFrom crossings fuel (c + 1) classes1
    else classes

/-- The source's `Conflict::shuffle_once`; `sorted` is the vector of classes after
`std::sort` by size (which is not stable, so the order of classes of equal
size is not fixed by the code). -/
def shuffle_once (sortBySize : List (List Nat) → List (List Nat)) (crossings : List (List Nat))
    (classes : List (List Nat)) : List (List Nat) :=
  let sorted := sortBySize classes
  shuffleFrom crossings sorted.length 0 sorted

end Conflict

/-- Two vectors of classes agree up to the order of the elements inside each
class: same number of classes, and class by class one list is a permutation of
the other. -/
def Conflict.PermClasses (a b : List (List Nat)) : Prop :=
  a.length = b.length ∧ ∀ c, (a.getD c []).Perm (b.getD c [])

/-- What the proofs about `dfsOptimize` assume of the recursive call `dfs`, and
establish for `dfsOptimize` itself, for a call with an empty list `changes` from
classes and `todo` without repeated segment: when `-1` is returned, `changes` is
empty and the classes are those on entry up to the order inside each class;
otherwise the classes hold the segments they held and those of `todo`, and
undoing the returned events gives back the classes on entry, up to that
order. -/
def Conflict.DfsSpec
    (dfs : List (List Nat) → List Nat → List Nat → Int → Int → List Conflict.stack_event_t →
      Outcome (Int × List (List Nat) × List Conflict.stack_event_t)) : Prop :=
  ∀ cls todo forbidden breadth depth r, (cls.flatten ++ todo).Nodup →
    dfs cls todo forbidden breadth depth [] = Outcome.returned r →
    (r.1 = -1 → r.2.2 = [] ∧ Conflict.PermClasses r.2.1 cls) ∧
    (r.1 ≠ -1 → r.2.1.flatten.Perm (cls.flatten ++ todo) ∧
      Conflict.PermClasses (Conflict.undo_changes r.2.1 r.2.2) cls)

/-! ## conflict.cpp: easy segments -/

namespace Conflict

/-- The value `std::numeric_limits<long>::max()`. -/
def LONG_MAX : Int := 2 ^ 63 - 1

/-- The two `degree[..]++` of `remove_easy_segs` for a crossing pair `i < j`. -/
def bumpPair (crossings : List (List Nat)) (i : Nat) (degree : List Int) (j : Nat) : List Int :=
  if crosses crossings i j then
    let d1 := degree.set i (degree.getD i 0 + 1)
    d1.set j (d1.getD j 0 + 1)
  else degree

/-- The first double loop of `remove_easy_segs`: `degree` has `n_segments` zeros, and
every pair `i < j` with `crosses(i, j)` adds one to `degree[i]` and to
`degree[j]`. -/
def initDegree (n_segments : Nat) (crossings : List (List Nat)) : List Int :=
  (List.range n_segments).foldl
    (fun degree i =>
      (List.range' (i + 1) (n_segments - (i + 1))).foldl (bumpPair crossings i) degree)
    (List.replicate n_segments 0)

/-- The search of the segment of minimum degree: `s` starts at `0` and becomes `i`,
for `i` from `1` to `size - 1`, when `degree[i] < degree[s]`. -/
def argminDegree (degree : List Int) : Nat :=
  (List.range' 1 (degree.length - 1)).foldl
    (fun s i => if degree.getD i 0 < degree.getD s 0 then i else s) 0

/-- The update of the degrees after the removal of `s`: `degree[i]--` for every `i`
with `degree[i] != LONG_MAX` and `crosses(i, s)`. -/
def lowerDegrees (crossings : List (List Nat)) (s : Nat) (degree : List Int) : List Int :=
  (List.range degree.length).foldl
    (fun d i =>
      if d.getD i 0 ≠ LONG_MAX ∧ crosses crossings i s = true then d.set i (d.getD i 0 - 1)
      else d)
    degree

/-- The loop `while (!stability)` of `remove_easy_segs`, allowed `fuel` iterations:
the returned pair is `degree` and `easy_segs`. With no segment, `degree[s]` is
read out of bounds. Every iteration but the last marks one more segment with
`LONG_MAX`. -/
def peel (crossings : List (List Nat)) (bound : Int) :
    Nat → List Int → List Nat → Outcome (List Int × List Nat)
  | 0, _, _ => Outcome.outOfFuel
  | fuel + 1, degree, easy_segs =>
    if degree = [] then Outcome.outOfBounds
    else
      let s := argminDegree degree
      if degree.getD s 0 < bound then
        peel crossings bound fuel (lowerDegrees crossings s (degree.set s LONG_MAX))
          (easy_segs ++ [s])
      else Outcome.returned (degree, easy_segs)

/-- The source's `Conflict::remove_easy_segs(bound)`: the returned pair is `easy_segs`
and the classes, from which every easy segment has been erased. The loop is
allowed one iteration per segment and one more. -/
def remove_easy_segs (n_segments : Nat) (crossings : List (List Nat))
    (classes : List (List Nat)) (bound : Int) : Outcome (List Nat × List (List Nat)) :=
  (peel crossings bound (n_segments + 1) (initDegree n_segments crossings) []).bind fun r =>
    Outcome.returned (r.2, classes.map (fun cl => cl.filter (fun x => !r.2.contains x)))

/-- The loop of `add_easy_segs` over the easy segments still to insert (already in
the order of insertion): each goes at the back of the first class admitting
it, and `exit(EXIT_FAILURE)` is called when there is none. -/
def addBack (crossings : List (List Nat)) : List Nat → List (List Nat) →
    Outcome (List (List Nat))
  | [], classes => Outcome.returned classes
  | s :: rest, classes =>
    match firstAdmissible crossings classes s with
    | some c => addBack crossings rest (classes.set c (classes.getD c [] ++ [s]))
    | none => Outcome.exitFailure

/-- The source's `Conflict::add_easy_segs` on a geometric instance: nothing is done
when `param.easy` is false; the intersection map is generated when `crossings`
is empty; the easy segments are inserted from the last removed to the first.
The returned pair is `crossings` and the classes. -/
def add_easy_segs (easy : Bool) (segments : List Segment) (crossings : List (List Nat))
    (easy_segs : List Nat) (classes : List (List Nat)) :
    Outcome (List (List Nat) × List (List Nat)) :=
  if easy = false then Outcome.returned (crossings, classes)
  else
    let crossings1 := if crossings = [] then generate_intersection_map segments else crossings
    (addBack crossings1 easy_segs.reverse classes).bind fun cls =>
      Outcome.returned (crossings1, cls)

end Conflict

/-- The number of segments `j < n_segments`, not in `removed` and other than `i`,
with `crosses(i, j)`: the degree of `i` among the segments that remain. -/
def Conflict.crossDegree (n_segments : Nat) (crossings : List (List Nat)) (removed : List Nat)
    (i : Nat) : Nat :=
  (List.range n_segments).countP
    (fun j => decide (j ∉ removed) && decide (j ≠ i) && Conflict.crosses crossings i j)

/-- An order of insertion of easy segments: each segment, at its turn, crosses
fewer than `bound` of the segments that are neither itself nor inserted before
it (those after it in the list). -/
def Conflict.EasyOrder (n_segments : Nat) (crossings : List (List Nat)) (bound : Int) :
    List Nat → Prop
  | [] => True
  | s :: rest =>
    (Conflict.crossDegree n_segments crossings rest s : Int) < bound ∧
      Conflict.EasyOrder n_segments crossings bound rest

/-- No two distinct members of the class cross, in the crossing matrix. -/
def Conflict.CrossFree (crossings : List (List Nat)) (cl : List Nat) : Prop :=
  ∀ i ∈ cl, ∀ j ∈ cl, i ≠ j → Conflict.crosses crossings i j = false

/-- The invariant of the loop of `remove_easy_segs`: `degree` has an entry per
segment, the removed segments are distinct indices, their entry is `LONG_MAX`,
the entry of any other segment is its degree among the remaining segments, and
the removed segments taken from the last to the first form an `EasyOrder`. -/
structure Conflict.PeelInv (n_segments : Nat) (crossings : List (List Nat)) (bound : Int)
    (degree : List Int) (easy_segs : List Nat) : Prop where
  len : degree.length = n_segments
  nodup : easy_segs.Nodup
  lt : ∀ s ∈ easy_segs, s < n_segments
  removed : ∀ i, i < n_segments → i ∈ easy_segs → degree.getD i 0 = Conflict.LONG_MAX
  kept : ∀ i, i < n_segments → i ∉ easy_segs →
    degree.getD i 0 = (Conflict.crossDegree n_segments crossings easy_segs i : Int)
  order : Conflict.EasyOrder n_segments crossings bound easy_segs.reverse

/-! ## conflict.cpp: the conflict optimizer -/

/-- The fields of `Parameters` read by the conflict optimizer. A `double` is
modelled by an exact rational. -/
structure Parameters where
  power : ℚ
  max_queue : Int
  max_run_time : Int
  dfs : Bool
  easy : Bool
  loop : Bool
  loop_time : Int
  power_loop : List ℚ
  loop_index : Int

/-- The members of class `Conflict` (with those of `Instance` and `Solution` it
reads), and two counters of the embedding: the number of calls of
`elapsed_sec()` and the number of draws of `distribution(generator)` made so
far. -/
structure Conflict where
  param : Parameters
  segments : List Segment
  n_segments : Nat
  clique : List Nat
  classes : List (List Nat)
  easy_segs : List Nat
  crossings : List (List Nat)
  queue_count : List Int
  clockCalls : Nat
  noiseCalls : Nat

/-- What the run does not determine: `elapsed k` is the value returned by the
`k`-th call of `elapsed_sec()`, `sample k` the `k`-th draw of
`distribution(generator)`, `powf` the function `pow`, and `sortBySize` the
effect of `std::sort` by class size (the sort is not stable). -/
structure World where
  elapsed : Nat → ℚ
  sample : Nat → ℚ
  powf : ℚ → ℚ → ℚ
  sortBySize : List (List Nat) → List (List Nat)

namespace Conflict

/-- The value `std::numeric_limits<int>::max()`. -/
def INT_MAX : Int := 2 ^ 31 - 1

/-- The source's `Conflict::reset_queue_count`: `n_segments` zeros, then `INT_MAX` at
every clique segment; `queue_count.at(si)` throws when `si` is out of range. -/
def reset_queue_count (n_segments : Nat) (clique : List Nat) : Outcome (List Int) :=
  if clique.all (fun si => decide (si < n_segments)) then
    Outcome.returned (clique.foldl (fun qc si => qc.set si INT_MAX) (List.replicate n_segments 0))
  else Outcome.outOfBounds

/-- The draw of the noise in `best_color`, allowed `fuel` draws: the first draw that
is not below `0.001` is kept. The returned pair is the noise and the number of
draws made so far. -/
def drawNoise (w : World) : Nat → Nat → Outcome (ℚ × Nat)
  | 0, _ => Outcome.outOfFuel
  | fuel + 1, k =>
    if w.sample k < 1 / 1000 then drawNoise w fuel (k + 1)
    else Outcome.returned (w.sample k, k + 1)

/-- The inner loop of `best_color` over the remaining members of a class, with the
running `conflict_count` and `candidate_edges`; a `break` returns the pair as
it is. -/
def classCost (w : World) (st : Conflict) (seg : Nat) (min_conflict_noised : ℚ) :
    List Nat → ℚ → List Nat → ℚ × List Nat
  | [], conflict_count, candidate_edges => (conflict_count, candidate_edges)
  | si :: rest, conflict_count, candidate_edges =>
    if crosses st.crossings seg si then
      if st.queue_count.getD si 0 ≥ st.param.max_queue then
        (min_conflict_noised + 1, candidate_edges)
      else
        let conflict_count1 :=
          conflict_count + w.powf (st.queue_count.getD si 0 : ℚ) st.param.power + 1
        if conflict_count1 ≥ min_conflict_noised then (conflict_count1, candidate_edges)
        else classCost w st seg min_conflict_noised rest conflict_count1
          (candidate_edges ++ [si])
    else classCost w st seg min_conflict_noised rest conflict_count candidate_edges

/-- The outer loop of `best_color` over the classes `c` still to visit, with the
running `min_conflict`, `best_c`, `conflicting_segs` and number of draws. -/
def bestFrom (w : World) (st : Conflict) (seg : Nat) (fuel : Nat) :
    List Nat → ℚ × Nat × List Nat × Nat → Outcome (ℚ × Nat × List Nat × Nat)
  | [], acc => Outcome.returned acc
  | c :: rest, acc =>
    (drawNoise w fuel acc.2.2.2).bind fun d =>
      let noise := d.1
      let min_conflict_noised := acc.1 / noise
      let r := classCost w st seg min_conflict_noised (st.classes.getD c []) 0 []
      if r.1 * noise < acc.1 then bestFrom w st seg fuel rest (r.1 * noise, c, r.2, d.2)
      else bestFrom w st seg fuel rest (acc.1, acc.2.1, acc.2.2.1, d.2)

/-- The source's `Conflict::best_color`: the returned value, `best_c`,
`conflicting_segs`, and the state with the number of draws updated. `best_c` is
not initialised by the source; it is `0` here until it is assigned, and it has
been assigned whenever `true` is returned. -/
def best_color (w : World) (st : Conflict) (seg : Nat) (fuel : Nat) :
    Outcome ((Bool × Nat × List Nat) × Conflict) :=
  let limit : ℚ := ((st.param.max_queue * (st.n_segments : Int) : Int) : ℚ)
  (bestFrom w st seg fuel (List.range st.classes.length) (limit, 0, [], st.noiseCalls)).bind
    fun r =>
      Outcome.returned ((decide (r.1 < limit), r.2.1, r.2.2.1), { st with noiseCalls := r.2.2.2 })

/-- The test `elapsed_sec() > param.max_run_time`, which counts one call of
`elapsed_sec()`. -/
def timeIsUp (w : World) (st : Conflict) : Bool × Conflict :=
  (decide (w.elapsed st.clockCalls > (st.param.max_run_time : ℚ)),
    { st with clockCalls := st.clockCalls + 1 })

/-- The switch of parameters in the `while` loop of `conflict_dfs_optim_solution`:
when `param.loop` is set and `elapsed_sec() > loop_time * (loop_index + 1)`,
`loop_index` is incremented and `power` becomes
`power_loop.at(loop_index % 5)`. -/
def switchParam (w : World) (st : Conflict) : Conflict :=
  if st.param.loop then
    let t := w.elapsed st.clockCalls
    let st1 := { st with clockCalls := st.clockCalls + 1 }
    if t > ((st.param.loop_time * (st.param.loop_index + 1) : Int) : ℚ) then
      let idx := st1.param.loop_index + 1
      { st1 with param := { st1.param with
          loop_index := idx
          power := st1.param.power_loop.getD (idx % 5).toNat st1.param.power } }
    else st1
  else st

/-- The `while (!queue.empty() || !dfs_queue.empty())` loop of
`conflict_dfs_optim_solution`, allowed `fuel` iterations: the returned pair is
`successfull_removal` and the state. `exit(0)` is called when the time is up.
A segment of `dfs_queue` is tried by `dfsOptimize` with breadth 3 and depth 3,
5 or 7 according to the size of `queue`, and goes to `queue` when that fails;
a segment of `queue` goes to the class chosen by `best_color`, whose
conflicting segments go to `dfs_queue`; when `best_color` returns false the
classes are restored from `temp_sol`. -/
def queueLoop (w : World) (temp_sol : List (List Nat)) :
    Nat → Conflict → List Nat → List Nat → Outcome (Bool × Conflict)
  | 0, st, queue, dfs_queue =>
    if queue = [] ∧ dfs_queue = [] then Outcome.returned (true, st) else Outcome.outOfFuel
  | fuel + 1, st, queue, dfs_queue =>
    if queue = [] ∧ dfs_queue = [] then Outcome.returned (true, st)
    else
      let tu := timeIsUp w st
      if tu.1 then Outcome.exitSuccess
      else
        let st1 := switchParam w tu.2
        match dfs_queue with
        | cur_seg :: dfs_rest =>
          let depth : Int := if queue.length < 3 then (if queue.length = 1 then 5 else 7) else 3
          if st1.param.dfs then
            (dfsOptimize st1.crossings depth.toNat st1.classes [cur_seg] [] 3 depth []).bind
              fun r =>
                if r.1 = 0 then queueLoop w temp_sol fuel { st1 with classes := r.2.1 } queue dfs_rest
                else queueLoop w temp_sol fuel { st1 with classes := r.2.1 }
                  (queue ++ [cur_seg]) dfs_rest
          else queueLoop w temp_sol fuel st1 (queue ++ [cur_seg]) dfs_rest
        | [] =>
          match queue with
          | [] => Outcome.returned (true, st1)
          | cur_seg :: queue_rest =>
            (best_color w st1 cur_seg fuel).bind fun r =>
              if r.1.1 then
                let best_c := r.1.2.1
                let conflicting_segs := r.1.2.2
                let classes1 := remove_edges_from_color r.2.classes best_c conflicting_segs
                let classes2 := classes1.set best_c (classes1.getD best_c [] ++ [cur_seg])
                queueLoop w temp_sol fuel
                  { r.2 with
                    classes := classes2
                    queue_count := r.2.queue_count.set cur_seg (r.2.queue_count.getD cur_seg 0 + 1) }
                  queue_rest conflicting_segs
              else Outcome.returned (false, { r.2 with classes := temp_sol })

/-- The `for` loop of `conflict_dfs_optim_solution` from index `c`, allowed `fuel`
iterations of its own and `fuelQ` iterations of each inner `while` loop. After
`move_segments(c)` an empty class is erased (the index staying); otherwise the
classes are saved, the class is erased and its segments are queued. A
successful removal returns; an unsuccessful one returns when `one_shot` is set
or the time is up, and goes on with `c + 1` otherwise. `size - c` decreases at
each iteration, so `fuel = size` iterations are enough. -/
def dfsOptimFrom (w : World) (one_shot : Bool) (fuelQ : Nat) :
    Nat → Nat → Conflict → Outcome Conflict
  | 0, _, st => Outcome.returned st
  | fuel + 1, c, st =>
    if c < st.classes.length then
      let classes1 := move_segments st.crossings st.classes c
      if classes1.getD c [] = [] then
        dfsOptimFrom w one_shot fuelQ fuel c { st with classes := classes1.eraseIdx c }
      else
        (reset_queue_count st.n_segments st.clique).bind fun qc =>
          (queueLoop w classes1 fuelQ
              { st with classes := classes1.eraseIdx c, queue_count := qc }
              (classes1.getD c []) []).bind fun r =>
            if r.1 then Outcome.returned r.2
            else if one_shot then Outcome.returned r.2
            else
              let tu := timeIsUp w r.2
              if tu.1 then Outcome.returned tu.2
              else dfsOptimFrom w one_shot fuelQ fuel (c + 1) tu.2
    else Outcome.returned st

/-- The source's `Conflict::conflict_dfs_optim_solution(one_shot)`: the classes are
sorted by size, then the loop runs from `c = 0`. The return value is always
`0`; the state is returned. -/
def conflict_dfs_optim_solution (w : World) (fuelQ : Nat) (one_shot : Bool) (st : Conflict) :
    Outcome Conflict :=
  let sorted := w.sortBySize st.classes
  dfsOptimFrom w one_shot fuelQ sorted.length 0 { st with classes := sorted }

/-- The call `add_easy_segs()` on the state. -/
def addEasy (st : Conflict) : Outcome Conflict :=
  (add_easy_segs st.param.easy st.segments st.crossings st.easy_segs st.classes).bind fun r =>
    Outcome.returned { st with crossings := r.1, classes := r.2 }

/-- The `while (count < n)` loop of `shuffle`, allowed `fuel` iterations: the
returned pair is the return value and the state. A change of size restarts the
count, and returns `true` after `add_easy_segs()` when `param.easy` is set. -/
def shuffleLoop (w : World) (n : Int) : Nat → Int → Nat → Conflict → Outcome (Bool × Conflict)
  | 0, count, _, st => if count < n then Outcome.outOfFuel else Outcome.returned (false, st)
  | fuel + 1, count, size, st =>
    if count < n then
      let st1 := { st with classes := shuffle_once w.sortBySize st.crossings st.classes }
      let old_size := size
      let size1 := st1.classes.length
      if old_size ≠ size1 then
        if st1.param.easy then (addEasy st1).bind fun st2 => Outcome.returned (true, st2)
        else shuffleLoop w n fuel (-1 + 1) size1 st1
      else shuffleLoop w n fuel (count + 1) size1 st1
    else Outcome.returned (false, st)

/-- The source's `Conflict::shuffle(n)`. The size never increases and each change
restarts the count, so `(n + 1) * (size + 1)` iterations are enough for
`n ≥ 0`. -/
def shuffle (w : World) (n : Int) (st : Conflict) : Outcome (Bool × Conflict) :=
  shuffleLoop w n ((n.toNat + 1) * (st.classes.length + 1)) 0 st.classes.length st

/-- The `while (true)` loop of `optimize`, allowed `fuel` iterations: `shuffle()`
(its result is not read); then, when there is a class, one pass of the inner
`while` loop (`new_size` starts at `0`, and after the pass the sizes are
equal): `conflict_dfs_optim_solution(false)`, `true` after `add_easy_segs()`
when the size changed, `false` when the time is up. -/
def optimizeLoop (w : World) (fuelQ : Nat) : Nat → Conflict → Outcome (Bool × Conflict)
  | 0, _ => Outcome.outOfFuel
  | fuel + 1, st =>
    (shuffle w 11 st).bind fun s =>
      let old_size := s.2.classes.length
      if 0 ≠ old_size then
        (conflict_dfs_optim_solution w fuelQ false s.2).bind fun st1 =>
          let new_size := st1.classes.length
          if old_size ≠ new_size then
            (addEasy st1).bind fun st2 => Outcome.returned (true, st2)
          else
            let tu := timeIsUp w st1
            if tu.1 then Outcome.returned (false, tu.2)
            else optimizeLoop w fuelQ fuel tu.2
      else optimizeLoop w fuelQ fuel s.2

/-- The source's `Conflict::optimize`: with `param.easy` set the easy segments are
removed with the bound `classes.size() - 1`; then the loop runs. The returned
pair is the return value and the state. -/
def optimize (w : World) (fuel : Nat) (st : Conflict) : Outcome (Bool × Conflict) :=
  if st.param.easy then
    (remove_easy_segs st.n_segments st.crossings st.classes
        ((st.classes.length : Int) - 1)).bind fun r =>
      optimizeLoop w fuel fuel { st with easy_segs := r.1, classes := r.2 }
  else optimizeLoop w fuel fuel st

end Conflict

/-- An instance for the optimizer: the two parallel segments `(0,0)-(10,0)` and
`(0,5)-(10,5)`, each in a class of its own, with `max_queue = 5`,
`max_run_time = 10`, `param.easy` and `param.loop` unset and an empty clique. -/
def Conflict.twoParallel : Conflict :=
  { param :=
      { power := 6 / 5, max_queue := 5, max_run_time := 10, dfs := true, easy := false,
        loop := false, loop_time := 3600, power_loop := [11 / 10, 6 / 5, 13 / 10, 3 / 2, 2],
        loop_index := 0 }
    segments := [Segment.build ⟨0, 0⟩ ⟨10, 0⟩, Segment.build ⟨0, 5⟩ ⟨10, 5⟩]
    n_segments := 2
    clique := []
    classes := [[0], [1]]
    easy_segs := []
    crossings := Conflict.generate_intersection_map
      [Segment.build ⟨0, 0⟩ ⟨10, 0⟩, Segment.build ⟨0, 5⟩ ⟨10, 5⟩]
    queue_count := [0, 0]
    clockCalls := 0
    noiseCalls := 0 }

/-- A world for the optimizer: the clock shows `0` at its first two readings and
`100` afterwards, every draw of the noise is `1`, `pow` is modelled by its
first argument, and the sort by size is the insertion sort. -/
def Conflict.lateClock : World :=
  { elapsed := fun k => if k < 2 then 0 else 100
    sample := fun _ => 1
    powf := fun a _ => a
    sortBySize := fun l => stdSort (fun a b => decide (a.length < b.length)) l }

/-- A second instance for the optimizer: six segments along the sides of a
hexagon, each prolonged a little beyond its two ends, so that segment `i`
crosses segments `i - 1` and `i + 1` (modulo 6) and no other; the classes
`[[0, 3], [1, 4], [2, 5]]` are a valid colouring with three colours. -/
def Conflict.hexagon : Conflict :=
  { param :=
      { power := 6 / 5, max_queue := 5, max_run_time := 10, dfs := true, easy := false,
        loop := false, loop_time := 3600, power_loop := [11 / 10, 6 / 5, 13 / 10, 3 / 2, 2],
        loop_index := 0 }
    segments :=
      [Segment.build ⟨21, -2⟩ ⟨9, 22⟩, Segment.build ⟨12, 20⟩ ⟨-12, 20⟩,
        Segment.build ⟨-9, 22⟩ ⟨-21, -2⟩, Segment.build ⟨-21, 2⟩ ⟨-9, -22⟩,
        Segment.build ⟨-12, -20⟩ ⟨12, -20⟩, Segment.build ⟨9, -22⟩ ⟨21, 2⟩]
    n_segments := 6
    clique := []
    classes := [[0, 3], [1, 4], [2, 5]]
    easy_segs := []
    crossings := Conflict.generate_intersection_map
      [Segment.build ⟨21, -2⟩ ⟨9, 22⟩, Segment.build ⟨12, 20⟩ ⟨-12, 20⟩,
        Segment.build ⟨-9, 22⟩ ⟨-21, -2⟩, Segment.build ⟨-21, 2⟩ ⟨-9, -22⟩,
        Segment.build ⟨-12, -20⟩ ⟨12, -20⟩, Segment.build ⟨9, -22⟩ ⟨21, 2⟩]
    queue_count := [0, 0, 0, 0, 0, 0]
    clockCalls := 0
    noiseCalls := 0 }

/-- A world in which the clock always shows `0`; the rest is as in `lateClock`. -/
def Conflict.stillClock : World :=
  { elapsed := fun _ => 0
    sample := fun _ => 1
    powf := fun a _ => a
    sortBySize := fun l => stdSort (fun a b => decide (a.length < b.length)) l }

/-- A third instance for the optimizer, with `param.easy` set and `power = 1`:
the six sides of a hexagon, each prolonged beyond its two ends (segments
`0..5`), the six sides of a smaller hexagon inside it, prolonged likewise
(segments `6..11`), and a segment far away that crosses nothing (segment
`12`). Side `i` of either hexagon crosses the sides `i - 1` and `i + 1`
(modulo 6) of both hexagons and nothing else. The classes are a valid
colouring with four colours, the last class holding segment `12` alone. -/
def Conflict.doubleHexagon : Conflict :=
  { param :=
      { power := 1, max_queue := 5, max_run_time := 10, dfs := true, easy := true,
        loop := false, loop_time := 3600, power_loop := [11 / 10, 6 / 5, 13 / 10, 3 / 2, 2],
        loop_index := 0 }
    segments :=
      [Segment.build ⟨230, -60⟩ ⟨70, 260⟩, Segment.build ⟨130, 200⟩ ⟨-130, 200⟩,
        Segment.build ⟨-70, 260⟩ ⟨-230, -60⟩, Segment.build ⟨-230, 60⟩ ⟨-70, -260⟩,
        Segment.build ⟨-130, -200⟩ ⟨130, -200⟩, Segment.build ⟨70, -260⟩ ⟨230, 60⟩,
        Segment.build ⟨207, -54⟩ ⟨63, 234⟩, Segment.build ⟨130, 180⟩ ⟨-130, 180⟩,
        Segment.build ⟨-63, 234⟩ ⟨-207, -54⟩, Segment.build ⟨-207, 54⟩ ⟨-63, -234⟩,
        Segment.build ⟨-130, -180⟩ ⟨130, -180⟩, Segment.build ⟨63, -234⟩ ⟨207, 54⟩,
        Segment.build ⟨1000, 1000⟩ ⟨1010, 1000⟩]
    n_segments := 13
    clique := []
    classes := [[0, 3, 6, 9], [1, 4, 7, 10], [2, 5, 8, 11], [12]]
    easy_segs := []
    crossings := Conflict.generate_intersection_map
      [Segment.build ⟨230, -60⟩ ⟨70, 260⟩, Segment.build ⟨130, 200⟩ ⟨-130, 200⟩,
        Segment.build ⟨-70, 260⟩ ⟨-230, -60⟩, Segment.build ⟨-230, 60⟩ ⟨-70, -260⟩,
        Segment.build ⟨-130, -200⟩ ⟨130, -200⟩, Segment.build ⟨70, -260⟩ ⟨230, 60⟩,
        Segment.build ⟨207, -54⟩ ⟨63, 234⟩, Segment.build ⟨130, 180⟩ ⟨-130, 180⟩,
        Segment.build ⟨-63, 234⟩ ⟨-207, -54⟩, Segment.build ⟨-207, 54⟩ ⟨-63, -234⟩,
        Segment.build ⟨-130, -180⟩ ⟨130, -180⟩, Segment.build ⟨63, -234⟩ ⟨207, 54⟩,
        Segment.build ⟨1000, 1000⟩ ⟨1010, 1000⟩]
    queue_count := List.replicate 13 0
    clockCalls := 0
    noiseCalls := 0 }

/-- A fourth instance for the optimizer, with `param.easy` unset: the two crossing
segments `(0,0)-(10,10)` and `(0,10)-(10,0)` and the segment
`(100,100)-(110,100)`, which crosses nothing, with the valid colouring
`[[0], [1, 2]]`. -/
def Conflict.looseSegment : Conflict :=
  { param :=
      { power := 1, max_queue := 5, max_run_time := 10, dfs := true, easy := false,
        loop := false, loop_time := 3600, power_loop := [11 / 10, 6 / 5, 13 / 10, 3 / 2, 2],
        loop_index := 0 }
    segments :=
      [Segment.build ⟨0, 0⟩ ⟨10, 10⟩, Segment.build ⟨0, 10⟩ ⟨10, 0⟩,
        Segment.build ⟨100, 100⟩ ⟨110, 100⟩]
    n_segments := 3
    clique := []
    classes := [[0], [1, 2]]
    easy_segs := []
    crossings := Conflict.generate_intersection_map
      [Segment.build ⟨0, 0⟩ ⟨10, 10⟩, Segment.build ⟨0, 10⟩ ⟨10, 0⟩,
        Segment.build ⟨100, 100⟩ ⟨110, 100⟩]
    queue_count := [0, 0, 0]
    clockCalls := 0
    noiseCalls := 0 }

/-- A colouring is a fixed point of `shuffle_once` when `move_segments` finds no
segment to move: for any two classes, every member of one crosses a member of
the other (so that `edge_can_be_added_to_graph` fails for it). -/
def Conflict.FixedPoint (crossings : List (List Nat)) (classes : List (List Nat)) : Prop :=
  classes.Pairwise (fun a b =>
    (∀ si ∈ a, ∃ sj ∈ b, Conflict.crosses crossings si sj = true) ∧
      (∀ si ∈ b, ∃ sj ∈ a, Conflict.crosses crossings si sj = true))

/-- The source's `Solution::process_parameters`, as far as `param.max_queue` goes:
a value below `1` is replaced by `(75000.0 / card) ^ 2 * 2000` converted to
`long`, `card` being the number of segments. The `double` values are modelled
by exact rationals; with no segment the quotient is infinite and its
conversion to `long` is undefined. -/
def Solution.process_parameters (max_queue : Int) (card : Nat) : Outcome Int :=
  if max_queue < 1 then
    if card = 0 then Outcome.outOfBounds
    else
      let nb_repetition : ℚ := 75000 / (card : ℚ)
      let nb_repetition1 := nb_repetition * nb_repetition
      let nb_repetition2 := nb_repetition1 * 2000
      Outcome.returned (Rat.floor nb_repetition2)
  else Outcome.returned max_queue

/-- A fifth instance for the optimizer: the two crossing segments `(0,0)-(10,10)`
and `(0,10)-(10,0)`, the clique `[0]`, `power = 1`, `max_queue` left to its
automatic value `(75000 / 2) ^ 2 * 2000 = 2812500000000`, in the state in
which `conflict_dfs_optim_solution` calls `best_color(1)` right after
`reset_queue_count()`: the class of segment `1` has been erased and segment
`0` is alone in its class. -/
def Conflict.cliquePair : Conflict :=
  { param :=
      { power := 1, max_queue := 2812500000000, max_run_time := 3600, dfs := true,
        easy := true, loop := false, loop_time := 3600,
        power_loop := [11 / 10, 6 / 5, 13 / 10, 3 / 2, 2], loop_index := 0 }
    segments := [Segment.build ⟨0, 0⟩ ⟨10, 10⟩, Segment.build ⟨0, 10⟩ ⟨10, 0⟩]
    n_segments := 2
    clique := [0]
    classes := [[0]]
    easy_segs := []
    crossings := Conflict.generate_intersection_map
      [Segment.build ⟨0, 0⟩ ⟨10, 10⟩, Segment.build ⟨0, 10⟩ ⟨10, 0⟩]
    queue_count := [2147483647, 0]
    clockCalls := 1
    noiseCalls := 0 }

/-- The value of `depth` handed to `dfsOptimize` in the `while` loop of
`conflict_dfs_optim_solution`, `q` being `queue.size()`:
`int depth = 3; if (queue.size() < 3) depth = (queue.size() == 1) ? 5 : 7;`. -/
def Conflict.dfs_depth (q : Nat) : Int :=
  if q < 3 then (if q = 1 then 5 else 7) else 3

/-- The `while` loop of `Greedy::greedy`, allowed `fuel` iterations, with a ghost list:
the returned triple is what is left of `uncolored`, the classes, and the values
taken by `vi` so far, in the order in which the loop handled them. -/
def Greedy.greedyLoop (segments : List Segment) :
    Nat → List Nat → List (List Nat) → List Nat → List Nat × List (List Nat) × List Nat
  | 0, uncolored, classes, order => (uncolored, classes, order)
  | fuel + 1, uncolored, classes, order =>
    match uncolored.getLast? with
    | none => (uncolored, classes, order)
    | some vi =>
      Greedy.greedyLoop segments fuel uncolored.dropLast (Greedy.place segments vi classes)
        (order ++ [vi])

namespace DSatur

/-- The first `n` iterations of the `while` loop of `color` (fewer when `uncolored`
becomes empty before): the returned state is the one at the start of the next
iteration; `rnd k` is the value returned by the `k`-th call of `rand()`. -/
def colorPrefix (segments : List Segment)
    (colorChoice : DSatur → Nat → Outcome (Nat × DSatur)) (rnd : Nat → Nat) :
    Nat → Nat → DSatur → Outcome DSatur
  | 0, _, st => Outcome.returned st
  | n + 1, k, st =>
    if st.uncolored = [] then Outcome.returned st
    else
      (colorStep segments colorChoice (rnd k) st).bind fun st1 =>
        colorPrefix segments colorChoice rnd n (k + 1) st1

/-- The state of `DSatur::color()` at the start of iteration `k` of its loop (counted
from `0`), `colorChoice` being `first_available`. -/
def stateAt (segments : List Segment) (rnd : Nat → Nat) (k : Nat) : Outcome DSatur :=
  colorPrefix segments (fun st vi => Outcome.returned (first_available st vi, st)) rnd k 0
    (start segments)

/-- The distinct colours of the coloured segments that cross the uncoloured segment
`u`, in the state `st`. -/
def neighborColorList (segments : List Segment) (st : DSatur) (u : Nat) : List Int :=
  (((List.range segments.length).filter
    (fun v => !st.uncolored.contains v && (segAt segments u).cross (segAt segments v))).map
      (fun v => st.colorv.getD v (-1))).dedup

/-- The bookkeeping of `dsat` kept by the loop of `color`: `dsat` has an entry per
segment, and the entry of an uncoloured segment is the number of marks in its
row of `neighbor_colors`. -/
def DsatCount (segments : List Segment) (st : DSatur) : Prop :=
  st.dsat.length = segments.length ∧
    ∀ u ∈ st.uncolored, st.dsat.getD u 0 = ((st.neighbor_colors.getD u []).count true : Int)

end DSatur

namespace Spec

/-- The cost of a list of members for the segment `seg`, in the words of the
specification: the sum over the members `t` crossing `seg` of
`queue_count[t] ^ power + 1`. -/
def membersCost (w : World) (st : Conflict) (seg : Nat) (members : List Nat) : ℚ :=
  ((members.filter (fun t => Conflict.crosses st.crossings seg t)).map
    (fun t => w.powf (st.queue_count.getD t 0 : ℚ) st.param.power + 1)).sum

/-- Some member crossing `seg` has `queue_count[t] ≥ max_queue`. -/
def membersBlocked (st : Conflict) (seg : Nat) (members : List Nat) : Bool :=
  members.any (fun t => Conflict.crosses st.crossings seg t &&
    decide (st.queue_count.getD t 0 ≥ st.param.max_queue))

/-- The cost `cost(c, seg)` of class `c`. -/
def cost (w : World) (st : Conflict) (seg c : Nat) : ℚ :=
  membersCost w st seg (st.classes.getD c [])

/-- Class `c` exists, has no crossing member `t` with `queue_count[t] ≥ max_queue`,
and its cost is strictly below `max_queue * N`. -/
def eligible (w : World) (st : Conflict) (seg c : Nat) : Prop :=
  c < st.classes.length ∧ membersBlocked st seg (st.classes.getD c []) = false ∧
    cost w st seg c < ((st.param.max_queue * (st.n_segments : Int) : Int) : ℚ)

end Spec

/-- A fourth instance for the optimizer: the three pairwise crossing segments
`(0,0)-(10,10)`, `(0,10)-(10,0)` and `(0,4)-(10,4)`, each in a class of its own,
with `max_queue = 2` and an empty clique. -/
def Conflict.threeCrossing : Conflict :=
  { param :=
      { power := 6 / 5, max_queue := 2, max_run_time := 10, dfs := true, easy := false,
        loop := false, loop_time := 3600, power_loop := [11 / 10, 6 / 5, 13 / 10, 3 / 2, 2],
        loop_index := 0 }
    segments :=
      [Segment.build ⟨0, 0⟩ ⟨10, 10⟩, Segment.build ⟨0, 10⟩ ⟨10, 0⟩, Segment.build ⟨0, 4⟩ ⟨10, 4⟩]
    n_segments := 3
    clique := []
    classes := [[0], [1], [2]]
    easy_segs := []
    crossings := Conflict.generate_intersection_map
      [Segment.build ⟨0, 0⟩ ⟨10, 10⟩, Segment.build ⟨0, 10⟩ ⟨10, 0⟩, Segment.build ⟨0, 4⟩ ⟨10, 4⟩]
    queue_count := [0, 0, 0]
    clockCalls := 0
    noiseCalls := 0 }

/-- The order of removal of the easy segments: the `k`-th removed segment `E[k]`,
among the segments not removed before it (those outside `E[0..k-1]`), crosses
fewer than `bound` segments and has the minimum degree. -/
def Conflict.RemovalOrder (n_segments : Nat) (crossings : List (List Nat)) (bound : Int)
    (E : List Nat) : Prop :=
  ∀ k, k < E.length →
    (Conflict.crossDegree n_segments crossings (E.take k) (E.getD k 0) : Int) < bound ∧
    ∀ i, i < n_segments → i ∉ E.take k →
      Conflict.crossDegree n_segments crossings (E.take k) (E.getD k 0)
        ≤ Conflict.crossDegree n_segments crossings (E.take k) i

namespace Spec

/-- The shoelace sum of the specification: the sum, over the cyclically
consecutive points `p_i`, `p_{i+1}` of the list (the last one is followed by the
first), of `x_i * y_{i+1} - x_{i+1} * y_i`, in exact integers. -/
def shoelace (poly : List Point) : Int :=
  (List.zipWith (fun a b => a.x * b.y - b.x * a.y) poly (poly.rotate 1)).sum

/-- The translation of a point by `(dx, dy)`. -/
def translate (dx dy : Int) (p : Point) : Point := ⟨p.x + dx, p.y + dy⟩

end Spec

namespace Spec

/-- The crossing degree of segment `i` in the instance: the number of segments
`j` with `segments[i].cross(segments[j])`. -/
def degree (segments : List Segment) (i : Nat) : Nat :=
  (List.range segments.length).countP (fun j => (segAt segments i).cross (segAt segments j))

/-- The maximum crossing degree of the instance (`0` with no segment). -/
def maxDegree (segments : List Segment) : Nat :=
  ((List.range segments.length).map (degree segments)).foldr max 0

end Spec

/-- Every member of a class crosses some member of each class of lower index. -/
def Greedy.Blocked (segments : List Segment) (classes : List (List Nat)) : Prop :=
  ∀ c x, x ∈ classes.getD c [] → ∀ c2, c2 < c →
    ∃ y ∈ classes.getD c2 [], (segAt segments x).cross (segAt segments y) = true

namespace DSatHull

/-- The exact sum of the terms the loop of `polyArea2` adds after the first one:
`(prev.x + cur.x) * (prev.y - cur.y)` over the consecutive points. -/
def pairSum : Point → List Point → Int
  | _, [] => 0
  | a, b :: r => (a.x + b.x) * (a.y - b.y) + pairSum b r

/-- The last point of the list `a :: suf`, as `polyArea2` reads it. -/
def lastOf (a : Point) (suf : List Point) : Point := (a :: suf).getD suf.length ⟨0, 0⟩

end DSatHull

/-- A sixth instance for the optimizer: the crossing segments `(0,0)-(10,10)` and
`(0,10)-(10,0)` and the segment `(20,0)-(30,0)`, which crosses neither, in a
state where the two crossing segments share the only class (as after reading a
solution file that gives them the same colour) and segment `2` is to be
placed. -/
def Conflict.crossingClass : Conflict :=
  { param :=
      { power := 6 / 5, max_queue := 5, max_run_time := 10, dfs := true, easy := false,
        loop := false, loop_time := 3600, power_loop := [11 / 10, 6 / 5, 13 / 10, 3 / 2, 2],
        loop_index := 0 }
    segments :=
      [Segment.build ⟨0, 0⟩ ⟨10, 10⟩, Segment.build ⟨0, 10⟩ ⟨10, 0⟩, Segment.build ⟨20, 0⟩ ⟨30, 0⟩]
    n_segments := 3
    clique := []
    classes := [[0, 1]]
    easy_segs := []
    crossings := Conflict.generate_intersection_map
      [Segment.build ⟨0, 0⟩ ⟨10, 10⟩, Segment.build ⟨0, 10⟩ ⟨10, 0⟩, Segment.build ⟨20, 0⟩ ⟨30, 0⟩]
    queue_count := [0, 0, 0]
    clockCalls := 1
    noiseCalls := 0 }

/-- What the proofs about a successful `dfsOptimize` assume of the recursive call
`dfs`, and establish for `dfsOptimize` itself, for a call with an empty list
`changes` from classes and `todo` without repeated segment that does not return
`-1`: crossing-free classes stay crossing-free, and a forbidden segment stays
in its class. -/
def Conflict.DfsKeep (crossings : List (List Nat))
    (dfs : List (List Nat) → List Nat → List Nat → Int → Int → List Conflict.stack_event_t →
      Outcome (Int × List (List Nat) × List Conflict.stack_event_t)) : Prop :=
  ∀ cls todo forbidden breadth depth r, (cls.flatten ++ todo).Nodup →
    dfs cls todo forbidden breadth depth [] = Outcome.returned r → r.1 ≠ -1 →
    ((∀ cl ∈ cls, Conflict.CrossFree crossings cl) →
      ∀ cl ∈ r.2.1, Conflict.CrossFree crossings cl) ∧
    (∀ f ∈ forbidden, ∀ c, f ∈ cls.getD c [] → f ∈ r.2.1.getD c [])

/-! ## DIMACS instances: instance.hpp, solution.hpp, conflict.cpp -/

/-- The source's `Solution::clear`: `colorv` is emptied and receives one `-1` per
element of `segments`. For a DIMACS instance the constructor of `Instance`
leaves `segments` empty (it only sets `n_segments = doc["edges"].GetInt()`),
so `colorv` is left empty. -/
def Solution.clear (segments : List Segment) : List Int :=
  List.replicate segments.length (-1)

namespace Conflict

/-- Body of the loop of `generate_intersection_map` on a DIMACS instance for the pair
`x`: `i = x[0] - 1`, `j = x[1] - 1`, and the two bits are set; the rows are
indexed without check. -/
def markDimacs (m : Nat) (crossings : List (List Nat)) (x : Int × Int) :
    Outcome (List (List Nat)) :=
  let i := x.1 - 1
  let j := x.2 - 1
  if 0 ≤ i ∧ i < (m : Int) ∧ 0 ≤ j ∧ j < (m : Int) then
    Outcome.returned
      (orBit (orBit crossings i.toNat (j.toNat / 32) (j.toNat % 32)) j.toNat (i.toNat / 32)
        (i.toNat % 32))
  else Outcome.outOfBounds

/-- The source's `Conflict::generate_intersection_map` on a DIMACS instance (the
branch `dimacs`): `m = doc["edges"]` rows of `size` zero words, then the loop
over `doc["pairs"]`. -/
def generate_intersection_map_dimacs (m : Nat) (pairs : List (Int × Int)) :
    Outcome (List (List Nat)) :=
  pairs.foldl (fun acc x => acc.bind fun cr => markDimacs m cr x)
    (Outcome.returned (List.replicate m (List.replicate (rowSize m) 0)))

/-- The source's `Conflict::build_colorv`: `colorv[vi] = c` for every class `c` in
increasing order and every member `vi` of it; the vector is indexed without
check, so an index that is not below `colorv.size()` is out of bounds. -/
def build_colorv (classes : List (List Nat)) (colorv : List Int) : Outcome (List Int) :=
  (List.range classes.length).foldl
    (fun acc c => (classes.getD c []).foldl
      (fun acc vi => acc.bind fun cv =>
        if vi < cv.length then Outcome.returned (cv.set vi (c : Int)) else Outcome.outOfBounds)
      acc)
    (Outcome.returned colorv)

/-- The `while (elapsed_sec() < param.max_run_time)` loop of `Conflict::color`, allowed
`fuel` iterations, each call of `optimize()` being allowed `fuelO`: when
`optimize()` returns true, `build_colorv()` runs and `write_sol` calls
`numColors()`. The returned pair is the state and `colorv`. -/
def colorLoop (w : World) (fuelO : Nat) : Nat → Conflict → List Int →
    Outcome (Conflict × List Int)
  | 0, _, _ => Outcome.outOfFuel
  | fuel + 1, st, colorv =>
    let t := w.elapsed st.clockCalls
    let st1 := { st with clockCalls := st.clockCalls + 1 }
    if t < (st1.param.max_run_time : ℚ) then
      (optimize w fuelO st1).bind fun r =>
        if r.1 then
          (build_colorv r.2.classes colorv).bind fun cv =>
            (Solution.numColors cv).bind fun _ => colorLoop w fuelO fuel r.2 cv
        else colorLoop w fuelO fuel r.2 colorv
    else Outcome.returned (st1, colorv)

/-- The source's `Conflict::color` when `param.solution_name` is empty:
`init_solution()`, the return when the clique has as many segments as there are
classes, then the loop. -/
def color (w : World) (fuelO fuel : Nat) (st : Conflict) (colorv : List Int) :
    Outcome (Conflict × List Int) :=
  let st0 := { st with classes := init_solution st.n_segments st.crossings st.classes }
  if st0.clique ≠ [] ∧ st0.clique.length = st0.classes.length then Outcome.returned (st0, colorv)
  else colorLoop w fuelO fuel st0 colorv

/-- The state of `Conflict` after its constructor on a DIMACS instance with
`edges` vertices and the given `pairs`, no solution file and no info file:
`segments` is empty, `n_segments = edges`, `queue_count` has `n_segments`
zeros, the classes are empty and the matrix is the one read from the pairs. -/
def ofDimacs (param : Parameters) (edges : Nat) (pairs : List (Int × Int)) :
    Outcome Conflict :=
  (generate_intersection_map_dimacs edges pairs).bind fun cr =>
    Outcome.returned
      { param := param
        segments := []
        n_segments := edges
        clique := []
        classes := []
        easy_segs := []
        crossings := cr
        queue_count := List.replicate edges 0
        clockCalls := 0
        noiseCalls := 0 }

/-- A DIMACS instance: the cycle `1 - 3 - 5 - 2 - 4 - 6 - 1` on six vertices, with
`max_queue = 5`, `max_run_time = 10`, `param.easy` and `param.loop` unset. -/
def dimacsCycle : Outcome Conflict :=
  ofDimacs
    { power := 6 / 5, max_queue := 5, max_run_time := 10, dfs := true, easy := false,
      loop := false, loop_time := 3600, power_loop := [11 / 10, 6 / 5, 13 / 10, 3 / 2, 2],
      loop_index := 0 }
    6 [(1, 3), (3, 5), (5, 2), (2, 4), (4, 6), (6, 1)]

/-- The state that the constructor of `Conflict` builds on `dimacsCycle`. -/
def dimacsCycleState : Conflict :=
  { param :=
      { power := 6 / 5, max_queue := 5, max_run_time := 10, dfs := true, easy := false,
        loop := false, loop_time := 3600, power_loop := [11 / 10, 6 / 5, 13 / 10, 3 / 2, 2],
        loop_index := 0 }
    segments := []
    n_segments := 6
    clique := []
    classes := []
    easy_segs := []
    crossings := [[36], [24], [17], [34], [6], [9]]
    queue_count := [0, 0, 0, 0, 0, 0]
    clockCalls := 0
    noiseCalls := 0 }

end Conflict

namespace DSatHull

/-- Twice the area of the part of the box `[0, X] × [-Y, Z]` between the half-line
from the origin towards `(0, -1)` and the half-line towards `(u, v)`, turning
counter-clockwise: the second half-line leaves the box through the bottom
side, the right side or the top side. -/
def sweep (X Y Z u v : ℚ) : ℚ :=
  if v < 0 ∧ u * Y ≤ X * (-v) then Y * Y * u / (-v)
  else if 0 < u ∧ v * X ≤ Z * u then 2 * X * Y + X * X * v / u
  else 2 * X * Y + 2 * X * Z - Z * Z * u / v

/-- The exact sum of `orientVal` over the consecutive points of a chain seen from
`p0`: twice the area of the fan of triangles `p0`, `a`, `b`. -/
def fan (p0 : Point) : List Point → Int
  | a :: b :: r => orientVal ⟨p0, a⟩ b + fan p0 (b :: r)
  | _ => 0

end DSatHull

namespace DSatHull

/-- The value of `sweep` for the direction from `p0` to `c`, in the box of the points
`0 ≤ x ≤ p0.x`, `0 ≤ y ≤ 2^31 - 1` seen from `p0` with the `x` axis reversed. -/
def sweepAt (p0 c : Point) : ℚ :=
  sweep p0.x p0.y (2 ^ 31 - 1 - p0.y) (p0.x - c.x) (c.y - p0.y)

end DSatHull

namespace DSatHull

/-- The state of a hull of `colorhulls` on inputs in range: a nonempty list of
distinct points with `0 ≤ x, y < 2^31` whose `polyArea2` lies between `0` and
`2 (2^31 - 1)^2`, twice the area of the square of the points in range. -/
def GoodHull (h : List Point) : Prop :=
  h ≠ [] ∧ h.Nodup ∧ (∀ p ∈ h, p.isNat31) ∧ 0 ≤ polyArea2 h ∧
    polyArea2 h ≤ 2 * (2 ^ 31 - 1) ^ 2

end DSatHull

namespace DSatHull

/-- Two segments in range that do not cross, the first one reduced to the point
`(10,0)`: `(10,0)-(10,0)` and `(8,7)-(9,5)`. -/
def degFirst : List Segment :=
  [Segment.build ⟨10, 0⟩ ⟨10, 0⟩, Segment.build ⟨9, 5⟩ ⟨8, 7⟩]

end DSatHull

/-! ## Auxiliary lemmas -/

/-! ### The bounding-box test and the symmetry of `cross` -/

theorem Point.inside_left (p q : Point) : p.inside p q = true := by
  simp [Point.inside]

theorem Point.inside_right (p q : Point) : q.inside p q = true := by
  simp [Point.inside]

theorem Point.inside_swap (r p q : Point) : r.inside q p = r.inside p q := by
  simp [Point.inside, min_comm, max_comm]

/-- Every branch of `cross` is unchanged when receiver and argument are exchanged. -/
theorem Segment.cross_comm (t s : Segment) : t.cross s = s.cross t := by
  unfold Segment.cross
  generalize t.orientation s.p = o1
  generalize t.orientation s.q = o2
  generalize s.orientation t.p = o3
  generalize s.orientation t.q = o4
  obtain ⟨p, q⟩ := t
  obtain ⟨a, b⟩ := s
  simp only [Segment.mk.injEq]
  by_cases h1 : o1 ≠ 0 ∧ o2 ≠ 0 ∧ o3 ≠ 0 ∧ o4 ≠ 0
  · have h1' : o3 ≠ 0 ∧ o4 ≠ 0 ∧ o1 ≠ 0 ∧ o2 ≠ 0 := ⟨h1.2.2.1, h1.2.2.2, h1.1, h1.2.1⟩
    rw [if_pos h1, if_pos h1', Bool.and_comm]
  · have h1' : ¬ (o3 ≠ 0 ∧ o4 ≠ 0 ∧ o1 ≠ 0 ∧ o2 ≠ 0) := fun h => h1 ⟨h.2.2.1, h.2.2.2, h.1, h.2.1⟩
    rw [if_neg h1, if_neg h1']
    by_cases hap : a = p <;> by_cases hbq : b = q <;> by_cases haq : a = q <;> by_cases hbp : b = p <;>
      by_cases hz : o1 ≠ 0 ∨ o2 ≠ 0 ∨ o3 ≠ 0 ∨ o4 ≠ 0 <;>
      simp_all [Point.inside_left, Point.inside_right, Bool.or_comm, Bool.or_left_comm, Bool.or_assoc, eq_comm, or_comm, or_left_comm]

/-! ### 64-bit arithmetic: `orientation` is the sign of the wrapped exact value -/

theorem wrap64_emod (n : Int) : wrap64 n % 2 ^ 64 = n % 2 ^ 64 := by
  unfold wrap64; omega

theorem wrap64_congr {a b : Int} (h : a % 2 ^ 64 = b % 2 ^ 64) : wrap64 a = wrap64 b := by
  unfold wrap64; omega

theorem wrap64_modEq (n : Int) : wrap64 n ≡ n [ZMOD 2 ^ 64] := wrap64_emod n

theorem wrap64_of_range {n : Int} (h1 : -2 ^ 63 ≤ n) (h2 : n < 2 ^ 63) : wrap64 n = n := by
  unfold wrap64; omega

theorem wrap64_eq_zero_iff (n : Int) : wrap64 n = 0 ↔ n % 2 ^ 64 = 0 := by
  unfold wrap64; omega

/-- Wrapping after every operation gives the same as wrapping the exact value once. -/
theorem wrap64_val (s : Segment) (r : Point) :
    wrap64 (wrap64 (wrap64 (s.q.y - s.p.y) * wrap64 (r.x - s.q.x))
      - wrap64 (wrap64 (s.q.x - s.p.x) * wrap64 (r.y - s.q.y))) = wrap64 (orientVal s r) := by
  apply wrap64_congr
  have h1 := wrap64_modEq (s.q.y - s.p.y)
  have h2 := wrap64_modEq (r.x - s.q.x)
  have h3 := wrap64_modEq (s.q.x - s.p.x)
  have h4 := wrap64_modEq (r.y - s.q.y)
  have h5 := (wrap64_modEq (wrap64 (s.q.y - s.p.y) * wrap64 (r.x - s.q.x))).trans (h1.mul h2)
  have h6 := (wrap64_modEq (wrap64 (s.q.x - s.p.x) * wrap64 (r.y - s.q.y))).trans (h3.mul h4)
  exact h5.sub h6

theorem Segment.orientation_eq (s : Segment) (r : Point) :
    s.orientation r = (if wrap64 (orientVal s r) > 0 then 1 else 0)
      - (if wrap64 (orientVal s r) < 0 then 1 else 0) := by
  simp only [Segment.orientation, wrap64_val]

/-- The computed orientation is zero exactly when `2^64` divides the exact value. -/
theorem Segment.orientation_eq_zero_iff (s : Segment) (r : Point) :
    s.orientation r = 0 ↔ orientVal s r % 2 ^ 64 = 0 := by
  rw [Segment.orientation_eq, ← wrap64_eq_zero_iff]
  split_ifs <;> omega

theorem Segment.orientation_q (s : Segment) : s.orientation s.q = 0 := by
  rw [Segment.orientation_eq_zero_iff]; simp [orientVal]

theorem Segment.orientation_p (s : Segment) : s.orientation s.p = 0 := by
  rw [Segment.orientation_eq_zero_iff]
  have : orientVal s s.p = 0 := by simp only [orientVal]; ring
  simp [this]

/-- A segment does not cross itself: the branch `*this == s`. -/
theorem Segment.cross_self (s : Segment) : s.cross s = false := by
  simp [Segment.cross, Segment.orientation_q, Segment.orientation_p]

/-! ### The constructor -/

theorem Point.eq_of_not_lt {a b : Point} (h1 : Point.lt a b = false) (h2 : Point.lt b a = false) :
    a = b := by
  obtain ⟨ax, ay⟩ := a
  obtain ⟨bx, b_y⟩ := b
  simp only [Point.lt, Bool.or_eq_false_iff, Bool.and_eq_false_iff, decide_eq_false_iff_not] at h1 h2
  have hx : ax = bx := by omega
  have hy : ay = b_y := by omega
  rw [hx, hy]

theorem Point.lt_asymm {a b : Point} (h1 : Point.lt a b = true) : Point.lt b a = false := by
  simp only [Point.lt, Bool.or_eq_true, Bool.and_eq_true, decide_eq_true_eq] at h1
  simp only [Point.lt, Bool.or_eq_false_iff, Bool.and_eq_false_iff, decide_eq_false_iff_not]
  omega

theorem Segment.build_swap (a b : Point) : Segment.build a b = Segment.build b a := by
  unfold Segment.build
  cases h1 : Point.lt a b
  · cases h2 : Point.lt b a
    · have := Point.eq_of_not_lt h1 h2
      simp [this]
    · simp
  · simp [Point.lt_asymm h1]

/-! ### On `int` coordinates the zero test of `orientation` is exact

The exact value is twice the signed area of a triangle with vertices in a
square of side `2^32 - 1`, so its absolute value is below `2^64`. -/

theorem area_le_aux (a b c d M : Int) (hb : 0 ≤ b) (hc : 0 ≤ c) (ha : 0 ≤ a) (_hd : d ≤ 0)
    (bM : b ≤ M) (dM : -M ≤ d) (hac : a + c ≤ M) : b * c - a * d ≤ M * M := by
  have hM : 0 ≤ M := le_trans hb bM
  nlinarith [mul_nonneg (sub_nonneg.2 bM) hc, mul_nonneg ha (sub_nonneg.2 dM),
    mul_nonneg hM (sub_nonneg.2 hac)]

theorem mul_le_sq_of_abs (x y M : Int) (hx : |x| ≤ M) (hy : |y| ≤ M) : x * y ≤ M * M := by
  have h := abs_mul x y
  have h1 : |x| * |y| ≤ M * M := mul_le_mul hx hy (abs_nonneg y) (le_trans (abs_nonneg x) hx)
  have h2 := le_abs_self (x * y)
  linarith

theorem area_le (a b c d M : Int) (ha : |a| ≤ M) (hb : |b| ≤ M) (hc : |c| ≤ M) (hd : |d| ≤ M)
    (hac : |a + c| ≤ M) (hbd : |b + d| ≤ M) : b * c - a * d ≤ M * M := by
  have e1 := mul_le_sq_of_abs b c M hb hc
  have e2 := mul_le_sq_of_abs (-a) d M (by rwa [abs_neg]) hd
  rw [abs_le] at ha hb hc hd hac hbd
  rcases le_total 0 a with h1 | h1 <;> rcases le_total 0 b with h2 | h2 <;>
    rcases le_total 0 c with h3 | h3 <;> rcases le_total 0 d with h4 | h4 <;>
    first
    | linarith [mul_nonneg h1 h4]
    | linarith [mul_nonneg_of_nonpos_of_nonpos h1 h4]
    | linarith [mul_nonneg h2 (neg_nonneg.2 h3)]
    | linarith [mul_nonneg (neg_nonneg.2 h2) h3]
    | linarith [area_le_aux a b c d M (by omega) (by omega) (by omega) (by omega) (by omega) (by omega) (by omega)]
    | linarith [area_le_aux d c b a M (by omega) (by omega) (by omega) (by omega) (by omega) (by omega) (by omega)]
    | linarith [area_le_aux (-d) (-c) (-b) (-a) M (by omega) (by omega) (by omega) (by omega) (by omega) (by omega) (by omega)]
    | linarith [area_le_aux (-a) (-b) (-c) (-d) M (by omega) (by omega) (by omega) (by omega) (by omega) (by omega) (by omega)]

theorem orientVal_abs_lt (s : Segment) (r : Point) (hp : s.p.isInt32) (hq : s.q.isInt32)
    (hr : r.isInt32) : -2 ^ 64 < orientVal s r ∧ orientVal s r < 2 ^ 64 := by
  obtain ⟨⟨px, py⟩, ⟨qx, qy⟩⟩ := s
  obtain ⟨rx, ry⟩ := r
  simp only [Point.isInt32] at hp hq hr
  simp only [orientVal]
  have h1 := area_le (qx - px) (qy - py) (rx - qx) (ry - qy) 4294967295
    (by rw [abs_le]; omega) (by rw [abs_le]; omega) (by rw [abs_le]; omega) (by rw [abs_le]; omega)
    (by rw [abs_le]; omega) (by rw [abs_le]; omega)
  have h2 := area_le (qy - py) (qx - px) (ry - qy) (rx - qx) 4294967295
    (by rw [abs_le]; omega) (by rw [abs_le]; omega) (by rw [abs_le]; omega) (by rw [abs_le]; omega)
    (by rw [abs_le]; omega) (by rw [abs_le]; omega)
  constructor
  · linarith
  · linarith

/-- On `int` coordinates the computed orientation is zero iff the three points are
collinear. -/
theorem Segment.orientation_zero_exact (s : Segment) (r : Point) (hp : s.p.isInt32)
    (hq : s.q.isInt32) (hr : r.isInt32) : s.orientation r = 0 ↔ orientVal s r = 0 := by
  rw [Segment.orientation_eq_zero_iff]
  have h := orientVal_abs_lt s r hp hq hr
  generalize orientVal s r = v at h
  omega

/-! ### Geometry: a collinear point inside the bounding box lies on the segment -/

theorem Point.inside_iff (r p q : Point) : r.inside p q = true ↔
    (min p.x q.x ≤ r.x ∧ r.x ≤ max p.x q.x) ∧ (min p.y q.y ≤ r.y ∧ r.y ≤ max p.y q.y) := by
  simp [Point.inside, and_assoc]

theorem Spec.onSegment_p (s : Segment) : Spec.onSegment s s.p.x s.p.y :=
  ⟨0, le_refl 0, zero_le_one, by ring, by ring⟩

theorem Spec.onSegment_q (s : Segment) : Spec.onSegment s s.q.x s.q.y :=
  ⟨1, zero_le_one, le_refl 1, by ring, by ring⟩

theorem ratio_mem_unit (p q r : Int) (hne : q ≠ p) (h1 : min p q ≤ r) (h2 : r ≤ max p q) :
    0 ≤ ((r : ℝ) - p) / ((q : ℝ) - p) ∧ ((r : ℝ) - p) / ((q : ℝ) - p) ≤ 1 := by
  rw [min_le_iff] at h1
  rw [le_max_iff] at h2
  rcases lt_or_gt_of_ne hne with h | h
  · have hq : (q : ℝ) < p := by exact_mod_cast h
    have hd : (q : ℝ) - p < 0 := by linarith
    have hr1 : (r : ℝ) ≤ p := by
      have : r ≤ p := by omega
      exact_mod_cast this
    have hr2 : (q : ℝ) ≤ r := by
      have : q ≤ r := by omega
      exact_mod_cast this
    constructor
    · exact div_nonneg_of_nonpos (by linarith) hd.le
    · rw [div_le_one_of_neg hd]; linarith
  · have hq : (p : ℝ) < q := by exact_mod_cast h
    have hd : (0 : ℝ) < q - p := by linarith
    have hr1 : (p : ℝ) ≤ r := by
      have : p ≤ r := by omega
      exact_mod_cast this
    have hr2 : (r : ℝ) ≤ q := by
      have : r ≤ q := by omega
      exact_mod_cast this
    constructor
    · exact div_nonneg (by linarith) hd.le
    · rw [div_le_one hd]; linarith

theorem Spec.onSegment_of_inside (s : Segment) (r : Point) (hne : s.p ≠ s.q)
    (hv : orientVal s r = 0) (hin : r.inside s.p s.q = true) : Spec.onSegment s r.x r.y := by
  obtain ⟨⟨px, py⟩, ⟨qx, qy⟩⟩ := s
  obtain ⟨rx, ry⟩ := r
  rw [Point.inside_iff] at hin
  simp only [orientVal] at hv
  simp only [ne_eq, Point.mk.injEq, not_and] at hne
  obtain ⟨⟨hx1, hx2⟩, ⟨hy1, hy2⟩⟩ := hin
  simp only at hx1 hx2 hy1 hy2
  have hvR : ((qy : ℝ) - py) * (rx - qx) - ((qx : ℝ) - px) * (ry - qy) = 0 := by
    exact_mod_cast hv
  unfold Spec.onSegment
  simp only
  by_cases hx : qx = px
  · have hy : qy ≠ py := fun h => hne hx.symm h.symm
    have hyR : (qy : ℝ) - py ≠ 0 := by
      intro h
      apply hy
      have : (qy : ℝ) = py := by linarith
      exact_mod_cast this
    have hrx : rx = px := by
      rw [hx] at hx1 hx2
      simp only [min_self, max_self] at hx1 hx2
      omega
    obtain ⟨u0, u1⟩ := ratio_mem_unit py qy ry hy hy1 hy2
    refine ⟨((ry : ℝ) - py) / (qy - py), u0, u1, ?_, ?_⟩
    · rw [hx, hrx]; simp
    · field_simp
  · have hxR : (qx : ℝ) - px ≠ 0 := by
      intro h
      apply hx
      have : (qx : ℝ) = px := by linarith
      exact_mod_cast this
    obtain ⟨u0, u1⟩ := ratio_mem_unit px qx rx hx hx1 hx2
    refine ⟨((rx : ℝ) - px) / (qx - px), u0, u1, ?_, ?_⟩
    · field_simp
    · field_simp
      linarith

/-! ### The value of `cross` when an endpoint is shared

One lemma for each of the four final branches of `cross`, named after the
endpoints of receiver and argument that coincide. -/

theorem Segment.cross_shared_pp (t s : Segment) (h1 : s.p = t.p) (h2 : s.q ≠ t.q) :
    t.cross s = (decide (t.orientation s.p = 0 ∧ t.orientation s.q = 0 ∧ s.orientation t.p = 0
        ∧ s.orientation t.q = 0)
      && (t.q.inside s.p s.q || s.q.inside t.p t.q)) := by
  have hz : t.orientation s.p = 0 := by rw [h1]; exact t.orientation_p
  have hne : t ≠ s := fun h => h2 (by rw [h])
  unfold Segment.cross
  generalize t.orientation s.p = o1 at hz ⊢
  generalize t.orientation s.q = o2
  generalize s.orientation t.p = o3
  generalize s.orientation t.q = o4
  by_cases e2 : o2 = 0 <;> by_cases e3 : o3 = 0 <;> by_cases e4 : o4 = 0 <;>
    simp [hz, h1, hne, e2, e3, e4]

theorem Segment.cross_shared_qq (t s : Segment) (h1 : s.p ≠ t.p) (h2 : s.q = t.q) :
    t.cross s = (decide (t.orientation s.p = 0 ∧ t.orientation s.q = 0 ∧ s.orientation t.p = 0
        ∧ s.orientation t.q = 0)
      && (t.p.inside s.p s.q || s.p.inside t.p t.q)) := by
  have hz : t.orientation s.q = 0 := by rw [h2]; exact t.orientation_q
  have hne : t ≠ s := fun h => h1 (by rw [h])
  unfold Segment.cross
  generalize t.orientation s.q = o2 at hz ⊢
  generalize t.orientation s.p = o1
  generalize s.orientation t.p = o3
  generalize s.orientation t.q = o4
  by_cases e1 : o1 = 0 <;> by_cases e3 : o3 = 0 <;> by_cases e4 : o4 = 0 <;>
    simp [hz, h1, h2, hne, e1, e3, e4]

theorem Segment.cross_shared_pq (t s : Segment) (h1 : s.p ≠ t.p) (h2 : s.q ≠ t.q)
    (h3 : s.p = t.q) :
    t.cross s = (decide (t.orientation s.p = 0 ∧ t.orientation s.q = 0 ∧ s.orientation t.p = 0
        ∧ s.orientation t.q = 0)
      && (t.p.inside s.p s.q || s.q.inside t.p t.q)) := by
  have hz : t.orientation s.p = 0 := by rw [h3]; exact t.orientation_q
  have h5 : t.q ≠ t.p := fun h => h1 (h3.trans h)
  have hne : t ≠ s := fun h => h1 (by rw [h])
  unfold Segment.cross
  generalize t.orientation s.p = o1 at hz ⊢
  generalize t.orientation s.q = o2
  generalize s.orientation t.p = o3
  generalize s.orientation t.q = o4
  by_cases e2 : o2 = 0 <;> by_cases e3 : o3 = 0 <;> by_cases e4 : o4 = 0 <;>
    simp [hz, h1, h2, h3, h5, hne, e2, e3, e4]

theorem Segment.cross_shared_qp (t s : Segment) (h1 : s.p ≠ t.p) (h2 : s.q ≠ t.q)
    (h3 : s.p ≠ t.q) (h4 : s.q = t.p) :
    t.cross s = (decide (t.orientation s.p = 0 ∧ t.orientation s.q = 0 ∧ s.orientation t.p = 0
        ∧ s.orientation t.q = 0)
      && (t.q.inside s.p s.q || s.p.inside t.p t.q)) := by
  have hz : t.orientation s.q = 0 := by rw [h4]; exact t.orientation_p
  have h5 : t.p ≠ t.q := fun h => h2 (h4.trans h)
  have hne : t ≠ s := fun h => h1 (by rw [h])
  unfold Segment.cross
  generalize t.orientation s.q = o2 at hz ⊢
  generalize t.orientation s.p = o1
  generalize s.orientation t.p = o3
  generalize s.orientation t.q = o4
  by_cases e1 : o1 = 0 <;> by_cases e3 : o3 = 0 <;> by_cases e4 : o4 = 0 <;>
    simp [hz, h1, h2, h3, h4, h5, hne, e1, e3, e4]

/-! ### Segments that meet only at a shared endpoint -/

theorem Spec.onlyCommonPoint_symm {t s : Segment} {e : Point} (h : Spec.onlyCommonPoint t s e) :
    Spec.onlyCommonPoint s t e :=
  ⟨h.2.1, h.1, fun x y hs ht => h.2.2 x y ht hs⟩

theorem Spec.isEndpoint_onSegment {s : Segment} {r : Point} (h : Spec.isEndpoint s r) :
    Spec.onSegment s r.x r.y := by
  rcases h with h | h
  · rw [h]; exact Spec.onSegment_p s
  · rw [h]; exact Spec.onSegment_q s

theorem Spec.eq_of_common {t s : Segment} {e r : Point} (h : Spec.onlyCommonPoint t s e)
    (ht : Spec.onSegment t r.x r.y) (hs : Spec.onSegment s r.x r.y) : r = e := by
  obtain ⟨hx, hy⟩ := h.2.2 _ _ ht hs
  obtain ⟨rx, ry⟩ := r
  obtain ⟨ex, ey⟩ := e
  simp only at hx hy
  have h1 : rx = ex := by exact_mod_cast hx
  have h2 : ry = ey := by exact_mod_cast hy
  rw [h1, h2]

theorem Spec.eq_of_inside {t s : Segment} {e r : Point} (h : Spec.onlyCommonPoint t s e)
    (hsp : s.p.isInt32) (hsq : s.q.isInt32) (hr : r.isInt32) (hne : s.p ≠ s.q)
    (ht : Spec.isEndpoint t r) (hz : s.orientation r = 0) (hin : r.inside s.p s.q = true) :
    r = e :=
  Spec.eq_of_common h (Spec.isEndpoint_onSegment ht)
    (Spec.onSegment_of_inside s r hne ((s.orientation_zero_exact r hsp hsq hr).1 hz) hin)

theorem Segment.cross_false_of_onlyCommonPoint (t s : Segment) (e : Point)
    (htp : t.p.isInt32) (htq : t.q.isInt32) (hsp : s.p.isInt32) (hsq : s.q.isInt32)
    (hnt : t.p ≠ t.q) (hns : s.p ≠ s.q) (h : Spec.onlyCommonPoint t s e) :
    t.cross s = false := by
  have h' := Spec.onlyCommonPoint_symm h
  have tpE : Spec.isEndpoint t t.p := Or.inl rfl
  have tqE : Spec.isEndpoint t t.q := Or.inr rfl
  have spE : Spec.isEndpoint s s.p := Or.inl rfl
  have sqE : Spec.isEndpoint s s.q := Or.inr rfl
  have both : ∀ r, Spec.isEndpoint t r → Spec.isEndpoint s r → r = e := fun r h1 h2 =>
    Spec.eq_of_common h (Spec.isEndpoint_onSegment h1) (Spec.isEndpoint_onSegment h2)
  have key : ∀ (b1 b2 : Bool) (z : Prop) [Decidable z], (z → b1 = true → False) →
      (z → b2 = true → False) → (decide z && (b1 || b2)) = false := by
    intro b1 b2 z _ f1 f2
    by_cases hz : z
    · cases b1 <;> cases b2 <;> simp_all
    · simp [hz]
  by_cases c1 : s.p = t.p
  · by_cases c2 : s.q = t.q
    · have : t = s := by
        obtain ⟨tp, tq⟩ := t
        obtain ⟨sp, sq⟩ := s
        simp only at c1 c2
        rw [c1, c2]
      rw [this]; exact s.cross_self
    · rw [Segment.cross_shared_pp t s c1 c2]
      have e1 : t.p = e := both _ tpE (c1 ▸ spE)
      have e2 : s.p = e := c1.trans e1
      apply key
      · intro hz hin
        exact hnt (e1.trans (Spec.eq_of_inside h hsp hsq htq hns tqE hz.2.2.2 hin).symm)
      · intro hz hin
        exact hns (e2.trans (Spec.eq_of_inside h' htp htq hsq hnt sqE hz.2.1 hin).symm)
  · by_cases c2 : s.q = t.q
    · rw [Segment.cross_shared_qq t s c1 c2]
      have e1 : t.q = e := both _ tqE (c2 ▸ sqE)
      have e2 : s.q = e := c2.trans e1
      apply key
      · intro hz hin
        exact hnt ((Spec.eq_of_inside h hsp hsq htp hns tpE hz.2.2.1 hin).trans e1.symm)
      · intro hz hin
        exact hns ((Spec.eq_of_inside h' htp htq hsp hnt spE hz.1 hin).trans e2.symm)
    · by_cases c3 : s.p = t.q
      · rw [Segment.cross_shared_pq t s c1 c2 c3]
        have e1 : t.q = e := both _ tqE (c3 ▸ spE)
        have e2 : s.p = e := c3.trans e1
        apply key
        · intro hz hin
          exact hnt ((Spec.eq_of_inside h hsp hsq htp hns tpE hz.2.2.1 hin).trans e1.symm)
        · intro hz hin
          exact hns (e2.trans (Spec.eq_of_inside h' htp htq hsq hnt sqE hz.2.1 hin).symm)
      · by_cases c4 : s.q = t.p
        · rw [Segment.cross_shared_qp t s c1 c2 c3 c4]
          have e1 : t.p = e := both _ tpE (c4 ▸ sqE)
          have e2 : s.q = e := c4.trans e1
          apply key
          · intro hz hin
            exact hnt (e1.trans (Spec.eq_of_inside h hsp hsq htq hns tqE hz.2.2.2 hin).symm)
          · intro hz hin
            exact hns ((Spec.eq_of_inside h' htp htq hsp hnt spE hz.1 hin).trans e2.symm)
        · exfalso
          rcases h.1 with a | a <;> rcases h.2.1 with b | b
          · exact c1 (b.symm.trans a)
          · exact c4 (b.symm.trans a)
          · exact c3 (b.symm.trans a)
          · exact c2 (b.symm.trans a)

/-! ### Segments that share exactly one endpoint -/

theorem Spec.nonSharedInside_iff (t s : Segment) (x y : Point)
    (hx : Spec.isEndpoint t x) (hxs : ¬ Spec.isEndpoint s x)
    (hy : Spec.isEndpoint s y) (hyt : ¬ Spec.isEndpoint t y)
    (hxo : ∀ r, Spec.isEndpoint t r → r ≠ x → Spec.isEndpoint s r)
    (hyo : ∀ r, Spec.isEndpoint s r → r ≠ y → Spec.isEndpoint t r) :
    Spec.nonSharedInside t s ↔ (x.inside s.p s.q = true ∨ y.inside t.p t.q = true) := by
  constructor
  · rintro ⟨r, ⟨h1, h2, h3⟩ | ⟨h1, h2, h3⟩⟩
    · by_cases hr : r = x
      · left; rw [← hr]; exact h3
      · exact absurd (hxo r h1 hr) h2
    · by_cases hr : r = y
      · right; rw [← hr]; exact h3
      · exact absurd (hyo r h1 hr) h2
  · rintro (h | h)
    · exact ⟨x, Or.inl ⟨hx, hxs, h⟩⟩
    · exact ⟨y, Or.inr ⟨hy, hyt, h⟩⟩

theorem Segment.cross_iff_of_shareExactlyOne (t s : Segment) (hnt : t.p ≠ t.q) (hns : s.p ≠ s.q)
    (h : Spec.shareExactlyOneEndpoint t s) :
    t.cross s = true ↔
      ((t.orientation s.p = 0 ∧ t.orientation s.q = 0 ∧ s.orientation t.p = 0
          ∧ s.orientation t.q = 0) ∧ Spec.nonSharedInside t s) := by
  obtain ⟨e, ⟨het, hes⟩, huniq⟩ := h
  have both : ∀ r, Spec.isEndpoint t r → Spec.isEndpoint s r → r = e :=
    fun r a b => huniq r ⟨a, b⟩
  have tpE : Spec.isEndpoint t t.p := Or.inl rfl
  have tqE : Spec.isEndpoint t t.q := Or.inr rfl
  have spE : Spec.isEndpoint s s.p := Or.inl rfl
  have sqE : Spec.isEndpoint s s.q := Or.inr rfl
  have ot : ∀ r x, Spec.isEndpoint t r → Spec.isEndpoint t x → x ≠ e → r ≠ x → r = e := by
    intro r x hr hx hxe hrx
    rcases het with a | a <;> rcases hr with b | b <;> rcases hx with c | c <;>
      first
      | exact b.trans a.symm
      | exact absurd (c.trans a.symm) hxe
      | exact absurd (b.trans c.symm) hrx
  have os : ∀ r x, Spec.isEndpoint s r → Spec.isEndpoint s x → x ≠ e → r ≠ x → r = e := by
    intro r x hr hx hxe hrx
    rcases hes with a | a <;> rcases hr with b | b <;> rcases hx with c | c <;>
      first
      | exact b.trans a.symm
      | exact absurd (c.trans a.symm) hxe
      | exact absurd (b.trans c.symm) hrx
  -- the shape shared by the four cases
  have fin : ∀ (x y : Point), Spec.isEndpoint t x → Spec.isEndpoint s y → x ≠ e → y ≠ e →
      t.cross s = (decide (t.orientation s.p = 0 ∧ t.orientation s.q = 0 ∧ s.orientation t.p = 0
        ∧ s.orientation t.q = 0) && (x.inside s.p s.q || y.inside t.p t.q)) →
      (t.cross s = true ↔
        ((t.orientation s.p = 0 ∧ t.orientation s.q = 0 ∧ s.orientation t.p = 0
          ∧ s.orientation t.q = 0) ∧ Spec.nonSharedInside t s)) := by
    intro x y hx hy hxe hye hc
    have hxs : ¬ Spec.isEndpoint s x := fun a => hxe (both x hx a)
    have hyt : ¬ Spec.isEndpoint t y := fun a => hye (both y a hy)
    rw [Spec.nonSharedInside_iff t s x y hx hxs hy hyt
      (fun r hr hrx => by rw [ot r x hr hx hxe hrx]; exact hes)
      (fun r hr hry => by rw [os r y hr hy hye hry]; exact het), hc]
    simp
  by_cases c1 : s.p = t.p
  · have e1 : t.p = e := both _ tpE (c1 ▸ spE)
    have c2 : s.q ≠ t.q := fun c => hnt (e1.trans (both _ tqE (c ▸ sqE)).symm)
    exact fin t.q s.q tqE sqE (fun a => hnt (e1.trans a.symm))
      (fun a => hns ((c1.trans e1).trans a.symm)) (Segment.cross_shared_pp t s c1 c2)
  · by_cases c2 : s.q = t.q
    · have e1 : t.q = e := both _ tqE (c2 ▸ sqE)
      exact fin t.p s.p tpE spE (fun a => hnt (a.trans e1.symm))
        (fun a => hns (a.trans (c2.trans e1).symm)) (Segment.cross_shared_qq t s c1 c2)
    · by_cases c3 : s.p = t.q
      · have e1 : t.q = e := both _ tqE (c3 ▸ spE)
        exact fin t.p s.q tpE sqE (fun a => hnt (a.trans e1.symm))
          (fun a => hns ((c3.trans e1).trans a.symm)) (Segment.cross_shared_pq t s c1 c2 c3)
      · by_cases c4 : s.q = t.p
        · have e1 : t.p = e := both _ tpE (c4 ▸ sqE)
          exact fin t.q s.p tqE spE (fun a => hnt (e1.trans a.symm))
            (fun a => hns (a.trans (c4.trans e1).symm)) (Segment.cross_shared_qp t s c1 c2 c3 c4)
        · exfalso
          rcases het with a | a <;> rcases hes with b | b
          · exact c1 (b.symm.trans a)
          · exact c4 (b.symm.trans a)
          · exact c3 (b.symm.trans a)
          · exact c2 (b.symm.trans a)

namespace Conflict

/-! ### The bit matrix -/

/-- The test `word & (1 << k)` of `crosses` reads bit `k` of the word. -/
theorem and_one_shiftLeft (x k : Nat) : (x &&& (1 <<< k) != 0) = x.testBit k := by
  rw [Nat.one_shiftLeft, Nat.and_two_pow]
  cases h : x.testBit k <;> simp

theorem crosses_eq_wordBit (cr : List (List Nat)) (a b : Nat) :
    crosses cr a b = wordBit cr a (b / 32) (b % 32) := by
  simp only [crosses, wordBit, and_one_shiftLeft]

theorem getD_set_eq {α : Type} (l : List α) (i j : Nat) (v d : α) :
    (l.set i v).getD j d = if i = j ∧ i < l.length then v else l.getD j d := by
  rw [List.getD_eq_getElem?_getD, List.getD_eq_getElem?_getD, List.getElem?_set]
  by_cases h : i = j
  · subst h
    by_cases h2 : i < l.length
    · rw [if_pos rfl, if_pos h2, if_pos ⟨rfl, h2⟩]; rfl
    · rw [if_pos rfl, if_neg h2, if_neg (fun c => h2 c.2), List.getElem?_eq_none (not_lt.1 h2)]
  · rw [if_neg h, if_neg (fun c => h c.1)]

theorem Shaped.orBit {cr : List (List Nat)} {m sz : Nat} (h : Shaped cr m sz) (i idx sh : Nat) :
    Shaped (orBit cr i idx sh) m sz := by
  refine ⟨by simp [Conflict.orBit, h.1], fun a ha => ?_⟩
  simp only [Conflict.orBit, getD_set_eq]
  split_ifs with hc
  · rw [List.length_set]; exact h.2 i (by rw [hc.1]; exact ha)
  · exact h.2 a ha

/-- The assignment `orBit` sets one bit and leaves every other bit of the matrix. -/
theorem wordBit_orBit {cr : List (List Nat)} {m sz : Nat} (h : Shaped cr m sz) (i idx sh : Nat)
    (hi : i < m) (hidx : idx < sz) (a w k : Nat) :
    wordBit (orBit cr i idx sh) a w k
      = (wordBit cr a w k || decide (a = i ∧ w = idx ∧ k = sh)) := by
  have hlen : i < cr.length := by rw [h.1]; exact hi
  have hrow : idx < (cr.getD i []).length := by rw [h.2 i hi]; exact hidx
  unfold wordBit Conflict.orBit
  rw [getD_set_eq]
  by_cases ha : i = a
  · subst ha
    rw [if_pos ⟨rfl, hlen⟩, getD_set_eq]
    by_cases hw : idx = w
    · subst hw
      rw [if_pos ⟨rfl, hrow⟩, Nat.testBit_or, Nat.one_shiftLeft, Nat.testBit_two_pow]
      by_cases hk : sh = k
      · simp [hk]
      · have hk' : ¬ k = sh := fun e => hk e.symm
        simp [hk, hk']
    · have hw' : ¬ w = idx := fun e => hw e.symm
      rw [if_neg (fun c => hw c.1)]
      simp [hw']
  · have ha' : ¬ a = i := fun e => ha e.symm
    rw [if_neg (fun c => ha c.1)]
    simp [ha']

theorem div_lt_rowSize {j m : Nat} (h : j < m) : j / 32 < rowSize m := by
  unfold rowSize
  have h1 : (0 : Int) ≤ (m : Int) - 1 := by omega
  rw [Int.tdiv_eq_ediv h1 (by norm_num)]
  omega

theorem markPair_spec (segs : List Segment) {cr : List (List Nat)} {m sz : Nat}
    (h : Shaped cr m sz) (hsz : ∀ x, x < m → x / 32 < sz) (i j : Nat) (hi : i < m) (hj : j < m) :
    Shaped (markPair segs i cr j) m sz ∧
    ∀ a w k, wordBit (markPair segs i cr j) a w k = true ↔
      (wordBit cr a w k = true ∨
        ((segAt segs i).cross (segAt segs j) = true ∧
          ((a = i ∧ w = j / 32 ∧ k = j % 32) ∨ (a = j ∧ w = i / 32 ∧ k = i % 32)))) := by
  unfold markPair
  by_cases hc : (segAt segs i).cross (segAt segs j) = true
  · rw [if_pos hc]
    have h1 := h.orBit i (j / 32) (j % 32)
    refine ⟨h1.orBit j (i / 32) (i % 32), fun a w k => ?_⟩
    rw [wordBit_orBit h1 j (i / 32) (i % 32) hj (hsz i hi),
      wordBit_orBit h i (j / 32) (j % 32) hi (hsz j hj)]
    simp only [Bool.or_eq_true, decide_eq_true_eq, hc, true_and]
    tauto
  · rw [if_neg hc]
    refine ⟨h, fun a w k => ?_⟩
    simp [hc]

/-- Invariant of the inner loop of `generate_intersection_map`. -/
theorem foldl_markPair_spec (segs : List Segment) {m sz : Nat}
    (hsz : ∀ x, x < m → x / 32 < sz) (i : Nat) (hi : i < m) :
    ∀ (js : List Nat) (cr : List (List Nat)), Shaped cr m sz → (∀ j ∈ js, j < m) →
      Shaped (js.foldl (markPair segs i) cr) m sz ∧
      ∀ a w k, wordBit (js.foldl (markPair segs i) cr) a w k = true ↔
        (wordBit cr a w k = true ∨
          ∃ j ∈ js, (segAt segs i).cross (segAt segs j) = true ∧
            ((a = i ∧ w = j / 32 ∧ k = j % 32) ∨ (a = j ∧ w = i / 32 ∧ k = i % 32))) := by
  intro js
  induction js with
  | nil => intro cr h _; exact ⟨h, fun a w k => by simp⟩
  | cons j js ih =>
    intro cr h hjs
    have hj : j < m := hjs j (List.mem_cons_self j js)
    obtain ⟨s1, b1⟩ := markPair_spec segs h hsz i j hi hj
    obtain ⟨s2, b2⟩ := ih (markPair segs i cr j) s1 (fun x hx => hjs x (List.mem_cons_of_mem j hx))
    rw [List.foldl_cons]
    refine ⟨s2, fun a w k => ?_⟩
    rw [b2, b1]
    simp only [List.mem_cons, exists_eq_or_imp]
    exact or_assoc

theorem markRow_spec (segs : List Segment) {sz : Nat}
    (hsz : ∀ x, x < segs.length → x / 32 < sz) (i : Nat) (hi : i < segs.length)
    (cr : List (List Nat)) (h : Shaped cr segs.length sz) :
    Shaped (markRow segs cr i) segs.length sz ∧
    ∀ a w k, wordBit (markRow segs cr i) a w k = true ↔
      (wordBit cr a w k = true ∨
        ∃ j, i < j ∧ j < segs.length ∧ (segAt segs i).cross (segAt segs j) = true ∧
          ((a = i ∧ w = j / 32 ∧ k = j % 32) ∨ (a = j ∧ w = i / 32 ∧ k = i % 32))) := by
  unfold markRow
  have hmem : ∀ j, j ∈ List.range' (i + 1) (segs.length - (i + 1)) ↔ (i < j ∧ j < segs.length) := by
    intro j
    rw [List.mem_range'_1]
    omega
  obtain ⟨s1, b1⟩ := foldl_markPair_spec segs hsz i hi
    (List.range' (i + 1) (segs.length - (i + 1))) cr h (fun j hj => ((hmem j).1 hj).2)
  refine ⟨s1, fun a w k => ?_⟩
  rw [b1]
  constructor
  · rintro (h1 | ⟨j, hj, h2⟩)
    · exact Or.inl h1
    · exact Or.inr ⟨j, ((hmem j).1 hj).1, ((hmem j).1 hj).2, h2⟩
  · rintro (h1 | ⟨j, hj1, hj2, h2⟩)
    · exact Or.inl h1
    · exact Or.inr ⟨j, (hmem j).2 ⟨hj1, hj2⟩, h2⟩

/-- Invariant of the outer loop of `generate_intersection_map`. -/
theorem foldl_markRow_spec (segs : List Segment) {sz : Nat}
    (hsz : ∀ x, x < segs.length → x / 32 < sz) :
    ∀ (is : List Nat) (cr : List (List Nat)), Shaped cr segs.length sz →
      (∀ i ∈ is, i < segs.length) →
      Shaped (is.foldl (markRow segs) cr) segs.length sz ∧
      ∀ a w k, wordBit (is.foldl (markRow segs) cr) a w k = true ↔
        (wordBit cr a w k = true ∨
          ∃ i ∈ is, ∃ j, i < j ∧ j < segs.length ∧ (segAt segs i).cross (segAt segs j) = true ∧
            ((a = i ∧ w = j / 32 ∧ k = j % 32) ∨ (a = j ∧ w = i / 32 ∧ k = i % 32))) := by
  intro is
  induction is with
  | nil => intro cr h _; exact ⟨h, fun a w k => by simp⟩
  | cons i is ih =>
    intro cr h his
    have hi : i < segs.length := his i (List.mem_cons_self i is)
    obtain ⟨s1, b1⟩ := markRow_spec segs hsz i hi cr h
    obtain ⟨s2, b2⟩ := ih (markRow segs cr i) s1 (fun x hx => his x (List.mem_cons_of_mem i hx))
    rw [List.foldl_cons]
    refine ⟨s2, fun a w k => ?_⟩
    rw [b2, b1]
    simp only [List.mem_cons, exists_eq_or_imp]
    exact or_assoc

theorem getD_replicate_eq {α : Type} (n i : Nat) (x d : α) :
    (List.replicate n x).getD i d = if i < n then x else d := by
  rw [List.getD_eq_getElem?_getD, List.getElem?_replicate]
  split_ifs <;> rfl

theorem shaped_init (m sz : Nat) : Shaped (List.replicate m (List.replicate sz 0)) m sz := by
  refine ⟨List.length_replicate _ _, fun a ha => ?_⟩
  rw [getD_replicate_eq, if_pos ha, List.length_replicate]

theorem wordBit_init (m sz a w k : Nat) :
    wordBit (List.replicate m (List.replicate sz 0)) a w k = false := by
  unfold wordBit
  rw [getD_replicate_eq]
  by_cases ha : a < m
  · rw [if_pos ha, getD_replicate_eq]
    by_cases hw : w < sz
    · rw [if_pos hw]; exact Nat.zero_testBit k
    · rw [if_neg hw]; exact Nat.zero_testBit k
  · rw [if_neg ha]
    exact Nat.zero_testBit k

/-- Every bit of every word after `generate_intersection_map`. -/
theorem wordBit_generate (segs : List Segment) (a w k : Nat) :
    wordBit (generate_intersection_map segs) a w k = true ↔
      ∃ i j, i < j ∧ j < segs.length ∧ (segAt segs i).cross (segAt segs j) = true ∧
        ((a = i ∧ w = j / 32 ∧ k = j % 32) ∨ (a = j ∧ w = i / 32 ∧ k = i % 32)) := by
  unfold generate_intersection_map
  obtain ⟨_, b⟩ := foldl_markRow_spec segs (fun x hx => div_lt_rowSize hx)
    (List.range segs.length) _ (shaped_init segs.length (rowSize segs.length))
    (fun i hi => List.mem_range.1 hi)
  simp only
  rw [b, wordBit_init]
  constructor
  · rintro (h | ⟨i, _, j, h⟩)
    · exact absurd h (by simp)
    · exact ⟨i, j, h⟩
  · rintro ⟨i, j, h⟩
    exact Or.inr ⟨i, List.mem_range.2 (lt_trans h.1 h.2.1), j, h⟩

/-- The read `crosses(a, b)` after `generate_intersection_map`. -/
theorem crosses_generate (segs : List Segment) (a b : Nat) :
    crosses (generate_intersection_map segs) a b = true ↔
      ((a < b ∧ b < segs.length ∧ (segAt segs a).cross (segAt segs b) = true) ∨
        (b < a ∧ a < segs.length ∧ (segAt segs b).cross (segAt segs a) = true)) := by
  rw [crosses_eq_wordBit, wordBit_generate]
  constructor
  · rintro ⟨i, j, hij, hj, hc, (⟨h1, h2, h3⟩ | ⟨h1, h2, h3⟩)⟩
    · have : b = j := by omega
      subst this; subst h1
      exact Or.inl ⟨hij, hj, hc⟩
    · have : b = i := by omega
      subst this; subst h1
      exact Or.inr ⟨hij, hj, hc⟩
  · rintro (⟨h1, h2, h3⟩ | ⟨h1, h2, h3⟩)
    · exact ⟨a, b, h1, h2, h3, Or.inl ⟨rfl, rfl, rfl⟩⟩
    · exact ⟨b, a, h1, h2, h3, Or.inr ⟨rfl, rfl, rfl⟩⟩

end Conflict

namespace Greedy

/-! ### The greedy heuristic -/

/-- The loop of `first_available` either finds no valid class, or stops at the first
valid class. -/
theorem scanClasses_cases (segs : List Segment) (si : Nat) :
    ∀ (cls : List (List Nat)) (c0 : Nat),
      (scanClasses segs si cls c0 = c0 + cls.length ∧
        ∀ cl ∈ cls, classValid segs si cl = false) ∨
      (∃ pre cl post, cls = pre ++ cl :: post ∧
        scanClasses segs si cls c0 = c0 + pre.length ∧
        classValid segs si cl = true ∧ ∀ x ∈ pre, classValid segs si x = false) := by
  intro cls
  induction cls with
  | nil => intro c0; left; exact ⟨rfl, fun cl h => absurd h (List.not_mem_nil cl)⟩
  | cons cl rest ih =>
    intro c0
    unfold scanClasses
    by_cases hv : classValid segs si cl = true
    · right
      rw [if_pos hv]
      exact ⟨[], cl, rest, rfl, rfl, hv, fun x h => absurd h (List.not_mem_nil x)⟩
    · rw [if_neg hv]
      have hv' : classValid segs si cl = false := by simpa using hv
      rcases ih (c0 + 1) with ⟨h1, h2⟩ | ⟨pre, x, post, h1, h2, h3, h4⟩
      · left
        refine ⟨by rw [h1, List.length_cons]; omega, fun y hy => ?_⟩
        rcases List.mem_cons.1 hy with e | e
        · rw [e]; exact hv'
        · exact h2 y e
      · right
        refine ⟨cl :: pre, x, post, by rw [h1]; rfl, by rw [h2, List.length_cons]; omega, h3, ?_⟩
        intro y hy
        rcases List.mem_cons.1 hy with e | e
        · rw [e]; exact hv'
        · exact h4 y e

/-- One iteration of `greedy` either opens a new class for `vi`, or appends `vi` to
the first class none of whose members it crosses. -/
theorem place_cases (segs : List Segment) (vi : Nat) (cls : List (List Nat)) :
    (place segs vi cls = cls ++ [[vi]] ∧ ∀ cl ∈ cls, classValid segs vi cl = false) ∨
    (∃ pre cl post, cls = pre ++ cl :: post ∧
      place segs vi cls = pre ++ (cl ++ [vi]) :: post ∧
      classValid segs vi cl = true ∧ ∀ x ∈ pre, classValid segs vi x = false) := by
  unfold place first_available
  rcases scanClasses_cases segs vi cls 0 with ⟨h1, h2⟩ | ⟨pre, cl, post, h1, h2, h3, h4⟩
  · left
    refine ⟨?_, h2⟩
    simp only [h1, Nat.zero_add, if_true]
    rw [List.set_append_right _ _ (le_refl _), List.getD_append_right _ _ _ _ (le_refl _)]
    simp
  · right
    refine ⟨pre, cl, post, h1, ?_, h3, h4⟩
    have hne : ¬ (0 + pre.length = cls.length) := by
      rw [h1, List.length_append, List.length_cons]; omega
    simp only [h2, if_neg hne]
    rw [h1, List.set_append_right _ _ (by omega), List.getD_append_right _ _ _ _ (by omega)]
    simp

theorem flatten_place (segs : List Segment) (vi : Nat) (cls : List (List Nat)) :
    (place segs vi cls).flatten.Perm (vi :: cls.flatten) := by
  rcases place_cases segs vi cls with ⟨h1, _⟩ | ⟨pre, cl, post, h1, h2, _, _⟩
  · rw [h1, List.flatten_append]
    simp
  · rw [h2, h1]
    simp only [List.flatten_append, List.flatten_cons, List.append_assoc, List.singleton_append]
    have : (pre.flatten ++ (cl ++ vi :: post.flatten)).Perm
        (vi :: (pre.flatten ++ (cl ++ post.flatten))) := by
      rw [← List.append_assoc, ← List.append_assoc]
      exact List.perm_middle
    exact this

/-- The loop of `greedy` adds exactly the uncoloured segments to the classes. -/
theorem flatten_foldr_place (segs : List Segment) (cls : List (List Nat)) :
    ∀ unc : List Nat, (unc.foldr (place segs) cls).flatten.Perm (unc ++ cls.flatten) := by
  intro unc
  induction unc with
  | nil => exact List.Perm.refl _
  | cons v rest ih =>
    rw [List.foldr_cons]
    exact (flatten_place segs v _).trans (List.Perm.cons v ih)

theorem classValid_iff (segs : List Segment) (si : Nat) (cl : List Nat) :
    classValid segs si cl = true ↔
      ∀ ti ∈ cl, (segAt segs si).cross (segAt segs ti) = false := by
  simp [classValid]

theorem crossFree_snoc (segs : List Segment) (vi : Nat) (cl : List Nat)
    (h : CrossFree segs cl) (hv : classValid segs vi cl = true) :
    CrossFree segs (cl ++ [vi]) := by
  rw [classValid_iff] at hv
  intro i hi j hj hij
  rcases List.mem_append.1 hi with a | a <;> rcases List.mem_append.1 hj with b | b
  · exact h i a j b hij
  · rw [List.mem_singleton.1 b, Segment.cross_comm]; exact hv i a
  · rw [List.mem_singleton.1 a]; exact hv j b
  · exact absurd ((List.mem_singleton.1 a).trans (List.mem_singleton.1 b).symm) hij

theorem crossFree_place (segs : List Segment) (vi : Nat) (cls : List (List Nat))
    (h : ∀ cl ∈ cls, CrossFree segs cl) : ∀ cl ∈ place segs vi cls, CrossFree segs cl := by
  rcases place_cases segs vi cls with ⟨h1, _⟩ | ⟨pre, x, post, h1, h2, h3, _⟩
  · rw [h1]
    intro cl hcl
    rcases List.mem_append.1 hcl with a | a
    · exact h cl a
    · rw [List.mem_singleton.1 a]
      intro i hi j hj hij
      exact absurd ((List.mem_singleton.1 hi).trans (List.mem_singleton.1 hj).symm) hij
  · rw [h2]
    intro cl hcl
    have hx : CrossFree segs x := h x (by rw [h1]; simp)
    rcases List.mem_append.1 hcl with a | a
    · exact h cl (by rw [h1]; exact List.mem_append_left _ a)
    · rcases List.mem_cons.1 a with b | b
      · rw [b]; exact crossFree_snoc segs vi x hx h3
      · exact h cl (by rw [h1]; exact List.mem_append_right _ (List.mem_cons_of_mem _ b))

/-- The loop of `greedy` keeps every class crossing-free. -/
theorem crossFree_foldr_place (segs : List Segment) (cls : List (List Nat))
    (h : ∀ cl ∈ cls, CrossFree segs cl) :
    ∀ unc : List Nat, ∀ cl ∈ unc.foldr (place segs) cls, CrossFree segs cl := by
  intro unc
  induction unc with
  | nil => exact h
  | cons v rest ih =>
    rw [List.foldr_cons]
    exact crossFree_place segs v _ ih

/-- The inner loop of `build_colorv` for one class of colour `c`. -/
theorem foldl_set_spec (c : Int) :
    ∀ (cl : List Nat) (cv : List Int),
      (cl.foldl (fun cv vi => cv.set vi c) cv).length = cv.length ∧
      ∀ (i : Nat) (d : Int), (cl.foldl (fun cv vi => cv.set vi c) cv).getD i d
        = if i ∈ cl ∧ i < cv.length then c else cv.getD i d := by
  intro cl
  induction cl with
  | nil => intro cv; exact ⟨rfl, fun i d => by simp⟩
  | cons v rest ih =>
    intro cv
    obtain ⟨l1, g1⟩ := ih (cv.set v c)
    rw [List.foldl_cons]
    refine ⟨by rw [l1, List.length_set], fun i d => ?_⟩
    rw [g1, List.length_set, Conflict.getD_set_eq]
    by_cases h1 : i ∈ rest ∧ i < cv.length
    · rw [if_pos h1, if_pos ⟨List.mem_cons_of_mem _ h1.1, h1.2⟩]
    · rw [if_neg h1]
      by_cases h2 : v = i ∧ v < cv.length
      · rw [if_pos h2, if_pos ⟨by rw [h2.1]; exact List.mem_cons_self _ _, by rw [← h2.1]; exact h2.2⟩]
      · rw [if_neg h2, if_neg]
        rintro ⟨h3, h4⟩
        rcases List.mem_cons.1 h3 with e | e
        · exact h2 ⟨e.symm, by rw [← e]; exact h4⟩
        · exact h1 ⟨e, h4⟩

/-- The first `k` rounds of the outer loop of `build_colorv`. -/
theorem build_rounds_spec (cls : List (List Nat)) (cv : List Int) (d : Int) (i : Nat) :
    ∀ k : Nat,
      ((List.range k).foldl
        (fun cv c => (cls.getD c []).foldl (fun cv vi => cv.set vi (c : Int)) cv) cv).length
          = cv.length ∧
      ((∀ c, c < k → i ∉ cls.getD c []) →
        ((List.range k).foldl
          (fun cv c => (cls.getD c []).foldl (fun cv vi => cv.set vi (c : Int)) cv) cv).getD i d
            = cv.getD i d) ∧
      (∀ c, c < k → i ∈ cls.getD c [] → i < cv.length →
        (∀ c', c < c' → c' < k → i ∉ cls.getD c' []) →
        ((List.range k).foldl
          (fun cv c => (cls.getD c []).foldl (fun cv vi => cv.set vi (c : Int)) cv) cv).getD i d
            = (c : Int)) := by
  intro k
  induction k with
  | zero =>
    refine ⟨rfl, fun _ => rfl, fun c hc => absurd hc (Nat.not_lt_zero c)⟩
  | succ k ih =>
    obtain ⟨l1, g1, g2⟩ := ih
    rw [List.range_succ, List.foldl_append, List.foldl_cons, List.foldl_nil]
    obtain ⟨l2, g3⟩ := foldl_set_spec (k : Int) (cls.getD k [])
      ((List.range k).foldl
        (fun cv c => (cls.getD c []).foldl (fun cv vi => cv.set vi (c : Int)) cv) cv)
    refine ⟨by rw [l2, l1], fun h => ?_, fun c hc hi hlen hlast => ?_⟩
    · rw [g3, if_neg (fun a => h k (Nat.lt_succ_self k) a.1)]
      exact g1 (fun c hc => h c (Nat.lt_succ_of_lt hc))
    · rw [g3, l1]
      rcases Nat.lt_succ_iff_lt_or_eq.1 hc with hlt | heq
      · rw [if_neg (fun a => hlast k hlt (Nat.lt_succ_self k) a.1)]
        exact g2 c hlt hi hlen (fun c' h1 h2 => hlast c' h1 (Nat.lt_succ_of_lt h2))
      · rw [if_pos ⟨by rw [← heq]; exact hi, hlen⟩, heq]

theorem build_colorv_length (cls : List (List Nat)) (cv : List Int) :
    (build_colorv cls cv).length = cv.length :=
  (build_rounds_spec cls cv 0 0 cls.length).1

theorem build_colorv_of_mem (cls : List (List Nat)) (cv : List Int) (d : Int) (i c : Nat)
    (hc : c < cls.length) (hi : i ∈ cls.getD c []) (hlen : i < cv.length)
    (hlast : ∀ c', c < c' → c' < cls.length → i ∉ cls.getD c' []) :
    (build_colorv cls cv).getD i d = (c : Int) :=
  (build_rounds_spec cls cv d i cls.length).2.2 c hc hi hlen hlast

theorem mem_getD_of_mem {cls : List (List Nat)} {c i : Nat} (h : i ∈ cls.getD c []) :
    c < cls.length ∧ cls.getD c [] ∈ cls := by
  by_cases hc : c < cls.length
  · refine ⟨hc, ?_⟩
    rw [List.getD_eq_getElem _ _ hc]
    exact List.getElem_mem hc
  · rw [List.getD_eq_default _ _ (not_lt.1 hc)] at h
    exact absurd h (List.not_mem_nil i)

/-- When no index occurs twice in the classes, an index has one class. -/
theorem class_unique {cls : List (List Nat)} (hnd : cls.flatten.Nodup) {i c c' : Nat}
    (h1 : i ∈ cls.getD c []) (h2 : i ∈ cls.getD c' []) : c = c' := by
  obtain ⟨hc, _⟩ := mem_getD_of_mem h1
  obtain ⟨hc', _⟩ := mem_getD_of_mem h2
  rw [List.getD_eq_getElem _ _ hc] at h1
  rw [List.getD_eq_getElem _ _ hc'] at h2
  have hp := (List.nodup_flatten.1 hnd).2
  rw [List.pairwise_iff_getElem] at hp
  rcases Nat.lt_trichotomy c c' with h | h | h
  · exact absurd h2 (fun x => (hp c c' hc hc' h) h1 x)
  · exact h
  · exact absurd h1 (fun x => (hp c' c hc' hc h) h2 x)

/-- The vector `uncolored` of `color` holds every index once. -/
theorem uncolored_perm (n : Nat) :
    ((List.range n).map (fun si => n - si - 1)).Perm (List.range n) := by
  have h : (List.range n).map (fun si => n - si - 1) = (List.range n).reverse := by
    rw [List.range_eq_range', List.reverse_range', ← List.range_eq_range']
    apply List.map_congr_left
    intro a _
    omega
  rw [h]
  exact List.reverse_perm _

theorem color_classes_perm (segs : List Segment) :
    (color segs).classes.flatten.Perm (List.range segs.length) := by
  unfold color greedy clearSol
  simp only
  have h := flatten_foldr_place segs []
    ((List.range segs.length).map (fun si => segs.length - si - 1))
  rw [List.flatten_nil, List.append_nil] at h
  exact h.trans (uncolored_perm segs.length)

theorem color_crossFree (segs : List Segment) :
    ∀ cl ∈ (color segs).classes, CrossFree segs cl := by
  unfold color greedy clearSol
  simp only
  exact crossFree_foldr_place segs [] (fun cl h => absurd h (List.not_mem_nil cl)) _

theorem color_colorv_length (segs : List Segment) :
    (color segs).colorv.length = segs.length := by
  unfold color greedy clearSol
  simp only
  rw [build_colorv_length, List.length_replicate]

theorem color_exists_class (segs : List Segment) (i : Nat) (hi : i < segs.length) :
    ∃ c, c < (color segs).classes.length ∧ i ∈ (color segs).classes.getD c [] := by
  have hm : i ∈ (color segs).classes.flatten :=
    (color_classes_perm segs).mem_iff.2 (List.mem_range.2 hi)
  obtain ⟨cl, hcl, hicl⟩ := List.mem_flatten.1 hm
  obtain ⟨c, hc, e⟩ := List.mem_iff_getElem.1 hcl
  exact ⟨c, hc, by rw [List.getD_eq_getElem _ _ hc, e]; exact hicl⟩

theorem color_nodup (segs : List Segment) : (color segs).classes.flatten.Nodup :=
  (color_classes_perm segs).nodup_iff.2 (List.nodup_range _)

/-- After `color`, `colorv[i] = c` exactly when `i` is a member of `classes[c]`. -/
theorem color_colorv_iff (segs : List Segment) (i c : Nat) (hi : i < segs.length) :
    (color segs).colorv.getD i (-1) = (c : Int) ↔ i ∈ (color segs).classes.getD c [] := by
  obtain ⟨c0, hc0, hm0⟩ := color_exists_class segs i hi
  have hnd := color_nodup segs
  have hval : (color segs).colorv.getD i (-1) = (c0 : Int) := by
    have := build_colorv_of_mem (color segs).classes (List.replicate segs.length (-1)) (-1) i c0
      hc0 hm0 (by rw [List.length_replicate]; exact hi)
      (fun c' h1 _ h3 => absurd (class_unique hnd hm0 h3) (Nat.ne_of_lt h1))
    exact this
  rw [hval]
  constructor
  · intro h
    have : c0 = c := by exact_mod_cast h
    rw [← this]; exact hm0
  · intro h
    rw [class_unique hnd hm0 h]

end Greedy

/-! ### Coordinates below `2^31`: no operation of `orientation` wraps -/

theorem mul_range_of_abs_lt {a b : Int} (ha1 : -2 ^ 31 < a) (ha2 : a < 2 ^ 31)
    (hb1 : -2 ^ 31 < b) (hb2 : b < 2 ^ 31) : -2 ^ 62 < a * b ∧ a * b < 2 ^ 62 := by
  have h1 : |a| < 2 ^ 31 := abs_lt.mpr ⟨by linarith, ha2⟩
  have h2 : |b| < 2 ^ 31 := abs_lt.mpr ⟨by linarith, hb2⟩
  have h3 : |a * b| < 2 ^ 31 * 2 ^ 31 := by
    rw [abs_mul]
    exact mul_lt_mul'' h1 h2 (abs_nonneg a) (abs_nonneg b)
  have h4 := abs_lt.mp h3
  constructor
  · linarith [h4.1]
  · linarith [h4.2]

theorem sign_expr_eq (v : Int) :
    ((if v > 0 then 1 else 0) - (if v < 0 then 1 else 0) : Int) = Int.sign v := by
  rcases lt_trichotomy v 0 with h | h | h
  · rw [if_neg (by omega), if_pos h, Int.sign_eq_neg_one_of_neg h]; rfl
  · subst h; rfl
  · rw [if_pos h, if_neg (by omega), Int.sign_eq_one_of_pos h]; rfl

namespace DSatur

/-! ### The DSatur heuristic -/

theorem getD_pad (row : List Bool) (c d : Nat) :
    (if row.length < c + 1 then row ++ List.replicate (c + 1 - row.length) false
      else row).getD d false = row.getD d false := by
  split_ifs with h
  · rw [List.getD_eq_getElem?_getD, List.getD_eq_getElem?_getD]
    by_cases hd : d < row.length
    · rw [List.getElem?_append_left hd]
    · rw [List.getElem?_append_right (not_lt.1 hd), List.getElem?_replicate,
        List.getElem?_eq_none (not_lt.1 hd)]
      split_ifs <;> rfl
  · rfl

theorem length_pad (row : List Bool) (c : Nat) :
    c < (if row.length < c + 1 then row ++ List.replicate (c + 1 - row.length) false
      else row).length := by
  split_ifs with h
  · rw [List.length_append, List.length_replicate]; omega
  · omega

theorem mark_spec (segments : List Segment) (vi c : Nat) (st : DSatur) (si : Nat) :
    (mark segments vi c st si).colorv = st.colorv ∧
    (mark segments vi c st si).uncolored = st.uncolored ∧
    (mark segments vi c st si).neighbor_colors.length = st.neighbor_colors.length ∧
    (∀ u, st.dsat.getD u 0 ≤ (mark segments vi c st si).dsat.getD u 0) ∧
    ∀ u d, ((mark segments vi c st si).neighbor_colors.getD u []).getD d false
      = ((st.neighbor_colors.getD u []).getD d false ||
          (decide (u = si) && (segAt segments si).cross (segAt segments vi) &&
            decide (d = c) && decide (si < st.neighbor_colors.length))) := by
  unfold mark
  by_cases hx : (segAt segments si).cross (segAt segments vi) = true
  · rw [if_pos hx]
    have hlen := length_pad (st.neighbor_colors.getD si []) c
    simp only []
    generalize hrow1 : (if (st.neighbor_colors.getD si []).length < c + 1 then
      st.neighbor_colors.getD si [] ++
        List.replicate (c + 1 - (st.neighbor_colors.getD si []).length) false
      else st.neighbor_colors.getD si []) = row1 at hlen ⊢
    have hpad : ∀ d, row1.getD d false = (st.neighbor_colors.getD si []).getD d false := by
      intro d; rw [← hrow1]; exact getD_pad _ c d
    by_cases hc : row1.getD c false = false
    · rw [if_pos hc]
      refine ⟨rfl, rfl, List.length_set _ _ _, fun u => ?_, fun u d => ?_⟩
      · show _ ≤ (st.dsat.set si _).getD u 0
        rw [Conflict.getD_set_eq]
        split_ifs with h
        · rw [← h.1]; omega
        · exact le_refl _
      · show ((st.neighbor_colors.set si _).getD u []).getD d false = _
        rw [Conflict.getD_set_eq]
        by_cases h : si = u ∧ si < st.neighbor_colors.length
        · rw [if_pos h, Conflict.getD_set_eq, hpad]
          obtain ⟨h1, h2⟩ := h
          subst h1
          by_cases hd : c = d
          · subst hd
            simp [hlen, hx, h2]
          · have hd2 : ¬ d = c := fun e => hd e.symm
            simp [hd, hd2]
        · rw [if_neg h]
          by_cases h1 : u = si
          · subst h1
            have h2 : ¬ u < st.neighbor_colors.length := fun e => h ⟨rfl, e⟩
            simp [h2]
          · simp [h1]
    · rw [if_neg hc]
      have hc2 : row1.getD c false = true := by
        cases hb : row1.getD c false
        · exact absurd hb hc
        · rfl
      refine ⟨rfl, rfl, List.length_set _ _ _, fun u => le_refl _, fun u d => ?_⟩
      show ((st.neighbor_colors.set si row1).getD u []).getD d false = _
      rw [Conflict.getD_set_eq]
      by_cases h : si = u ∧ si < st.neighbor_colors.length
      · rw [if_pos h, hpad]
        obtain ⟨h1, h2⟩ := h
        subst h1
        by_cases hd : d = c
        · subst hd
          rw [hpad] at hc2
          rw [hc2, Bool.true_or]
        · simp [hd]
      · rw [if_neg h]
        by_cases h1 : u = si
        · subst h1
          have h2 : ¬ u < st.neighbor_colors.length := fun e => h ⟨rfl, e⟩
          simp [h2]
        · simp [h1]
  · rw [if_neg hx]
    have hx2 : (segAt segments si).cross (segAt segments vi) = false := by
      cases hb : (segAt segments si).cross (segAt segments vi)
      · rfl
      · exact absurd hb hx
    refine ⟨rfl, rfl, rfl, fun u => le_refl _, fun u d => ?_⟩
    simp [hx2]

theorem foldl_mark_spec (segments : List Segment) (vi c : Nat) :
    ∀ (l : List Nat) (st : DSatur),
    (l.foldl (mark segments vi c) st).colorv = st.colorv ∧
    (l.foldl (mark segments vi c) st).uncolored = st.uncolored ∧
    (l.foldl (mark segments vi c) st).neighbor_colors.length = st.neighbor_colors.length ∧
    (∀ u, st.dsat.getD u 0 ≤ (l.foldl (mark segments vi c) st).dsat.getD u 0) ∧
    ∀ u d, ((l.foldl (mark segments vi c) st).neighbor_colors.getD u []).getD d false
      = ((st.neighbor_colors.getD u []).getD d false ||
          (decide (u ∈ l) && (segAt segments u).cross (segAt segments vi) &&
            decide (d = c) && decide (u < st.neighbor_colors.length))) := by
  intro l
  induction l with
  | nil => intro st; exact ⟨rfl, rfl, rfl, fun u => le_refl _, fun u d => by simp⟩
  | cons a rest ih =>
    intro st
    obtain ⟨m1, m2, m3, m4, m5⟩ := mark_spec segments vi c st a
    obtain ⟨i1, i2, i3, i4, i5⟩ := ih (mark segments vi c st a)
    rw [List.foldl_cons]
    refine ⟨i1.trans m1, i2.trans m2, i3.trans m3, fun u => le_trans (m4 u) (i4 u),
      fun u d => ?_⟩
    rw [i5, m5, m3]
    by_cases hu : u = a
    · subst hu
      cases (st.neighbor_colors.getD u []).getD d false <;>
        cases (segAt segments u).cross (segAt segments vi) <;> simp
      exact fun _ h1 h2 => ⟨h1, h2⟩
    · have hu2 : (u ∈ a :: rest) = (u ∈ rest) := by simp [hu]
      simp only [hu, hu2, decide_False, Bool.false_and, Bool.or_false]

theorem paint_fields (segments : List Segment) (vi c : Nat) (st : DSatur) :
    (paint segments vi c st).colorv = st.colorv.set vi (c : Int) ∧
    (paint segments vi c st).uncolored = st.uncolored.erase vi ∧
    (paint segments vi c st).neighbor_colors.length = st.neighbor_colors.length ∧
    (∀ u, st.dsat.getD u 0 ≤ (paint segments vi c st).dsat.getD u 0) ∧
    ∀ u d, u ≠ vi → ((paint segments vi c st).neighbor_colors.getD u []).getD d false
      = ((st.neighbor_colors.getD u []).getD d false ||
          (decide (u ∈ st.uncolored.erase vi) && (segAt segments u).cross (segAt segments vi) &&
            decide (d = c) && decide (u < st.neighbor_colors.length))) := by
  obtain ⟨f1, f2, f3, f4, f5⟩ := foldl_mark_spec segments vi c (st.uncolored.erase vi)
    { st with
      colorv := st.colorv.set vi (c : Int)
      uncolored := st.uncolored.erase vi
      neighbor_colors := st.neighbor_colors.set vi [] }
  refine ⟨f1, f2, f3.trans (List.length_set _ _ _), f4, fun u d hu => ?_⟩
  have h := f5 u d
  simp only [List.length_set] at h
  rw [Conflict.getD_set_eq, if_neg (fun e => hu e.1.symm)] at h
  exact h

theorem paint_inv {segments : List Segment} {st : DSatur} {vi c : Nat}
    (hI : Inv segments st) (hvi : vi ∈ st.uncolored)
    (hc : (st.neighbor_colors.getD vi []).getD c false = false) :
    Inv segments (paint segments vi c st) := by
  obtain ⟨f1, f2, f3, f4, f5⟩ := paint_fields segments vi c st
  have hviN : vi < segments.length := hI.lt vi hvi
  have hmem : ∀ v, v ∉ st.uncolored.erase vi ↔ v = vi ∨ v ∉ st.uncolored := by
    intro v
    rw [hI.nodup.mem_erase_iff]
    constructor
    · intro h
      by_cases e : v = vi
      · exact Or.inl e
      · exact Or.inr (fun hm => h ⟨e, hm⟩)
    · rintro (h | h) ⟨h1, h2⟩
      · exact h1 h
      · exact h h2
  have hcv : ∀ v, (paint segments vi c st).colorv.getD v (-1)
      = if v = vi then (c : Int) else st.colorv.getD v (-1) := by
    intro v
    rw [f1, Conflict.getD_set_eq]
    by_cases e : v = vi
    · subst e
      rw [if_pos ⟨rfl, by rw [hI.len_cv]; exact hviN⟩, if_pos rfl]
    · rw [if_neg (fun h => e h.1.symm), if_neg e]
  have hbad : ∀ j, j < segments.length → j ∉ st.uncolored →
      (segAt segments vi).cross (segAt segments j) = true →
      st.colorv.getD j (-1) ≠ (c : Int) := by
    intro j hj hju hx he
    have := (hI.nc vi hvi c).2 ⟨j, hj, hju, hx, he⟩
    rw [hc] at this
    exact Bool.noConfusion this
  refine ⟨?_, ?_, ?_, ?_, ?_, ?_, ?_, ?_⟩
  · rw [f1, List.length_set]; exact hI.len_cv
  · rw [f3]; exact hI.len_nc
  · rw [f2]; exact hI.nodup.erase vi
  · intro u hu
    rw [f2] at hu
    exact hI.lt u (List.mem_of_mem_erase hu)
  · intro u
    exact le_trans (hI.ds u) (f4 u)
  · intro u hu d
    rw [f2] at hu
    have hu2 := (hI.nodup.mem_erase_iff).1 hu
    rw [f5 u d hu2.1, f2]
    have hlt : u < st.neighbor_colors.length := by rw [hI.len_nc]; exact hI.lt u hu2.2
    simp only [hu, hlt, decide_True, Bool.true_and, Bool.and_true, Bool.or_eq_true,
      Bool.and_eq_true, decide_eq_true_eq]
    rw [hI.nc u hu2.2 d]
    constructor
    · rintro (⟨v, hv, hvu, hx, hcol⟩ | ⟨hx, hd⟩)
      · have hne : v ≠ vi := fun e => hvu (e ▸ hvi)
        exact ⟨v, hv, (hmem v).2 (Or.inr hvu), hx, by rw [hcv, if_neg hne]; exact hcol⟩
      · exact ⟨vi, hviN, (hmem vi).2 (Or.inl rfl), hx, by rw [hcv, if_pos rfl, hd]⟩
    · rintro ⟨v, hv, hvu, hx, hcol⟩
      rw [hcv] at hcol
      by_cases e : v = vi
      · subst e
        rw [if_pos rfl] at hcol
        exact Or.inr ⟨hx, (Int.ofNat_inj.1 hcol).symm⟩
      · rw [if_neg e] at hcol
        rcases (hmem v).1 hvu with h | h
        · exact absurd h e
        · exact Or.inl ⟨v, hv, h, hx, hcol⟩
  · intro v hv hvu
    rw [f2] at hvu
    rw [hcv]
    by_cases e : v = vi
    · rw [if_pos e]; exact Int.ofNat_nonneg c
    · rw [if_neg e]
      rcases (hmem v).1 hvu with h | h
      · exact absurd h e
      · exact hI.col v hv h
  · intro i j hi hj hiu hju hx
    rw [f2] at hiu hju
    rw [hcv, hcv]
    by_cases ei : i = vi
    · by_cases ej : j = vi
      · rw [ei, ej, Segment.cross_self] at hx
        exact Bool.noConfusion hx
      · rw [if_pos ei, if_neg ej]
        rcases (hmem j).1 hju with h | h
        · exact absurd h ej
        · rw [ei] at hx
          exact fun e => hbad j hj h hx e.symm
    · rw [if_neg ei]
      rcases (hmem i).1 hiu with h | h
      · exact absurd h ei
      · by_cases ej : j = vi
        · rw [if_pos ej]
          rw [ej, Segment.cross_comm] at hx
          exact hbad i hi h hx
        · rw [if_neg ej]
          rcases (hmem j).1 hju with h2 | h2
          · exact absurd h2 ej
          · exact hI.valid i j hi hj h h2 hx

theorem foldl_max_spec (f : Nat → Int) :
    ∀ (l : List Nat) (m0 : Int),
      m0 ≤ l.foldl (fun m si => max m (f si)) m0 ∧
      (∀ u ∈ l, f u ≤ l.foldl (fun m si => max m (f si)) m0) ∧
      (l.foldl (fun m si => max m (f si)) m0 = m0 ∨
        ∃ u ∈ l, f u = l.foldl (fun m si => max m (f si)) m0) := by
  intro l
  induction l with
  | nil => intro m0; exact ⟨le_refl _, fun u hu => absurd hu (List.not_mem_nil u), Or.inl rfl⟩
  | cons a rest ih =>
    intro m0
    obtain ⟨h1, h2, h3⟩ := ih (max m0 (f a))
    rw [List.foldl_cons]
    refine ⟨le_trans (le_max_left _ _) h1, ?_, ?_⟩
    · intro u hu
      rcases List.mem_cons.1 hu with e | e
      · rw [e]; exact le_trans (le_max_right _ _) h1
      · exact h2 u e
    · rcases h3 with e | ⟨u, hu, e⟩
      · rcases max_choice m0 (f a) with e2 | e2
        · exact Or.inl (e.trans e2)
        · exact Or.inr ⟨a, List.mem_cons_self _ _, (e.trans e2).symm⟩
      · exact Or.inr ⟨u, List.mem_cons_of_mem _ hu, e⟩

theorem pick_spec {st : DSatur} (r : Nat) (hds : ∀ u, 0 ≤ st.dsat.getD u 0)
    (hne : st.uncolored ≠ []) : ∃ vi ∈ st.uncolored, pick st r = Outcome.returned vi := by
  obtain ⟨u0, hu0⟩ := List.exists_mem_of_ne_nil _ hne
  obtain ⟨h1, h2, h3⟩ := foldl_max_spec (fun si => st.dsat.getD si 0) st.uncolored (-1)
  have hm : ∃ u ∈ st.uncolored, st.dsat.getD u 0
      = st.uncolored.foldl (fun m si => max m (st.dsat.getD si 0)) (-1) := by
    rcases h3 with e | h
    · have := h2 u0 hu0
      have := hds u0
      simp only [] at *
      omega
    · exact h
  obtain ⟨u, hu, he⟩ := hm
  unfold pick candidates
  simp only []
  generalize hcand : (st.uncolored.filter (fun si => decide (st.dsat.getD si 0
      = st.uncolored.foldl (fun m si => max m (st.dsat.getD si 0)) (-1)))).map
    (fun si => (-(st.dsat.getD si 0), -(st.degree.getD si 0), si)) = candidates
  have hmem : ∀ t ∈ candidates, t.2.2 ∈ st.uncolored := by
    intro t ht
    rw [← hcand] at ht
    obtain ⟨si, hsi, rfl⟩ := List.mem_map.1 ht
    exact (List.mem_filter.1 hsi).1
  have hpos : 0 < candidates.length := by
    rw [← hcand, List.length_map]
    exact List.length_pos_of_mem (List.mem_filter.2 ⟨hu, by simpa using he⟩)
  have hlen : (stdSort tupleLt candidates).length = candidates.length :=
    List.length_insertionSort _ _
  have hmin : ¬ min (stdSort tupleLt candidates).length 8 = 0 := by
    rw [hlen]; omega
  rw [if_neg hmin]
  have hidx : r % min (stdSort tupleLt candidates).length 8
      < (stdSort tupleLt candidates).length := by
    have := Nat.mod_lt r (Nat.pos_of_ne_zero hmin)
    omega
  refine ⟨_, ?_, rfl⟩
  rw [List.getD_eq_getElem _ _ hidx]
  apply hmem
  exact (List.mem_insertionSort _).1 (List.getElem_mem hidx)

theorem start_inv (segments : List Segment) : Inv segments (start segments) := by
  refine ⟨?_, ?_, ?_, ?_, ?_, ?_, ?_, ?_⟩
  · exact List.length_replicate _ _
  · exact List.length_replicate _ _
  · exact List.nodup_range _
  · intro u hu; exact List.mem_range.1 hu
  · intro u
    show 0 ≤ (List.replicate segments.length (0 : Int)).getD u 0
    rw [Conflict.getD_replicate_eq]; split_ifs <;> exact le_refl _
  · intro u hu c
    show ((List.replicate segments.length ([] : List Bool)).getD u []).getD c false = true ↔ _
    rw [Conflict.getD_replicate_eq]
    constructor
    · intro h
      split_ifs at h <;> exact Bool.noConfusion h
    · rintro ⟨v, hv, hvu, _⟩
      exact absurd (List.mem_range.2 hv) hvu
  · intro v hv hvu
    exact absurd (List.mem_range.2 hv) hvu
  · intro i j hi _ hiu
    exact absurd (List.mem_range.2 hi) hiu

theorem inv_hulls {segments : List Segment} {st : DSatur} (hI : Inv segments st)
    (h : List (List Point)) : Inv segments { st with colorhulls := h } :=
  ⟨hI.len_cv, hI.len_nc, hI.nodup, hI.lt, hI.ds, hI.nc, hI.col, hI.valid⟩

/-- The loop of `color` under an invariant `P` that the choice of colour keeps:
when the choice always returns an admissible colour, only changing the hulls,
the loop returns within one iteration per uncoloured segment, with no segment
left uncoloured. -/
theorem colorLoop_inv (segments : List Segment)
    (colorChoice : DSatur → Nat → Outcome (Nat × DSatur)) (rnd : Nat → Nat)
    (P : DSatur → Prop)
    (hch : ∀ st vi, Inv segments st → P st → vi ∈ st.uncolored →
      ∃ c h, colorChoice st vi = Outcome.returned (c, { st with colorhulls := h }) ∧
        (st.neighbor_colors.getD vi []).getD c false = false ∧
        P (paint segments vi c { st with colorhulls := h })) :
    ∀ (fuel k : Nat) (st : DSatur), Inv segments st → P st → st.uncolored.length ≤ fuel →
      ∃ st1, colorLoop segments colorChoice rnd fuel k st = Outcome.returned st1 ∧
        Inv segments st1 ∧ P st1 ∧ st1.uncolored = [] := by
  intro fuel
  induction fuel with
  | zero =>
    intro k st hI hP hlen
    have he : st.uncolored = [] := List.length_eq_zero.1 (Nat.le_zero.1 hlen)
    exact ⟨st, by rw [colorLoop, if_pos he], hI, hP, he⟩
  | succ fuel ih =>
    intro k st hI hP hlen
    by_cases he : st.uncolored = []
    · exact ⟨st, by rw [colorLoop, if_pos he], hI, hP, he⟩
    · obtain ⟨vi, hvi, hpick⟩ := pick_spec (rnd k) hI.ds he
      obtain ⟨c, h, hc1, hc2, hc3⟩ := hch st vi hI hP hvi
      have hstep : colorStep segments colorChoice (rnd k) st
          = Outcome.returned (paint segments vi c { st with colorhulls := h }) := by
        unfold colorStep
        rw [hpick, Outcome.bind, hc1, Outcome.bind]
      have hI2 : Inv segments (paint segments vi c { st with colorhulls := h }) :=
        paint_inv (inv_hulls hI h) hvi hc2
      have hlen2 : (paint segments vi c { st with colorhulls := h }).uncolored.length ≤ fuel := by
        rw [(paint_fields segments vi c { st with colorhulls := h }).2.1]
        show (st.uncolored.erase vi).length ≤ fuel
        rw [List.length_erase_of_mem hvi]
        omega
      obtain ⟨st1, h1, h2, h3, h4⟩ := ih (k + 1) _ hI2 hc3 hlen2
      refine ⟨st1, ?_, h2, h3, h4⟩
      rw [colorLoop, if_neg he, hstep, Outcome.bind]
      exact h1

end DSatur

namespace DSatur

theorem firstFree_spec : ∀ row : List Bool,
    row.getD (firstFree row) false = false ∧ ∀ c, c < firstFree row → row.getD c false = true := by
  intro row
  induction row with
  | nil => exact ⟨rfl, fun c hc => absurd hc (Nat.not_lt_zero c)⟩
  | cons b rest ih =>
    cases b with
    | false => exact ⟨rfl, fun c hc => absurd hc (Nat.not_lt_zero c)⟩
    | true =>
      refine ⟨ih.1, fun c hc => ?_⟩
      cases c with
      | zero => rfl
      | succ c => exact ih.2 c (Nat.lt_of_succ_lt_succ hc)

theorem firstFree_eq {row : List Bool} {k : Nat}
    (h : ∀ c, row.getD c false = true ↔ c < k) : firstFree row = k := by
  obtain ⟨h1, h2⟩ := firstFree_spec row
  rcases lt_trichotomy (firstFree row) k with hlt | heq | hgt
  · rw [(h _).2 hlt] at h1
    exact Bool.noConfusion h1
  · exact heq
  · exact absurd ((h k).1 (h2 k hgt)) (lt_irrefl k)

/-- The loop of `DSatur::color()` under an invariant `P` kept by painting a segment
with its first available colour. -/
theorem color_inv (segments : List Segment) (rnd : Nat → Nat) (P : DSatur → Prop)
    (h0 : P (start segments))
    (hP : ∀ st vi, Inv segments st → P st → vi ∈ st.uncolored →
      P (paint segments vi (first_available st vi) st)) :
    ∃ st1, color segments rnd = Outcome.returned st1 ∧
      Inv segments st1 ∧ P st1 ∧ st1.uncolored = [] := by
  apply colorLoop_inv segments _ rnd P _ segments.length 0 (start segments)
    (start_inv segments) h0
  · show (List.range segments.length).length ≤ segments.length
    rw [List.length_range]
  · intro st vi hI hPs hvi
    exact ⟨first_available st vi, st.colorhulls, rfl,
      (firstFree_spec (st.neighbor_colors.getD vi [])).1, hP st vi hI hPs hvi⟩

end DSatur

/-! ### `numColors` -/

theorem Solution.numColors_eq (cv : List Int) (m : Int) (hmem : m ∈ cv)
    (hle : ∀ x ∈ cv, x ≤ m) : Solution.numColors cv = Outcome.returned (1 + m) := by
  haveI : Std.Antisymm (fun (a b : Int) => a ≤ b) := ⟨fun h1 h2 => le_antisymm h1 h2⟩
  have h : cv.max? = some m :=
    (List.max?_eq_some_iff (fun a => le_refl a) (fun a b => max_choice a b)
      (fun a b c => max_le_iff)).2 ⟨hmem, hle⟩
  unfold Solution.numColors
  rw [h]

theorem Solution.numColors_of_getD (cv : List Int) (m : Int) (i0 : Nat)
    (h0 : i0 < cv.length) (hm : cv.getD i0 (-1) = m)
    (hle : ∀ i, i < cv.length → cv.getD i (-1) ≤ m) :
    Solution.numColors cv = Outcome.returned (1 + m) := by
  apply Solution.numColors_eq
  · rw [← hm, List.getD_eq_getElem _ _ h0]
    exact List.getElem_mem h0
  · intro x hx
    obtain ⟨i, hi, e⟩ := List.mem_iff_getElem.1 hx
    have := hle i hi
    rw [List.getD_eq_getElem _ _ hi, e] at this
    exact this

namespace DSatur

theorem paint_colorv {segments : List Segment} {st : DSatur} {vi : Nat} (c : Nat)
    (hI : Inv segments st) (hvi : vi ∈ st.uncolored) (v : Nat) :
    (paint segments vi c st).colorv.getD v (-1)
      = if v = vi then (c : Int) else st.colorv.getD v (-1) := by
  rw [(paint_fields segments vi c st).1, Conflict.getD_set_eq]
  by_cases e : v = vi
  · subst e
    rw [if_pos ⟨rfl, by rw [hI.len_cv]; exact hI.lt v hvi⟩, if_pos rfl]
  · rw [if_neg (fun h => e h.1.symm), if_neg e]

theorem paint_not_mem {segments : List Segment} {st : DSatur} (vi c : Nat)
    (hI : Inv segments st) (v : Nat) :
    v ∉ (paint segments vi c st).uncolored ↔ v = vi ∨ v ∉ st.uncolored := by
  rw [(paint_fields segments vi c st).2.1, hI.nodup.mem_erase_iff]
  constructor
  · intro h
    by_cases e : v = vi
    · exact Or.inl e
    · exact Or.inr (fun hm => h ⟨e, hm⟩)
  · rintro (h | h) ⟨h1, h2⟩
    · exact h1 h
    · exact h h2

/-- When all segments pairwise cross, `DSatur::color()` gives the colours
`0, …, N-1`, each to exactly one segment, and `numColors()` is `N`. -/
theorem dsatur_color_all_cross (segments : List Segment) (rnd : Nat → Nat)
    (hN : 0 < segments.length)
    (hX : ∀ i j, i < segments.length → j < segments.length → i ≠ j →
      (segAt segments i).cross (segAt segments j) = true) :
    ∃ st, color segments rnd = Outcome.returned st ∧
      (∀ c : Nat, c < segments.length → ∃ i, i < segments.length ∧
        st.colorv.getD i (-1) = (c : Int) ∧
        ∀ j, j < segments.length → st.colorv.getD j (-1) = (c : Int) → j = i) ∧
      Solution.numColors st.colorv = Outcome.returned (segments.length : Int) := by
  obtain ⟨st, h1, hI, hP, h2⟩ := color_inv segments rnd
    (fun st => st.uncolored.length ≤ segments.length ∧ ∀ c : Nat,
      (∃ v, v < segments.length ∧ v ∉ st.uncolored ∧ st.colorv.getD v (-1) = (c : Int)) ↔
        c + st.uncolored.length < segments.length)
    (by
      refine ⟨by show (List.range _).length ≤ _; rw [List.length_range], fun c => ?_⟩
      constructor
      · rintro ⟨v, hv, hvu, _⟩
        exact absurd (List.mem_range.2 hv) hvu
      · intro h
        have : (start segments).uncolored.length = segments.length := List.length_range _
        omega)
    (by
      intro st vi hI ⟨hle, hP⟩ hvi
      have hpos : 0 < st.uncolored.length := List.length_pos_of_mem hvi
      have hk : first_available st vi = segments.length - st.uncolored.length := by
        apply firstFree_eq
        intro c
        rw [hI.nc vi hvi c]
        constructor
        · rintro ⟨v, hv, hvu, _, hcol⟩
          have := (hP c).1 ⟨v, hv, hvu, hcol⟩
          omega
        · intro hc
          obtain ⟨v, hv, hvu, hcol⟩ := (hP c).2 (by omega)
          exact ⟨v, hv, hvu, hX vi v (hI.lt vi hvi) hv (fun e => hvu (e ▸ hvi)), hcol⟩
      have hlen : (paint segments vi (first_available st vi) st).uncolored.length
          = st.uncolored.length - 1 := by
        rw [(paint_fields segments vi _ st).2.1, List.length_erase_of_mem hvi]
      refine ⟨by omega, fun c => ?_⟩
      rw [hlen]
      constructor
      · rintro ⟨v, hv, hvu, hcol⟩
        rw [paint_colorv _ hI hvi] at hcol
        by_cases e : v = vi
        · rw [if_pos e, hk] at hcol
          have : segments.length - st.uncolored.length = c := Int.ofNat_inj.1 hcol
          omega
        · rw [if_neg e] at hcol
          rcases (paint_not_mem vi _ hI v).1 hvu with h | h
          · exact absurd h e
          · have := (hP c).1 ⟨v, hv, h, hcol⟩
            omega
      · intro hc
        by_cases e : c + st.uncolored.length < segments.length
        · obtain ⟨v, hv, hvu, hcol⟩ := (hP c).2 e
          have hne : v ≠ vi := fun e => hvu (e ▸ hvi)
          refine ⟨v, hv, (paint_not_mem vi _ hI v).2 (Or.inr hvu), ?_⟩
          rw [paint_colorv _ hI hvi, if_neg hne]
          exact hcol
        · refine ⟨vi, hI.lt vi hvi, (paint_not_mem vi _ hI vi).2 (Or.inl rfl), ?_⟩
          rw [paint_colorv _ hI hvi, if_pos rfl, hk]
          have : segments.length - st.uncolored.length = c := by omega
          rw [this])
  have hno : ∀ i, i ∉ st.uncolored := by
    intro i; rw [h2]; exact List.not_mem_nil i
  have hP2 : ∀ c : Nat, (∃ v, v < segments.length ∧ st.colorv.getD v (-1) = (c : Int)) ↔
      c < segments.length := by
    intro c
    have := hP.2 c
    rw [h2, List.length_nil, Nat.add_zero] at this
    rw [← this]
    constructor
    · rintro ⟨v, hv, hcol⟩
      exact ⟨v, hv, List.not_mem_nil v, hcol⟩
    · rintro ⟨v, hv, _, hcol⟩
      exact ⟨v, hv, hcol⟩
  refine ⟨st, h1, fun c hc => ?_, ?_⟩
  · obtain ⟨i, hi, hcol⟩ := (hP2 c).2 hc
    refine ⟨i, hi, hcol, fun j hj hcj => ?_⟩
    by_contra hne
    exact hI.valid j i hj hi (hno j) (hno i) (hX j i hj hi hne) (hcj.trans hcol.symm)
  · obtain ⟨i0, hi0, hcol0⟩ := (hP2 (segments.length - 1)).2 (by omega)
    have hm : (1 : Int) + ((segments.length - 1 : Nat) : Int) = (segments.length : Int) := by
      omega
    rw [← hm]
    apply Solution.numColors_of_getD st.colorv _ i0 (by rw [hI.len_cv]; exact hi0) hcol0
    intro i hi
    rw [hI.len_cv] at hi
    have h0 := hI.col i hi (hno i)
    have hc := (hP2 (st.colorv.getD i (-1)).toNat).1 ⟨i, hi, (Int.toNat_of_nonneg h0).symm⟩
    omega

/-- When no two segments cross, `DSatur::color()` gives colour `0` to every
segment, and `numColors()` is `1`. -/
theorem dsatur_color_no_cross (segments : List Segment) (rnd : Nat → Nat)
    (hN : 0 < segments.length)
    (hX : ∀ i j, i < segments.length → j < segments.length →
      (segAt segments i).cross (segAt segments j) = false) :
    ∃ st, color segments rnd = Outcome.returned st ∧
      Solution.numColors st.colorv = Outcome.returned 1 := by
  obtain ⟨st, h1, hI, hP, h2⟩ := color_inv segments rnd
    (fun st => ∀ v, v < segments.length → v ∉ st.uncolored → st.colorv.getD v (-1) = 0)
    (fun v hv hvu => absurd (List.mem_range.2 hv) hvu)
    (by
      intro st vi hI hP hvi v hv hvu
      have hk : first_available st vi = 0 := by
        apply firstFree_eq
        intro c
        rw [hI.nc vi hvi c]
        constructor
        · rintro ⟨w, hw, _, hx, _⟩
          rw [hX vi w (hI.lt vi hvi) hw] at hx
          exact Bool.noConfusion hx
        · intro hc
          exact absurd hc (Nat.not_lt_zero c)
      rw [paint_colorv _ hI hvi, hk]
      by_cases e : v = vi
      · rw [if_pos e]; rfl
      · rw [if_neg e]
        rcases (paint_not_mem vi _ hI v).1 hvu with h | h
        · exact absurd h e
        · exact hP v hv h)
  have hno : ∀ i, i ∉ st.uncolored := by
    intro i; rw [h2]; exact List.not_mem_nil i
  refine ⟨st, h1, ?_⟩
  exact Solution.numColors_of_getD st.colorv 0 0 (by rw [hI.len_cv]; exact hN)
    (hP 0 hN (hno 0)) (fun i hi => le_of_eq (hP i (by rw [← hI.len_cv]; exact hi) (hno i)))

end DSatur

namespace Greedy

/-! ### Greedy on pairwise crossing and on pairwise non-crossing segments -/

theorem foldr_place_all_cross (segs : List Segment) :
    ∀ l : List Nat, l.Nodup →
      (∀ i ∈ l, ∀ j ∈ l, i ≠ j → (segAt segs i).cross (segAt segs j) = true) →
      l.foldr (place segs) [] = l.reverse.map (fun i => [i]) := by
  intro l
  induction l with
  | nil => intro _ _; rfl
  | cons a rest ih =>
    intro hnd hX
    have hrest := ih (List.nodup_cons.1 hnd).2
      (fun i hi j hj => hX i (List.mem_cons_of_mem _ hi) j (List.mem_cons_of_mem _ hj))
    rw [List.foldr_cons, hrest, List.reverse_cons, List.map_append]
    rcases place_cases segs a (rest.reverse.map (fun i => [i])) with ⟨h1, _⟩ |
      ⟨pre, cl, post, h1, _, h3, _⟩
    · exact h1
    · exfalso
      have hcl : cl ∈ rest.reverse.map (fun i => [i]) := by
        rw [h1]; exact List.mem_append_right _ (List.mem_cons_self _ _)
      obtain ⟨j, hj, rfl⟩ := List.mem_map.1 hcl
      have hj2 : j ∈ rest := List.mem_reverse.1 hj
      have hne : a ≠ j := fun e => (List.nodup_cons.1 hnd).1 (e ▸ hj2)
      have := (classValid_iff segs a [j]).1 h3 j (List.mem_singleton_self j)
      rw [hX a (List.mem_cons_self _ _) j (List.mem_cons_of_mem _ hj2) hne] at this
      exact Bool.noConfusion this

theorem foldr_place_no_cross (segs : List Segment) :
    ∀ l : List Nat, l ≠ [] →
      (∀ i ∈ l, ∀ j ∈ l, (segAt segs i).cross (segAt segs j) = false) →
      l.foldr (place segs) [] = [l.reverse] := by
  intro l
  induction l with
  | nil => intro h _; exact absurd rfl h
  | cons a rest ih =>
    intro _ hX
    rw [List.foldr_cons]
    by_cases hr : rest = []
    · subst hr
      rcases place_cases segs a [] with ⟨h1, _⟩ | ⟨pre, cl, post, h1, _, _, _⟩
      · exact h1
      · exact absurd h1 (by simp)
    · rw [ih hr (fun i hi j hj => hX i (List.mem_cons_of_mem _ hi) j (List.mem_cons_of_mem _ hj))]
      rcases place_cases segs a [rest.reverse] with ⟨_, h2⟩ | ⟨pre, cl, post, h1, h2, _, _⟩
      · exfalso
        have hv : classValid segs a rest.reverse = true :=
          (classValid_iff segs a _).2 (fun ti hti =>
            hX a (List.mem_cons_self _ _) ti (List.mem_cons_of_mem _ (List.mem_reverse.1 hti)))
        rw [h2 _ (List.mem_singleton_self _)] at hv
        exact Bool.noConfusion hv
      · cases pre with
        | nil =>
          rw [List.nil_append] at h1 h2
          injection h1 with e1 e2
          rw [h2, ← e1, ← e2, List.reverse_cons]
        | cons x pre =>
          rw [List.cons_append] at h1
          injection h1 with _ e2
          exact absurd e2.symm (by simp)

theorem uncolored_eq_reverse (n : Nat) :
    (List.range n).map (fun si => n - si - 1) = (List.range n).reverse := by
  rw [List.range_eq_range', List.reverse_range', ← List.range_eq_range']
  apply List.map_congr_left
  intro a _
  omega

/-- When all segments pairwise cross, `Greedy::color()` makes the `N` singleton
classes `{0}, …, {N-1}` and `numColors()` is `N`. -/
theorem greedy_color_all_cross (segs : List Segment) (hN : 0 < segs.length)
    (hX : ∀ i j, i < segs.length → j < segs.length → i ≠ j →
      (segAt segs i).cross (segAt segs j) = true) :
    (color segs).classes = (List.range segs.length).map (fun i => [i]) ∧
    Solution.numColors (color segs).colorv = Outcome.returned (segs.length : Int) := by
  have hcl : (color segs).classes = (List.range segs.length).map (fun i => [i]) := by
    show ((List.range segs.length).map (fun si => segs.length - si - 1)).foldr (place segs) []
      = _
    rw [uncolored_eq_reverse, foldr_place_all_cross segs _
      (List.nodup_reverse.2 (List.nodup_range _))
      (fun i hi j hj => hX i j (List.mem_range.1 (List.mem_reverse.1 hi))
        (List.mem_range.1 (List.mem_reverse.1 hj))),
      List.reverse_reverse]
  refine ⟨hcl, ?_⟩
  have hcv : ∀ i, i < segs.length → (color segs).colorv.getD i (-1) = (i : Int) := by
    intro i hi
    rw [color_colorv_iff segs i i hi, hcl, List.getD_eq_getElem _ _
      (by rw [List.length_map, List.length_range]; exact hi)]
    simp
  have hm : (1 : Int) + ((segs.length - 1 : Nat) : Int) = (segs.length : Int) := by omega
  rw [← hm]
  apply Solution.numColors_of_getD _ _ (segs.length - 1)
    (by rw [color_colorv_length]; omega) (hcv _ (by omega))
  intro i hi
  rw [color_colorv_length] at hi
  rw [hcv i hi]
  omega

/-- When no two segments cross, `greedy` on a vector `uncolored` holding every
index once makes one class and `numColors()` is `1`. -/
theorem greedy_no_cross (segs : List Segment) (unc : List Nat) (hN : 0 < segs.length)
    (hperm : unc.Perm (List.range segs.length))
    (hX : ∀ i j, i < segs.length → j < segs.length →
      (segAt segs i).cross (segAt segs j) = false) :
    (greedy segs unc (clearSol segs)).classes = [unc.reverse] ∧
    Solution.numColors (greedy segs unc (clearSol segs)).colorv = Outcome.returned 1 := by
  have hmem : ∀ i, i ∈ unc ↔ i < segs.length := fun i =>
    (hperm.mem_iff).trans List.mem_range
  have hne : unc ≠ [] := by
    intro e
    have := (hmem 0).2 hN
    rw [e] at this
    exact absurd this (List.not_mem_nil 0)
  have hcl : unc.foldr (place segs) [] = [unc.reverse] :=
    foldr_place_no_cross segs unc hne
      (fun i hi j hj => hX i j ((hmem i).1 hi) ((hmem j).1 hj))
  refine ⟨hcl, ?_⟩
  show Solution.numColors (build_colorv (unc.foldr (place segs) [])
    (List.replicate segs.length (-1))) = _
  rw [hcl]
  have hlen : (build_colorv [unc.reverse] (List.replicate segs.length (-1))).length
      = segs.length := by
    rw [build_colorv_length, List.length_replicate]
  have hcv : ∀ i, i < segs.length →
      (build_colorv [unc.reverse] (List.replicate segs.length (-1))).getD i (-1) = 0 := by
    intro i hi
    exact build_colorv_of_mem [unc.reverse] _ (-1) i 0 (by simp)
      (by simpa using (hmem i).2 hi) (by rw [List.length_replicate]; exact hi)
      (fun c' h1 h2 => by simp at h2; omega)
  exact Solution.numColors_of_getD _ 0 0 (by rw [hlen]; exact hN) (hcv 0 hN)
    (fun i hi => le_of_eq (hcv i (by rw [← hlen]; exact hi)))

end Greedy

/-! ### Angle and Bad on pairwise non-crossing segments -/

theorem Angle.angle_uncolored_perm (indices : List Nat) (n k : Nat) (hlen : indices.length = n) :
    ((List.range n).map (fun si => indices.getD ((si + k) % n) 0)).Perm indices := by
  have h : (List.range n).map (fun si => indices.getD ((si + k) % n) 0) = indices.rotate k := by
    apply List.ext_getElem
    · rw [List.length_map, List.length_range, List.length_rotate, hlen]
    · intro i h1 h2
      rw [List.getElem_map, List.getElem_range, List.getElem_rotate]
      rw [List.length_rotate] at h2
      have hlt : (i + k) % n < indices.length := by
        rw [hlen]; exact Nat.mod_lt _ (by omega)
      rw [List.getD_eq_getElem _ _ hlt]
      simp only [hlen]
  rw [h]
  exact List.rotate_perm _ _

/-- When no two segments cross, `Angle::color()` gives `numColors() = 1`, for
every sorted order `indices` of the indices and every value `r` of `rand()`. -/
theorem Angle.angle_color_no_cross (segs : List Segment) (indices : List Nat) (r : Nat)
    (hN : 0 < segs.length) (hperm : indices.Perm (List.range segs.length))
    (hX : ∀ i j, i < segs.length → j < segs.length →
      (segAt segs i).cross (segAt segs j) = false) :
    ∃ g, Angle.color segs indices r = Outcome.returned g ∧
      Solution.numColors g.colorv = Outcome.returned 1 := by
  have hlen : indices.length = segs.length := by
    rw [hperm.length_eq, List.length_range]
  unfold Angle.color
  rw [if_neg (by omega)]
  exact ⟨_, rfl, (Greedy.greedy_no_cross segs _ hN
    ((Angle.angle_uncolored_perm indices segs.length _ hlen).trans hperm) hX).2⟩

/-- When no two segments cross, `Bad::color()` gives `numColors() = 1` from a state
whose sets `good` and `bad` are both empty (the first call) or hold every index
once between them, and leaves such a state; `ord` may be any listing that keeps
the elements. -/
theorem Bad.bad_color_no_cross (segs : List Segment) (ord : List Nat → List Nat) (st : Bad)
    (hord : ∀ l, (ord l).Perm l)
    (hN : 0 < segs.length)
    (hst : (st.good = [] ∧ st.bad = []) ∨ (st.good ++ st.bad).Perm (List.range segs.length))
    (hX : ∀ i j, i < segs.length → j < segs.length →
      (segAt segs i).cross (segAt segs j) = false) :
    ∃ st1, Bad.color segs ord st = Outcome.returned st1 ∧
      Solution.numColors st1.greedy.colorv = Outcome.returned 1 ∧
      (st1.good ++ st1.bad).Perm (List.range segs.length) := by
  unfold Bad.color
  simp only []
  generalize hg : (if st.good = [] ∧ st.bad = [] then ord (List.range segs.length)
    else st.good) = good
  have hperm : (good ++ st.bad).Perm (List.range segs.length) := by
    rw [← hg]
    rcases hst with ⟨h1, h2⟩ | h
    · rw [if_pos ⟨h1, h2⟩, h2, List.append_nil]; exact hord _
    · by_cases e : st.good = [] ∧ st.bad = []
      · rw [if_pos e, e.2, List.append_nil]; exact hord _
      · rw [if_neg e]; exact h
  obtain ⟨hcl, hnum⟩ := Greedy.greedy_no_cross segs (good ++ st.bad) hN hperm hX
  rw [hcl]
  refine ⟨{ greedy := Greedy.greedy segs (good ++ st.bad) (Greedy.clearSol segs)
            good := good.filter (fun vi => !(good ++ st.bad).reverse.contains vi)
            bad := ord (st.bad ++
              (good ++ st.bad).reverse.filter (fun vi => !st.bad.contains vi)) },
    rfl, hnum, ?_⟩
  show (good.filter (fun vi => !(good ++ st.bad).reverse.contains vi) ++
    ord (st.bad ++ (good ++ st.bad).reverse.filter (fun vi => !st.bad.contains vi))).Perm _
  have hnd : (good ++ st.bad).Nodup := hperm.nodup_iff.2 (List.nodup_range _)
  have hbad : st.bad.Nodup := (List.nodup_append.1 hnd).2.1
  have hfil : good.filter (fun vi => !(good ++ st.bad).reverse.contains vi) = [] := by
    rw [List.filter_eq_nil_iff]
    intro a ha
    simp [ha]
  rw [hfil, List.nil_append]
  refine (hord _).trans ?_
  rw [List.perm_ext_iff_of_nodup _ (List.nodup_range _)]
  · intro a
    rw [← hperm.mem_iff]
    simp only [List.mem_append, List.mem_filter, List.mem_reverse, List.contains_eq_any_beq,
      Bool.not_eq_true', List.any_eq_false, beq_iff_eq]
    constructor
    · rintro (h | ⟨h, _⟩)
      · exact Or.inr h
      · exact h
    · intro h
      by_cases hb : a ∈ st.bad
      · exact Or.inl hb
      · exact Or.inr ⟨h, fun x hx e => hb (e ▸ hx)⟩
  · rw [List.nodup_append]
    refine ⟨hbad, (List.nodup_reverse.2 hnd).filter _, ?_⟩
    intro a ha hb
    have := (List.mem_filter.1 hb).2
    simp [ha] at this

namespace Conflict

/-! ### `init_solution` on pairwise crossing segments -/

theorem insertNew_all_cross (segs : List Segment) (k : Nat) (hk : k < segs.length)
    (hX : ∀ i j, i < segs.length → j < segs.length → i ≠ j →
      (segAt segs i).cross (segAt segs j) = true) :
    insertNew (generate_intersection_map segs) ((List.range k).map (fun i => [i])) k
      = (List.range (k + 1)).map (fun i => [i]) := by
  have hnone : firstAdmissible (generate_intersection_map segs)
      ((List.range k).map (fun i => [i])) k = none := by
    unfold firstAdmissible
    rw [List.find?_eq_none]
    intro c hc
    rw [List.length_map, List.length_range] at hc
    have hck : c < k := List.mem_range.1 hc
    have hx : crosses (generate_intersection_map segs) k c = true :=
      (crosses_generate segs k c).2 (Or.inr ⟨hck, hk, hX c k (by omega) hk (by omega)⟩)
    unfold edge_can_be_added_to_graph
    rw [List.getD_eq_getElem _ _ (by rw [List.length_map, List.length_range]; exact hck)]
    simp [hx]
  unfold insertNew
  rw [hnone, List.range_succ, List.map_append]
  rfl

/-- When all segments pairwise cross, `init_solution` (no solution to read, no
class yet) makes the `N` singleton classes `{0}, …, {N-1}`. -/
theorem init_solution_all_cross (segs : List Segment)
    (hX : ∀ i j, i < segs.length → j < segs.length → i ≠ j →
      (segAt segs i).cross (segAt segs j) = true) :
    init_solution segs.length (generate_intersection_map segs) []
      = (List.range segs.length).map (fun i => [i]) := by
  have h : ∀ k, k ≤ segs.length →
      (List.range k).foldl (insertNew (generate_intersection_map segs)) []
        = (List.range k).map (fun i => [i]) := by
    intro k
    induction k with
    | zero => intro _; rfl
    | succ k ih =>
      intro hk
      rw [List.range_succ, List.foldl_append, ih (by omega), List.foldl_cons, List.foldl_nil,
        insertNew_all_cross segs k (by omega) hX, List.range_succ]
  exact h segs.length (le_refl _)

end Conflict

namespace DSatHull

/-! ### A run of DSatHull in which `bestAvailable` finds no best colour -/

set_option maxRecDepth 1000000 in
/-- On the two non-crossing segments of `bigTriangle`, whichever is coloured first,
the hull of the three endpoints has doubled area `LLONG_MAX` exactly, no
`diff < bestdiff` holds, `bestc` stays `-1` and `colorhulls[bestc]` is out of
bounds. -/
theorem color_fails (rnd : Nat → Nat) : color bigTriangle rnd = Outcome.outOfBounds := by
  have hc0 : DSatur.candidates (DSatur.start bigTriangle) = [(0, 0, 0), (0, 0, 1)] := by
    decide
  have hp0 : DSatur.pick (DSatur.start bigTriangle) (rnd 0)
      = Outcome.returned (rnd 0 % 2) := by
    unfold DSatur.pick
    rw [hc0]
    rcases Nat.mod_two_eq_zero_or_one (rnd 0) with h | h
    · simp [h]
    · simp [h]
  have hp1 : ∀ st : DSatur, ∀ t : Int × Int × Nat, DSatur.candidates st = [t] →
      DSatur.pick st (rnd 1) = Outcome.returned t.2.2 := by
    intro st t ht
    unfold DSatur.pick
    rw [ht]
    simp [Nat.mod_one]
  unfold color DSatur.colorWith
  show DSatur.colorLoop _ _ rnd 2 0 _ = _
  rw [DSatur.colorLoop, if_neg (by decide), DSatur.colorStep, hp0, Outcome.bind]
  rcases Nat.mod_two_eq_zero_or_one (rnd 0) with h | h
  · rw [h]
    have hb : bestAvailable bigTriangle (DSatur.start bigTriangle) 0
        = Outcome.returned (0, { DSatur.start bigTriangle with
            colorhulls := [[⟨-1161911544, -1984525431⟩, ⟨1161911545, -1984525431⟩]] }) := by
      decide
    rw [hb]
    simp only [Outcome.bind]
    rw [DSatur.colorLoop]
    have hne : (DSatur.paint bigTriangle 0 0 { DSatur.start bigTriangle with
        colorhulls := [[⟨-1161911544, -1984525431⟩, ⟨1161911545, -1984525431⟩]] }).uncolored
          ≠ [] := by decide
    rw [if_neg hne, DSatur.colorStep, hp1 _ (0, 0, 1) (by decide)]
    simp only [Outcome.bind]
    have hb2 : bestAvailable bigTriangle (DSatur.paint bigTriangle 0 0
        { DSatur.start bigTriangle with
          colorhulls := [[⟨-1161911544, -1984525431⟩, ⟨1161911545, -1984525431⟩]] }) 1
        = Outcome.outOfBounds := by decide
    rw [hb2]
  · rw [h]
    have hb : bestAvailable bigTriangle (DSatur.start bigTriangle) 1
        = Outcome.returned (0, { DSatur.start bigTriangle with
            colorhulls := [[⟨-1161911544, -1984525431⟩, ⟨-1161911544, 1984525432⟩]] }) := by
      decide
    rw [hb]
    simp only [Outcome.bind]
    rw [DSatur.colorLoop]
    have hne : (DSatur.paint bigTriangle 1 0 { DSatur.start bigTriangle with
        colorhulls := [[⟨-1161911544, -1984525431⟩, ⟨-1161911544, 1984525432⟩]] }).uncolored
          ≠ [] := by decide
    rw [if_neg hne, DSatur.colorStep, hp1 _ (0, 0, 0) (by decide)]
    simp only [Outcome.bind]
    have hb2 : bestAvailable bigTriangle (DSatur.paint bigTriangle 1 0
        { DSatur.start bigTriangle with
          colorhulls := [[⟨-1161911544, -1984525431⟩, ⟨-1161911544, 1984525432⟩]] }) 0
        = Outcome.outOfBounds := by decide
    rw [hb2]

end DSatHull

/-- When no two segments cross, `Greedy::color()` gives `numColors() = 1`. -/
theorem Greedy.greedy_color_no_cross (segs : List Segment) (hN : 0 < segs.length)
    (hX : ∀ i j, i < segs.length → j < segs.length →
      (segAt segs i).cross (segAt segs j) = false) :
    Solution.numColors (Greedy.color segs).colorv = Outcome.returned 1 :=
  (Greedy.greedy_no_cross segs _ hN (Greedy.uncolored_perm segs.length) hX).2

/-- When no two of the `N ≥ 1` segments cross, `Greedy`, `Angle` (for every sorted
order and value of `rand()`), `Bad` (first call, for every listing order of its
sets) and `DSatur` (for every sequence of values of `rand()`) all return with
`numColors() = 1`. -/
theorem noncrossing_one_colour (segs : List Segment) (hN : 1 ≤ segs.length)
    (hX : ∀ i j, i < segs.length → j < segs.length →
      (segAt segs i).cross (segAt segs j) = false) :
    Solution.numColors (Greedy.color segs).colorv = Outcome.returned 1 ∧
    (∀ indices r, indices.Perm (List.range segs.length) →
      ∃ g, Angle.color segs indices r = Outcome.returned g ∧
        Solution.numColors g.colorv = Outcome.returned 1) ∧
    (∀ ord : List Nat → List Nat, (∀ l, (ord l).Perm l) →
      ∃ st, Bad.color segs ord { greedy := Greedy.clearSol segs, good := [], bad := [] }
          = Outcome.returned st ∧
        Solution.numColors st.greedy.colorv = Outcome.returned 1) ∧
    (∀ rnd, ∃ st, DSatur.color segs rnd = Outcome.returned st ∧
      Solution.numColors st.colorv = Outcome.returned 1) := by
  refine ⟨Greedy.greedy_color_no_cross segs hN hX,
    fun indices r hperm => Angle.angle_color_no_cross segs indices r hN hperm hX,
    fun ord hord => ?_, fun rnd => DSatur.dsatur_color_no_cross segs rnd hN hX⟩
  obtain ⟨st, h1, h2, _⟩ := Bad.bad_color_no_cross segs ord
    { greedy := Greedy.clearSol segs, good := [], bad := [] } hord hN (Or.inl ⟨rfl, rfl⟩) hX
  exact ⟨st, h1, h2⟩

namespace Conflict

/-! ### Classes up to the order inside each class -/

theorem PermClasses.refl (a : List (List Nat)) : PermClasses a a :=
  ⟨rfl, fun _ => List.Perm.refl _⟩

theorem PermClasses.symm {a b : List (List Nat)} (h : PermClasses a b) : PermClasses b a :=
  ⟨h.1.symm, fun c => (h.2 c).symm⟩

theorem PermClasses.trans {a b c : List (List Nat)} (h1 : PermClasses a b)
    (h2 : PermClasses b c) : PermClasses a c :=
  ⟨h1.1.trans h2.1, fun i => (h1.2 i).trans (h2.2 i)⟩

theorem PermClasses.set {a b : List (List Nat)} (h : PermClasses a b) (c : Nat)
    {x y : List Nat} (hxy : x.Perm y) : PermClasses (a.set c x) (b.set c y) := by
  refine ⟨by rw [List.length_set, List.length_set]; exact h.1, fun i => ?_⟩
  rw [getD_set_eq, getD_set_eq, h.1]
  by_cases hc : c = i ∧ c < b.length
  · rw [if_pos hc, if_pos hc]; exact hxy
  · rw [if_neg hc, if_neg hc]; exact h.2 i

theorem PermClasses.flatten : ∀ {a b : List (List Nat)}, PermClasses a b →
    a.flatten.Perm b.flatten := by
  intro a
  induction a with
  | nil =>
    intro b h
    have : b = [] := List.length_eq_zero.1 h.1.symm
    rw [this]
  | cons x a ih =>
    intro b h
    cases b with
    | nil => exact absurd h.1 (by simp)
    | cons y b =>
      rw [List.flatten_cons, List.flatten_cons]
      have h0 : x.Perm y := h.2 0
      have h1 : PermClasses a b :=
        ⟨Nat.succ.inj h.1, fun c => h.2 (c + 1)⟩
      exact h0.append (ih h1)

theorem flatten_set_perm : ∀ (cls : List (List Nat)) (c : Nat) (v : List Nat),
    c < cls.length → ((cls.set c v).flatten ++ cls.getD c []).Perm (cls.flatten ++ v) := by
  intro cls
  induction cls with
  | nil => intro c v hc; exact absurd hc (Nat.not_lt_zero c)
  | cons x cls ih =>
    intro c v hc
    cases c with
    | zero =>
      show (v ++ cls.flatten ++ x).Perm (x ++ cls.flatten ++ v)
      rw [List.perm_iff_count]
      intro a
      simp only [List.count_append]
      omega
    | succ c =>
      show (x ++ (cls.set c v).flatten ++ cls.getD c []).Perm (x ++ cls.flatten ++ v)
      rw [List.append_assoc, List.append_assoc]
      exact List.Perm.append_left _ (ih c v (Nat.lt_of_succ_lt_succ hc))

theorem undo_change_length (cls : List (List Nat)) (evt : stack_event_t) :
    (undo_change cls evt).length = cls.length := by
  cases evt <;> exact List.length_set _ _ _

theorem undo_changes_length (cls : List (List Nat)) (evts : List stack_event_t) :
    (undo_changes cls evts).length = cls.length := by
  induction evts with
  | nil => rfl
  | cons evt rest ih =>
    show (undo_change (undo_changes cls rest) evt).length = _
    rw [undo_change_length, ih]

theorem undo_changes_append (cls : List (List Nat)) (e1 e2 : List stack_event_t) :
    undo_changes cls (e1 ++ e2) = undo_changes (undo_changes cls e2) e1 := by
  unfold undo_changes
  rw [List.foldr_append]

theorem PermClasses.undo_change {a b : List (List Nat)} (h : PermClasses a b)
    (evt : stack_event_t) : PermClasses (Conflict.undo_change a evt) (Conflict.undo_change b evt) := by
  cases evt with
  | added c e => exact h.set c ((h.2 c).erase e)
  | removed c e => exact h.set c ((h.2 c).append_right [e])

theorem PermClasses.undo_changes {a b : List (List Nat)} (h : PermClasses a b)
    (evts : List stack_event_t) :
    PermClasses (Conflict.undo_changes a evts) (Conflict.undo_changes b evts) := by
  induction evts with
  | nil => exact h
  | cons evt rest ih => exact ih.undo_change evt

theorem set_getD_self (cls : List (List Nat)) (c : Nat) : cls.set c (cls.getD c []) = cls := by
  by_cases hc : c < cls.length
  · rw [List.getD_eq_getElem _ _ hc]
    apply List.ext_getElem (List.length_set _ _ _)
    intro n h1 h2
    rw [List.getElem_set]
    split_ifs with e
    · subst e; rfl
    · rfl
  · exact List.set_eq_of_length_le (not_lt.1 hc)

theorem set_set_getD (cls : List (List Nat)) (c : Nat) (v : List Nat) (f : List Nat → List Nat) :
    (cls.set c v).set c (f ((cls.set c v).getD c [])) = cls.set c (if c < cls.length then f v
      else []) := by
  rw [List.set_set]
  by_cases hc : c < cls.length
  · rw [getD_set_eq, if_pos ⟨rfl, hc⟩, if_pos hc]
  · rw [List.set_eq_of_length_le (not_lt.1 hc), List.set_eq_of_length_le (not_lt.1 hc)]

theorem remove_edges_eq (c : Nat) :
    ∀ (X : List Nat) (cls : List (List Nat)),
      remove_edges_from_color cls c X
        = cls.set c ((cls.getD c []).filter (fun x => !X.contains x)) := by
  intro X
  induction X with
  | nil =>
    intro cls
    show cls = _
    have : (cls.getD c []).filter (fun x => !([] : List Nat).contains x) = cls.getD c [] := by
      rw [List.filter_eq_self]
      intro a _
      rfl
    rw [this, set_getD_self]
  | cons s X ih =>
    intro cls
    show remove_edges_from_color (cls.set c ((cls.getD c []).filter (fun x => x != s))) c X = _
    rw [ih, List.set_set]
    by_cases hc : c < cls.length
    · rw [getD_set_eq, if_pos ⟨rfl, hc⟩, List.filter_filter]
      congr 1
      apply List.filter_congr
      intro x _
      by_cases e : x = s <;> simp [e]
    · rw [List.set_eq_of_length_le (not_lt.1 hc), List.set_eq_of_length_le (not_lt.1 hc)]

theorem add_edges_eq (c : Nat) :
    ∀ (X : List Nat) (cls : List (List Nat)),
      add_edges_to_color cls c X = cls.set c (cls.getD c [] ++ X) := by
  intro X
  induction X with
  | nil => intro cls; rw [List.append_nil, set_getD_self]; rfl
  | cons s X ih =>
    intro cls
    show add_edges_to_color (cls.set c (cls.getD c [] ++ [s])) c X = _
    rw [ih, List.set_set]
    by_cases hc : c < cls.length
    · rw [getD_set_eq, if_pos ⟨rfl, hc⟩, List.append_assoc]
      rfl
    · rw [List.set_eq_of_length_le (not_lt.1 hc), List.set_eq_of_length_le (not_lt.1 hc)]

theorem undo_removed_eq (c : Nat) :
    ∀ (X : List Nat) (cls : List (List Nat)),
      undo_changes cls (X.map (stack_event_t.removed c))
        = cls.set c (cls.getD c [] ++ X.reverse) := by
  intro X
  induction X with
  | nil => intro cls; rw [List.reverse_nil, List.append_nil, set_getD_self]; rfl
  | cons s X ih =>
    intro cls
    show undo_change (undo_changes cls (X.map (stack_event_t.removed c)))
      (stack_event_t.removed c s) = _
    rw [ih]
    show (cls.set c (cls.getD c [] ++ X.reverse)).set c
      ((cls.set c (cls.getD c [] ++ X.reverse)).getD c [] ++ [s]) = _
    rw [List.set_set]
    by_cases hc : c < cls.length
    · rw [getD_set_eq, if_pos ⟨rfl, hc⟩, List.reverse_cons, List.append_assoc]
    · rw [List.set_eq_of_length_le (not_lt.1 hc), List.set_eq_of_length_le (not_lt.1 hc)]

/-! ### Permutation facts about one class -/

theorem filter_not_mem_append_perm {cl X : List Nat} (hcl : cl.Nodup) (hX : X.Nodup)
    (hsub : ∀ x ∈ X, x ∈ cl) : (cl.filter (fun x => !X.contains x) ++ X).Perm cl := by
  have h1 : (cl.filter (fun x => X.contains x)).Perm X := by
    rw [List.perm_ext_iff_of_nodup (hcl.filter _) hX]
    intro a
    simp only [List.mem_filter, List.elem_iff]
    exact ⟨fun h => h.2, fun h => ⟨hsub a h, h⟩⟩
  have h2 := List.filter_append_perm (fun x => !X.contains x) cl
  simp only [Bool.not_not] at h2
  exact (List.Perm.append_left _ h1.symm).trans h2

theorem filter_not_mem_snoc {cl X : List Nat} {e : Nat} (he : e ∉ X) :
    (cl ++ [e]).filter (fun x => !X.contains x) = cl.filter (fun x => !X.contains x) ++ [e] := by
  rw [List.filter_append]
  congr 1
  simp [he]

theorem class_after_failure {cl cl2 X : List Nat} {e : Nat} (hcl : cl.Nodup) (he : e ∉ cl)
    (hX : X.Nodup) (hsub : ∀ x ∈ X, x ∈ cl)
    (h2 : cl2.Perm ((cl ++ [e]).filter (fun x => !X.contains x))) :
    (cl2.filter (fun x => !([e].contains x)) ++ X).Perm cl := by
  have heX : e ∉ X := fun h => he (hsub e h)
  rw [filter_not_mem_snoc heX] at h2
  have h3 := h2.filter (fun x => !([e].contains x))
  have h4 : (cl.filter (fun x => !X.contains x) ++ [e]).filter (fun x => !([e].contains x))
      = cl.filter (fun x => !X.contains x) := by
    rw [List.filter_append]
    have : [e].filter (fun x => !([e].contains x)) = [] := by simp
    rw [this, List.append_nil, List.filter_eq_self]
    intro a ha
    have : a ≠ e := fun h => he (h ▸ (List.mem_filter.1 ha).1)
    simp [this]
  rw [h4] at h3
  exact (h3.append_right X).trans (filter_not_mem_append_perm hcl hX hsub)

theorem class_after_undo {cl cl1 X : List Nat} {e : Nat} (hcl : cl.Nodup) (he : e ∉ cl)
    (hX : X.Nodup) (hsub : ∀ x ∈ X, x ∈ cl)
    (h1 : cl1.Perm ((cl ++ [e]).filter (fun x => !X.contains x))) :
    ((cl1 ++ X.reverse).erase e).Perm cl := by
  have heX : e ∉ X := fun h => he (hsub e h)
  rw [filter_not_mem_snoc heX] at h1
  have h2 : (cl1 ++ X.reverse).Perm (cl ++ [e]) := by
    have := filter_not_mem_append_perm hcl hX hsub
    rw [List.perm_iff_count] at this h1 ⊢
    intro a
    have e1 := this a
    have e2 := h1 a
    simp only [List.count_append, List.count_reverse] at e1 e2 ⊢
    omega
  have h3 := h2.erase e
  rw [List.erase_append_right _ he] at h3
  simpa using h3

theorem class_with_conflicts {cl X : List Nat} {e : Nat} (hcl : cl.Nodup) (he : e ∉ cl)
    (hX : X.Nodup) (hsub : ∀ x ∈ X, x ∈ cl) :
    ((cl ++ [e]).filter (fun x => !X.contains x) ++ X).Perm (cl ++ [e]) := by
  have heX : e ∉ X := fun h => he (hsub e h)
  rw [filter_not_mem_snoc heX]
  have := filter_not_mem_append_perm hcl hX hsub
  rw [List.perm_iff_count] at this ⊢
  intro a
  have e1 := this a
  simp only [List.count_append] at e1 ⊢
  omega

end Conflict

namespace Conflict

/-! ### The depth-first search: failure restores the classes up to order -/

theorem Outcome_bind_returned {α β : Type} {x : Outcome α} {f : α → Outcome β} {b : β}
    (h : x.bind f = Outcome.returned b) : ∃ a, x = Outcome.returned a ∧ f a = Outcome.returned b := by
  cases x with
  | returned a => exact ⟨a, rfl, h⟩
  | outOfBounds => exact Outcome.noConfusion h
  | assertFailed => exact Outcome.noConfusion h
  | exitFailure => exact Outcome.noConfusion h
  | exitSuccess => exact Outcome.noConfusion h
  | outOfFuel => exact Outcome.noConfusion h

theorem intersectorsFrom_sublist (crossings : List (List Nat)) (e : Nat) (m : Int)
    (forbidden : List Nat) :
    ∀ (rest : List Nat) (count : Int) (acc res : List Nat),
      intersectorsFrom crossings e m forbidden rest count acc = some res →
      ∃ Y, res = acc ++ Y ∧ Y.Sublist rest := by
  intro rest
  induction rest with
  | nil =>
    intro count acc res h
    rw [intersectorsFrom] at h
    exact ⟨[], by rw [List.append_nil]; exact (Option.some.inj h).symm, List.Sublist.refl _⟩
  | cons si rest ih =>
    intro count acc res h
    rw [intersectorsFrom] at h
    split_ifs at h with h1 h2 h3
    · obtain ⟨Y, hY1, hY2⟩ := ih _ _ _ h
      exact ⟨si :: Y, by rw [hY1, List.append_assoc]; rfl, hY2.cons₂ si⟩
    · obtain ⟨Y, hY1, hY2⟩ := ih _ _ _ h
      exact ⟨Y, hY1, hY2.cons si⟩

theorem get_colors_spec (crossings : List (List Nat)) (cls : List (List Nat)) (e : Nat)
    (breadth : Int) (forbidden : List Nat) :
    ∀ p ∈ get_colors_with_small_conflict_number crossings cls e breadth forbidden,
      p.1 < cls.length ∧ p.2.Sublist (cls.getD p.1 []) := by
  intro p hp
  unfold get_colors_with_small_conflict_number at hp
  obtain ⟨c, hc, hpc⟩ := List.mem_filterMap.1 hp
  cases hgi : get_intersectors crossings cls c e breadth forbidden with
  | none => rw [hgi] at hpc; exact Option.noConfusion hpc
  | some X =>
    rw [hgi] at hpc
    have hpe : (c, X) = p := Option.some.inj hpc
    subst hpe
    obtain ⟨Y, hY1, hY2⟩ := intersectorsFrom_sublist crossings e breadth forbidden _ _ _ _ hgi
    rw [List.nil_append] at hY1
    subst hY1
    exact ⟨List.mem_range.1 hc, hY2⟩

theorem class_facts {cls0 : List (List Nat)} {e c : Nat} (hnd : (cls0.flatten ++ [e]).Nodup)
    (hc : c < cls0.length) : (cls0.getD c []).Nodup ∧ e ∉ cls0.getD c [] := by
  have hmem : cls0.getD c [] ∈ cls0 := by
    rw [List.getD_eq_getElem _ _ hc]; exact List.getElem_mem hc
  have h1 := List.nodup_append.1 hnd
  refine ⟨(List.nodup_flatten.1 h1.1).1 _ hmem, fun he => ?_⟩
  exact h1.2.2 (List.mem_flatten.2 ⟨_, hmem, he⟩) (List.mem_singleton_self e)

theorem tryColors_spec
    {dfs : List (List Nat) → List Nat → List Nat → Int → Int → List stack_event_t →
      Outcome (Int × List (List Nat) × List stack_event_t)}
    (hdfs : DfsSpec dfs) (e : Nat) (forbidden : List Nat) (breadth depth : Int)
    (cls0 : List (List Nat)) (hnd : (cls0.flatten ++ [e]).Nodup) :
    ∀ (cands : List (Nat × List Nat)) (cls : List (List Nat))
      (res : List (List Nat) × Option (List stack_event_t)),
      (∀ p ∈ cands, p.1 < cls0.length ∧ p.2.Sublist (cls0.getD p.1 [])) →
      PermClasses cls cls0 →
      tryColors dfs e forbidden breadth depth cands cls = Outcome.returned res →
      (res.2 = none → PermClasses res.1 cls0) ∧
      (∀ evts, res.2 = some evts → res.1.flatten.Perm (cls0.flatten ++ [e]) ∧
        PermClasses (undo_changes res.1 evts) cls0) := by
  intro cands
  induction cands with
  | nil =>
    intro cls res _ hcls h
    rw [tryColors] at h
    have hres : (cls, none) = res := Outcome.returned.inj h
    subst hres
    exact ⟨fun _ => hcls, fun evts he => Option.noConfusion he⟩
  | cons p rest ih =>
    intro cls res hcands hcls h
    obtain ⟨c, X⟩ := p
    obtain ⟨hc, hsubl⟩ := hcands (c, X) (List.mem_cons_self _ _)
    simp only [] at hc hsubl
    obtain ⟨hcl0, hecl0⟩ := class_facts hnd hc
    have hX : X.Nodup := hsubl.nodup hcl0
    have hsub : ∀ x ∈ X, x ∈ cls0.getD c [] := fun x hx => hsubl.subset hx
    have hclen : c < cls.length := by rw [hcls.1]; exact hc
    -- the classes handed to the recursive call
    have h1eq : remove_edges_from_color (cls.set c (cls.getD c [] ++ [e])) c X
        = cls.set c ((cls.getD c [] ++ [e]).filter (fun x => !X.contains x)) := by
      rw [remove_edges_eq, set_set_getD, if_pos hclen]
    have hP1 : PermClasses (cls.set c ((cls.getD c [] ++ [e]).filter (fun x => !X.contains x)))
        (cls0.set c ((cls0.getD c [] ++ [e]).filter (fun x => !X.contains x))) :=
      hcls.set c (((hcls.2 c).append_right [e]).filter _)
    have hT1get : (cls0.set c ((cls0.getD c [] ++ [e]).filter (fun x => !X.contains x))).getD c []
        = (cls0.getD c [] ++ [e]).filter (fun x => !X.contains x) := by
      rw [getD_set_eq, if_pos ⟨rfl, hc⟩]
    have hT1set : (cls0.set c ((cls0.getD c [] ++ [e]).filter (fun x => !X.contains x))).set c
        (cls0.getD c []) = cls0 := by
      rw [List.set_set, set_getD_self]
    have hflat1 : ((cls0.set c ((cls0.getD c [] ++ [e]).filter
        (fun x => !X.contains x))).flatten ++ X).Perm (cls0.flatten ++ [e]) := by
      have a1 := flatten_set_perm cls0 c ((cls0.getD c [] ++ [e]).filter
        (fun x => !X.contains x)) hc
      have a2 := class_with_conflicts hcl0 hecl0 hX hsub
      rw [List.perm_iff_count] at a1 a2 ⊢
      intro a
      have b1 := a1 a
      have b2 := a2 a
      simp only [List.count_append] at b1 b2 ⊢
      omega
    have hnd1 : ((cls.set c ((cls.getD c [] ++ [e]).filter
        (fun x => !X.contains x))).flatten ++ X).Nodup :=
      (((hP1.flatten.append_right X).trans hflat1).nodup_iff).2 hnd
    rw [tryColors] at h
    rw [h1eq] at h
    obtain ⟨r, hr, hres⟩ := Outcome_bind_returned h
    obtain ⟨post1, post2⟩ := hdfs _ _ _ _ _ r hnd1 hr
    by_cases hret : r.1 = -1
    · rw [if_pos hret] at hres
      have hP2 : PermClasses r.2.1 (cls0.set c ((cls0.getD c [] ++ [e]).filter
          (fun x => !X.contains x))) := (post1 hret).2.trans hP1
      have hrlen : c < r.2.1.length := by
        rw [hP2.1, List.length_set]; exact hc
      have hnext : add_edges_to_color (remove_edges_from_color r.2.1 c [e]) c X
          = r.2.1.set c ((r.2.1.getD c []).filter (fun x => !([e].contains x)) ++ X) := by
        rw [add_edges_eq, remove_edges_eq,
          set_set_getD r.2.1 c _ (fun l => l ++ X), if_pos hrlen]
      rw [hnext] at hres
      have hcl2 := hP2.2 c
      rw [hT1get] at hcl2
      have hP3 := hP2.set c (class_after_failure hcl0 hecl0 hX hsub hcl2)
      rw [hT1set] at hP3
      exact ih _ res (fun p hp => hcands p (List.mem_cons_of_mem _ hp)) hP3 hres
    · rw [if_neg hret] at hres
      have hres2 := Outcome.returned.inj hres
      subst hres2
      refine ⟨fun hn => Option.noConfusion hn, fun evts he => ?_⟩
      have he2 : stack_event_t.added c e :: List.map (stack_event_t.removed c) X ++ r.2.2
          = evts := Option.some.inj he
      subst he2
      obtain ⟨q1, q2⟩ := post2 hret
      refine ⟨q1.trans ((hP1.flatten.append_right X).trans hflat1), ?_⟩
      have hU : PermClasses (undo_changes r.2.1 r.2.2)
          (cls0.set c ((cls0.getD c [] ++ [e]).filter (fun x => !X.contains x))) :=
        q2.trans hP1
      have hUlen : c < (undo_changes r.2.1 r.2.2).length := by
        rw [hU.1, List.length_set]; exact hc
      have hundo : undo_changes r.2.1
          (stack_event_t.added c e :: List.map (stack_event_t.removed c) X ++ r.2.2)
          = (undo_changes r.2.1 r.2.2).set c
              (((undo_changes r.2.1 r.2.2).getD c [] ++ X.reverse).erase e) := by
        show undo_change (undo_changes r.2.1 (List.map (stack_event_t.removed c) X ++ r.2.2))
          (stack_event_t.added c e) = _
        rw [undo_changes_append, undo_removed_eq]
        show ((undo_changes r.2.1 r.2.2).set c _).set c
          ((((undo_changes r.2.1 r.2.2).set c _).getD c []).erase e) = _
        rw [set_set_getD (undo_changes r.2.1 r.2.2) c _ (fun l => l.erase e), if_pos hUlen]
      rw [hundo]
      have hUc := hU.2 c
      rw [hT1get] at hUc
      have hP3 := hU.set c (class_after_undo hcl0 hecl0 hX hsub hUc)
      rw [hT1set] at hP3
      exact hP3

theorem colorTodo_spec
    {dfs : List (List Nat) → List Nat → List Nat → Int → Int → List stack_event_t →
      Outcome (Int × List (List Nat) × List stack_event_t)}
    (hdfs : DfsSpec dfs) (crossings : List (List Nat)) (forbidden : List Nat)
    (breadth depth : Int) (cls0 : List (List Nat)) :
    ∀ (rest : List Nat) (cls : List (List Nat)) (changes : List stack_event_t)
      (done : List Nat) (r : Int × List (List Nat) × List stack_event_t),
      (cls.flatten ++ rest).Nodup →
      PermClasses (undo_changes cls changes) cls0 →
      cls.flatten.Perm (cls0.flatten ++ done) →
      colorTodo dfs crossings forbidden breadth depth rest cls changes = Outcome.returned r →
      (r.1 = -1 → r.2.2 = [] ∧ PermClasses r.2.1 cls0) ∧
      (r.1 ≠ -1 → r.2.1.flatten.Perm (cls0.flatten ++ (done ++ rest)) ∧
        PermClasses (undo_changes r.2.1 r.2.2) cls0) := by
  intro rest
  induction rest with
  | nil =>
    intro cls changes done r _ hundo hflat h
    rw [colorTodo] at h
    have hr : (0, cls, changes) = r := Outcome.returned.inj h
    subst hr
    refine ⟨fun h0 => absurd (show (0 : Int) = -1 from h0) (by decide), fun _ => ⟨?_, hundo⟩⟩
    rw [List.append_nil]
    exact hflat
  | cons e rest ih =>
    intro cls changes done r hnd hundo hflat h
    rw [colorTodo] at h
    obtain ⟨res, hres, hcont⟩ := Outcome_bind_returned h
    have hnde : (cls.flatten ++ [e]).Nodup := by
      have : (cls.flatten ++ [e]).Sublist (cls.flatten ++ e :: rest) :=
        List.Sublist.append_left (List.Sublist.cons₂ e (List.nil_sublist rest)) _
      exact this.nodup hnd
    obtain ⟨t1, t2⟩ := tryColors_spec hdfs e forbidden breadth depth cls hnde _ cls res
      (get_colors_spec crossings cls e breadth forbidden) (PermClasses.refl cls) hres
    cases hr2 : res.2 with
    | none =>
      rw [hr2] at hcont
      have hr : (-1, undo_changes res.1 changes, []) = r := Outcome.returned.inj hcont
      subst hr
      exact ⟨fun _ => ⟨rfl, ((t1 hr2).undo_changes changes).trans hundo⟩,
        fun h0 => absurd rfl h0⟩
    | some evts =>
      rw [hr2] at hcont
      obtain ⟨u1, u2⟩ := t2 evts hr2
      have hnd2 : (res.1.flatten ++ rest).Nodup := by
        have hp : (res.1.flatten ++ rest).Perm (cls.flatten ++ e :: rest) := by
          have := u1.append_right rest
          rw [List.append_assoc] at this
          exact this
        exact hp.nodup_iff.2 hnd
      have hundo2 : PermClasses (undo_changes res.1 (changes ++ evts)) cls0 := by
        rw [undo_changes_append]
        exact (u2.undo_changes changes).trans hundo
      have hflat2 : res.1.flatten.Perm (cls0.flatten ++ (done ++ [e])) := by
        rw [← List.append_assoc]
        exact u1.trans (hflat.append_right [e])
      have := ih res.1 (changes ++ evts) (done ++ [e]) r hnd2 hundo2 hflat2 hcont
      rw [List.append_assoc, List.singleton_append] at this
      exact this

theorem dfsOptimize_spec (crossings : List (List Nat)) :
    ∀ fuel : Nat, DfsSpec (dfsOptimize crossings fuel) := by
  intro fuel
  induction fuel with
  | zero =>
    intro cls todo forbidden breadth depth r _ h
    rw [dfsOptimize] at h
    by_cases ht : todo = []
    · rw [if_pos ht] at h
      have hr : (0, cls, []) = r := Outcome.returned.inj h
      subst hr
      subst ht
      refine ⟨fun h0 => absurd (show (0 : Int) = -1 from h0) (by decide), fun _ => ⟨?_, PermClasses.refl cls⟩⟩
      rw [List.append_nil]
    · rw [if_neg ht] at h
      exact Outcome.noConfusion h
  | succ fuel ih =>
    intro cls todo forbidden breadth depth r hnd h
    rw [dfsOptimize] at h
    by_cases ht : todo = []
    · rw [if_pos ht] at h
      have hr : (0, cls, []) = r := Outcome.returned.inj h
      subst hr
      subst ht
      refine ⟨fun h0 => absurd (show (0 : Int) = -1 from h0) (by decide), fun _ => ⟨?_, PermClasses.refl cls⟩⟩
      rw [List.append_nil]
    · rw [if_neg ht] at h
      have := colorTodo_spec ih crossings forbidden _ depth cls todo cls [] [] r hnd
        (PermClasses.refl cls) (by rw [List.append_nil]) h
      rw [List.nil_append] at this
      exact this

end Conflict

namespace Conflict

/-! ### The degrees computed by `remove_easy_segs` -/

theorem countP_split {α : Type} (p p1 p2 : α → Bool)
    (h : ∀ x, (p x = true ↔ (p1 x = true ∨ p2 x = true)) ∧ ¬ (p1 x = true ∧ p2 x = true)) :
    ∀ l : List α, l.countP p1 + l.countP p2 = l.countP p := by
  intro l
  induction l with
  | nil => rfl
  | cons a l ih =>
    rw [List.countP_cons, List.countP_cons, List.countP_cons]
    obtain ⟨h1, h2⟩ := h a
    cases e1 : p1 a <;> cases e2 : p2 a <;> cases e : p a <;> simp_all <;> omega

theorem countP_range_gt (p : Nat → Bool) (k n : Nat) (hk : k < n) :
    (List.range' (k + 1) (n - (k + 1))).countP p
      = (List.range n).countP (fun j => decide (k < j) && p j) := by
  have hsplit : List.range n = List.range (k + 1) ++ List.range' (k + 1) (n - (k + 1)) := by
    rw [List.range_eq_range', List.range_eq_range']
    have h := List.range'_append_1 0 (k + 1) (n - (k + 1))
    rw [Nat.zero_add] at h
    rw [h]
    congr 1
    omega
  rw [hsplit, List.countP_append]
  have h1 : (List.range (k + 1)).countP (fun j => decide (k < j) && p j) = 0 := by
    rw [List.countP_eq_zero]
    intro a ha
    have := List.mem_range.1 ha
    simp
    intro h
    omega
  have h2 : (List.range' (k + 1) (n - (k + 1))).countP (fun j => decide (k < j) && p j)
      = (List.range' (k + 1) (n - (k + 1))).countP p := by
    apply List.countP_congr
    intro a ha
    have := (List.mem_range'_1.1 ha).1
    have hlt : k < a := by omega
    simp [hlt]
  rw [h1, h2, Nat.zero_add]

theorem countP_range_eq_one (p : Nat → Bool) (n s : Nat) (hs : s < n) :
    (List.range n).countP (fun j => decide (j = s) && p j) = if p s = true then 1 else 0 := by
  induction n with
  | zero => exact absurd hs (Nat.not_lt_zero s)
  | succ n ih =>
    rw [List.range_succ, List.countP_append]
    by_cases e : s = n
    · subst e
      have h0 : (List.range s).countP (fun j => decide (j = s) && p j) = 0 := by
        rw [List.countP_eq_zero]
        intro a ha
        have := List.mem_range.1 ha
        have hne : a ≠ s := by omega
        simp [hne]
      rw [h0]
      simp [List.countP_cons]
    · have hlt : s < n := by omega
      rw [ih hlt]
      have hne : n ≠ s := fun h => e h.symm
      simp [List.countP_cons, hne]

theorem bumpRow_spec (crossings : List (List Nat)) (i : Nat) :
    ∀ (L : List Nat) (degree : List Int), i < degree.length →
      (∀ j ∈ L, i < j ∧ j < degree.length) → L.Nodup →
      (L.foldl (bumpPair crossings i) degree).length = degree.length ∧
      ∀ a, (L.foldl (bumpPair crossings i) degree).getD a 0
        = degree.getD a 0 + (if a = i then (L.countP (fun j => crosses crossings i j) : Int)
            else if a ∈ L ∧ crosses crossings i a = true then 1 else 0) := by
  intro L
  induction L with
  | nil =>
    intro degree _ _ _
    refine ⟨rfl, fun a => ?_⟩
    by_cases e : a = i
    · rw [if_pos e]; simp
    · rw [if_neg e]; simp
  | cons j L ih =>
    intro degree hi hL hnd
    obtain ⟨hij, hj⟩ := hL j (List.mem_cons_self _ _)
    have hjL : j ∉ L := (List.nodup_cons.1 hnd).1
    rw [List.foldl_cons]
    have hlen : (bumpPair crossings i degree j).length = degree.length := by
      unfold bumpPair
      split_ifs
      · simp
      · rfl
    obtain ⟨r1, r2⟩ := ih (bumpPair crossings i degree j) (by rw [hlen]; exact hi)
      (fun x hx => by rw [hlen]; exact hL x (List.mem_cons_of_mem _ hx)) (List.nodup_cons.1 hnd).2
    refine ⟨r1.trans hlen, fun a => ?_⟩
    rw [r2 a]
    have hb : (bumpPair crossings i degree j).getD a 0
        = degree.getD a 0 + (if crosses crossings i j = true then
            (if a = i then 1 else 0) + (if a = j then 1 else 0) else 0) := by
      unfold bumpPair
      by_cases hx : crosses crossings i j = true
      · rw [if_pos hx, if_pos hx]
        simp only []
        rw [getD_set_eq, getD_set_eq, getD_set_eq, List.length_set]
        by_cases e1 : a = i
        · subst e1
          have hne : ¬ (j = a) := by omega
          rw [if_neg (fun h => hne h.1), if_pos ⟨rfl, hi⟩, if_pos rfl, if_neg (fun h => hne h.symm)]
          omega
        · by_cases e2 : a = j
          · subst e2
            rw [if_pos ⟨rfl, hj⟩, if_neg (fun h => e1 h.1.symm), if_neg e1, if_pos rfl]
            omega
          · rw [if_neg (fun h => e2 h.1.symm), if_neg (fun h => e1 h.1.symm), if_neg e1,
              if_neg e2]
            omega
      · rw [if_neg hx, if_neg hx]
        omega
    rw [hb, List.countP_cons]
    by_cases e1 : a = i
    · subst e1
      have hne : ¬ (a = j) := by omega
      rw [if_pos rfl, if_pos rfl, if_neg hne]
      by_cases hx : crosses crossings a j = true
      · rw [if_pos hx, if_pos hx]; push_cast; omega
      · rw [if_neg hx, if_neg hx]; push_cast; omega
    · rw [if_neg e1, if_neg e1, if_neg e1]
      by_cases e2 : a = j
      · subst e2
        have h1 : ¬ (a ∈ L ∧ crosses crossings i a = true) := fun h => hjL h.1
        rw [if_neg h1, if_pos rfl]
        by_cases hx : crosses crossings i a = true
        · rw [if_pos hx, if_pos ⟨List.mem_cons_self _ _, hx⟩]; omega
        · rw [if_neg hx, if_neg (fun h => hx h.2)]; omega
      · rw [if_neg e2]
        have hiff : (a ∈ j :: L ∧ crosses crossings i a = true)
            ↔ (a ∈ L ∧ crosses crossings i a = true) := by
          rw [List.mem_cons]
          constructor
          · rintro ⟨h | h, hx⟩
            · exact absurd h e2
            · exact ⟨h, hx⟩
          · rintro ⟨h, hx⟩
            exact ⟨Or.inr h, hx⟩
        by_cases h3 : a ∈ L ∧ crosses crossings i a = true
        · rw [if_pos h3, if_pos (hiff.2 h3)]
          split_ifs <;> omega
        · rw [if_neg h3, if_neg (fun h => h3 (hiff.1 h))]
          split_ifs <;> omega

theorem initDegree_rows (n : Nat) (crossings : List (List Nat)) :
    ∀ k, k ≤ n →
      ((List.range k).foldl
        (fun degree i =>
          (List.range' (i + 1) (n - (i + 1))).foldl (bumpPair crossings i) degree)
        (List.replicate n 0)).length = n ∧
      ∀ a, a < n →
        ((List.range k).foldl
          (fun degree i =>
            (List.range' (i + 1) (n - (i + 1))).foldl (bumpPair crossings i) degree)
          (List.replicate n 0)).getD a 0
        = ((List.range k).countP (fun i => decide (i < a) && crosses crossings i a) : Int)
          + (if a < k then
              ((List.range n).countP (fun j => decide (a < j) && crosses crossings a j) : Int)
            else 0) := by
  intro k
  induction k with
  | zero =>
    intro _
    refine ⟨List.length_replicate _ _, fun a ha => ?_⟩
    rw [List.range_zero, List.foldl_nil, getD_replicate_eq, if_pos ha]
    simp
  | succ k ih =>
    intro hk
    obtain ⟨l1, l2⟩ := ih (by omega)
    rw [List.range_succ, List.foldl_append, List.foldl_cons, List.foldl_nil]
    obtain ⟨r1, r2⟩ := bumpRow_spec crossings k (List.range' (k + 1) (n - (k + 1))) _
      (by rw [l1]; omega)
      (fun j hj => by
        have := List.mem_range'_1.1 hj
        rw [l1]; omega)
      (List.nodup_range' _ _)
    refine ⟨r1.trans l1, fun a ha => ?_⟩
    rw [r2 a, l2 a ha, List.countP_append, countP_range_gt _ k n (by omega)]
    have hmem : a ∈ List.range' (k + 1) (n - (k + 1)) ↔ k < a := by
      rw [List.mem_range'_1]; omega
    by_cases e : a = k
    · subst e
      rw [if_pos rfl, if_neg (lt_irrefl a), if_pos (Nat.lt_succ_self a)]
      simp [List.countP_cons]
    · rw [if_neg e]
      by_cases hka : k < a
      · have h1 : ¬ a < k := by omega
        have h2 : ¬ a < k + 1 := by omega
        rw [if_neg h1, if_neg h2]
        by_cases hx : crosses crossings k a = true
        · rw [if_pos ⟨hmem.2 hka, hx⟩]
          simp [List.countP_cons, hka, hx]
        · rw [if_neg (fun h => hx h.2)]
          simp [List.countP_cons, hka, hx]
      · have h1 : a < k := by omega
        have h2 : a < k + 1 := by omega
        rw [if_pos h1, if_pos h2, if_neg (fun h => hka (hmem.1 h.1))]
        simp [List.countP_cons, hka]

theorem initDegree_spec (n : Nat) (crossings : List (List Nat))
    (hsym : ∀ i j, crosses crossings i j = crosses crossings j i) :
    (initDegree n crossings).length = n ∧
    ∀ a, a < n → (initDegree n crossings).getD a 0 = (crossDegree n crossings [] a : Int) := by
  obtain ⟨h1, h2⟩ := initDegree_rows n crossings n (le_refl n)
  refine ⟨h1, fun a ha => ?_⟩
  unfold initDegree
  rw [h2 a ha, if_pos ha]
  unfold crossDegree
  have hs := countP_split
    (fun j => decide (j ∉ ([] : List Nat)) && decide (j ≠ a) && crosses crossings a j)
    (fun i => decide (i < a) && crosses crossings i a)
    (fun j => decide (a < j) && crosses crossings a j)
    (by
      intro x
      simp only []
      rw [hsym x a]
      constructor
      · simp only [Bool.and_eq_true, decide_eq_true_eq, List.not_mem_nil, not_false_eq_true,
          true_and]
        constructor
        · rintro ⟨h1, h2⟩
          rcases Nat.lt_or_gt_of_ne h1 with h | h
          · exact Or.inl ⟨h, h2⟩
          · exact Or.inr ⟨h, h2⟩
        · rintro (⟨h1, h2⟩ | ⟨h1, h2⟩)
          · exact ⟨by omega, h2⟩
          · exact ⟨by omega, h2⟩
      · simp only [Bool.and_eq_true, decide_eq_true_eq]
        rintro ⟨⟨h1, _⟩, ⟨h2, _⟩⟩
        omega)
    (List.range n)
  rw [← hs]
  push_cast
  rfl

end Conflict

namespace Conflict

theorem argmin_fold (degree : List Int) :
    ∀ (L : List Nat) (s0 : Nat), s0 < degree.length → (∀ i ∈ L, i < degree.length) →
      L.foldl (fun s i => if degree.getD i 0 < degree.getD s 0 then i else s) s0 < degree.length ∧
      degree.getD (L.foldl (fun s i => if degree.getD i 0 < degree.getD s 0 then i else s) s0) 0
        ≤ degree.getD s0 0 ∧
      ∀ i ∈ L,
        degree.getD (L.foldl (fun s i => if degree.getD i 0 < degree.getD s 0 then i else s) s0) 0
          ≤ degree.getD i 0 := by
  intro L
  induction L with
  | nil => intro s0 h0 _; exact ⟨h0, le_refl _, fun i hi => absurd hi (List.not_mem_nil i)⟩
  | cons j L ih =>
    intro s0 h0 hL
    rw [List.foldl_cons]
    have hj := hL j (List.mem_cons_self _ _)
    by_cases hlt : degree.getD j 0 < degree.getD s0 0
    · rw [if_pos hlt]
      obtain ⟨a1, a2, a3⟩ := ih j hj (fun i hi => hL i (List.mem_cons_of_mem _ hi))
      refine ⟨a1, by omega, fun i hi => ?_⟩
      rcases List.mem_cons.1 hi with e | e
      · rw [e]; exact a2
      · exact a3 i e
    · rw [if_neg hlt]
      obtain ⟨a1, a2, a3⟩ := ih s0 h0 (fun i hi => hL i (List.mem_cons_of_mem _ hi))
      refine ⟨a1, a2, fun i hi => ?_⟩
      rcases List.mem_cons.1 hi with e | e
      · rw [e]; omega
      · exact a3 i e

theorem argminDegree_spec (degree : List Int) (hne : 0 < degree.length) :
    argminDegree degree < degree.length ∧
    ∀ i, i < degree.length → degree.getD (argminDegree degree) 0 ≤ degree.getD i 0 := by
  obtain ⟨a1, a2, a3⟩ := argmin_fold degree (List.range' 1 (degree.length - 1)) 0 hne
    (fun i hi => by have := List.mem_range'_1.1 hi; omega)
  refine ⟨a1, fun i hi => ?_⟩
  by_cases e : i = 0
  · rw [e]; exact a2
  · exact a3 i (List.mem_range'_1.2 (by omega))

theorem lowerDegrees_fold (crossings : List (List Nat)) (s : Nat) (degree : List Int) :
    ∀ k, k ≤ degree.length →
      ((List.range k).foldl
        (fun d i =>
          if d.getD i 0 ≠ LONG_MAX ∧ crosses crossings i s = true then d.set i (d.getD i 0 - 1)
          else d) degree).length = degree.length ∧
      ∀ i, ((List.range k).foldl
        (fun d i =>
          if d.getD i 0 ≠ LONG_MAX ∧ crosses crossings i s = true then d.set i (d.getD i 0 - 1)
          else d) degree).getD i 0
        = if i < k ∧ degree.getD i 0 ≠ LONG_MAX ∧ crosses crossings i s = true
          then degree.getD i 0 - 1 else degree.getD i 0 := by
  intro k
  induction k with
  | zero =>
    intro _
    refine ⟨rfl, fun i => ?_⟩
    rw [if_neg (fun h => Nat.not_lt_zero i h.1)]
    rfl
  | succ k ih =>
    intro hk
    obtain ⟨l1, l2⟩ := ih (by omega)
    rw [List.range_succ, List.foldl_append, List.foldl_cons, List.foldl_nil]
    have hkk := l2 k
    rw [if_neg (fun h => lt_irrefl k h.1)] at hkk
    rw [hkk]
    by_cases hc : degree.getD k 0 ≠ LONG_MAX ∧ crosses crossings k s = true
    · rw [if_pos hc]
      refine ⟨by rw [List.length_set]; exact l1, fun i => ?_⟩
      rw [getD_set_eq, l1]
      by_cases e : k = i
      · subst e
        rw [if_pos ⟨rfl, by omega⟩, if_pos ⟨Nat.lt_succ_self k, hc⟩]
      · rw [if_neg (fun h => e h.1), l2 i]
        have hiff : (i < k + 1) ↔ (i < k) := by omega
        simp only [hiff]
    · rw [if_neg hc]
      refine ⟨l1, fun i => ?_⟩
      rw [l2 i]
      by_cases e : k = i
      · subst e
        rw [if_neg (fun h => lt_irrefl k h.1), if_neg (fun h => hc h.2)]
      · have hiff : (i < k + 1) ↔ (i < k) := by omega
        simp only [hiff]

theorem lowerDegrees_spec (crossings : List (List Nat)) (s : Nat) (degree : List Int) :
    (lowerDegrees crossings s degree).length = degree.length ∧
    ∀ i, i < degree.length → (lowerDegrees crossings s degree).getD i 0
      = if degree.getD i 0 ≠ LONG_MAX ∧ crosses crossings i s = true
        then degree.getD i 0 - 1 else degree.getD i 0 := by
  obtain ⟨l1, l2⟩ := lowerDegrees_fold crossings s degree degree.length (le_refl _)
  refine ⟨l1, fun i hi => ?_⟩
  unfold lowerDegrees
  rw [l2 i]
  simp only [hi, true_and]

theorem crossDegree_le (n : Nat) (crossings : List (List Nat)) (E : List Nat) (i : Nat) :
    crossDegree n crossings E i ≤ n := by
  unfold crossDegree
  exact (List.countP_le_length _).trans (le_of_eq (List.length_range n))

theorem crossDegree_congr (n : Nat) (crossings : List (List Nat)) {E E2 : List Nat}
    (h : ∀ x, x ∈ E ↔ x ∈ E2) (i : Nat) :
    crossDegree n crossings E i = crossDegree n crossings E2 i := by
  unfold crossDegree
  apply List.countP_congr
  intro x _
  simp only [h x]

theorem crossDegree_snoc (n : Nat) (crossings : List (List Nat)) (E : List Nat) (s i : Nat)
    (hs : s < n) (hsE : s ∉ E) (hsi : s ≠ i) :
    crossDegree n crossings (E ++ [s]) i + (if crosses crossings i s = true then 1 else 0)
      = crossDegree n crossings E i := by
  unfold crossDegree
  rw [← countP_range_eq_one (fun j => crosses crossings i j) n s hs]
  apply countP_split
  intro x
  simp only [Bool.and_eq_true, decide_eq_true_eq, List.mem_append, List.mem_singleton, not_or]
  constructor
  · constructor
    · rintro ⟨⟨h1, h2⟩, h3⟩
      by_cases e : x = s
      · exact Or.inr ⟨e, h3⟩
      · exact Or.inl ⟨⟨⟨h1, e⟩, h2⟩, h3⟩
    · rintro (⟨⟨⟨h1, _⟩, h2⟩, h3⟩ | ⟨h1, h2⟩)
      · exact ⟨⟨h1, h2⟩, h3⟩
      · subst h1
        exact ⟨⟨hsE, hsi⟩, h2⟩
  · rintro ⟨⟨⟨⟨_, h1⟩, _⟩, _⟩, ⟨h2, _⟩⟩
    exact h1 h2

theorem nodup_length_le {E : List Nat} {n : Nat} (hnd : E.Nodup) (hlt : ∀ s ∈ E, s < n) :
    E.length ≤ n := by
  have h := (List.subperm_of_subset hnd (fun x hx => List.mem_range.2 (hlt x hx))).length_le
  rw [List.length_range] at h
  exact h

/-- One removal keeps the invariant of the loop of `remove_easy_segs`. -/
theorem peel_step {n : Nat} {crossings : List (List Nat)} {bound : Int} {degree : List Int}
    {E : List Nat} (hI : PeelInv n crossings bound degree E) (hn : 0 < n)
    (hn2 : (n : Int) < LONG_MAX) (hb : bound ≤ LONG_MAX)
    (hlt : degree.getD (argminDegree degree) 0 < bound) :
    argminDegree degree ∉ E ∧
    PeelInv n crossings bound
      (lowerDegrees crossings (argminDegree degree) (degree.set (argminDegree degree) LONG_MAX))
      (E ++ [argminDegree degree]) := by
  obtain ⟨hs, _⟩ := argminDegree_spec degree (by rw [hI.len]; exact hn)
  rw [hI.len] at hs
  generalize argminDegree degree = s at hs hlt ⊢
  have hsE : s ∉ E := by
    intro h
    have := hI.removed s hs h
    omega
  obtain ⟨l1, l2⟩ := lowerDegrees_spec crossings s (degree.set s LONG_MAX)
  rw [List.length_set] at l1 l2
  have hset : ∀ i, (degree.set s LONG_MAX).getD i 0
      = if s = i then LONG_MAX else degree.getD i 0 := by
    intro i
    rw [getD_set_eq]
    by_cases e : s = i
    · rw [if_pos ⟨e, by rw [hI.len]; exact hs⟩, if_pos e]
    · rw [if_neg (fun h => e h.1), if_neg e]
  simp only [hset] at l2
  refine ⟨hsE, ⟨l1.trans hI.len, ?_, ?_, ?_, ?_, ?_⟩⟩
  · exact List.nodup_append.2 ⟨hI.nodup, List.nodup_singleton s,
      fun a ha hb => hsE ((List.mem_singleton.1 hb) ▸ ha)⟩
  · intro x hx
    rcases List.mem_append.1 hx with h | h
    · exact hI.lt x h
    · rw [List.mem_singleton.1 h]; exact hs
  · intro i hi hiE
    rw [l2 i (by rw [hI.len]; exact hi)]
    by_cases e : s = i
    · rw [if_pos e, if_neg (fun h => h.1 rfl)]
    · rw [if_neg e]
      have hiE2 : i ∈ E := by
        rcases List.mem_append.1 hiE with h | h
        · exact h
        · exact absurd (List.mem_singleton.1 h).symm e
      rw [hI.removed i hi hiE2, if_neg (fun h => h.1 rfl)]
  · intro i hi hiE
    have hiE1 : i ∉ E := fun h => hiE (List.mem_append_left _ h)
    have hne : s ≠ i := fun h => hiE (List.mem_append_right _ (List.mem_singleton.2 h.symm))
    rw [l2 i (by rw [hI.len]; exact hi), if_neg hne, hI.kept i hi hiE1]
    have hle := crossDegree_le n crossings E i
    have hsn := crossDegree_snoc n crossings E s i hs hsE hne
    by_cases hx : crosses crossings i s = true
    · rw [if_pos hx] at hsn
      rw [if_pos ⟨by omega, hx⟩]
      omega
    · rw [if_neg hx] at hsn
      rw [if_neg (fun h => hx h.2)]
      omega
  · rw [List.reverse_append, List.reverse_singleton, List.singleton_append]
    refine ⟨?_, hI.order⟩
    rw [crossDegree_congr n crossings (fun x => List.mem_reverse) s, ← hI.kept s hs hsE]
    exact hlt

/-- The loop of `remove_easy_segs` returns when it is allowed one more iteration
than there are segments left, keeps its invariant, and at the end every degree
is at least `bound`. -/
theorem peel_spec {n : Nat} {crossings : List (List Nat)} {bound : Int} (hn : 0 < n)
    (hn2 : (n : Int) < LONG_MAX) (hb : bound ≤ LONG_MAX) :
    ∀ (fuel : Nat) (degree : List Int) (E : List Nat),
      PeelInv n crossings bound degree E → n - E.length < fuel →
      ∃ degree1 E1, peel crossings bound fuel degree E = Outcome.returned (degree1, E1) ∧
        PeelInv n crossings bound degree1 E1 ∧
        ∀ i, i < n → bound ≤ degree1.getD i 0 := by
  intro fuel
  induction fuel with
  | zero => intro degree E _ h; exact absurd h (Nat.not_lt_zero _)
  | succ fuel ih =>
    intro degree E hI hfuel
    have hne : degree ≠ [] := by
      intro h
      have := hI.len
      rw [h] at this
      simp at this
      omega
    rw [peel, if_neg hne]
    simp only []
    by_cases hlt : degree.getD (argminDegree degree) 0 < bound
    · rw [if_pos hlt]
      obtain ⟨hsE, hI2⟩ := peel_step hI hn hn2 hb hlt
      have hlen := nodup_length_le hI2.nodup hI2.lt
      rw [List.length_append, List.length_singleton] at hlen
      exact ih _ _ hI2 (by rw [List.length_append, List.length_singleton]; omega)
    · rw [if_neg hlt]
      refine ⟨degree, E, rfl, hI, fun i hi => ?_⟩
      have := (argminDegree_spec degree (by rw [hI.len]; exact hn)).2 i (by rw [hI.len]; exact hi)
      omega

theorem peelInv_init (n : Nat) (crossings : List (List Nat)) (bound : Int)
    (hsym : ∀ i j, crosses crossings i j = crosses crossings j i) :
    PeelInv n crossings bound (initDegree n crossings) [] := by
  obtain ⟨h1, h2⟩ := initDegree_spec n crossings hsym
  exact ⟨h1, List.nodup_nil, fun s hs => absurd hs (List.not_mem_nil s),
    fun i _ hi => absurd hi (List.not_mem_nil i), fun i hi _ => h2 i hi, trivial⟩

/-- The source's `remove_easy_segs` returns, for `1 ≤ n_segments` and a symmetric
matrix: the easy segments are distinct indices whose reverse is an `EasyOrder`,
and they are erased from the classes. -/
theorem remove_easy_segs_spec (n : Nat) (crossings : List (List Nat))
    (classes : List (List Nat)) (bound : Int) (hn : 0 < n) (hn2 : (n : Int) < LONG_MAX)
    (hb : bound ≤ LONG_MAX) (hsym : ∀ i j, crosses crossings i j = crosses crossings j i) :
    ∃ E, remove_easy_segs n crossings classes bound
        = Outcome.returned (E, classes.map (fun cl => cl.filter (fun x => !E.contains x))) ∧
      E.Nodup ∧ (∀ s ∈ E, s < n) ∧ EasyOrder n crossings bound E.reverse := by
  obtain ⟨d1, E, h1, hI, _⟩ := peel_spec hn hn2 hb (n + 1) (initDegree n crossings) []
    (peelInv_init n crossings bound hsym) (by simp)
  refine ⟨E, ?_, hI.nodup, hI.lt, hI.order⟩
  unfold remove_easy_segs
  rw [h1]
  rfl

end Conflict

namespace Conflict

/-! ### Inserting the easy segments back -/

theorem blocked_classes_le (p : Nat → Bool) :
    ∀ classes : List (List Nat), (∀ cl ∈ classes, ∃ x ∈ cl, p x = true) →
      classes.length ≤ (classes.flatten.filter p).length := by
  intro classes
  induction classes with
  | nil => intro _; exact Nat.zero_le _
  | cons cl rest ih =>
    intro h
    rw [List.flatten_cons, List.filter_append, List.length_append, List.length_cons]
    obtain ⟨x, hx, hpx⟩ := h cl (List.mem_cons_self _ _)
    have h1 : 0 < (cl.filter p).length :=
      List.length_pos_of_mem (List.mem_filter.2 ⟨hx, hpx⟩)
    have h2 := ih (fun c hc => h c (List.mem_cons_of_mem _ hc))
    omega

theorem firstAdmissible_some {crossings : List (List Nat)} {classes : List (List Nat)}
    {s c : Nat} (h : firstAdmissible crossings classes s = some c) :
    c < classes.length ∧ edge_can_be_added_to_graph crossings classes s c = true := by
  unfold firstAdmissible at h
  exact ⟨List.mem_range.1 (List.mem_of_find?_eq_some h), List.find?_some h⟩

/-- A segment that crosses fewer than `bound` of the segments in the classes finds
an admissible class when there are `bound` classes or more and no segment is
in two classes. -/
theorem firstAdmissible_exists (n : Nat) (crossings : List (List Nat)) (bound : Int)
    (classes : List (List Nat)) (s : Nat) (rest : List Nat)
    (hdeg : (crossDegree n crossings rest s : Int) < bound)
    (hnd : classes.flatten.Nodup)
    (hmem : ∀ x ∈ classes.flatten, x < n ∧ x ∉ s :: rest)
    (hB : bound ≤ (classes.length : Int)) :
    ∃ c, firstAdmissible crossings classes s = some c := by
  cases hfa : firstAdmissible crossings classes s with
  | some c => exact ⟨c, rfl⟩
  | none =>
    exfalso
    unfold firstAdmissible at hfa
    rw [List.find?_eq_none] at hfa
    have hblocked : ∀ cl ∈ classes, ∃ x ∈ cl, crosses crossings s x = true := by
      intro cl hcl
      obtain ⟨c, hc, e⟩ := List.mem_iff_getElem.1 hcl
      have h1 := hfa c (List.mem_range.2 hc)
      unfold edge_can_be_added_to_graph at h1
      rw [List.getD_eq_getElem _ _ hc, e] at h1
      simp only [List.all_eq_true, Bool.not_eq_true', not_forall] at h1
      obtain ⟨x, hx, hxc⟩ := h1
      exact ⟨x, hx, by simpa using hxc⟩
    have h1 := blocked_classes_le (fun x => crosses crossings s x) classes hblocked
    have h2 : (classes.flatten.filter (fun x => crosses crossings s x)).length
        ≤ crossDegree n crossings rest s := by
      unfold crossDegree
      rw [List.countP_eq_length_filter]
      apply List.Subperm.length_le
      apply List.subperm_of_subset (hnd.filter _)
      intro x hx
      obtain ⟨hx1, hx2⟩ := List.mem_filter.1 hx
      obtain ⟨hx3, hx4⟩ := hmem x hx1
      rw [List.mem_cons, not_or] at hx4
      exact List.mem_filter.2 ⟨List.mem_range.2 hx3, by simp [hx4.1, hx4.2, hx2]⟩
    omega

theorem flatten_set_snoc (classes : List (List Nat)) (c s : Nat) (hc : c < classes.length) :
    (classes.set c (classes.getD c [] ++ [s])).flatten.Perm (classes.flatten ++ [s]) := by
  have h := flatten_set_perm classes c (classes.getD c [] ++ [s]) hc
  rw [List.perm_iff_count] at h ⊢
  intro a
  have := h a
  simp only [List.count_append] at this ⊢
  omega

theorem mem_set_iff {classes : List (List Nat)} {c : Nat} {v cl : List Nat}
    (h : cl ∈ classes.set c v) : cl = v ∨ cl ∈ classes := by
  rcases List.mem_or_eq_of_mem_set h with h1 | h1
  · exact Or.inr h1
  · exact Or.inl h1

/-- The loop of `add_easy_segs` succeeds on an `EasyOrder` when there are `bound`
classes or more, no segment is in two classes and none of the segments to
insert is in a class; the segments are added, each once, and crossing-free
classes stay crossing-free. -/
theorem addBack_spec (n : Nat) (crossings : List (List Nat)) (bound : Int)
    (hsym : ∀ i j, crosses crossings i j = crosses crossings j i) :
    ∀ (R : List Nat) (classes : List (List Nat)),
      EasyOrder n crossings bound R → R.Nodup → (∀ s ∈ R, s < n) →
      classes.flatten.Nodup → (∀ x ∈ classes.flatten, x < n ∧ x ∉ R) →
      bound ≤ (classes.length : Int) →
      ∃ cls, addBack crossings R classes = Outcome.returned cls ∧
        cls.length = classes.length ∧ cls.flatten.Perm (classes.flatten ++ R) ∧
        ((∀ cl ∈ classes, CrossFree crossings cl) → ∀ cl ∈ cls, CrossFree crossings cl) := by
  intro R
  induction R with
  | nil =>
    intro classes _ _ _ _ _ _
    exact ⟨classes, rfl, rfl, by rw [List.append_nil], fun h => h⟩
  | cons s rest ih =>
    intro classes hord hnd hlt hcnd hmem hB
    obtain ⟨c, hc⟩ := firstAdmissible_exists n crossings bound classes s rest hord.1 hcnd hmem hB
    obtain ⟨hc1, hc2⟩ := firstAdmissible_some hc
    have hs_not : s ∉ classes.flatten := fun h => (hmem s h).2 (List.mem_cons_self _ _)
    have hperm := flatten_set_snoc classes c s hc1
    have hnd2 : (classes.set c (classes.getD c [] ++ [s])).flatten.Nodup := by
      rw [hperm.nodup_iff]
      exact List.nodup_append.2 ⟨hcnd, List.nodup_singleton s,
        fun a ha hb => hs_not ((List.mem_singleton.1 hb) ▸ ha)⟩
    have hmem2 : ∀ x ∈ (classes.set c (classes.getD c [] ++ [s])).flatten,
        x < n ∧ x ∉ rest := by
      intro x hx
      rcases List.mem_append.1 (hperm.mem_iff.1 hx) with h | h
      · exact ⟨(hmem x h).1, fun hr => (hmem x h).2 (List.mem_cons_of_mem _ hr)⟩
      · rw [List.mem_singleton.1 h]
        exact ⟨hlt s (List.mem_cons_self _ _), (List.nodup_cons.1 hnd).1⟩
    obtain ⟨cls, r1, r2, r3, r4⟩ := ih (classes.set c (classes.getD c [] ++ [s])) hord.2
      (List.nodup_cons.1 hnd).2 (fun x hx => hlt x (List.mem_cons_of_mem _ hx)) hnd2 hmem2
      (by rw [List.length_set]; exact hB)
    refine ⟨cls, ?_, by rw [r2, List.length_set], ?_, fun hfree => r4 ?_⟩
    · rw [addBack, hc]
      exact r1
    · refine r3.trans ?_
      have := hperm.append_right rest
      rw [List.append_assoc, List.singleton_append] at this
      exact this
    · intro cl hcl
      rcases mem_set_iff hcl with h | h
      · rw [h]
        have hget : classes.getD c [] ∈ classes := by
          rw [List.getD_eq_getElem _ _ hc1]; exact List.getElem_mem hc1
        have hold := hfree _ hget
        unfold edge_can_be_added_to_graph at hc2
        simp only [List.all_eq_true, Bool.not_eq_true'] at hc2
        intro i hi j hj hij
        rcases List.mem_append.1 hi with a | a <;> rcases List.mem_append.1 hj with b | b
        · exact hold i a j b hij
        · rw [List.mem_singleton.1 b, hsym]; exact hc2 i a
        · rw [List.mem_singleton.1 a]; exact hc2 j b
        · exact absurd ((List.mem_singleton.1 a).trans (List.mem_singleton.1 b).symm) hij
      · exact hfree cl h

end Conflict

namespace Conflict

theorem generate_length (segs : List Segment) :
    (generate_intersection_map segs).length = segs.length := by
  unfold generate_intersection_map
  obtain ⟨a, _⟩ := foldl_markRow_spec segs (fun x hx => div_lt_rowSize hx)
    (List.range segs.length) _ (shaped_init segs.length (rowSize segs.length))
    (fun i hi => List.mem_range.1 hi)
  exact a.1

theorem crosses_generate_symm (segs : List Segment) (i j : Nat) :
    crosses (generate_intersection_map segs) i j
      = crosses (generate_intersection_map segs) j i := by
  rw [Bool.eq_iff_iff, crosses_generate, crosses_generate]
  exact or_comm

theorem remove_easy_segs_pos {n : Nat} {crossings : List (List Nat)}
    {classes : List (List Nat)} {bound : Int} {r : List Nat × List (List Nat)}
    (h : remove_easy_segs n crossings classes bound = Outcome.returned r) : 0 < n := by
  by_contra h0
  have hn : n = 0 := by omega
  subst hn
  exact Outcome.noConfusion h

/-- The source's `add_easy_segs` returns, with the same matrix, when `easy_segs` comes
from `remove_easy_segs(bound)`, there are `bound` classes or more, no segment
is in two classes and the classes hold no easy segment; the result holds the
segments of the classes and the easy segments. -/
theorem add_easy_segs_spec (n : Nat) (crossings : List (List Nat)) (bound : Int)
    (hsym : ∀ i j, crosses crossings i j = crosses crossings j i)
    (segments : List Segment) (hne : crossings ≠ [])
    (E : List Nat) (classes : List (List Nat))
    (hord : EasyOrder n crossings bound E.reverse) (hnd : E.Nodup) (hlt : ∀ s ∈ E, s < n)
    (hcnd : classes.flatten.Nodup) (hmem : ∀ x ∈ classes.flatten, x < n ∧ x ∉ E)
    (hB : bound ≤ (classes.length : Int)) :
    ∃ cls, add_easy_segs true segments crossings E classes
        = Outcome.returned (crossings, cls) ∧
      cls.length = classes.length ∧ cls.flatten.Perm (classes.flatten ++ E) ∧
      ((∀ cl ∈ classes, CrossFree crossings cl) → ∀ cl ∈ cls, CrossFree crossings cl) := by
  obtain ⟨cls, r1, r2, r3, r4⟩ := addBack_spec n crossings bound hsym E.reverse classes hord
    (List.nodup_reverse.2 hnd) (fun s hs => hlt s (List.mem_reverse.1 hs)) hcnd
    (fun x hx => ⟨(hmem x hx).1, fun h => (hmem x hx).2 (List.mem_reverse.1 h)⟩) hB
  refine ⟨cls, ?_, r2, r3.trans (List.Perm.append_left _ (List.reverse_perm E)), r4⟩
  unfold add_easy_segs
  rw [if_neg (by decide)]
  simp only [if_neg hne]
  rw [r1]
  rfl

end Conflict

namespace Conflict

/-! ### The optimizer never adds a class -/

theorem foldl_length_of_step {α β : Type} (f : List β → α → List β)
    (hf : ∀ l a, (f l a).length = l.length) :
    ∀ (xs : List α) (l : List β), (xs.foldl f l).length = l.length := by
  intro xs
  induction xs with
  | nil => intro l; rfl
  | cons x xs ih => intro l; rw [List.foldl_cons, ih, hf]

theorem move_segments_length (crossings : List (List Nat)) (classes : List (List Nat))
    (c : Nat) : (move_segments crossings classes c).length = classes.length := by
  unfold move_segments
  apply foldl_length_of_step
  intro l a
  simp only [List.length_set]

theorem remove_edges_length (classes : List (List Nat)) (c : Nat) (X : List Nat) :
    (remove_edges_from_color classes c X).length = classes.length := by
  rw [remove_edges_eq, List.length_set]

theorem add_edges_length (classes : List (List Nat)) (c : Nat) (X : List Nat) :
    (add_edges_to_color classes c X).length = classes.length := by
  rw [add_edges_eq, List.length_set]

theorem shuffleFrom_length_le (crossings : List (List Nat)) :
    ∀ (fuel c : Nat) (classes : List (List Nat)),
      (shuffleFrom crossings fuel c classes).length ≤ classes.length := by
  intro fuel
  induction fuel with
  | zero => intro c classes; exact le_refl _
  | succ fuel ih =>
    intro c classes
    rw [shuffleFrom]
    dsimp only
    split_ifs with h1 h2
    · refine (ih c _).trans ?_
      rw [List.length_eraseIdx, move_segments_length]
      split_ifs; omega
    · exact (ih (c + 1) _).trans (le_of_eq (move_segments_length _ _ _))
    · exact le_refl _

theorem shuffle_once_length_le (sortBySize : List (List Nat) → List (List Nat))
    (hsort : ∀ l, (sortBySize l).Perm l) (crossings : List (List Nat))
    (classes : List (List Nat)) :
    (shuffle_once sortBySize crossings classes).length ≤ classes.length := by
  unfold shuffle_once
  exact (shuffleFrom_length_le crossings _ 0 _).trans (le_of_eq (hsort classes).length_eq)

theorem addBack_length (crossings : List (List Nat)) :
    ∀ (R : List Nat) (classes cls : List (List Nat)),
      addBack crossings R classes = Outcome.returned cls → cls.length = classes.length := by
  intro R
  induction R with
  | nil =>
    intro classes cls h
    rw [addBack] at h
    rw [← Outcome.returned.inj h]
  | cons s rest ih =>
    intro classes cls h
    rw [addBack] at h
    cases hfa : firstAdmissible crossings classes s with
    | none => rw [hfa] at h; exact Outcome.noConfusion h
    | some c =>
      rw [hfa] at h
      rw [ih _ _ h, List.length_set]

theorem addEasy_length {st st1 : Conflict} (h : addEasy st = Outcome.returned st1) :
    st1.classes.length = st.classes.length := by
  unfold addEasy at h
  obtain ⟨r, hr, hst⟩ := Outcome_bind_returned h
  rw [← Outcome.returned.inj hst]
  show r.2.length = _
  unfold add_easy_segs at hr
  by_cases he : st.param.easy = false
  · rw [if_pos he] at hr
    rw [← Outcome.returned.inj hr]
  · rw [if_neg he] at hr
    obtain ⟨cls, hcls, hr2⟩ := Outcome_bind_returned hr
    rw [← Outcome.returned.inj hr2]
    exact addBack_length _ _ _ _ hcls

theorem shuffleLoop_length_le (w : World) (hsort : ∀ l, (w.sortBySize l).Perm l) (n : Int) :
    ∀ (fuel : Nat) (count : Int) (size : Nat) (st : Conflict) (r : Bool × Conflict),
      shuffleLoop w n fuel count size st = Outcome.returned r →
      r.2.classes.length ≤ st.classes.length := by
  intro fuel
  induction fuel with
  | zero =>
    intro count size st r h
    rw [shuffleLoop] at h
    split_ifs at h
    rw [← Outcome.returned.inj h]
  | succ fuel ih =>
    intro count size st r h
    rw [shuffleLoop] at h
    have hle := shuffle_once_length_le w.sortBySize hsort st.crossings st.classes
    dsimp only at h
    split_ifs at h with h1 h2 h3
    · obtain ⟨st2, hst2, hr⟩ := Outcome_bind_returned h
      rw [← Outcome.returned.inj hr]
      have := addEasy_length hst2
      show st2.classes.length ≤ _
      rw [this]
      exact hle
    · exact (ih _ _ _ _ h).trans hle
    · exact (ih _ _ _ _ h).trans hle
    · rw [← Outcome.returned.inj h]

theorem shuffle_length_le (w : World) (hsort : ∀ l, (w.sortBySize l).Perm l) (n : Int)
    (st : Conflict) (r : Bool × Conflict) (h : shuffle w n st = Outcome.returned r) :
    r.2.classes.length ≤ st.classes.length :=
  shuffleLoop_length_le w hsort n _ _ _ _ _ h

theorem tryColors_length
    (dfs : List (List Nat) → List Nat → List Nat → Int → Int → List stack_event_t →
      Outcome (Int × List (List Nat) × List stack_event_t))
    (hdfs : ∀ classes todo forbidden breadth depth changes r,
      dfs classes todo forbidden breadth depth changes = Outcome.returned r →
      r.2.1.length = classes.length)
    (e : Nat) (forbidden : List Nat) (breadth depth : Int) :
    ∀ (cc : List (Nat × List Nat)) (classes : List (List Nat))
      (r : List (List Nat) × Option (List stack_event_t)),
      tryColors dfs e forbidden breadth depth cc classes = Outcome.returned r →
      r.1.length = classes.length := by
  intro cc
  induction cc with
  | nil =>
    intro classes r h
    rw [tryColors] at h
    rw [← Outcome.returned.inj h]
  | cons p rest ih =>
    intro classes r h
    obtain ⟨c, conflicts⟩ := p
    rw [tryColors] at h
    obtain ⟨r1, hr1, h2⟩ := Outcome_bind_returned h
    have hl1 := hdfs _ _ _ _ _ _ _ hr1
    rw [remove_edges_length, List.length_set] at hl1
    split_ifs at h2 with hm
    · have := ih _ _ h2
      rw [this, add_edges_length, remove_edges_length, hl1]
    · rw [← Outcome.returned.inj h2]
      exact hl1

theorem colorTodo_length
    (dfs : List (List Nat) → List Nat → List Nat → Int → Int → List stack_event_t →
      Outcome (Int × List (List Nat) × List stack_event_t))
    (hdfs : ∀ classes todo forbidden breadth depth changes r,
      dfs classes todo forbidden breadth depth changes = Outcome.returned r →
      r.2.1.length = classes.length)
    (crossings : List (List Nat)) (forbidden : List Nat) (breadth depth : Int) :
    ∀ (todo : List Nat) (classes : List (List Nat)) (changes : List stack_event_t)
      (r : Int × List (List Nat) × List stack_event_t),
      colorTodo dfs crossings forbidden breadth depth todo classes changes = Outcome.returned r →
      r.2.1.length = classes.length := by
  intro todo
  induction todo with
  | nil =>
    intro classes changes r h
    rw [colorTodo] at h
    rw [← Outcome.returned.inj h]
  | cons e rest ih =>
    intro classes changes r h
    rw [colorTodo] at h
    obtain ⟨r1, hr1, h2⟩ := Outcome_bind_returned h
    have hl1 := tryColors_length dfs hdfs _ _ _ _ _ _ _ hr1
    cases hopt : r1.2 with
    | none =>
      rw [hopt] at h2
      rw [← Outcome.returned.inj h2]
      show (undo_changes r1.1 changes).length = _
      rw [undo_changes_length, hl1]
    | some events =>
      rw [hopt] at h2
      rw [ih _ _ _ h2, hl1]

theorem dfsOptimize_length (crossings : List (List Nat)) :
    ∀ (fuel : Nat) (classes : List (List Nat)) (todo forbidden : List Nat) (breadth depth : Int)
      (changes : List stack_event_t) (r : Int × List (List Nat) × List stack_event_t),
      dfsOptimize crossings fuel classes todo forbidden breadth depth changes
        = Outcome.returned r →
      r.2.1.length = classes.length := by
  intro fuel
  induction fuel with
  | zero =>
    intro classes todo forbidden breadth depth changes r h
    rw [dfsOptimize] at h
    split_ifs at h
    rw [← Outcome.returned.inj h]
  | succ fuel ih =>
    intro classes todo forbidden breadth depth changes r h
    rw [dfsOptimize] at h
    by_cases ht : todo = []
    · rw [if_pos ht] at h
      rw [← Outcome.returned.inj h]
    · rw [if_neg ht] at h
      exact colorTodo_length _ (fun a b c d e f g => ih a b c d e f g) _ _ _ _ _ _ _ _ h

theorem best_color_classes (w : World) (st : Conflict) (seg fuel : Nat)
    (r : (Bool × Nat × List Nat) × Conflict)
    (h : best_color w st seg fuel = Outcome.returned r) : r.2.classes = st.classes := by
  unfold best_color at h
  dsimp only at h
  obtain ⟨r1, _, h2⟩ := Outcome_bind_returned h
  rw [← Outcome.returned.inj h2]

theorem timeIsUp_classes (w : World) (st : Conflict) :
    (timeIsUp w st).2.classes = st.classes := rfl

theorem switchParam_classes (w : World) (st : Conflict) :
    (switchParam w st).classes = st.classes := by
  unfold switchParam
  dsimp only
  split_ifs <;> rfl

theorem queueLoop_length (w : World) (temp_sol : List (List Nat)) :
    ∀ (fuel : Nat) (st : Conflict) (queue dfs_queue : List Nat) (r : Bool × Conflict),
      queueLoop w temp_sol fuel st queue dfs_queue = Outcome.returned r →
      (r.1 = true → r.2.classes.length = st.classes.length) ∧
        (r.1 = false → r.2.classes = temp_sol) := by
  intro fuel
  induction fuel with
  | zero =>
    intro st queue dfs_queue r h
    rw [queueLoop] at h
    split_ifs at h
    rw [← Outcome.returned.inj h]
    exact ⟨fun _ => rfl, fun h => Bool.noConfusion h⟩
  | succ fuel ih =>
    intro st queue dfs_queue r h
    rw [queueLoop] at h
    have hsw : (switchParam w (timeIsUp w st).2).classes.length = st.classes.length := by
      rw [switchParam_classes, timeIsUp_classes]
    by_cases h1 : queue = [] ∧ dfs_queue = []
    · rw [if_pos h1] at h
      rw [← Outcome.returned.inj h]
      exact ⟨fun _ => rfl, fun h => Bool.noConfusion h⟩
    rw [if_neg h1] at h
    dsimp only at h
    by_cases h2 : (timeIsUp w st).1 = true
    · rw [if_pos h2] at h
      exact Outcome.noConfusion h
    rw [if_neg h2] at h
    cases dfs_queue with
    | cons cur_seg dfs_rest =>
      dsimp only at h
      generalize (if queue.length < 3 then (if queue.length = 1 then (5 : Int) else 7) else 3)
        = depth at h
      by_cases h3 : (switchParam w (timeIsUp w st).2).param.dfs = true
      · rw [if_pos h3] at h
        obtain ⟨r1, hr1, h4⟩ := Outcome_bind_returned h
        have hl := dfsOptimize_length _ _ _ _ _ _ _ _ _ hr1
        by_cases h5 : r1.1 = 0
        · rw [if_pos h5] at h4
          obtain ⟨a, b⟩ := ih _ _ _ _ h4
          exact ⟨fun ht => (a ht).trans (hl.trans hsw), b⟩
        · rw [if_neg h5] at h4
          obtain ⟨a, b⟩ := ih _ _ _ _ h4
          exact ⟨fun ht => (a ht).trans (hl.trans hsw), b⟩
      · rw [if_neg h3] at h
        obtain ⟨a, b⟩ := ih _ _ _ _ h
        exact ⟨fun ht => (a ht).trans hsw, b⟩
    | nil =>
      cases queue with
      | nil =>
        dsimp only at h
        rw [← Outcome.returned.inj h]
        exact ⟨fun _ => hsw, fun h => Bool.noConfusion h⟩
      | cons cur_seg queue_rest =>
        dsimp only at h
        obtain ⟨r1, hr1, h4⟩ := Outcome_bind_returned h
        have hc := best_color_classes _ _ _ _ _ hr1
        by_cases h5 : r1.1.1 = true
        · rw [if_pos h5] at h4
          obtain ⟨a, b⟩ := ih _ _ _ _ h4
          refine ⟨fun ht => (a ht).trans ?_, b⟩
          show (List.set _ _ _).length = _
          rw [List.length_set, remove_edges_length, hc]
          exact hsw
        · rw [if_neg h5] at h4
          rw [← Outcome.returned.inj h4]
          exact ⟨fun h => Bool.noConfusion h, fun _ => rfl⟩

theorem dfsOptimFrom_length_le (w : World) (one_shot : Bool) (fuelQ : Nat) :
    ∀ (fuel c : Nat) (st st1 : Conflict),
      dfsOptimFrom w one_shot fuelQ fuel c st = Outcome.returned st1 →
      st1.classes.length ≤ st.classes.length := by
  intro fuel
  induction fuel with
  | zero =>
    intro c st st1 h
    rw [dfsOptimFrom] at h
    rw [← Outcome.returned.inj h]
  | succ fuel ih =>
    intro c st st1 h
    rw [dfsOptimFrom] at h
    by_cases h1 : c < st.classes.length
    swap
    · rw [if_neg h1] at h
      rw [← Outcome.returned.inj h]
    rw [if_pos h1] at h
    dsimp only at h
    have hmv := move_segments_length st.crossings st.classes c
    have her : ((move_segments st.crossings st.classes c).eraseIdx c).length
        ≤ st.classes.length := by
      rw [List.length_eraseIdx, hmv]
      split_ifs; omega
    by_cases h2 : (move_segments st.crossings st.classes c).getD c [] = []
    · rw [if_pos h2] at h
      exact (ih _ _ _ h).trans her
    rw [if_neg h2] at h
    obtain ⟨qc, _, h3⟩ := Outcome_bind_returned h
    obtain ⟨r, hr, h4⟩ := Outcome_bind_returned h3
    obtain ⟨ha, hb⟩ := queueLoop_length _ _ _ _ _ _ _ hr
    have hr2 : r.2.classes.length ≤ st.classes.length := by
      cases hb1 : r.1 with
      | true => rw [ha hb1]; exact her
      | false => rw [hb hb1, hmv]
    by_cases h5 : r.1 = true
    · rw [if_pos h5] at h4
      rw [← Outcome.returned.inj h4]
      exact hr2
    rw [if_neg h5] at h4
    by_cases h6 : one_shot = true
    · rw [if_pos h6] at h4
      rw [← Outcome.returned.inj h4]
      exact hr2
    rw [if_neg h6] at h4
    by_cases h7 : (timeIsUp w r.2).1 = true
    · rw [if_pos h7] at h4
      rw [← Outcome.returned.inj h4]
      exact hr2
    · rw [if_neg h7] at h4
      exact (ih _ _ _ h4).trans hr2

theorem conflict_dfs_optim_solution_length_le (w : World)
    (hsort : ∀ l, (w.sortBySize l).Perm l) (fuelQ : Nat) (one_shot : Bool) (st st1 : Conflict)
    (h : conflict_dfs_optim_solution w fuelQ one_shot st = Outcome.returned st1) :
    st1.classes.length ≤ st.classes.length := by
  unfold conflict_dfs_optim_solution at h
  exact (dfsOptimFrom_length_le w one_shot fuelQ _ _ _ _ h).trans
    (le_of_eq (hsort st.classes).length_eq)

theorem optimizeLoop_length (w : World) (hsort : ∀ l, (w.sortBySize l).Perm l)
    (fuelQ : Nat) :
    ∀ (fuel : Nat) (st : Conflict) (r : Bool × Conflict),
      optimizeLoop w fuelQ fuel st = Outcome.returned r →
      r.2.classes.length ≤ st.classes.length ∧
        (r.1 = true → r.2.classes.length < st.classes.length) := by
  intro fuel
  induction fuel with
  | zero =>
    intro st r h
    rw [optimizeLoop] at h
    exact Outcome.noConfusion h
  | succ fuel ih =>
    intro st r h
    rw [optimizeLoop] at h
    obtain ⟨s, hs, h1⟩ := Outcome_bind_returned h
    have hsl := shuffle_length_le w hsort 11 st s hs
    dsimp only at h1
    by_cases h2 : 0 ≠ s.2.classes.length
    swap
    · rw [if_neg h2] at h1
      obtain ⟨a, b⟩ := ih _ _ h1
      exact ⟨a.trans hsl, fun ht => lt_of_lt_of_le (b ht) hsl⟩
    rw [if_pos h2] at h1
    obtain ⟨st1, hst1, h3⟩ := Outcome_bind_returned h1
    have hdl := conflict_dfs_optim_solution_length_le w hsort fuelQ false s.2 st1 hst1
    by_cases h4 : s.2.classes.length ≠ st1.classes.length
    · rw [if_pos h4] at h3
      obtain ⟨st2, hst2, h5⟩ := Outcome_bind_returned h3
      have := addEasy_length hst2
      rw [← Outcome.returned.inj h5]
      show st2.classes.length ≤ _ ∧ (_ → st2.classes.length < _)
      rw [this]
      have hlt : st1.classes.length < st.classes.length :=
        lt_of_lt_of_le (lt_of_le_of_ne hdl (fun e => h4 e.symm)) hsl
      exact ⟨le_of_lt hlt, fun _ => hlt⟩
    rw [if_neg h4] at h3
    by_cases h6 : (timeIsUp w st1).1 = true
    · rw [if_pos h6] at h3
      rw [← Outcome.returned.inj h3]
      exact ⟨hdl.trans hsl, fun h => Bool.noConfusion h⟩
    · rw [if_neg h6] at h3
      obtain ⟨a, b⟩ := ih _ _ h3
      exact ⟨a.trans (hdl.trans hsl), fun ht => lt_of_lt_of_le (b ht) (hdl.trans hsl)⟩

theorem remove_easy_segs_length (n : Nat) (crossings : List (List Nat))
    (classes : List (List Nat)) (bound : Int) (r : List Nat × List (List Nat))
    (h : remove_easy_segs n crossings classes bound = Outcome.returned r) :
    r.2.length = classes.length := by
  unfold remove_easy_segs at h
  obtain ⟨p, _, h1⟩ := Outcome_bind_returned h
  rw [← Outcome.returned.inj h1]
  exact List.length_map _ _

theorem optimize_length (w : World) (hsort : ∀ l, (w.sortBySize l).Perm l)
    (fuel : Nat) (st : Conflict) (r : Bool × Conflict)
    (h : optimize w fuel st = Outcome.returned r) :
    r.2.classes.length ≤ st.classes.length ∧
      (r.1 = true → r.2.classes.length < st.classes.length) := by
  unfold optimize at h
  by_cases he : st.param.easy = true
  · rw [if_pos he] at h
    obtain ⟨p, hp, h1⟩ := Outcome_bind_returned h
    have hl := remove_easy_segs_length _ _ _ _ _ hp
    have := optimizeLoop_length w hsort fuel fuel _ _ h1
    rw [← hl]
    exact this
  · rw [if_neg he] at h
    exact optimizeLoop_length w hsort fuel fuel _ _ h

end Conflict

namespace Conflict

/-! ### `shuffle` at a fixed point -/

theorem FixedPoint.perm {crossings : List (List Nat)} {a b : List (List Nat)}
    (h : FixedPoint crossings a) (hp : a.Perm b) : FixedPoint crossings b :=
  (List.Perm.pairwise_iff (fun hxy => ⟨hxy.2, hxy.1⟩) hp).1 h

theorem FixedPoint.sublist {crossings : List (List Nat)} {a b : List (List Nat)}
    (h : FixedPoint crossings a) (hs : b.Sublist a) : FixedPoint crossings b :=
  List.Pairwise.sublist hs h

theorem FixedPoint.blocked {crossings : List (List Nat)} {classes : List (List Nat)}
    (h : FixedPoint crossings classes) {c c2 : Nat} (hc : c < classes.length)
    (hc2 : c2 < classes.length) (hne : c ≠ c2) {si : Nat} (hsi : si ∈ classes.getD c []) :
    edge_can_be_added_to_graph crossings classes si c2 = false := by
  unfold edge_can_be_added_to_graph
  rw [List.all_eq_false]
  rw [List.getD_eq_getElem _ _ hc] at hsi
  rw [List.getD_eq_getElem _ _ hc2]
  have hp := List.pairwise_iff_getElem.1 h
  rcases Nat.lt_or_gt_of_ne hne with hlt | hgt
  · obtain ⟨sj, hsj, hx⟩ := (hp c c2 hc hc2 hlt).1 si hsi
    exact ⟨sj, hsj, by simp [hx]⟩
  · obtain ⟨sj, hsj, hx⟩ := (hp c2 c hc2 hc hgt).2 si hsi
    exact ⟨sj, hsj, by simp [hx]⟩

theorem move_segments_fixed {crossings : List (List Nat)} {classes : List (List Nat)}
    (h : FixedPoint crossings classes) {c : Nat} (hc : c < classes.length) :
    move_segments crossings classes c = classes := by
  unfold move_segments
  have : (classes.getD c []).filterMap (fun si =>
      ((List.range classes.length).find?
        (fun c2 => c != c2 && edge_can_be_added_to_graph crossings classes si c2)).map
          (fun c2 => (si, c2))) = [] := by
    rw [List.filterMap_eq_nil_iff]
    intro si hsi
    have hnone : (List.range classes.length).find?
        (fun c2 => c != c2 && edge_can_be_added_to_graph crossings classes si c2) = none := by
      rw [List.find?_eq_none]
      intro c2 hc2
      by_cases hne : c = c2
      · simp [hne]
      · rw [h.blocked hc (List.mem_range.1 hc2) hne hsi]
        simp
    rw [hnone]
    rfl
  simp only [this, List.foldl_nil]

theorem shuffleFrom_fixed (crossings : List (List Nat)) :
    ∀ (fuel c : Nat) (classes : List (List Nat)), FixedPoint crossings classes →
      classes.length - c ≤ fuel →
      shuffleFrom crossings fuel c classes
        = classes.take c ++ (classes.drop c).filter (fun cl => decide (cl ≠ [])) := by
  intro fuel
  induction fuel with
  | zero =>
    intro c classes _ hf
    rw [shuffleFrom]
    have hc : classes.length ≤ c := by omega
    rw [List.take_of_length_le hc, List.drop_eq_nil_of_le hc]
    simp
  | succ fuel ih =>
    intro c classes h hf
    rw [shuffleFrom]
    by_cases hc : c < classes.length
    · rw [if_pos hc]
      dsimp only
      rw [move_segments_fixed h hc]
      have hd := List.drop_eq_getElem_cons hc
      have hg : classes.getD c [] = classes[c] := List.getD_eq_getElem _ _ hc
      by_cases he : classes.getD c [] = []
      · rw [if_pos he, ih c _ (h.sublist (List.eraseIdx_sublist _ _))
          (by rw [List.length_eraseIdx, if_pos hc]; omega)]
        rw [List.eraseIdx_eq_take_drop_succ, hd]
        have ht : (List.take c classes).length = c := List.length_take_of_le (le_of_lt hc)
        rw [List.take_append_of_le_length (le_of_eq ht.symm), List.take_take, min_self,
          List.drop_append_of_le_length (le_of_eq ht.symm)]
        have : List.drop c (List.take c classes) = [] := by
          apply List.drop_eq_nil_of_le
          rw [ht]
        rw [this, List.nil_append, List.filter_cons, ← hg, he]
        simp
      · have he2 : classes[c] ≠ [] := by rw [← hg]; exact he
        have hdec : decide (classes[c] ≠ []) = true := by simp [he2]
        rw [if_neg he, ih (c + 1) _ h (by omega), hd, List.filter_cons, hdec, if_pos rfl,
          List.take_succ, List.getElem?_eq_getElem hc, List.append_assoc]
        rfl
    · rw [if_neg hc]
      have hc2 : classes.length ≤ c := not_lt.1 hc
      rw [List.take_of_length_le hc2, List.drop_eq_nil_of_le hc2]
      simp

theorem shuffle_once_fixed (sortBySize : List (List Nat) → List (List Nat))
    (hsort : ∀ l, (sortBySize l).Perm l) {crossings : List (List Nat)}
    {classes : List (List Nat)} (h : FixedPoint crossings classes) :
    shuffle_once sortBySize crossings classes
      = (sortBySize classes).filter (fun cl => decide (cl ≠ [])) := by
  unfold shuffle_once
  dsimp only
  rw [shuffleFrom_fixed crossings _ 0 _ (h.perm (hsort classes).symm) (by omega)]
  simp

theorem addEasy_param {st st1 : Conflict} (h : addEasy st = Outcome.returned st1) :
    st1.param = st.param := by
  unfold addEasy at h
  obtain ⟨r, _, hst⟩ := Outcome_bind_returned h
  rw [← Outcome.returned.inj hst]

theorem shuffleLoop_param (w : World) (n : Int) :
    ∀ (fuel : Nat) (count : Int) (size : Nat) (st : Conflict) (r : Bool × Conflict),
      shuffleLoop w n fuel count size st = Outcome.returned r → r.2.param = st.param := by
  intro fuel
  induction fuel with
  | zero =>
    intro count size st r h
    rw [shuffleLoop] at h
    split_ifs at h
    rw [← Outcome.returned.inj h]
  | succ fuel ih =>
    intro count size st r h
    rw [shuffleLoop] at h
    dsimp only at h
    split_ifs at h with h1 h2 h3
    · obtain ⟨st2, hst2, hr⟩ := Outcome_bind_returned h
      rw [← Outcome.returned.inj hr]
      have := addEasy_param hst2
      exact this
    · have := ih _ _ _ _ h
      exact this
    · have := ih _ _ _ _ h
      exact this
    · rw [← Outcome.returned.inj h]

theorem shuffleLoop_fixed (w : World) (hsort : ∀ l, (w.sortBySize l).Perm l) (n : Int) :
    ∀ (fuel : Nat) (count : Int) (st : Conflict),
      FixedPoint st.crossings st.classes → (∀ cl ∈ st.classes, cl ≠ []) →
      (n - count).toNat ≤ fuel →
      ∃ st2, shuffleLoop w n fuel count st.classes.length st = Outcome.returned (false, st2) ∧
        st2.classes.Perm st.classes := by
  intro fuel
  induction fuel with
  | zero =>
    intro count st _ _ hf
    rw [shuffleLoop, if_neg (by omega)]
    exact ⟨st, rfl, List.Perm.refl _⟩
  | succ fuel ih =>
    intro count st hfix hne hf
    rw [shuffleLoop]
    by_cases hc : count < n
    · rw [if_pos hc]
      dsimp only
      have hso : shuffle_once w.sortBySize st.crossings st.classes = w.sortBySize st.classes := by
        rw [shuffle_once_fixed w.sortBySize hsort hfix, List.filter_eq_self]
        intro cl hcl
        simp [hne cl ((hsort st.classes).mem_iff.1 hcl)]
      have hlen : (shuffle_once w.sortBySize st.crossings st.classes).length
          = st.classes.length := by rw [hso]; exact (hsort st.classes).length_eq
      rw [if_neg (by rw [hlen]; exact fun h => h rfl)]
      obtain ⟨st2, h2, hp⟩ := ih (count + 1)
        { st with classes := shuffle_once w.sortBySize st.crossings st.classes }
        (by rw [hso]; exact hfix.perm (hsort st.classes).symm)
        (by
          intro cl hcl
          have hcl1 : cl ∈ shuffle_once w.sortBySize st.crossings st.classes := hcl
          rw [hso] at hcl1
          exact hne cl ((hsort st.classes).mem_iff.1 hcl1))
        (by omega)
      refine ⟨st2, h2, hp.trans ?_⟩
      show (shuffle_once w.sortBySize st.crossings st.classes).Perm _
      rw [hso]
      exact hsort st.classes
    · rw [if_neg hc]
      exact ⟨st, rfl, List.Perm.refl _⟩

theorem shuffle_fixed (w : World) (hsort : ∀ l, (w.sortBySize l).Perm l) (st : Conflict)
    (heasy : st.param.easy = false) (hfix : FixedPoint st.crossings st.classes) :
    ∃ st2, shuffle w 11 st = Outcome.returned (false, st2) ∧
      st2.classes.Perm (st.classes.filter (fun cl => decide (cl ≠ []))) := by
  unfold shuffle
  obtain ⟨f, hf1, hf2⟩ : ∃ f, ((11 : Int).toNat + 1) * (st.classes.length + 1) = f + 1 ∧
      11 ≤ f := ⟨((11 : Int).toNat + 1) * (st.classes.length + 1) - 1, by
    have : (11 : Int).toNat = 11 := rfl
    rw [this]; omega, by
    have : (11 : Int).toNat = 11 := rfl
    rw [this]; omega⟩
  rw [hf1, shuffleLoop, if_pos (by decide)]
  dsimp only
  have hso := shuffle_once_fixed w.sortBySize hsort hfix
  have hperm : (shuffle_once w.sortBySize st.crossings st.classes).Perm
      (st.classes.filter (fun cl => decide (cl ≠ []))) := by
    rw [hso]
    exact (hsort st.classes).filter _
  have hfix1 : FixedPoint st.crossings (shuffle_once w.sortBySize st.crossings st.classes) := by
    rw [hso]
    exact (hfix.perm (hsort st.classes).symm).sublist (List.filter_sublist _)
  have hne1 : ∀ cl ∈ shuffle_once w.sortBySize st.crossings st.classes, cl ≠ [] := by
    intro cl hcl
    rw [hso] at hcl
    simpa using (List.mem_filter.1 hcl).2
  by_cases hsz : st.classes.length ≠ (shuffle_once w.sortBySize st.crossings st.classes).length
  · rw [if_pos hsz, if_neg (by rw [heasy]; exact Bool.false_ne_true)]
    obtain ⟨st2, h2, hp⟩ := shuffleLoop_fixed w hsort 11 f (-1 + 1)
      { st with classes := shuffle_once w.sortBySize st.crossings st.classes }
      hfix1 hne1 (by omega)
    exact ⟨st2, h2, hp.trans hperm⟩
  · rw [if_neg hsz]
    obtain ⟨st2, h2, hp⟩ := shuffleLoop_fixed w hsort 11 f (0 + 1)
      { st with classes := shuffle_once w.sortBySize st.crossings st.classes }
      hfix1 hne1 (by omega)
    exact ⟨st2, h2, hp.trans hperm⟩

end Conflict

namespace Conflict

/-! ### `best_color` and the clique -/

theorem foldl_set_const {α : Type} (v d : α) (s : Nat) :
    ∀ (clique : List Nat) (init : List α), (s ∈ clique ∨ init.getD s d = v) →
      s < init.length →
      (clique.foldl (fun qc si => qc.set si v) init).getD s d = v := by
  intro clique
  induction clique with
  | nil =>
    intro init h _
    rcases h with h | h
    · exact absurd h (List.not_mem_nil _)
    · exact h
  | cons a rest ih =>
    intro init h hs
    rw [List.foldl_cons]
    apply ih
    · by_cases ha : a = s
      · right
        rw [getD_set_eq, if_pos ⟨ha, by rw [ha]; exact hs⟩]
      · rcases h with h | h
        · rcases List.mem_cons.1 h with h1 | h1
          · exact absurd h1.symm ha
          · exact Or.inl h1
        · right
          rw [getD_set_eq, if_neg (fun hh => ha hh.1)]
          exact h
    · rw [List.length_set]
      exact hs

theorem reset_queue_count_clique {n : Nat} {clique : List Nat} {qc : List Int}
    (h : reset_queue_count n clique = Outcome.returned qc) {s : Nat} (hs : s ∈ clique) :
    qc.getD s 0 = INT_MAX := by
  unfold reset_queue_count at h
  split_ifs at h with hall
  rw [← Outcome.returned.inj h]
  have hlt : s < n := by simpa using List.all_eq_true.1 hall s hs
  exact foldl_set_const INT_MAX 0 s clique _ (Or.inl hs) (by rw [List.length_replicate]; exact hlt)

theorem classCost_candidates (w : World) (st : Conflict) (seg : Nat) (m : ℚ) :
    ∀ (members : List Nat) (cc : ℚ) (cand : List Nat) (t : Nat),
      t ∈ (classCost w st seg m members cc cand).2 →
      t ∈ cand ∨ st.queue_count.getD t 0 < st.param.max_queue := by
  intro members
  induction members with
  | nil => intro cc cand t h; exact Or.inl h
  | cons si rest ih =>
    intro cc cand t h
    rw [classCost] at h
    by_cases h1 : crosses st.crossings seg si = true
    · rw [if_pos h1] at h
      by_cases h2 : st.queue_count.getD si 0 ≥ st.param.max_queue
      · rw [if_pos h2] at h
        exact Or.inl h
      · rw [if_neg h2] at h
        dsimp only at h
        split_ifs at h with h3
        · exact Or.inl h
        · rcases ih _ _ t h with h4 | h4
          · rcases List.mem_append.1 h4 with h5 | h5
            · exact Or.inl h5
            · rw [List.mem_singleton.1 h5]
              exact Or.inr (lt_of_not_ge h2)
          · exact Or.inr h4
    · rw [if_neg h1] at h
      exact ih _ _ t h

theorem bestFrom_candidates (w : World) (st : Conflict) (seg fuel : Nat) :
    ∀ (cs : List Nat) (acc r : ℚ × Nat × List Nat × Nat),
      bestFrom w st seg fuel cs acc = Outcome.returned r →
      (∀ t ∈ acc.2.2.1, st.queue_count.getD t 0 < st.param.max_queue) →
      ∀ t ∈ r.2.2.1, st.queue_count.getD t 0 < st.param.max_queue := by
  intro cs
  induction cs with
  | nil =>
    intro acc r h hacc
    rw [bestFrom] at h
    rw [← Outcome.returned.inj h]
    exact hacc
  | cons c rest ih =>
    intro acc r h hacc
    rw [bestFrom] at h
    obtain ⟨d, _, h2⟩ := Outcome_bind_returned h
    dsimp only at h2
    split_ifs at h2 with h3
    · refine ih _ _ h2 ?_
      intro t ht
      rcases classCost_candidates w st seg _ _ _ _ t ht with h4 | h4
      · exact absurd h4 (List.not_mem_nil _)
      · exact h4
    · exact ih _ _ h2 hacc

theorem best_color_spares_clique (w : World) (st : Conflict) (seg fuel : Nat)
    (r : (Bool × Nat × List Nat) × Conflict)
    (hq : reset_queue_count st.n_segments st.clique = Outcome.returned st.queue_count)
    (hmax : st.param.max_queue ≤ INT_MAX)
    (h : best_color w st seg fuel = Outcome.returned r) :
    ∀ s ∈ r.1.2.2, s ∉ st.clique := by
  unfold best_color at h
  dsimp only at h
  obtain ⟨r1, hr1, h2⟩ := Outcome_bind_returned h
  rw [← Outcome.returned.inj h2]
  intro s hs hcl
  have h3 := bestFrom_candidates w st seg fuel _ _ _ hr1
    (fun t ht => absurd ht (List.not_mem_nil _)) s hs
  rw [reset_queue_count_clique hq hcl] at h3
  exact absurd (lt_of_lt_of_le h3 hmax) (lt_irrefl _)

end Conflict

namespace Conflict

/-- One iteration of the `while` loop of `conflict_dfs_optim_solution` with a
nonempty `dfs_queue`, the time not being up and `param.dfs` set: the call is
`dfsOptimize(solo, forbidden, 3, depth, stack)` with `depth = dfs_depth q`. -/
theorem queueLoop_dfs_step (w : World) (temp_sol : List (List Nat)) (fuel : Nat)
    (st : Conflict) (queue : List Nat) (cur_seg : Nat) (dfs_rest : List Nat)
    (htime : (timeIsUp w st).1 = false)
    (hdfs : (switchParam w (timeIsUp w st).2).param.dfs = true) :
    queueLoop w temp_sol (fuel + 1) st queue (cur_seg :: dfs_rest)
      = (dfsOptimize (switchParam w (timeIsUp w st).2).crossings
          (dfs_depth queue.length).toNat (switchParam w (timeIsUp w st).2).classes
          [cur_seg] [] 3 (dfs_depth queue.length) []).bind fun r =>
          if r.1 = 0 then
            queueLoop w temp_sol fuel
              { switchParam w (timeIsUp w st).2 with classes := r.2.1 } queue dfs_rest
          else
            queueLoop w temp_sol fuel
              { switchParam w (timeIsUp w st).2 with classes := r.2.1 }
              (queue ++ [cur_seg]) dfs_rest := by
  rw [queueLoop, if_neg (fun h => List.cons_ne_nil _ _ h.2)]
  dsimp only
  rw [if_neg (by rw [htime]; exact Bool.false_ne_true), if_pos hdfs]
  rfl

end Conflict

/-! ### `Bad::color` and the sets `good`, `bad` -/

theorem Bad.color_sets (segs : List Segment) (ord : List Nat → List Nat) (st : Bad)
    (hord : ∀ l, (ord l).Perm l) (hN : 0 < segs.length)
    (hst : (st.good = [] ∧ st.bad = []) ∨ (st.good ++ st.bad).Perm (List.range segs.length)) :
    ∃ st1 last, Bad.color segs ord st = Outcome.returned st1 ∧
      st1.greedy.classes.getLast? = some last ∧
      (∀ i, i ∈ st1.bad ↔ i ∈ last ∨ i ∈ st.bad) ∧
      (∀ i, i ∈ st1.good ↔ i < segs.length ∧ i ∉ st1.bad) ∧
      (st1.good ++ st1.bad).Perm (List.range segs.length) := by
  unfold Bad.color
  simp only []
  generalize hg : (if st.good = [] ∧ st.bad = [] then ord (List.range segs.length)
    else st.good) = good
  have hperm : (good ++ st.bad).Perm (List.range segs.length) := by
    rw [← hg]
    rcases hst with ⟨h1, h2⟩ | h
    · rw [if_pos ⟨h1, h2⟩, h2, List.append_nil]; exact hord _
    · by_cases e : st.good = [] ∧ st.bad = []
      · rw [if_pos e, e.2, List.append_nil]; exact hord _
      · rw [if_neg e]; exact h
  have hnd : (good ++ st.bad).Nodup := hperm.nodup_iff.2 (List.nodup_range _)
  have hbad : st.bad.Nodup := (List.nodup_append.1 hnd).2.1
  have hgood : good.Nodup := (List.nodup_append.1 hnd).1
  have hdisj : ∀ a, a ∈ good → a ∈ st.bad → False := (List.nodup_append.1 hnd).2.2
  have hmem : ∀ a, a < segs.length ↔ a ∈ good ∨ a ∈ st.bad := by
    intro a
    rw [← List.mem_append, hperm.mem_iff, List.mem_range]
  have hflat : ((Greedy.greedy segs (good ++ st.bad) (Greedy.clearSol segs)).classes).flatten.Perm
      (good ++ st.bad) := by
    have := Greedy.flatten_foldr_place segs [] (good ++ st.bad)
    rw [List.flatten_nil, List.append_nil] at this
    exact this
  cases hl : (Greedy.greedy segs (good ++ st.bad) (Greedy.clearSol segs)).classes.getLast? with
  | none =>
    exfalso
    rw [List.getLast?_eq_none_iff] at hl
    rw [hl, List.flatten_nil] at hflat
    have h0 := hflat.length_eq
    rw [hperm.length_eq, List.length_range] at h0
    simp at h0
    omega
  | some last =>
    have hlast_mem : last ∈ (Greedy.greedy segs (good ++ st.bad) (Greedy.clearSol segs)).classes :=
      List.mem_of_getLast?_eq_some hl
    have hlast_sub : ∀ a ∈ last, a ∈ good ∨ a ∈ st.bad := by
      intro a ha
      exact List.mem_append.1 (hflat.mem_iff.1 (List.mem_flatten.2 ⟨last, hlast_mem, ha⟩))
    have hlast_nd : last.Nodup :=
      (List.nodup_flatten.1 (hflat.nodup_iff.2 hnd)).1 last hlast_mem
    have hb : ∀ i, i ∈ ord (st.bad ++ last.filter (fun vi => !st.bad.contains vi)) ↔
        i ∈ last ∨ i ∈ st.bad := by
      intro i
      rw [(hord _).mem_iff]
      simp only [List.mem_append, List.mem_filter, List.contains_eq_any_beq,
        Bool.not_eq_true', List.any_eq_false, beq_iff_eq]
      constructor
      · rintro (h | ⟨h, _⟩)
        · exact Or.inr h
        · exact Or.inl h
      · rintro (h | h)
        · by_cases hib : i ∈ st.bad
          · exact Or.inl hib
          · exact Or.inr ⟨h, fun x hx e => hib (e ▸ hx)⟩
        · exact Or.inl h
    have hgd : ∀ i, i ∈ good.filter (fun vi => !last.contains vi) ↔
        i < segs.length ∧ i ∉ ord (st.bad ++ last.filter (fun vi => !st.bad.contains vi)) := by
      intro i
      rw [hb, hmem]
      simp only [List.mem_filter, List.contains_eq_any_beq, Bool.not_eq_true',
        List.any_eq_false, beq_iff_eq]
      constructor
      · rintro ⟨h1, h2⟩
        refine ⟨Or.inl h1, ?_⟩
        rintro (h | h)
        · exact h2 i h rfl
        · exact hdisj i h1 h
      · rintro ⟨h1, h2⟩
        rcases h1 with h1 | h1
        · exact ⟨h1, fun x hx e => h2 (Or.inl (e ▸ hx))⟩
        · exact absurd (Or.inr h1) h2
    refine ⟨_, last, rfl, hl, hb, hgd, ?_⟩
    show (good.filter (fun vi => !last.contains vi) ++
      ord (st.bad ++ last.filter (fun vi => !st.bad.contains vi))).Perm _
    rw [List.perm_ext_iff_of_nodup _ (List.nodup_range _)]
    · intro a
      rw [List.mem_append, hgd, List.mem_range]
      constructor
      · rintro (h | h)
        · exact h.1
        · rcases (hb a).1 h with h1 | h1
          · exact (hmem a).2 (hlast_sub a h1)
          · exact (hmem a).2 (Or.inr h1)
      · intro h
        by_cases hab : a ∈ ord (st.bad ++ last.filter (fun vi => !st.bad.contains vi))
        · exact Or.inr hab
        · exact Or.inl ⟨h, hab⟩
    · rw [List.nodup_append]
      refine ⟨hgood.filter _, (hord _).nodup_iff.2 ?_, ?_⟩
      · rw [List.nodup_append]
        refine ⟨hbad, hlast_nd.filter _, ?_⟩
        intro a ha hb2
        have := (List.mem_filter.1 hb2).2
        simp [ha] at this
      · intro a ha hb2
        exact ((hgd a).1 ha).2 hb2

namespace Greedy

/-! ### The order in which `greedy` handles the segments -/

theorem greedyLoop_spec (segs : List Segment) :
    ∀ (n : Nat) (b a : List Nat) (classes : List (List Nat)) (order : List Nat),
      b.length = n →
      greedyLoop segs n (a ++ b) classes order
        = (a, b.foldr (place segs) classes, order ++ b.reverse) := by
  intro n
  induction n with
  | zero =>
    intro b a classes order hb
    rw [List.length_eq_zero] at hb
    subst hb
    rw [greedyLoop]
    simp
  | succ n ih =>
    intro b a classes order hb
    rcases List.eq_nil_or_concat b with h | ⟨b1, x, h⟩
    · rw [h] at hb
      exact absurd hb (by simp)
    · rw [List.concat_eq_append] at h
      subst h
      have hb1 : b1.length = n := by
        rw [List.length_append, List.length_singleton] at hb
        omega
      rw [greedyLoop, ← List.append_assoc, List.getLast?_concat, List.dropLast_concat]
      dsimp only
      rw [ih b1 a _ _ hb1, List.foldr_append, List.reverse_append, List.append_assoc]
      rfl

theorem greedyLoop_full (segs : List Segment) (uncolored : List Nat) :
    greedyLoop segs uncolored.length uncolored [] []
      = ([], (greedy segs uncolored (clearSol segs)).classes, uncolored.reverse) := by
  have := greedyLoop_spec segs uncolored.length uncolored [] [] [] rfl
  rw [List.nil_append, List.nil_append] at this
  exact this

theorem place_keeps (segs : List Segment) (vi : Nat) (cls : List (List Nat)) {x c : Nat}
    (h : x ∈ cls.getD c []) : x ∈ (place segs vi cls).getD c [] := by
  obtain ⟨hc, _⟩ := mem_getD_of_mem h
  rcases place_cases segs vi cls with ⟨h1, _⟩ | ⟨pre, cl, post, h1, h2, _, _⟩
  · rw [h1, List.getD_append _ _ _ _ hc]
    exact h
  · rw [h2]
    rw [h1] at h
    by_cases hcp : c < pre.length
    · rw [List.getD_append _ _ _ _ hcp]
      rw [List.getD_append _ _ _ _ hcp] at h
      exact h
    · have hle : pre.length ≤ c := not_lt.1 hcp
      rw [List.getD_append_right _ _ _ _ hle]
      rw [List.getD_append_right _ _ _ _ hle] at h
      cases hk : c - pre.length with
      | zero =>
        rw [hk] at h
        exact List.mem_append_left _ h
      | succ k =>
        rw [hk] at h
        exact h

theorem foldr_place_keeps (segs : List Segment) {x c : Nat} :
    ∀ (unc : List Nat) (cls : List (List Nat)), x ∈ cls.getD c [] →
      x ∈ (unc.foldr (place segs) cls).getD c [] := by
  intro unc
  induction unc with
  | nil => intro cls h; exact h
  | cons v rest ih =>
    intro cls h
    rw [List.foldr_cons]
    exact place_keeps segs v _ (ih cls h)

theorem color_first_segment (segs : List Segment) (hN : 0 < segs.length) :
    (color segs).colorv.getD 0 (-1) = 0 := by
  have h0 : (0 : Nat) ∈ (color segs).classes.getD 0 [] := by
    unfold color greedy clearSol
    simp only
    rw [uncolored_eq_reverse]
    obtain ⟨n, hn⟩ : ∃ n, segs.length = n + 1 := ⟨segs.length - 1, by omega⟩
    rw [hn, List.range_succ_eq_map, List.reverse_cons, List.foldr_append]
    apply foldr_place_keeps
    show (0 : Nat) ∈ (place segs 0 []).getD 0 []
    simp [place, first_available, scanClasses]
  have := (color_colorv_iff segs 0 0 hN).2 h0
  exact_mod_cast this

end Greedy

/-! ### The order in which `Angle::color` handles the segments -/

theorem Angle.uncolored_reverse (indices : List Nat) (n r : Nat) (hlen : indices.length = n) :
    ((List.range n).map (fun si => indices.getD ((si + r % indices.length) % n) 0)).reverse
      = (List.range n).map (fun k => indices.getD ((r + n - 1 - k) % n) 0) := by
  rw [← List.map_reverse, ← Greedy.uncolored_eq_reverse, List.map_map]
  apply List.map_congr_left
  intro k hk
  have hk2 : k < n := List.mem_range.1 hk
  show indices.getD ((n - k - 1 + r % indices.length) % n) 0 = _
  rw [hlen, Nat.add_mod_mod]
  congr 2
  omega

namespace DSatur

/-! ### The state at the start of an iteration of `DSatur::color` -/

theorem colorPrefix_inv (segments : List Segment)
    (colorChoice : DSatur → Nat → Outcome (Nat × DSatur)) (rnd : Nat → Nat)
    (P : DSatur → Prop)
    (hch : ∀ st vi, Inv segments st → P st → vi ∈ st.uncolored →
      ∃ c h, colorChoice st vi = Outcome.returned (c, { st with colorhulls := h }) ∧
        (st.neighbor_colors.getD vi []).getD c false = false ∧
        P (paint segments vi c { st with colorhulls := h })) :
    ∀ (n k : Nat) (st : DSatur), Inv segments st → P st →
      ∃ st1, colorPrefix segments colorChoice rnd n k st = Outcome.returned st1 ∧
        Inv segments st1 ∧ P st1 ∧ st1.uncolored.length = st.uncolored.length - n := by
  intro n
  induction n with
  | zero =>
    intro k st hI hP
    exact ⟨st, rfl, hI, hP, rfl⟩
  | succ n ih =>
    intro k st hI hP
    by_cases he : st.uncolored = []
    · exact ⟨st, by rw [colorPrefix, if_pos he], hI, hP, by rw [he]; simp⟩
    · obtain ⟨vi, hvi, hpick⟩ := pick_spec (rnd k) hI.ds he
      obtain ⟨c, h, hc1, hc2, hc3⟩ := hch st vi hI hP hvi
      have hstep : colorStep segments colorChoice (rnd k) st
          = Outcome.returned (paint segments vi c { st with colorhulls := h }) := by
        unfold colorStep
        rw [hpick, Outcome.bind, hc1, Outcome.bind]
      have hI2 : Inv segments (paint segments vi c { st with colorhulls := h }) :=
        paint_inv (inv_hulls hI h) hvi hc2
      have hlen2 : (paint segments vi c { st with colorhulls := h }).uncolored.length
          = st.uncolored.length - 1 := by
        rw [(paint_fields segments vi c { st with colorhulls := h }).2.1]
        show (st.uncolored.erase vi).length = _
        rw [List.length_erase_of_mem hvi]
      obtain ⟨st1, h1, h2, h3, h4⟩ := ih (k + 1) _ hI2 hc3
      refine ⟨st1, ?_, h2, h3, by rw [h4, hlen2]; omega⟩
      rw [colorPrefix, if_neg he, hstep, Outcome.bind]
      exact h1

theorem stateAt_inv (segments : List Segment) (rnd : Nat → Nat) (P : DSatur → Prop)
    (h0 : P (start segments))
    (hP : ∀ st vi, Inv segments st → P st → vi ∈ st.uncolored →
      P (paint segments vi (first_available st vi) st)) (k : Nat) :
    ∃ st, stateAt segments rnd k = Outcome.returned st ∧
      Inv segments st ∧ P st ∧ st.uncolored.length = segments.length - k := by
  obtain ⟨st, h1, h2, h3, h4⟩ := colorPrefix_inv segments
    (fun st vi => Outcome.returned (first_available st vi, st)) rnd P
    (fun st vi hI hPs hvi => ⟨first_available st vi, st.colorhulls, rfl,
      (firstFree_spec (st.neighbor_colors.getD vi [])).1, hP st vi hI hPs hvi⟩)
    k 0 (start segments) (start_inv segments) h0
  refine ⟨st, h1, h2, h3, ?_⟩
  rw [h4]
  show (List.range segments.length).length - k = _
  rw [List.length_range]

end DSatur

namespace DSatur

/-! ### The choice of the segment in an iteration of `DSatur::color` -/

end DSatur

namespace DSatur

/-! ### The bookkeeping of `dsat` -/

theorem count_true_pad (row : List Bool) (k : Nat) :
    (row ++ List.replicate k false).count true = row.count true := by
  rw [List.count_append, List.count_replicate]
  simp

theorem count_true_set (row : List Bool) (c : Nat) (hc : c < row.length)
    (h : row.getD c false = false) : (row.set c true).count true = row.count true + 1 := by
  rw [List.count_set _ _ _ _ hc]
  rw [List.getD_eq_getElem _ _ hc] at h
  simp [h]

theorem mark_dsat (segments : List Segment) (vi c : Nat) (st : DSatur) (si : Nat) :
    (mark segments vi c st si).dsat.length = st.dsat.length ∧
    (mark segments vi c st si).neighbor_colors.length = st.neighbor_colors.length ∧
    ∀ u, u < st.neighbor_colors.length → u < st.dsat.length →
      (mark segments vi c st si).dsat.getD u 0
          - ((((mark segments vi c st si).neighbor_colors.getD u []).count true : Nat) : Int)
        = st.dsat.getD u 0 - (((st.neighbor_colors.getD u []).count true : Nat) : Int) := by
  unfold mark
  by_cases hx : (segAt segments si).cross (segAt segments vi) = true
  · rw [if_pos hx]
    dsimp only
    generalize hrow1 : (if (st.neighbor_colors.getD si []).length < c + 1 then
        st.neighbor_colors.getD si []
          ++ List.replicate (c + 1 - (st.neighbor_colors.getD si []).length) false
      else st.neighbor_colors.getD si []) = row1
    have hcount : row1.count true = (st.neighbor_colors.getD si []).count true := by
      rw [← hrow1]
      split_ifs
      · exact count_true_pad _ _
      · rfl
    have hlen : c < row1.length := by
      rw [← hrow1]
      split_ifs with h
      · rw [List.length_append, List.length_replicate]; omega
      · omega
    by_cases hc : row1.getD c false = false
    · rw [if_pos hc]
      refine ⟨List.length_set _ _ _, List.length_set _ _ _, fun u hu1 hu2 => ?_⟩
      show (st.dsat.set si (st.dsat.getD si 0 + 1)).getD u 0
        - ((((st.neighbor_colors.set si (row1.set c true)).getD u []).count true : Nat) : Int) = _
      rw [Conflict.getD_set_eq, Conflict.getD_set_eq]
      by_cases e : si = u
      · subst e
        rw [if_pos ⟨rfl, hu2⟩, if_pos ⟨rfl, hu1⟩, count_true_set row1 c hlen hc, hcount]
        push_cast
        ring
      · rw [if_neg (fun h => e h.1), if_neg (fun h => e h.1)]
    · rw [if_neg hc]
      refine ⟨rfl, List.length_set _ _ _, fun u hu1 _ => ?_⟩
      show st.dsat.getD u 0
        - ((((st.neighbor_colors.set si row1).getD u []).count true : Nat) : Int) = _
      rw [Conflict.getD_set_eq]
      by_cases e : si = u
      · subst e
        rw [if_pos ⟨rfl, hu1⟩, hcount]
      · rw [if_neg (fun h => e h.1)]
  · rw [if_neg hx]
    exact ⟨rfl, rfl, fun _ _ _ => rfl⟩

theorem foldl_mark_dsat (segments : List Segment) (vi c : Nat) :
    ∀ (l : List Nat) (st : DSatur),
    (l.foldl (mark segments vi c) st).dsat.length = st.dsat.length ∧
    (l.foldl (mark segments vi c) st).neighbor_colors.length = st.neighbor_colors.length ∧
    ∀ u, u < st.neighbor_colors.length → u < st.dsat.length →
      (l.foldl (mark segments vi c) st).dsat.getD u 0
          - ((((l.foldl (mark segments vi c) st).neighbor_colors.getD u []).count true : Nat) : Int)
        = st.dsat.getD u 0 - (((st.neighbor_colors.getD u []).count true : Nat) : Int) := by
  intro l
  induction l with
  | nil => intro st; exact ⟨rfl, rfl, fun _ _ _ => rfl⟩
  | cons a rest ih =>
    intro st
    obtain ⟨m1, m2, m3⟩ := mark_dsat segments vi c st a
    obtain ⟨i1, i2, i3⟩ := ih (mark segments vi c st a)
    rw [List.foldl_cons]
    refine ⟨i1.trans m1, i2.trans m2, fun u hu1 hu2 => ?_⟩
    rw [i3 u (by rw [m2]; exact hu1) (by rw [m1]; exact hu2), m3 u hu1 hu2]

theorem paint_dsatCount {segments : List Segment} {st : DSatur} {vi : Nat} (c : Nat)
    (hI : Inv segments st) (hQ : DsatCount segments st) :
    DsatCount segments (paint segments vi c st) := by
  obtain ⟨f1, f2, f3⟩ := foldl_mark_dsat segments vi c (st.uncolored.erase vi)
    { st with
      colorv := st.colorv.set vi (c : Int)
      uncolored := st.uncolored.erase vi
      neighbor_colors := st.neighbor_colors.set vi [] }
  have hunc := (paint_fields segments vi c st).2.1
  refine ⟨f1.trans hQ.1, fun u hu => ?_⟩
  rw [hunc] at hu
  obtain ⟨hne, hu2⟩ := (hI.nodup.mem_erase_iff).1 hu
  have hlt := hI.lt u hu2
  have h := f3 u (by rw [List.length_set, hI.len_nc]; exact hlt) (by rw [hQ.1]; exact hlt)
  have h2 : (paint segments vi c st).dsat.getD u 0
      - ((((paint segments vi c st).neighbor_colors.getD u []).count true : Nat) : Int)
      = st.dsat.getD u 0 - (((st.neighbor_colors.getD u []).count true : Nat) : Int) := by
    refine h.trans ?_
    show st.dsat.getD u 0
      - ((((st.neighbor_colors.set vi []).getD u []).count true : Nat) : Int) = _
    rw [Conflict.getD_set_eq, if_neg (fun e => hne e.1.symm)]
  have h3 := hQ.2 u hu2
  omega

theorem start_dsatCount (segments : List Segment) : DsatCount segments (start segments) := by
  refine ⟨List.length_replicate _ _, fun u _ => ?_⟩
  show (List.replicate segments.length (0 : Int)).getD u 0
    = ((((List.replicate segments.length ([] : List Bool)).getD u []).count true : Nat) : Int)
  rw [Conflict.getD_replicate_eq, Conflict.getD_replicate_eq]
  split_ifs <;> rfl

theorem count_true_eq_filter : ∀ row : List Bool,
    row.count true = ((List.range row.length).filter (fun c => row.getD c false)).length := by
  intro row
  induction row with
  | nil => rfl
  | cons b rest ih =>
    rw [List.length_cons, List.range_succ_eq_map, List.filter_cons, List.filter_map,
      List.count_cons, ih]
    have : (fun c => (b :: rest).getD c false) ∘ Nat.succ = fun c => rest.getD c false := by
      funext c
      rfl
    rw [this]
    cases b <;> simp

theorem dsat_eq_colours {segments : List Segment} {st : DSatur} (hI : Inv segments st)
    (hQ : DsatCount segments st) {u : Nat} (hu : u ∈ st.uncolored) :
    st.dsat.getD u 0 = ((neighborColorList segments st u).length : Int) := by
  rw [hQ.2 u hu, count_true_eq_filter]
  congr 1
  rw [← List.length_map _ (fun c : Nat => (c : Int))]
  apply List.Perm.length_eq
  unfold neighborColorList
  rw [List.perm_ext_iff_of_nodup
    (List.Nodup.map (fun a b h => Int.ofNat_inj.1 h) ((List.nodup_range _).filter _))
    (List.nodup_dedup _)]
  intro x
  rw [List.mem_dedup, List.mem_map, List.mem_map]
  constructor
  · rintro ⟨d, hd, rfl⟩
    have hd2 := (List.mem_filter.1 hd).2
    obtain ⟨v, hv, hvu, hx, hcol⟩ := (hI.nc u hu d).1 hd2
    refine ⟨v, List.mem_filter.2 ⟨List.mem_range.2 hv, ?_⟩, hcol⟩
    simp [hvu, hx]
  · rintro ⟨v, hv, rfl⟩
    obtain ⟨hv1, hv2⟩ := List.mem_filter.1 hv
    have hvN := List.mem_range.1 hv1
    simp only [Bool.and_eq_true, Bool.not_eq_true', List.contains_eq_any_beq,
      List.any_eq_false, beq_iff_eq] at hv2
    have hvu : v ∉ st.uncolored := fun hm => hv2.1 v hm rfl
    have hnn := hI.col v hvN hvu
    obtain ⟨d, hd⟩ := Int.eq_ofNat_of_zero_le hnn
    have hrow := (hI.nc u hu d).2 ⟨v, hvN, hvu, hv2.2, hd⟩
    refine ⟨d, List.mem_filter.2 ⟨List.mem_range.2 ?_, hrow⟩, hd.symm⟩
    by_contra hge
    rw [List.getD_eq_default _ _ (not_lt.1 hge)] at hrow
    exact Bool.noConfusion hrow

end DSatur

namespace Conflict

/-! ### `best_color` with the noise fixed to `1` -/

theorem drawNoise_one (w : World) (hnoise : ∀ k, w.sample k = 1) (fuel k : Nat) :
    drawNoise w (fuel + 1) k = Outcome.returned (1, k + 1) := by
  rw [drawNoise, hnoise k, if_neg (by norm_num)]

theorem classCost_spec (w : World) (st : Conflict) (seg : Nat) (m : ℚ)
    (hpow : ∀ t, 0 ≤ w.powf (st.queue_count.getD t 0 : ℚ) st.param.power) :
    ∀ (members : List Nat) (cc : ℚ) (cand : List Nat),
      (Spec.membersBlocked st seg members = false →
        cc + Spec.membersCost w st seg members < m →
        (classCost w st seg m members cc cand).1 = cc + Spec.membersCost w st seg members) ∧
      (Spec.membersBlocked st seg members = true ∨
        m ≤ cc + Spec.membersCost w st seg members →
        m ≤ (classCost w st seg m members cc cand).1) := by
  intro members
  induction members with
  | nil =>
    intro cc cand
    refine ⟨fun _ _ => ?_, fun h => ?_⟩
    · simp [classCost, Spec.membersCost]
    · rcases h with h | h
      · exact Bool.noConfusion h
      · simpa [classCost, Spec.membersCost] using h
  | cons si rest ih =>
    intro cc cand
    have hrest : 0 ≤ Spec.membersCost w st seg rest := by
      unfold Spec.membersCost
      apply List.sum_nonneg
      intro x hx
      obtain ⟨t, _, rfl⟩ := List.mem_map.1 hx
      have := hpow t
      linarith
    rw [classCost]
    by_cases h1 : crosses st.crossings seg si = true
    · have hcost : Spec.membersCost w st seg (si :: rest)
          = (w.powf (st.queue_count.getD si 0 : ℚ) st.param.power + 1)
            + Spec.membersCost w st seg rest := by
        unfold Spec.membersCost
        rw [List.filter_cons, if_pos h1, List.map_cons, List.sum_cons]
      rw [if_pos h1]
      by_cases h2 : st.queue_count.getD si 0 ≥ st.param.max_queue
      · have hbl : Spec.membersBlocked st seg (si :: rest) = true := by
          unfold Spec.membersBlocked
          rw [List.any_cons, h1, Bool.true_and, decide_eq_true h2, Bool.true_or]
        rw [if_pos h2]
        refine ⟨fun hb _ => ?_, fun _ => ?_⟩
        · rw [hbl] at hb
          exact Bool.noConfusion hb
        · show m ≤ m + 1
          linarith
      · have hbl : Spec.membersBlocked st seg (si :: rest)
            = Spec.membersBlocked st seg rest := by
          unfold Spec.membersBlocked
          rw [List.any_cons, h1, Bool.true_and, decide_eq_false h2, Bool.false_or]
        rw [if_neg h2]
        dsimp only
        by_cases h3 : cc + w.powf (st.queue_count.getD si 0 : ℚ) st.param.power + 1 ≥ m
        · rw [if_pos h3]
          refine ⟨fun _ hlt => ?_, fun _ => h3⟩
          rw [hcost] at hlt
          linarith
        · rw [if_neg h3]
          obtain ⟨a, b⟩ := ih (cc + w.powf (st.queue_count.getD si 0 : ℚ) st.param.power + 1)
            (cand ++ [si])
          rw [hbl, hcost]
          have e : cc + w.powf (st.queue_count.getD si 0 : ℚ) st.param.power + 1
              + Spec.membersCost w st seg rest
              = cc + (w.powf (st.queue_count.getD si 0 : ℚ) st.param.power + 1
                + Spec.membersCost w st seg rest) := by ring
          rw [e] at a b
          exact ⟨a, b⟩
    · have hcost : Spec.membersCost w st seg (si :: rest)
          = Spec.membersCost w st seg rest := by
        unfold Spec.membersCost
        rw [List.filter_cons, if_neg h1]
      have hbl : Spec.membersBlocked st seg (si :: rest)
          = Spec.membersBlocked st seg rest := by
        unfold Spec.membersBlocked
        rw [List.any_cons, Bool.eq_false_iff.2 h1, Bool.false_and, Bool.false_or]
      rw [if_neg h1, hbl, hcost]
      exact ih cc cand

theorem bestFrom_spec (w : World) (st : Conflict) (seg fuel : Nat)
    (hnoise : ∀ k, w.sample k = 1)
    (hpow : ∀ t, 0 ≤ w.powf (st.queue_count.getD t 0 : ℚ) st.param.power) (limit : ℚ) :
    ∀ (k i : Nat) (acc : ℚ × Nat × List Nat × Nat),
      i + k = st.classes.length →
      acc.1 ≤ limit →
      (acc.1 < limit → acc.2.1 < i ∧ Spec.membersBlocked st seg (st.classes.getD acc.2.1 [])
          = false ∧ Spec.cost w st seg acc.2.1 = acc.1) →
      (∀ c, c < i → Spec.membersBlocked st seg (st.classes.getD c []) = false →
        acc.1 ≤ Spec.cost w st seg c ∧
          (Spec.cost w st seg c = acc.1 → acc.1 < limit → acc.2.1 ≤ c)) →
      ∃ r, bestFrom w st seg (fuel + 1) (List.range' i k) acc = Outcome.returned r ∧
        r.1 ≤ limit ∧
        (r.1 < limit → r.2.1 < st.classes.length ∧
          Spec.membersBlocked st seg (st.classes.getD r.2.1 []) = false ∧
          Spec.cost w st seg r.2.1 = r.1) ∧
        (∀ c, c < st.classes.length →
          Spec.membersBlocked st seg (st.classes.getD c []) = false →
          r.1 ≤ Spec.cost w st seg c ∧
            (Spec.cost w st seg c = r.1 → r.1 < limit → r.2.1 ≤ c)) := by
  intro k
  induction k with
  | zero =>
    intro i acc hik h1 h2 h3
    rw [Nat.add_zero] at hik
    subst hik
    refine ⟨acc, rfl, h1, fun h => ?_, h3⟩
    exact h2 h
  | succ k ih =>
    intro i acc hik h1 h2 h3
    have hi : i < st.classes.length := by omega
    rw [List.range'_succ, bestFrom, drawNoise_one w hnoise fuel acc.2.2.2, Outcome.bind]
    dsimp only
    rw [div_one, mul_one]
    obtain ⟨ha, hb⟩ := classCost_spec w st seg acc.1 hpow (st.classes.getD i []) 0 []
    rw [zero_add] at ha hb
    by_cases hacc : (classCost w st seg acc.1 (st.classes.getD i []) 0 []).1 < acc.1
    · rw [if_pos hacc]
      have hnb : Spec.membersBlocked st seg (st.classes.getD i []) = false := by
        cases hbl : Spec.membersBlocked st seg (st.classes.getD i [])
        · rfl
        · exact absurd (hb (Or.inl hbl)) (not_le.2 hacc)
      have hlt : Spec.membersCost w st seg (st.classes.getD i []) < acc.1 := by
        by_contra hge
        exact absurd (hb (Or.inr (not_lt.1 hge))) (not_le.2 hacc)
      have hval := ha hnb hlt
      apply ih (i + 1) ((classCost w st seg acc.1 (st.classes.getD i []) 0 []).1, i,
        (classCost w st seg acc.1 (st.classes.getD i []) 0 []).2, acc.2.2.2 + 1) (by omega)
      · show (classCost w st seg acc.1 (st.classes.getD i []) 0 []).1 ≤ limit
        exact le_trans (le_of_lt hacc) h1
      · intro _
        exact ⟨Nat.lt_succ_self i, hnb, hval.symm⟩
      · intro c hc hcb
        show (classCost w st seg acc.1 (st.classes.getD i []) 0 []).1 ≤ Spec.cost w st seg c ∧
          (Spec.cost w st seg c = (classCost w st seg acc.1 (st.classes.getD i []) 0 []).1 →
            (classCost w st seg acc.1 (st.classes.getD i []) 0 []).1 < limit → i ≤ c)
        rcases Nat.lt_succ_iff_lt_or_eq.1 hc with hc2 | hc2
        · have := (h3 c hc2 hcb).1
          exact ⟨by linarith, fun e => by linarith⟩
        · subst hc2
          exact ⟨le_of_eq hval, fun _ _ => le_refl _⟩
    · rw [if_neg hacc]
      apply ih (i + 1) (acc.1, acc.2.1, acc.2.2.1, acc.2.2.2 + 1) (by omega) h1
      · intro h
        obtain ⟨x1, x2, x3⟩ := h2 h
        exact ⟨Nat.lt_succ_of_lt x1, x2, x3⟩
      · intro c hc hcb
        show acc.1 ≤ Spec.cost w st seg c ∧
          (Spec.cost w st seg c = acc.1 → acc.1 < limit → acc.2.1 ≤ c)
        rcases Nat.lt_succ_iff_lt_or_eq.1 hc with hc2 | hc2
        · exact h3 c hc2 hcb
        · subst hc2
          have hge : acc.1 ≤ Spec.cost w st seg c := by
            by_contra hlt
            exact hacc (by rw [ha hcb (not_le.1 hlt)]; exact not_le.1 hlt)
          exact ⟨hge, fun _ hl => le_of_lt (h2 hl).1⟩

end Conflict

namespace Conflict

theorem removalOrder_snoc {n : Nat} {crossings : List (List Nat)} {bound : Int}
    {degree : List Int} {E : List Nat} (hI : PeelInv n crossings bound degree E) (hn : 0 < n)
    (hn2 : (n : Int) < LONG_MAX) (hb : bound ≤ LONG_MAX)
    (hlt : degree.getD (argminDegree degree) 0 < bound)
    (hR : RemovalOrder n crossings bound E) :
    RemovalOrder n crossings bound (E ++ [argminDegree degree]) := by
  obtain ⟨hsE, _⟩ := peel_step hI hn hn2 hb hlt
  obtain ⟨hs, hmin⟩ := argminDegree_spec degree (by rw [hI.len]; exact hn)
  rw [hI.len] at hs hmin
  intro k hk
  rw [List.length_append, List.length_singleton] at hk
  by_cases e : k < E.length
  · have h1 : (E ++ [argminDegree degree]).take k = E.take k := by
      rw [List.take_append_of_le_length (le_of_lt e)]
    have h2 : (E ++ [argminDegree degree]).getD k 0 = E.getD k 0 := by
      rw [List.getD_eq_getElem?_getD, List.getD_eq_getElem?_getD, List.getElem?_append_left e]
    rw [h1, h2]
    exact hR k e
  · have hk2 : k = E.length := by omega
    have h1 : (E ++ [argminDegree degree]).take k = E := by
      rw [hk2, List.take_append_of_le_length (le_refl _), List.take_length]
    have h2 : (E ++ [argminDegree degree]).getD k 0 = argminDegree degree := by
      rw [hk2, List.getD_eq_getElem?_getD, List.getElem?_append_right (le_refl _)]
      simp
    rw [h1, h2]
    have hks := hI.kept _ hs hsE
    refine ⟨by rw [← hks]; exact hlt, fun i hi hiE => ?_⟩
    have h3 := hmin i hi
    rw [hks, hI.kept i hi hiE] at h3
    exact_mod_cast h3

theorem peel_removalOrder {n : Nat} {crossings : List (List Nat)} {bound : Int} (hn : 0 < n)
    (hn2 : (n : Int) < LONG_MAX) (hb : bound ≤ LONG_MAX) :
    ∀ (fuel : Nat) (degree : List Int) (E : List Nat) (r : List Int × List Nat),
      PeelInv n crossings bound degree E → RemovalOrder n crossings bound E →
      peel crossings bound fuel degree E = Outcome.returned r →
      RemovalOrder n crossings bound r.2 := by
  intro fuel
  induction fuel with
  | zero => intro degree E r _ _ h; rw [peel] at h; exact Outcome.noConfusion h
  | succ fuel ih =>
    intro degree E r hI hR h
    have hne : degree ≠ [] := by
      intro h0
      have := hI.len
      rw [h0] at this
      simp at this
      omega
    rw [peel, if_neg hne] at h
    simp only [] at h
    by_cases hlt : degree.getD (argminDegree degree) 0 < bound
    · rw [if_pos hlt] at h
      exact ih _ _ r (peel_step hI hn hn2 hb hlt).2 (removalOrder_snoc hI hn hn2 hb hlt hR) h
    · rw [if_neg hlt] at h
      rw [← Outcome.returned.inj h]
      exact hR

/-- The source's `remove_easy_segs` returns, for `1 ≤ n_segments` and a symmetric
matrix, with the easy segments in an order of removal by minimum degree, and at
the end every segment left crosses at least `bound` segments left. -/
theorem remove_easy_segs_order (n : Nat) (crossings : List (List Nat))
    (classes : List (List Nat)) (bound : Int) (hn : 0 < n) (hn2 : (n : Int) < LONG_MAX)
    (hb : bound ≤ LONG_MAX) (hsym : ∀ i j, crosses crossings i j = crosses crossings j i) :
    ∃ E, remove_easy_segs n crossings classes bound
        = Outcome.returned (E, classes.map (fun cl => cl.filter (fun x => !E.contains x))) ∧
      E.Nodup ∧ (∀ s ∈ E, s < n) ∧ RemovalOrder n crossings bound E ∧
      ∀ i, i < n → i ∉ E → bound ≤ (crossDegree n crossings E i : Int) := by
  obtain ⟨d1, E, h1, hI, hge⟩ := peel_spec hn hn2 hb (n + 1) (initDegree n crossings) []
    (peelInv_init n crossings bound hsym) (by simp)
  have hR := peel_removalOrder hn hn2 hb (n + 1) (initDegree n crossings) [] (d1, E)
    (peelInv_init n crossings bound hsym)
    (fun k hk => absurd hk (Nat.not_lt_zero k)) h1
  refine ⟨E, ?_, hI.nodup, hI.lt, hR, fun i hi hiE => ?_⟩
  · unfold remove_easy_segs
    rw [h1]
    rfl
  · rw [← hI.kept i hi hiE]
    exact hge i hi

end Conflict

namespace DSatHull

theorem polyArea2_loop (suf : List Point) :
    ∀ (pre : List Point) (a : Point) (acc : Int),
      (List.range' (pre.length + 1) suf.length).foldl
        (fun s i =>
          wrap64 (s + wrap64 (wrap64 (((pre ++ a :: suf).getD (i - 1) ⟨0, 0⟩).x
              + ((pre ++ a :: suf).getD i ⟨0, 0⟩).x)
            * wrap64 (((pre ++ a :: suf).getD (i - 1) ⟨0, 0⟩).y
              - ((pre ++ a :: suf).getD i ⟨0, 0⟩).y)))) acc
        ≡ acc + pairSum a suf [ZMOD 2 ^ 64] := by
  induction suf with
  | nil => intro pre a acc; simp [pairSum, List.range', Int.ModEq]
  | cons b s ih =>
    intro pre a acc
    have h := ih (pre ++ [a]) b
    simp only [List.append_assoc, List.singleton_append, List.length_append,
      List.length_singleton] at h
    simp only [List.length_cons, List.range', List.foldl_cons, Nat.add_sub_cancel]
    refine (h _).trans ?_
    have ha : (pre ++ a :: b :: s).getD pre.length ⟨0, 0⟩ = a := by
      rw [List.getD_eq_getElem?_getD, List.getElem?_append_right (le_refl _)]
      simp
    have hb : (pre ++ a :: b :: s).getD (pre.length + 1) ⟨0, 0⟩ = b := by
      rw [List.getD_eq_getElem?_getD, List.getElem?_append_right (Nat.le_succ _)]
      simp
    rw [ha, hb, pairSum, ← add_assoc]
    refine Int.ModEq.add_right _ ?_
    refine (wrap64_modEq _).trans (Int.ModEq.add_left _ ?_)
    exact (wrap64_modEq _).trans (Int.ModEq.mul (wrap64_modEq _) (wrap64_modEq _))

theorem foldl_wrap64_range (f : Int → Nat → Int) (l : List Nat) :
    ∀ acc : Int, (∃ z, acc = wrap64 z) →
      ∃ z, l.foldl (fun s i => wrap64 (f s i)) acc = wrap64 z := by
  induction l with
  | nil => intro acc h; exact h
  | cons i l ih => intro acc _; exact ih _ ⟨_, rfl⟩

theorem lastOf_cons (a b : Point) (s : List Point) : lastOf a (b :: s) = lastOf b s := rfl

theorem pairSum_shoelace (suf : List Point) :
    ∀ a z : Point,
      pairSum a suf + ((lastOf a suf).x + z.x) * ((lastOf a suf).y - z.y)
        = -(List.zipWith (fun a b : Point => a.x * b.y - b.x * a.y) (a :: suf) (suf ++ [z])).sum
          + (a.x * a.y - z.x * z.y) := by
  induction suf with
  | nil => intro a z; simp [pairSum, lastOf]; ring
  | cons b s ih =>
    intro a z
    have h := ih b z
    rw [lastOf_cons, pairSum]
    simp only [List.cons_append, List.zipWith_cons_cons, List.sum_cons]
    linarith

theorem polyArea2_cons (a : Point) (suf : List Point) :
    polyArea2 (a :: suf) = wrap64 (-(Spec.shoelace (a :: suf))) := by
  have hl := polyArea2_loop suf [] a
    (wrap64 (wrap64 ((lastOf a suf).x + a.x) * wrap64 ((lastOf a suf).y - a.y)))
  have hs := pairSum_shoelace suf a a
  have hr : (a :: suf).rotate 1 = suf ++ [a] := by
      rw [List.rotate_cons_succ, List.rotate_zero]
  obtain ⟨z, hz⟩ := foldl_wrap64_range
    (fun s i => s + wrap64 (wrap64 (((a :: suf).getD (i - 1) ⟨0, 0⟩).x
        + ((a :: suf).getD i ⟨0, 0⟩).x)
      * wrap64 (((a :: suf).getD (i - 1) ⟨0, 0⟩).y - ((a :: suf).getD i ⟨0, 0⟩).y)))
    (List.range' 1 suf.length)
    (wrap64 (wrap64 ((lastOf a suf).x + a.x) * wrap64 ((lastOf a suf).y - a.y))) ⟨_, rfl⟩
  have hp : polyArea2 (a :: suf) = (List.range' 1 suf.length).foldl
      (fun s i => wrap64 (s + wrap64 (wrap64 (((a :: suf).getD (i - 1) ⟨0, 0⟩).x
          + ((a :: suf).getD i ⟨0, 0⟩).x)
        * wrap64 (((a :: suf).getD (i - 1) ⟨0, 0⟩).y - ((a :: suf).getD i ⟨0, 0⟩).y))))
      (wrap64 (wrap64 ((lastOf a suf).x + a.x) * wrap64 ((lastOf a suf).y - a.y))) := by
    simp [polyArea2, lastOf]
  rw [hp]
  simp only [List.nil_append, List.length_nil, Nat.zero_add] at hl
  have h1 : (List.range' 1 suf.length).foldl
      (fun s i => wrap64 (s + wrap64 (wrap64 (((a :: suf).getD (i - 1) ⟨0, 0⟩).x
          + ((a :: suf).getD i ⟨0, 0⟩).x)
        * wrap64 (((a :: suf).getD (i - 1) ⟨0, 0⟩).y - ((a :: suf).getD i ⟨0, 0⟩).y))))
      (wrap64 (wrap64 ((lastOf a suf).x + a.x) * wrap64 ((lastOf a suf).y - a.y)))
      ≡ -(Spec.shoelace (a :: suf)) [ZMOD 2 ^ 64] := by
    refine hl.trans ?_
    have h2 : wrap64 (wrap64 ((lastOf a suf).x + a.x) * wrap64 ((lastOf a suf).y - a.y))
        ≡ ((lastOf a suf).x + a.x) * ((lastOf a suf).y - a.y) [ZMOD 2 ^ 64] :=
      (wrap64_modEq _).trans (Int.ModEq.mul (wrap64_modEq _) (wrap64_modEq _))
    refine (Int.ModEq.add_right _ h2).trans ?_
    have h3 : ((lastOf a suf).x + a.x) * ((lastOf a suf).y - a.y) + pairSum a suf
        = -(Spec.shoelace (a :: suf)) := by
      rw [Spec.shoelace, hr]; linarith
    rw [h3]
  rw [hz] at h1 ⊢
  exact wrap64_congr ((wrap64_emod z).symm.trans h1)

theorem polyArea2_eq (poly : List Point) (h : poly ≠ []) :
    polyArea2 poly = wrap64 (-(Spec.shoelace poly)) := by
  cases poly with
  | nil => exact absurd rfl h
  | cons a suf => exact polyArea2_cons a suf

theorem shoelace_translate_aux (dx dy : Int) (suf : List Point) :
    ∀ a z : Point,
      (List.zipWith (fun a b : Point => a.x * b.y - b.x * a.y)
          ((a :: suf).map (Spec.translate dx dy)) ((suf ++ [z]).map (Spec.translate dx dy))).sum
        = (List.zipWith (fun a b : Point => a.x * b.y - b.x * a.y) (a :: suf) (suf ++ [z])).sum
          + dx * (z.y - a.y) + dy * (a.x - z.x) := by
  induction suf with
  | nil => intro a z; simp [Spec.translate]; ring
  | cons b s ih =>
    intro a z
    have h := ih b z
    simp only [List.map_cons, List.cons_append, List.zipWith_cons_cons, List.sum_cons] at h ⊢
    rw [h]
    simp only [Spec.translate]
    ring

theorem shoelace_translate (dx dy : Int) (poly : List Point) :
    Spec.shoelace (poly.map (Spec.translate dx dy)) = Spec.shoelace poly := by
  cases poly with
  | nil => rfl
  | cons a suf =>
    have h := shoelace_translate_aux dx dy suf a a
    have hr : (a :: suf).rotate 1 = suf ++ [a] := by
      rw [List.rotate_cons_succ, List.rotate_zero]
    rw [Spec.shoelace, Spec.shoelace, ← List.map_rotate, hr, h]
    ring

theorem shoelace_rotate (k : Nat) (poly : List Point) :
    Spec.shoelace (poly.rotate k) = Spec.shoelace poly := by
  rw [Spec.shoelace, Spec.shoelace, List.rotate_rotate, Nat.add_comm, ← List.rotate_rotate,
    ← List.zipWith_rotate_distrib (fun a b : Point => a.x * b.y - b.x * a.y) poly
      (poly.rotate 1) k (by simp)]
  exact (List.rotate_perm _ _).sum_eq

theorem shoelace_short (poly : List Point) (h : poly.length ≤ 2) : Spec.shoelace poly = 0 := by
  rcases poly with _ | ⟨a, _ | ⟨b, _ | ⟨c, t⟩⟩⟩
  · rfl
  · simp [Spec.shoelace, List.rotate_cons_succ]
  · simp [Spec.shoelace, List.rotate_cons_succ]
  · simp at h

end DSatHull

namespace Greedy

theorem classValid_false {segs : List Segment} {si : Nat} {cl : List Nat}
    (h : classValid segs si cl = false) :
    ∃ ti ∈ cl, (segAt segs si).cross (segAt segs ti) = true := by
  by_contra hc
  push_neg at hc
  have : classValid segs si cl = true :=
    (classValid_iff segs si cl).2 (fun ti hti => by simpa using hc ti hti)
  rw [h] at this
  exact Bool.noConfusion this

/-- What `place` adds: a member of a class after `place` was there before, or it is
the placed segment, whose class is the first one admitting it. -/
theorem place_new (segs : List Segment) (vi : Nat) (cls : List (List Nat)) {x c : Nat}
    (h : x ∈ (place segs vi cls).getD c []) :
    x ∈ cls.getD c [] ∨
      (x = vi ∧ ∀ c2, c2 < c → ∃ y ∈ cls.getD c2 [],
        (segAt segs vi).cross (segAt segs y) = true) := by
  rcases place_cases segs vi cls with ⟨h1, h2⟩ | ⟨pre, cl, post, h1, h2, _, h4⟩
  · rw [h1] at h
    by_cases hc : c < cls.length
    · left
      rw [List.getD_append _ _ _ _ hc] at h
      exact h
    · have hle : cls.length ≤ c := not_lt.1 hc
      rw [List.getD_append_right _ _ _ _ hle] at h
      cases hk : c - cls.length with
      | zero =>
        rw [hk] at h
        right
        refine ⟨by simpa using h, fun c2 hc2 => ?_⟩
        have hlt : c2 < cls.length := by omega
        apply classValid_false
        apply h2
        rw [List.getD_eq_getElem _ _ hlt]
        exact List.getElem_mem hlt
      | succ k =>
        rw [hk] at h
        simp at h
  · rw [h2] at h
    by_cases hcp : c < pre.length
    · left
      rw [List.getD_append _ _ _ _ hcp] at h
      rw [h1, List.getD_append _ _ _ _ hcp]
      exact h
    · have hle : pre.length ≤ c := not_lt.1 hcp
      rw [List.getD_append_right _ _ _ _ hle] at h
      cases hk : c - pre.length with
      | zero =>
        rw [hk] at h
        have hx : x ∈ cl ++ [vi] := h
        rcases List.mem_append.1 hx with a | a
        · left
          rw [h1, List.getD_append_right _ _ _ _ hle, hk]
          exact a
        · right
          refine ⟨List.mem_singleton.1 a, fun c2 hc2 => ?_⟩
          have hlt : c2 < pre.length := by omega
          have hv : classValid segs vi (pre.getD c2 []) = false := by
            apply h4
            rw [List.getD_eq_getElem _ _ hlt]
            exact List.getElem_mem hlt
          rw [h1, List.getD_append _ _ _ _ hlt]
          exact classValid_false hv
      | succ k =>
        rw [hk] at h
        left
        rw [h1, List.getD_append_right _ _ _ _ hle, hk]
        exact h

theorem place_blocked (segs : List Segment) (vi : Nat) (cls : List (List Nat))
    (h : Blocked segs cls) : Blocked segs (place segs vi cls) := by
  intro c x hx c2 hc2
  rcases place_new segs vi cls hx with a | ⟨a, b⟩
  · obtain ⟨y, hy, hxy⟩ := h c x a c2 hc2
    exact ⟨y, place_keeps segs vi cls hy, hxy⟩
  · obtain ⟨y, hy, hxy⟩ := b c2 hc2
    exact ⟨y, place_keeps segs vi cls hy, by rw [a]; exact hxy⟩

theorem foldr_place_blocked (segs : List Segment) (cls : List (List Nat))
    (h : Blocked segs cls) : ∀ unc : List Nat, Blocked segs (unc.foldr (place segs) cls) := by
  intro unc
  induction unc with
  | nil => exact h
  | cons v rest ih =>
    rw [List.foldr_cons]
    exact place_blocked segs v _ ih

theorem blocked_nil (segs : List Segment) : Blocked segs [] := by
  intro c x hx
  simp at hx

/-- With crossing-free classes in which every member crosses a member of each lower
class, a segment has one class, whether or not it occurs twice. -/
theorem blocked_unique {segs : List Segment} {cls : List (List Nat)}
    (hB : Blocked segs cls) (hF : ∀ cl ∈ cls, CrossFree segs cl) {x c c2 : Nat}
    (h1 : x ∈ cls.getD c []) (h2 : x ∈ cls.getD c2 []) : c = c2 := by
  have key : ∀ a b : Nat, x ∈ cls.getD a [] → x ∈ cls.getD b [] → ¬ b < a := by
    intro a b ha hb hlt
    obtain ⟨y, hy, hxy⟩ := hB a x ha b hlt
    by_cases e : x = y
    · rw [← e, Segment.cross_self] at hxy
      exact Bool.noConfusion hxy
    · rw [hF _ (mem_getD_of_mem hb).2 x hb y hy e] at hxy
      exact Bool.noConfusion hxy
  rcases Nat.lt_trichotomy c c2 with h | h | h
  · exact absurd h (key c2 c h2 h1)
  · exact h
  · exact absurd h (key c c2 h1 h2)

theorem place_nonempty (segs : List Segment) (vi : Nat) (cls : List (List Nat))
    (h : ∀ cl ∈ cls, cl ≠ []) : ∀ cl ∈ place segs vi cls, cl ≠ [] := by
  rcases place_cases segs vi cls with ⟨h1, _⟩ | ⟨pre, x, post, h1, h2, _, _⟩
  · rw [h1]
    intro cl hcl
    rcases List.mem_append.1 hcl with a | a
    · exact h cl a
    · rw [List.mem_singleton.1 a]; simp
  · rw [h2]
    intro cl hcl
    rcases List.mem_append.1 hcl with a | a
    · exact h cl (by rw [h1]; exact List.mem_append_left _ a)
    · rcases List.mem_cons.1 a with b | b
      · rw [b]; simp
      · exact h cl (by rw [h1]; exact List.mem_append_right _ (List.mem_cons_of_mem _ b))

theorem foldr_place_nonempty (segs : List Segment) :
    ∀ unc : List Nat, ∀ cl ∈ unc.foldr (place segs) [], cl ≠ [] := by
  intro unc
  induction unc with
  | nil => intro cl h; exact absurd h (List.not_mem_nil cl)
  | cons v rest ih =>
    rw [List.foldr_cons]
    exact place_nonempty segs v _ ih

end Greedy

namespace Greedy

/-- After `greedy` from the cleared state, on a list of segment indices: the label
of a segment is the index of the class holding it, and `-1` when no class
holds it. -/
theorem greedy_colorv (segs : List Segment) (unc : List Nat) (i : Nat)
    (hi : i < segs.length) :
    (∀ c, i ∈ (greedy segs unc (clearSol segs)).classes.getD c [] →
      (greedy segs unc (clearSol segs)).colorv.getD i (-1) = (c : Int)) ∧
    ((∀ c, i ∉ (greedy segs unc (clearSol segs)).classes.getD c []) →
      (greedy segs unc (clearSol segs)).colorv.getD i (-1) = -1) := by
  have hB : Blocked segs (unc.foldr (place segs) []) :=
    foldr_place_blocked segs [] (blocked_nil segs) unc
  have hF : ∀ cl ∈ unc.foldr (place segs) [], CrossFree segs cl :=
    crossFree_foldr_place segs [] (fun cl h => absurd h (List.not_mem_nil cl)) unc
  constructor
  · intro c hc
    exact build_colorv_of_mem _ (List.replicate segs.length (-1)) (-1) i c
      (mem_getD_of_mem hc).1 hc (by rw [List.length_replicate]; exact hi)
      (fun c2 h1 _ h3 => absurd (blocked_unique hB hF hc h3) (Nat.ne_of_lt h1))
  · intro hno
    have h := (build_rounds_spec (unc.foldr (place segs) []) (List.replicate segs.length (-1))
      (-1) i (unc.foldr (place segs) []).length).2.1 (fun c _ => hno c)
    have h2 : (List.replicate segs.length (-1 : Int)).getD i (-1) = -1 := by
      rw [List.getD_eq_getElem _ _ (by rw [List.length_replicate]; exact hi)]
      simp
    rw [h2] at h
    exact h

theorem greedy_colorv_iff (segs : List Segment) (unc : List Nat) (i c : Nat)
    (hi : i < segs.length) :
    (greedy segs unc (clearSol segs)).colorv.getD i (-1) = (c : Int)
      ↔ i ∈ (greedy segs unc (clearSol segs)).classes.getD c [] := by
  obtain ⟨h1, h2⟩ := greedy_colorv segs unc i hi
  constructor
  · intro h
    by_contra hc
    by_cases hex : ∃ c0, i ∈ (greedy segs unc (clearSol segs)).classes.getD c0 []
    · obtain ⟨c0, hc0⟩ := hex
      have := h1 c0 hc0
      rw [h] at this
      have e : c = c0 := by exact_mod_cast this
      exact hc (e ▸ hc0)
    · push_neg at hex
      have := h2 hex
      rw [h] at this
      omega
  · exact h1 c

theorem greedy_mem_lt (segs : List Segment) (unc : List Nat)
    (hlt : ∀ v ∈ unc, v < segs.length) {i c : Nat}
    (h : i ∈ (greedy segs unc (clearSol segs)).classes.getD c []) : i < segs.length := by
  have hp := flatten_foldr_place segs [] unc
  rw [List.flatten_nil, List.append_nil] at hp
  apply hlt
  apply hp.mem_iff.1
  exact List.mem_flatten.2 ⟨_, (mem_getD_of_mem h).2, h⟩

theorem greedy_nonempty_class (segs : List Segment) (unc : List Nat) (c : Nat)
    (hc : c < (greedy segs unc (clearSol segs)).classes.length) :
    ∃ i, i ∈ (greedy segs unc (clearSol segs)).classes.getD c [] := by
  have hne := foldr_place_nonempty segs unc
    ((greedy segs unc (clearSol segs)).classes.getD c [])
    (by rw [List.getD_eq_getElem _ _ hc]; exact List.getElem_mem hc)
  exact List.exists_mem_of_ne_nil _ hne

/-- After `greedy` from the cleared state with at least one segment, `numColors()` is
the number of classes. -/
theorem greedy_numColors (segs : List Segment) (unc : List Nat)
    (hlt : ∀ v ∈ unc, v < segs.length) (hN : 1 ≤ segs.length) :
    Solution.numColors (greedy segs unc (clearSol segs)).colorv
      = Outcome.returned ((greedy segs unc (clearSol segs)).classes.length : Int) := by
  have hlen : (greedy segs unc (clearSol segs)).colorv.length = segs.length := by
    show (build_colorv _ (List.replicate segs.length (-1))).length = segs.length
    rw [build_colorv_length, List.length_replicate]
  have hle : ∀ i, i < segs.length →
      (greedy segs unc (clearSol segs)).colorv.getD i (-1)
        ≤ ((greedy segs unc (clearSol segs)).classes.length : Int) - 1 := by
    intro i hi
    obtain ⟨h1, h2⟩ := greedy_colorv segs unc i hi
    by_cases hex : ∃ c0, i ∈ (greedy segs unc (clearSol segs)).classes.getD c0 []
    · obtain ⟨c0, hc0⟩ := hex
      rw [h1 c0 hc0]
      have := (mem_getD_of_mem hc0).1
      omega
    · push_neg at hex
      rw [h2 hex]
      omega
  by_cases hk : (greedy segs unc (clearSol segs)).classes.length = 0
  · have h0 : (greedy segs unc (clearSol segs)).colorv.getD 0 (-1) = -1 := by
      apply (greedy_colorv segs unc 0 hN).2
      intro c hc
      have := (mem_getD_of_mem hc).1
      omega
    have := Solution.numColors_of_getD _ (-1) 0 (by rw [hlen]; exact hN) h0
      (fun i hi => by have := hle i (by rw [← hlen]; exact hi); rw [hk] at this; simpa using this)
    rw [this, hk]
    rfl
  · obtain ⟨i0, hi0⟩ := greedy_nonempty_class segs unc
      ((greedy segs unc (clearSol segs)).classes.length - 1) (by omega)
    have hi0lt := greedy_mem_lt segs unc hlt hi0
    have hc0 := (greedy_colorv segs unc i0 hi0lt).1 _ hi0
    have := Solution.numColors_of_getD _
      (((greedy segs unc (clearSol segs)).classes.length : Int) - 1) i0
      (by rw [hlen]; exact hi0lt)
      (by rw [hc0]; omega)
      (fun i hi => hle i (by rw [← hlen]; exact hi))
    rw [this]
    congr 1
    omega

end Greedy

namespace Conflict

/-! ### `move_segments` keeps the classes valid and the segments -/

/-- One step of the second loop of `move_segments`. -/
theorem move_step_getD (cls : List (List Nat)) (c : Nat) (p : Nat × Nat) (k : Nat)
    (hp : p.2 ≠ c) :
    ((cls.set c ((cls.getD c []).filter (fun x => x != p.1))).set p.2
        ((cls.set c ((cls.getD c []).filter (fun x => x != p.1))).getD p.2 [] ++ [p.1])).getD
        k []
      = if k = c then (cls.getD c []).filter (fun x => x != p.1)
        else if p.2 = k ∧ k < cls.length then cls.getD k [] ++ [p.1] else cls.getD k [] := by
  rw [getD_set_eq, List.length_set, getD_set_eq, getD_set_eq]
  by_cases hk : k = c
  · subst hk
    have e1 : ¬ (p.2 = k ∧ p.2 < cls.length) := fun h => hp h.1
    rw [if_neg e1, if_pos rfl]
    by_cases hc : k < cls.length
    · rw [if_pos ⟨rfl, hc⟩]
    · rw [if_neg (fun h => hc h.2), List.getD_eq_default _ _ (not_lt.1 hc)]
      rfl
  · rw [if_neg hk]
    by_cases h2 : p.2 = k ∧ k < cls.length
    · have e1 : p.2 = k ∧ p.2 < cls.length := ⟨h2.1, by rw [h2.1]; exact h2.2⟩
      have e2 : ¬ (c = p.2 ∧ c < cls.length) := fun h => hp h.1.symm
      rw [if_pos e1, if_pos h2, if_neg e2, h2.1]
    · have e1 : ¬ (p.2 = k ∧ p.2 < cls.length) := fun h => h2 ⟨h.1, by rw [← h.1]; exact h.2⟩
      have e2 : ¬ (c = k ∧ c < cls.length) := fun h => hk h.1.symm
      rw [if_neg e1, if_neg h2, if_neg e2]

/-- A member of a class during the second loop of `move_segments` was in that class
on entry, or it is one of the moved segments, sent to that class. -/
theorem move_fold_mem (c : Nat) (cls0 : List (List Nat)) (P0 : List (Nat × Nat)) :
    ∀ (P : List (Nat × Nat)) (cls : List (List Nat)),
      (∀ p ∈ P, p.2 ≠ c ∧ p ∈ P0) →
      (∀ k x, x ∈ cls.getD k [] → x ∈ cls0.getD k [] ∨ (x, k) ∈ P0) →
      ∀ k x, x ∈ (P.foldl
          (fun cls pair =>
            let cls1 := cls.set c ((cls.getD c []).filter (fun x => x != pair.1))
            cls1.set pair.2 (cls1.getD pair.2 [] ++ [pair.1])) cls).getD k [] →
        x ∈ cls0.getD k [] ∨ (x, k) ∈ P0 := by
  intro P
  induction P with
  | nil => intro cls _ h; exact h
  | cons p R ih =>
    intro cls hP h
    rw [List.foldl_cons]
    apply ih _ (fun q hq => hP q (List.mem_cons_of_mem _ hq))
    intro k x hx
    dsimp only at hx
    rw [move_step_getD cls c p k (hP p (List.mem_cons_self _ _)).1] at hx
    by_cases hk : k = c
    · rw [if_pos hk] at hx
      exact h k x (by rw [hk]; exact (List.mem_filter.1 hx).1)
    · rw [if_neg hk] at hx
      by_cases h2 : p.2 = k ∧ k < cls.length
      · rw [if_pos h2] at hx
        rcases List.mem_append.1 hx with a | a
        · exact h k x a
        · right
          have e : (x, k) = p := by
            rw [List.mem_singleton.1 a, ← h2.1]
          rw [e]
          exact (hP p (List.mem_cons_self _ _)).2
      · rw [if_neg h2] at hx
        exact h k x hx

/-- The pairs computed by the first loop of `move_segments`. -/
theorem moving_segs_spec {crossings : List (List Nat)} {classes : List (List Nat)} {c : Nat}
    {p : Nat × Nat}
    (h : p ∈ (classes.getD c []).filterMap (fun si =>
      ((List.range classes.length).find?
        (fun c2 => c != c2 && edge_can_be_added_to_graph crossings classes si c2)).map
          (fun c2 => (si, c2)))) :
    p.1 ∈ classes.getD c [] ∧ p.2 ≠ c ∧ p.2 < classes.length ∧
      edge_can_be_added_to_graph crossings classes p.1 p.2 = true := by
  obtain ⟨si, hsi, hf⟩ := List.mem_filterMap.1 h
  obtain ⟨c2, hc2, e⟩ := Option.map_eq_some'.1 hf
  have h1 := List.find?_some hc2
  have h2 := List.mem_range.1 (List.mem_of_find?_eq_some hc2)
  rw [← e]
  simp only [Bool.and_eq_true, bne_iff_ne, ne_eq] at h1
  exact ⟨hsi, fun a => h1.1 a.symm, h2, h1.2⟩

theorem move_segments_crossFree (crossings : List (List Nat)) (classes : List (List Nat))
    (c : Nat) (hsym : ∀ i j, crosses crossings i j = crosses crossings j i)
    (hvalid : ∀ cl ∈ classes, CrossFree crossings cl) :
    ∀ cl ∈ move_segments crossings classes c, CrossFree crossings cl := by
  intro cl hcl
  obtain ⟨k, hk, e⟩ := List.mem_iff_getElem.1 hcl
  have hmem : ∀ x, x ∈ cl → x ∈ classes.getD k [] ∨
      (x ∈ classes.getD c [] ∧ edge_can_be_added_to_graph crossings classes x k = true) := by
    intro x hx
    have hx2 : x ∈ (move_segments crossings classes c).getD k [] := by
      rw [List.getD_eq_getElem _ _ hk, e]
      exact hx
    unfold move_segments at hx2
    rcases move_fold_mem c classes _ _ classes
      (fun p hp => ⟨(moving_segs_spec hp).2.1, hp⟩) (fun k x h => Or.inl h) k x hx2 with a | a
    · exact Or.inl a
    · have := moving_segs_spec a
      exact Or.inr ⟨this.1, this.2.2.2⟩
  have hadd : ∀ x y, edge_can_be_added_to_graph crossings classes x k = true →
      y ∈ classes.getD k [] → crosses crossings x y = false := by
    intro x y hx hy
    unfold edge_can_be_added_to_graph at hx
    have := List.all_eq_true.1 hx y hy
    simpa using this
  intro i hi j hj hij
  rcases hmem i hi with a | ⟨a1, a2⟩ <;> rcases hmem j hj with b | ⟨b1, b2⟩
  · exact hvalid _ (Greedy.mem_getD_of_mem a).2 i a j b hij
  · rw [hsym]; exact hadd j i b2 a
  · exact hadd i j a2 b
  · exact hvalid _ (Greedy.mem_getD_of_mem a1).2 i a1 j b1 hij

theorem count_flatten_set (cls : List (List Nat)) (c : Nat) (v : List Nat) (x : Nat)
    (hc : c < cls.length) :
    (cls.set c v).flatten.count x + (cls.getD c []).count x
      = cls.flatten.count x + v.count x := by
  have h := (flatten_set_perm cls c v hc).count_eq x
  simpa only [List.count_append] using h

theorem count_filter_ne (l : List Nat) (x s : Nat) :
    (l.filter (fun y => y != s)).count x = if x = s then 0 else l.count x := by
  by_cases h : x = s
  · rw [if_pos h]
    apply List.count_eq_zero.2
    intro hm
    have := (List.mem_filter.1 hm).2
    simp [h] at this
  · rw [if_neg h]
    exact List.count_filter (by simpa using h)

theorem move_fold_count (c x : Nat) :
    ∀ (R : List (Nat × Nat)) (cls : List (List Nat)), c < cls.length →
      (∀ p ∈ R, p.2 ≠ c ∧ p.2 < cls.length) →
      ((R.map Prod.fst).count x = 0 ∨ (cls.getD c []).count x = (R.map Prod.fst).count x ∨
        (cls.getD c []).count x = 0) →
      (R.foldl
          (fun cls pair =>
            let cls1 := cls.set c ((cls.getD c []).filter (fun x => x != pair.1))
            cls1.set pair.2 (cls1.getD pair.2 [] ++ [pair.1])) cls).flatten.count x
        = cls.flatten.count x
          + (if (cls.getD c []).count x = 0 then (R.map Prod.fst).count x else 0) := by
  intro R
  induction R with
  | nil => intro cls _ _ _; simp
  | cons p R ih =>
    intro cls hc hR hJ
    obtain ⟨hp1, hp2⟩ := hR p (List.mem_cons_self _ _)
    rw [List.foldl_cons]
    dsimp only
    have hc1 : c < (cls.set c ((cls.getD c []).filter (fun x => x != p.1))).length := by
      rw [List.length_set]; exact hc
    have hp3 : p.2 < (cls.set c ((cls.getD c []).filter (fun x => x != p.1))).length := by
      rw [List.length_set]; exact hp2
    have hA := count_flatten_set cls c ((cls.getD c []).filter (fun x => x != p.1)) x hc
    have hB := count_flatten_set (cls.set c ((cls.getD c []).filter (fun x => x != p.1))) p.2
      ((cls.set c ((cls.getD c []).filter (fun x => x != p.1))).getD p.2 [] ++ [p.1]) x hp3
    have hG := move_step_getD cls c p c hp1
    rw [if_pos rfl] at hG
    have hF := count_filter_ne (cls.getD c []) x p.1
    rw [List.count_append] at hB
    have hS : ([p.1] : List Nat).count x = if x = p.1 then 1 else 0 := by
      by_cases e : x = p.1
      · rw [if_pos e, e]; simp
      · rw [if_neg e]
        exact List.count_eq_zero.2 (fun hm => e (List.mem_singleton.1 hm))
    have hM : ((p :: R).map Prod.fst).count x
        = (R.map Prod.fst).count x + if x = p.1 then 1 else 0 := by
      rw [List.map_cons, List.count_cons]
      by_cases e : x = p.1
      · rw [if_pos e, e]; simp
      · rw [if_neg e]
        have : (p.1 == x) = false := by simpa using fun a => e a.symm
        rw [this]; simp
    have hI := ih ((cls.set c ((cls.getD c []).filter (fun x => x != p.1))).set p.2
        ((cls.set c ((cls.getD c []).filter (fun x => x != p.1))).getD p.2 [] ++ [p.1]))
      (by rw [List.length_set]; exact hc1)
      (fun q hq => by
        have := hR q (List.mem_cons_of_mem _ hq)
        rw [List.length_set, List.length_set]
        exact this)
    rw [hG] at hI
    by_cases e : x = p.1
    · rw [if_pos e] at hF hS hM
      rw [hI (Or.inr (Or.inr hF)), if_pos hF]
      rw [hM] at hJ ⊢
      split_ifs with h0
      · omega
      · omega
    · rw [if_neg e] at hF hS hM
      rw [hM] at hJ ⊢
      rw [hF] at hI
      rw [hI (by omega)]
      split_ifs <;> omega

theorem count_filter_cases (q : Nat → Bool) (l : List Nat) (x : Nat) :
    (l.filter q).count x = 0 ∨ l.count x = (l.filter q).count x := by
  by_cases hx : q x = true
  · right
    exact (List.count_filter hx).symm
  · left
    apply List.count_eq_zero.2
    intro hmem
    exact hx (List.mem_filter.1 hmem).2

theorem map_fst_filterMap (g : Nat → Option Nat) :
    ∀ l : List Nat, (l.filterMap (fun si => (g si).map (fun c2 => (si, c2)))).map Prod.fst
      = l.filter (fun si => (g si).isSome) := by
  intro l
  induction l with
  | nil => rfl
  | cons a l ih =>
    cases h : g a with
    | none => simp [List.filterMap_cons, h, ih]
    | some b => simp [List.filterMap_cons, h, ih]

theorem move_segments_count (crossings : List (List Nat)) (classes : List (List Nat))
    (c x : Nat) :
    (move_segments crossings classes c).flatten.count x = classes.flatten.count x := by
  by_cases hc : c < classes.length
  · unfold move_segments
    dsimp only
    have hm := map_fst_filterMap (fun si => (List.range classes.length).find?
      (fun c2 => c != c2 && edge_can_be_added_to_graph crossings classes si c2))
      (classes.getD c [])
    have hle : ((classes.getD c []).filter (fun si => ((List.range classes.length).find?
        (fun c2 => c != c2 && edge_can_be_added_to_graph crossings classes si c2)).isSome)).count x
        ≤ (classes.getD c []).count x := (List.filter_sublist _).count_le x
    have hJ := count_filter_cases (fun si => ((List.range classes.length).find?
        (fun c2 => c != c2 && edge_can_be_added_to_graph crossings classes si c2)).isSome)
      (classes.getD c []) x
    rw [move_fold_count c x _ classes hc
      (fun p hp => ⟨(moving_segs_spec hp).2.1, (moving_segs_spec hp).2.2.1⟩)
      (by rw [hm]; rcases hJ with a | a
          · exact Or.inl a
          · exact Or.inr (Or.inl a))]
    rw [hm]
    split_ifs with h0
    · omega
    · rfl
  · unfold move_segments
    rw [List.getD_eq_default _ _ (not_lt.1 hc)]
    rfl

end Conflict

namespace Conflict

/-! ### `best_color`: the conflicts of the chosen class are complete -/

theorem drawNoise_ge (w : World) :
    ∀ (fuel k : Nat) (d : ℚ × Nat), drawNoise w fuel k = Outcome.returned d → 1 / 1000 ≤ d.1 := by
  intro fuel
  induction fuel with
  | zero => intro k d h; rw [drawNoise] at h; exact Outcome.noConfusion h
  | succ fuel ih =>
    intro k d h
    rw [drawNoise] at h
    by_cases h1 : w.sample k < 1 / 1000
    · rw [if_pos h1] at h
      exact ih _ _ h
    · rw [if_neg h1] at h
      rw [← Outcome.returned.inj h]
      exact not_lt.1 h1

/-- When the inner loop of `best_color` ends with a cost below `min_conflict_noised`,
no `break` was taken: the candidates are all the crossing members. -/
theorem classCost_full (w : World) (st : Conflict) (seg : Nat) (m : ℚ) :
    ∀ (members : List Nat) (cc : ℚ) (cand : List Nat),
      (classCost w st seg m members cc cand).1 < m →
      (classCost w st seg m members cc cand).2
        = cand ++ members.filter (fun si => crosses st.crossings seg si) := by
  intro members
  induction members with
  | nil => intro cc cand _; simp [classCost]
  | cons si rest ih =>
    intro cc cand h
    rw [classCost] at h ⊢
    by_cases h1 : crosses st.crossings seg si = true
    · rw [if_pos h1] at h ⊢
      by_cases h2 : st.queue_count.getD si 0 ≥ st.param.max_queue
      · rw [if_pos h2] at h
        exact absurd h (by simp)
      · rw [if_neg h2] at h ⊢
        dsimp only at h ⊢
        by_cases h3 : cc + w.powf (st.queue_count.getD si 0 : ℚ) st.param.power + 1 ≥ m
        · rw [if_pos h3] at h
          exact absurd h (not_lt.2 h3)
        · rw [if_neg h3] at h ⊢
          rw [ih _ _ h, List.filter_cons_of_pos h1, List.append_assoc]
          rfl
    · rw [if_neg h1] at h ⊢
      rw [ih _ _ h, List.filter_cons_of_neg h1]

theorem bestFrom_full (w : World) (st : Conflict) (seg fuel : Nat) (limit : ℚ) :
    ∀ (cs : List Nat) (acc r : ℚ × Nat × List Nat × Nat),
      bestFrom w st seg fuel cs acc = Outcome.returned r →
      (∀ c ∈ cs, c < st.classes.length) →
      (acc.1 < limit → acc.2.1 < st.classes.length ∧
        acc.2.2.1 = (st.classes.getD acc.2.1 []).filter (fun si => crosses st.crossings seg si)) →
      (r.1 < limit → r.2.1 < st.classes.length ∧
        r.2.2.1 = (st.classes.getD r.2.1 []).filter (fun si => crosses st.crossings seg si)) := by
  intro cs
  induction cs with
  | nil =>
    intro acc r h _ hacc
    rw [bestFrom] at h
    rw [← Outcome.returned.inj h]
    exact hacc
  | cons c rest ih =>
    intro acc r h hcs hacc
    rw [bestFrom] at h
    obtain ⟨d, hd, h2⟩ := Outcome_bind_returned h
    dsimp only at h2
    have hpos : (0 : ℚ) < d.1 := lt_of_lt_of_le (by norm_num) (drawNoise_ge w _ _ _ hd)
    by_cases ha : (classCost w st seg (acc.1 / d.1) (st.classes.getD c []) 0 []).1 * d.1 < acc.1
    · rw [if_pos ha] at h2
      refine ih _ _ h2 (fun x hx => hcs x (List.mem_cons_of_mem _ hx)) (fun _ => ?_)
      refine ⟨hcs c (List.mem_cons_self _ _), ?_⟩
      have := classCost_full w st seg (acc.1 / d.1) (st.classes.getD c []) 0 []
        ((lt_div_iff₀ hpos).2 ha)
      rw [List.nil_append] at this
      exact this
    · rw [if_neg ha] at h2
      exact ih _ _ h2 (fun x hx => hcs x (List.mem_cons_of_mem _ hx)) hacc

theorem best_color_full (w : World) (st : Conflict) (seg fuel : Nat) (best_c : Nat)
    (conflicting_segs : List Nat) (st1 : Conflict)
    (h : best_color w st seg fuel
      = Outcome.returned ((true, best_c, conflicting_segs), st1)) :
    best_c < st.classes.length ∧ st1.classes = st.classes ∧
      conflicting_segs
        = (st.classes.getD best_c []).filter (fun si => crosses st.crossings seg si) := by
  have hcl := best_color_classes w st seg fuel _ h
  unfold best_color at h
  dsimp only at h
  obtain ⟨r, hr, h2⟩ := Outcome_bind_returned h
  have h3 := Outcome.returned.inj h2
  have e1 : decide (r.1 < ((st.param.max_queue * (st.n_segments : Int) : Int) : ℚ)) = true :=
    congrArg (fun x => x.1.1) h3
  have e2 : r.2.1 = best_c := congrArg (fun x => x.1.2.1) h3
  have e3 : r.2.2.1 = conflicting_segs := congrArg (fun x => x.1.2.2) h3
  have := bestFrom_full w st seg fuel _ _ _ r hr
    (fun c hc => List.mem_range.1 hc) (fun hlt => absurd hlt (lt_irrefl _))
    (of_decide_eq_true e1)
  rw [e2, e3] at this
  exact ⟨this.1, hcl, this.2⟩

/-- Removing from a crossing-free class the members that cross `seg` and pushing
`seg` leaves a crossing-free class, the matrix being symmetric. -/
theorem place_after_removal_crossFree (crossings : List (List Nat)) (classes : List (List Nat))
    (best_c seg : Nat) (hc : best_c < classes.length)
    (hsym : ∀ i j, crosses crossings i j = crosses crossings j i)
    (hfree : CrossFree crossings (classes.getD best_c [])) :
    CrossFree crossings
      (((remove_edges_from_color classes best_c
          ((classes.getD best_c []).filter (fun si => crosses crossings seg si))).set best_c
        ((remove_edges_from_color classes best_c
          ((classes.getD best_c []).filter (fun si => crosses crossings seg si))).getD best_c []
            ++ [seg])).getD best_c []) := by
  rw [remove_edges_eq, getD_set_eq, List.length_set, if_pos ⟨rfl, hc⟩, getD_set_eq,
    if_pos ⟨rfl, hc⟩]
  have hmem : ∀ x, x ∈ (classes.getD best_c []).filter
      (fun x => !((classes.getD best_c []).filter (fun si => crosses crossings seg si)).contains x)
      → x ∈ classes.getD best_c [] ∧ crosses crossings seg x = false := by
    intro x hx
    obtain ⟨h1, h2⟩ := List.mem_filter.1 hx
    refine ⟨h1, ?_⟩
    by_contra hcr
    have hin : x ∈ (classes.getD best_c []).filter (fun si => crosses crossings seg si) :=
      List.mem_filter.2 ⟨h1, by simpa using hcr⟩
    have h4 : ((classes.getD best_c []).filter
        (fun si => crosses crossings seg si)).contains x = true :=
      List.elem_eq_true_of_mem hin
    rw [h4] at h2
    exact Bool.noConfusion h2
  intro i hi j hj hij
  rcases List.mem_append.1 hi with a | a <;> rcases List.mem_append.1 hj with b | b
  · exact hfree i (hmem i a).1 j (hmem j b).1 hij
  · rw [List.mem_singleton.1 b, hsym]
    exact (hmem i a).2
  · rw [List.mem_singleton.1 a]
    exact (hmem j b).2
  · exact absurd ((List.mem_singleton.1 a).trans (List.mem_singleton.1 b).symm) hij

end Conflict

namespace Conflict

/-! ### The depth-first search returns -/

theorem intersectorsFrom_at_limit (crossings : List (List Nat)) (e : Nat) (m : Int)
    (forbidden : List Nat) :
    ∀ (rest : List Nat) (count : Int) (acc res : List Nat), m ≤ count →
      intersectorsFrom crossings e m forbidden rest count acc = some res → res = acc := by
  intro rest
  induction rest with
  | nil =>
    intro count acc res _ h
    rw [intersectorsFrom] at h
    exact (Option.some.inj h).symm
  | cons si rest ih =>
    intro count acc res hm h
    rw [intersectorsFrom] at h
    by_cases h1 : crosses crossings e si = true
    · rw [if_pos h1, if_pos (by omega)] at h
      exact Option.noConfusion h
    · rw [if_neg h1] at h
      exact ih _ _ _ hm h

theorem get_colors_zero (crossings : List (List Nat)) (cls : List (List Nat)) (e : Nat)
    (breadth : Int) (forbidden : List Nat) (hb : breadth ≤ 0) :
    ∀ p ∈ get_colors_with_small_conflict_number crossings cls e breadth forbidden, p.2 = [] := by
  intro p hp
  unfold get_colors_with_small_conflict_number at hp
  obtain ⟨c, _, hpc⟩ := List.mem_filterMap.1 hp
  cases hgi : get_intersectors crossings cls c e breadth forbidden with
  | none => rw [hgi] at hpc; exact Option.noConfusion hpc
  | some X =>
    rw [hgi] at hpc
    have hpe : (c, X) = p := Option.some.inj hpc
    subst hpe
    exact intersectorsFrom_at_limit crossings e breadth forbidden _ _ _ _ hb hgi

theorem tryColors_total
    {dfs : List (List Nat) → List Nat → List Nat → Int → Int → List stack_event_t →
      Outcome (Int × List (List Nat) × List stack_event_t)}
    (e : Nat) (forbidden : List Nat) (breadth depth : Int) :
    ∀ (cands : List (Nat × List Nat)) (cls : List (List Nat)),
      (∀ p ∈ cands, ∀ cls2 F2, ∃ r, dfs cls2 p.2 F2 breadth (depth - 1) [] = Outcome.returned r) →
      ∃ res, tryColors dfs e forbidden breadth depth cands cls = Outcome.returned res := by
  intro cands
  induction cands with
  | nil => intro cls _; exact ⟨_, rfl⟩
  | cons p rest ih =>
    intro cls h
    obtain ⟨c, X⟩ := p
    rw [tryColors]
    obtain ⟨r, hr⟩ := h (c, X) (List.mem_cons_self _ _)
      (remove_edges_from_color (cls.set c (cls.getD c [] ++ [e])) c X) (forbidden ++ [e])
    dsimp only at hr ⊢
    rw [hr]
    show ∃ res, (if r.1 = -1 then _ else _) = Outcome.returned res
    by_cases hret : r.1 = -1
    · rw [if_pos hret]
      exact ih _ (fun p hp => h p (List.mem_cons_of_mem _ hp))
    · rw [if_neg hret]
      exact ⟨_, rfl⟩

theorem colorTodo_total
    {dfs : List (List Nat) → List Nat → List Nat → Int → Int → List stack_event_t →
      Outcome (Int × List (List Nat) × List stack_event_t)}
    (crossings : List (List Nat)) (forbidden : List Nat) (breadth depth : Int)
    (h : ∀ cls e, ∀ p ∈ get_colors_with_small_conflict_number crossings cls e breadth forbidden,
      ∀ cls2 F2, ∃ r, dfs cls2 p.2 F2 breadth (depth - 1) [] = Outcome.returned r) :
    ∀ (rest : List Nat) (cls : List (List Nat)) (changes : List stack_event_t),
      ∃ r, colorTodo dfs crossings forbidden breadth depth rest cls changes
          = Outcome.returned r ∧ (r.1 = 0 ∨ r.1 = -1) := by
  intro rest
  induction rest with
  | nil => intro cls changes; exact ⟨_, rfl, Or.inl rfl⟩
  | cons e rest ih =>
    intro cls changes
    rw [colorTodo]
    obtain ⟨res, hres⟩ := tryColors_total e forbidden breadth depth
      (get_colors_with_small_conflict_number crossings cls e breadth forbidden) cls (h cls e)
    rw [hres]
    show ∃ r, (match res.2 with
      | some events => colorTodo dfs crossings forbidden breadth depth rest res.1 (changes ++ events)
      | none => Outcome.returned (-1, undo_changes res.1 changes, [])) = Outcome.returned r ∧ _
    cases res.2 with
    | none => exact ⟨_, rfl, Or.inr rfl⟩
    | some evts => exact ih _ _

/-- With `depth ≥ 1`, `dfsOptimize` returns when it is allowed `depth` nested calls:
at `depth = 1` the breadth is `0` and every recursive `todo` is empty. -/
theorem dfsOptimize_total (crossings : List (List Nat)) :
    ∀ (fuel : Nat) (cls : List (List Nat)) (todo forbidden : List Nat) (breadth depth : Int)
      (changes : List stack_event_t),
      (todo = [] ∨ (1 ≤ depth ∧ depth ≤ (fuel : Int))) →
      ∃ r, dfsOptimize crossings fuel cls todo forbidden breadth depth changes
          = Outcome.returned r ∧ (r.1 = 0 ∨ r.1 = -1) := by
  intro fuel
  induction fuel with
  | zero =>
    intro cls todo forbidden breadth depth changes h
    have ht : todo = [] := by
      rcases h with h | h
      · exact h
      · have := h.1; have := h.2; omega
    rw [dfsOptimize, if_pos ht]
    exact ⟨_, rfl, Or.inl rfl⟩
  | succ fuel ih =>
    intro cls todo forbidden breadth depth changes h
    rw [dfsOptimize]
    by_cases ht : todo = []
    · rw [if_pos ht]
      exact ⟨_, rfl, Or.inl rfl⟩
    · rw [if_neg ht]
      have hd : 1 ≤ depth ∧ depth ≤ ((fuel + 1 : Nat) : Int) := by
        rcases h with h | h
        · exact absurd h ht
        · exact h
      dsimp only
      apply colorTodo_total
      intro cls1 e p hp cls2 F2
      by_cases h1 : depth = 1
      · rw [if_pos h1] at hp ⊢
        have := get_colors_zero crossings cls1 e 0 forbidden (le_refl _) p hp
        obtain ⟨r, hr, _⟩ := ih cls2 p.2 F2 0 (depth - 1) [] (Or.inl this)
        exact ⟨r, hr⟩
      · rw [if_neg h1] at hp ⊢
        obtain ⟨r, hr, _⟩ := ih cls2 p.2 F2 breadth (depth - 1) []
          (Or.inr ⟨by omega, by push_cast at hd; omega⟩)
        exact ⟨r, hr⟩

end Conflict

namespace Conflict

/-! ### The depth-first search: a success keeps the classes valid -/

theorem permClasses_crossFree {crossings : List (List Nat)} {a b : List (List Nat)}
    (h : PermClasses a b) (hb : ∀ cl ∈ b, CrossFree crossings cl) :
    ∀ cl ∈ a, CrossFree crossings cl := by
  intro cl hcl
  obtain ⟨k, hk, e⟩ := List.mem_iff_getElem.1 hcl
  have hkb : k < b.length := by rw [← h.1]; exact hk
  have hp := h.2 k
  rw [List.getD_eq_getElem _ _ hk, e] at hp
  have hfree := hb (b.getD k []) (by rw [List.getD_eq_getElem _ _ hkb]; exact List.getElem_mem hkb)
  intro i hi j hj hij
  exact hfree i (hp.mem_iff.1 hi) j (hp.mem_iff.1 hj) hij

theorem in_list_false {i : Nat} {l : List Nat} (h : in_list i l = false) : i ∉ l := by
  intro hm
  have : in_list i l = true := by
    unfold in_list
    exact List.any_eq_true.2 ⟨i, hm, by simp⟩
  rw [h] at this
  exact Bool.noConfusion this

theorem intersectorsFrom_complete (crossings : List (List Nat)) (e : Nat) (m : Int)
    (forbidden : List Nat) :
    ∀ (rest : List Nat) (count : Int) (acc res : List Nat),
      intersectorsFrom crossings e m forbidden rest count acc = some res →
      ∃ Y, res = acc ++ Y ∧ (∀ x ∈ rest, crosses crossings e x = true → x ∈ Y) ∧
        ∀ y ∈ Y, y ∉ forbidden := by
  intro rest
  induction rest with
  | nil =>
    intro count acc res h
    rw [intersectorsFrom] at h
    exact ⟨[], by rw [List.append_nil]; exact (Option.some.inj h).symm,
      fun x hx => absurd hx (List.not_mem_nil x), fun y hy => absurd hy (List.not_mem_nil y)⟩
  | cons si rest ih =>
    intro count acc res h
    rw [intersectorsFrom] at h
    by_cases h1 : crosses crossings e si = true
    · rw [if_pos h1] at h
      by_cases h2 : count + 1 > m
      · rw [if_pos h2] at h
        exact Option.noConfusion h
      · rw [if_neg h2] at h
        by_cases h3 : in_list si forbidden = true
        · rw [if_pos h3] at h
          exact Option.noConfusion h
        · rw [if_neg h3] at h
          obtain ⟨Y, hY1, hY2, hY3⟩ := ih _ _ _ h
          refine ⟨si :: Y, by rw [hY1, List.append_assoc]; rfl, fun x hx hcr => ?_,
            fun y hy => ?_⟩
          · rcases List.mem_cons.1 hx with a | a
            · rw [a]; exact List.mem_cons_self _ _
            · exact List.mem_cons_of_mem _ (hY2 x a hcr)
          · rcases List.mem_cons.1 hy with a | a
            · rw [a]; exact in_list_false (Bool.eq_false_iff.2 h3)
            · exact hY3 y a
    · rw [if_neg h1] at h
      obtain ⟨Y, hY1, hY2, hY3⟩ := ih _ _ _ h
      refine ⟨Y, hY1, fun x hx hcr => ?_, hY3⟩
      rcases List.mem_cons.1 hx with a | a
      · rw [a] at hcr; exact absurd hcr h1
      · exact hY2 x a hcr

theorem get_colors_complete (crossings : List (List Nat)) (cls : List (List Nat)) (e : Nat)
    (breadth : Int) (forbidden : List Nat) :
    ∀ p ∈ get_colors_with_small_conflict_number crossings cls e breadth forbidden,
      p.1 < cls.length ∧ p.2.Sublist (cls.getD p.1 []) ∧
      (∀ x ∈ cls.getD p.1 [], crosses crossings e x = true → x ∈ p.2) ∧
      ∀ y ∈ p.2, y ∉ forbidden := by
  intro p hp
  obtain ⟨g1, g2⟩ := get_colors_spec crossings cls e breadth forbidden p hp
  refine ⟨g1, g2, ?_⟩
  unfold get_colors_with_small_conflict_number at hp
  obtain ⟨c, _, hpc⟩ := List.mem_filterMap.1 hp
  cases hgi : get_intersectors crossings cls c e breadth forbidden with
  | none => rw [hgi] at hpc; exact Option.noConfusion hpc
  | some X =>
    rw [hgi] at hpc
    have hpe : (c, X) = p := Option.some.inj hpc
    subst hpe
    obtain ⟨Y, hY1, hY2, hY3⟩ :=
      intersectorsFrom_complete crossings e breadth forbidden _ _ _ _ hgi
    rw [List.nil_append] at hY1
    subst hY1
    exact ⟨hY2, hY3⟩

/-- The class handed to the recursive call: the class with `e` pushed and the
conflicts removed is crossing-free when the conflicts hold every member
crossing `e`. -/
theorem crossFree_filter_snoc {crossings : List (List Nat)} {cl X : List Nat} {e : Nat}
    (hsym : ∀ i j, crosses crossings i j = crosses crossings j i)
    (hfree : CrossFree crossings cl)
    (hX : ∀ x ∈ cl, crosses crossings e x = true → x ∈ X) :
    CrossFree crossings ((cl ++ [e]).filter (fun x => !X.contains x)) := by
  have hmem : ∀ x, x ∈ (cl ++ [e]).filter (fun x => !X.contains x) →
      x = e ∨ (x ∈ cl ∧ crosses crossings e x = false) := by
    intro x hx
    obtain ⟨h1, h2⟩ := List.mem_filter.1 hx
    rcases List.mem_append.1 h1 with a | a
    · right
      refine ⟨a, ?_⟩
      by_contra hcr
      have h4 : X.contains x = true :=
        List.elem_eq_true_of_mem (hX x a (by simpa using hcr))
      rw [h4] at h2
      exact Bool.noConfusion h2
    · exact Or.inl (List.mem_singleton.1 a)
  intro i hi j hj hij
  rcases hmem i hi with a | ⟨a1, a2⟩ <;> rcases hmem j hj with b | ⟨b1, b2⟩
  · exact absurd (a.trans b.symm) hij
  · rw [a]; exact b2
  · rw [b, hsym]; exact a2
  · exact hfree i a1 j b1 hij

theorem tryColors_keep
    {dfs : List (List Nat) → List Nat → List Nat → Int → Int → List stack_event_t →
      Outcome (Int × List (List Nat) × List stack_event_t)}
    {crossings : List (List Nat)}
    (hsym : ∀ i j, crosses crossings i j = crosses crossings j i)
    (hdfs : DfsSpec dfs) (hk : DfsKeep crossings dfs)
    (e : Nat) (forbidden : List Nat) (breadth depth : Int)
    (cls0 : List (List Nat)) (hnd : (cls0.flatten ++ [e]).Nodup) :
    ∀ (cands : List (Nat × List Nat)) (cls : List (List Nat))
      (res : List (List Nat) × Option (List stack_event_t)),
      (∀ p ∈ cands, p.1 < cls0.length ∧ p.2.Sublist (cls0.getD p.1 []) ∧
        (∀ x ∈ cls0.getD p.1 [], crosses crossings e x = true → x ∈ p.2) ∧
        ∀ y ∈ p.2, y ∉ forbidden) →
      PermClasses cls cls0 →
      tryColors dfs e forbidden breadth depth cands cls = Outcome.returned res →
      ∀ evts, res.2 = some evts →
        ((∀ cl ∈ cls0, CrossFree crossings cl) → ∀ cl ∈ res.1, CrossFree crossings cl) ∧
        (∀ f ∈ forbidden, ∀ c, f ∈ cls0.getD c [] → f ∈ res.1.getD c []) := by
  intro cands
  induction cands with
  | nil =>
    intro cls res _ _ h evts he
    rw [tryColors] at h
    have hres : (cls, none) = res := Outcome.returned.inj h
    subst hres
    exact Option.noConfusion he
  | cons p rest ih =>
    intro cls res hcands hcls h
    obtain ⟨c, X⟩ := p
    obtain ⟨hc, hsubl, hcomp, hforb⟩ := hcands (c, X) (List.mem_cons_self _ _)
    simp only [] at hc hsubl hcomp hforb
    obtain ⟨hcl0, hecl0⟩ := class_facts hnd hc
    have hX : X.Nodup := hsubl.nodup hcl0
    have hsub : ∀ x ∈ X, x ∈ cls0.getD c [] := fun x hx => hsubl.subset hx
    have hclen : c < cls.length := by rw [hcls.1]; exact hc
    have h1eq : remove_edges_from_color (cls.set c (cls.getD c [] ++ [e])) c X
        = cls.set c ((cls.getD c [] ++ [e]).filter (fun x => !X.contains x)) := by
      rw [remove_edges_eq, set_set_getD, if_pos hclen]
    have hP1 : PermClasses (cls.set c ((cls.getD c [] ++ [e]).filter (fun x => !X.contains x)))
        (cls0.set c ((cls0.getD c [] ++ [e]).filter (fun x => !X.contains x))) :=
      hcls.set c (((hcls.2 c).append_right [e]).filter _)
    have hT1get : (cls0.set c ((cls0.getD c [] ++ [e]).filter (fun x => !X.contains x))).getD c []
        = (cls0.getD c [] ++ [e]).filter (fun x => !X.contains x) := by
      rw [getD_set_eq, if_pos ⟨rfl, hc⟩]
    have hT1set : (cls0.set c ((cls0.getD c [] ++ [e]).filter (fun x => !X.contains x))).set c
        (cls0.getD c []) = cls0 := by
      rw [List.set_set, set_getD_self]
    have hflat1 : ((cls0.set c ((cls0.getD c [] ++ [e]).filter
        (fun x => !X.contains x))).flatten ++ X).Perm (cls0.flatten ++ [e]) := by
      have a1 := flatten_set_perm cls0 c ((cls0.getD c [] ++ [e]).filter
        (fun x => !X.contains x)) hc
      have a2 := class_with_conflicts hcl0 hecl0 hX hsub
      rw [List.perm_iff_count] at a1 a2 ⊢
      intro a
      have b1 := a1 a
      have b2 := a2 a
      simp only [List.count_append] at b1 b2 ⊢
      omega
    have hnd1 : ((cls.set c ((cls.getD c [] ++ [e]).filter
        (fun x => !X.contains x))).flatten ++ X).Nodup :=
      (((hP1.flatten.append_right X).trans hflat1).nodup_iff).2 hnd
    rw [tryColors] at h
    rw [h1eq] at h
    obtain ⟨r, hr, hres⟩ := Outcome_bind_returned h
    obtain ⟨post1, _⟩ := hdfs _ _ _ _ _ r hnd1 hr
    by_cases hret : r.1 = -1
    · rw [if_pos hret] at hres
      have hP2 : PermClasses r.2.1 (cls0.set c ((cls0.getD c [] ++ [e]).filter
          (fun x => !X.contains x))) := (post1 hret).2.trans hP1
      have hrlen : c < r.2.1.length := by
        rw [hP2.1, List.length_set]; exact hc
      have hnext : add_edges_to_color (remove_edges_from_color r.2.1 c [e]) c X
          = r.2.1.set c ((r.2.1.getD c []).filter (fun x => !([e].contains x)) ++ X) := by
        rw [add_edges_eq, remove_edges_eq,
          set_set_getD r.2.1 c _ (fun l => l ++ X), if_pos hrlen]
      rw [hnext] at hres
      have hcl2 := hP2.2 c
      rw [hT1get] at hcl2
      have hP3 := hP2.set c (class_after_failure hcl0 hecl0 hX hsub hcl2)
      rw [hT1set] at hP3
      exact ih _ res (fun p hp => hcands p (List.mem_cons_of_mem _ hp)) hP3 hres
    · rw [if_neg hret] at hres
      have hres2 := Outcome.returned.inj hres
      subst hres2
      intro evts _
      obtain ⟨k1, k2⟩ := hk _ _ _ _ _ r hnd1 hr hret
      refine ⟨fun hv => ?_, fun f hf c2 hfc => ?_⟩
      · apply k1
        apply permClasses_crossFree hP1
        intro cl hcl
        rcases mem_set_iff hcl with a | a
        · rw [a]
          exact crossFree_filter_snoc hsym
            (hv _ (by rw [List.getD_eq_getElem _ _ hc]; exact List.getElem_mem hc)) hcomp
        · exact hv cl a
      · apply k2 f (List.mem_append_left _ hf) c2
        apply ((hP1.2 c2).mem_iff).2
        rw [getD_set_eq]
        by_cases hcc : c = c2 ∧ c < cls0.length
        · rw [if_pos hcc]
          rw [← hcc.1] at hfc
          refine List.mem_filter.2 ⟨List.mem_append_left _ hfc, ?_⟩
          have hfX : f ∉ X := fun hin => hforb f hin hf
          simpa using hfX
        · rw [if_neg hcc]
          exact hfc

theorem colorTodo_keep
    {dfs : List (List Nat) → List Nat → List Nat → Int → Int → List stack_event_t →
      Outcome (Int × List (List Nat) × List stack_event_t)}
    {crossings : List (List Nat)}
    (hsym : ∀ i j, crosses crossings i j = crosses crossings j i)
    (hdfs : DfsSpec dfs) (hk : DfsKeep crossings dfs)
    (forbidden : List Nat) (breadth depth : Int) :
    ∀ (rest : List Nat) (cls : List (List Nat)) (changes : List stack_event_t)
      (r : Int × List (List Nat) × List stack_event_t),
      (cls.flatten ++ rest).Nodup →
      colorTodo dfs crossings forbidden breadth depth rest cls changes = Outcome.returned r →
      r.1 ≠ -1 →
      ((∀ cl ∈ cls, CrossFree crossings cl) → ∀ cl ∈ r.2.1, CrossFree crossings cl) ∧
      (∀ f ∈ forbidden, ∀ c, f ∈ cls.getD c [] → f ∈ r.2.1.getD c []) := by
  intro rest
  induction rest with
  | nil =>
    intro cls changes r _ h _
    rw [colorTodo] at h
    have hr : (0, cls, changes) = r := Outcome.returned.inj h
    subst hr
    exact ⟨fun hv => hv, fun f _ c hfc => hfc⟩
  | cons e rest ih =>
    intro cls changes r hnd h hne
    rw [colorTodo] at h
    obtain ⟨res, hres, hcont⟩ := Outcome_bind_returned h
    have hnde : (cls.flatten ++ [e]).Nodup := by
      have : (cls.flatten ++ [e]).Sublist (cls.flatten ++ e :: rest) :=
        List.Sublist.append_left (List.Sublist.cons₂ e (List.nil_sublist rest)) _
      exact this.nodup hnd
    obtain ⟨_, t2⟩ := tryColors_spec hdfs e forbidden breadth depth cls hnde _ cls res
      (get_colors_spec crossings cls e breadth forbidden) (PermClasses.refl cls) hres
    cases hr2 : res.2 with
    | none =>
      rw [hr2] at hcont
      have hr : (-1, undo_changes res.1 changes, []) = r := Outcome.returned.inj hcont
      subst hr
      exact absurd rfl hne
    | some evts =>
      rw [hr2] at hcont
      obtain ⟨u1, _⟩ := t2 evts hr2
      have hnd2 : (res.1.flatten ++ rest).Nodup := by
        have hp : (res.1.flatten ++ rest).Perm (cls.flatten ++ e :: rest) := by
          have := u1.append_right rest
          rw [List.append_assoc] at this
          exact this
        exact hp.nodup_iff.2 hnd
      obtain ⟨k1, k2⟩ := tryColors_keep hsym hdfs hk e forbidden breadth depth cls hnde _ cls res
        (get_colors_complete crossings cls e breadth forbidden) (PermClasses.refl cls) hres
        evts hr2
      obtain ⟨m1, m2⟩ := ih res.1 (changes ++ evts) r hnd2 hcont hne
      exact ⟨fun hv => m1 (k1 hv), fun f hf c hfc => m2 f hf c (k2 f hf c hfc)⟩

theorem dfsOptimize_keep (crossings : List (List Nat))
    (hsym : ∀ i j, crosses crossings i j = crosses crossings j i) :
    ∀ fuel : Nat, DfsKeep crossings (dfsOptimize crossings fuel) := by
  intro fuel
  induction fuel with
  | zero =>
    intro cls todo forbidden breadth depth r _ h _
    rw [dfsOptimize] at h
    by_cases ht : todo = []
    · rw [if_pos ht] at h
      have hr : (0, cls, []) = r := Outcome.returned.inj h
      subst hr
      exact ⟨fun hv => hv, fun f _ c hfc => hfc⟩
    · rw [if_neg ht] at h
      exact Outcome.noConfusion h
  | succ fuel ih =>
    intro cls todo forbidden breadth depth r hnd h hne
    rw [dfsOptimize] at h
    by_cases ht : todo = []
    · rw [if_pos ht] at h
      have hr : (0, cls, []) = r := Outcome.returned.inj h
      subst hr
      exact ⟨fun hv => hv, fun f _ c hfc => hfc⟩
    · rw [if_neg ht] at h
      exact colorTodo_keep hsym (dfsOptimize_spec crossings fuel) ih forbidden _ depth todo cls []
        r hnd h hne

end Conflict

namespace Greedy

theorem le_foldr_max : ∀ (l : List Nat) (a : Nat), a ∈ l → a ≤ l.foldr max 0 := by
  intro l
  induction l with
  | nil => intro a h; exact absurd h (List.not_mem_nil a)
  | cons b t ih =>
    intro a h
    rw [List.foldr_cons]
    rcases List.mem_cons.1 h with e | e
    · rw [e]; exact le_max_left _ _
    · exact (ih a e).trans (le_max_right _ _)

theorem degree_le_maxDegree (segs : List Segment) (i : Nat) (hi : i < segs.length) :
    Spec.degree segs i ≤ Spec.maxDegree segs :=
  le_foldr_max _ _ (List.mem_map.2 ⟨i, List.mem_range.2 hi, rfl⟩)

/-- A member of class `c` crosses at least `c` segments, one in each lower class. -/
theorem blocked_degree {segs : List Segment} {cls : List (List Nat)}
    (hB : Blocked segs cls) (hF : ∀ cl ∈ cls, CrossFree segs cl)
    (hlt : ∀ x ∈ cls.flatten, x < segs.length) {x c : Nat} (hx : x ∈ cls.getD c []) :
    c ≤ Spec.degree segs x := by
  have key : ∀ m, m ≤ c → ∃ Y : List Nat, Y.length = m ∧ Y.Nodup ∧
      ∀ y ∈ Y, y < segs.length ∧ (segAt segs x).cross (segAt segs y) = true ∧
        ∃ c2, c2 < m ∧ y ∈ cls.getD c2 [] := by
    intro m
    induction m with
    | zero => intro _; exact ⟨[], rfl, List.nodup_nil, fun y h => absurd h (List.not_mem_nil y)⟩
    | succ m ih =>
      intro hm
      obtain ⟨Y, h1, h2, h3⟩ := ih (by omega)
      obtain ⟨y, hy, hxy⟩ := hB c x hx m (by omega)
      have hyY : y ∉ Y := by
        intro hin
        obtain ⟨_, _, c2, hc2, hy2⟩ := h3 y hin
        have := blocked_unique hB hF hy hy2
        omega
      refine ⟨y :: Y, by rw [List.length_cons, h1], List.nodup_cons.2 ⟨hyY, h2⟩, fun z hz => ?_⟩
      rcases List.mem_cons.1 hz with e | e
      · rw [e]
        exact ⟨hlt y (List.mem_flatten.2 ⟨_, (mem_getD_of_mem hy).2, hy⟩), hxy, m,
          Nat.lt_succ_self m, hy⟩
      · obtain ⟨a, b, c2, hc2, d⟩ := h3 z e
        exact ⟨a, b, c2, Nat.lt_succ_of_lt hc2, d⟩
  obtain ⟨Y, h1, h2, h3⟩ := key c (le_refl c)
  have hsub : Y ⊆ (List.range segs.length).filter
      (fun j => (segAt segs x).cross (segAt segs j)) := by
    intro y hy
    obtain ⟨a, b, _⟩ := h3 y hy
    exact List.mem_filter.2 ⟨List.mem_range.2 a, b⟩
  have hle := (List.subperm_of_subset h2 hsub).length_le
  rw [h1] at hle
  unfold Spec.degree
  rw [List.countP_eq_length_filter]
  exact hle

/-- After `Greedy::color()` with at least one segment, `numColors()` is at most one
more than the maximum crossing degree. -/
theorem color_numColors_le (segs : List Segment) (hN : 1 ≤ segs.length) :
    ∃ k : Int, Solution.numColors (color segs).colorv = Outcome.returned k ∧
      k = ((color segs).classes.length : Int) ∧ k ≤ 1 + (Spec.maxDegree segs : Int) := by
  have hlt : ∀ v ∈ (List.range segs.length).map (fun si => segs.length - si - 1),
      v < segs.length := by
    intro v hv
    obtain ⟨a, ha, e⟩ := List.mem_map.1 hv
    have := List.mem_range.1 ha
    omega
  refine ⟨_, greedy_numColors segs _ hlt hN, rfl, ?_⟩
  show ((color segs).classes.length : Int) ≤ 1 + (Spec.maxDegree segs : Int)
  by_cases hk : (color segs).classes.length = 0
  · rw [hk]; omega
  · obtain ⟨i0, hi0⟩ := greedy_nonempty_class segs _ ((color segs).classes.length - 1)
      (by show (color segs).classes.length - 1 < (color segs).classes.length; omega)
    have hB : Blocked segs (color segs).classes :=
      foldr_place_blocked segs [] (blocked_nil segs) _
    have hd := blocked_degree hB (color_crossFree segs)
      (fun x hx => List.mem_range.1 ((color_classes_perm segs).mem_iff.1 hx)) hi0
    have hm := degree_le_maxDegree segs i0 (greedy_mem_lt segs _ hlt hi0)
    omega

end Greedy

namespace DSatHull

/-! ### The area swept in a box bounds the area of a fan -/

theorem sweep_same (Y a b σs σt : ℚ) (ha : 0 < a) (hb : 0 < b) (haY : a ≤ Y) (hbY : b ≤ Y)
    (hc : 0 ≤ a * b * (σt - σs)) : a * b * (σt - σs) ≤ Y * Y * σt - Y * Y * σs := by
  have hab : 0 < a * b := mul_pos ha hb
  have h1 : 0 ≤ σt - σs := nonneg_of_mul_nonneg_right hc hab
  have h2 : a * b ≤ Y * Y := mul_le_mul haY hbY hb.le (ha.le.trans haY)
  nlinarith [mul_nonneg (sub_nonneg.2 h2) h1]

theorem sweep_bottom_right (X Y a ut σ τ : ℚ) (ha : 0 < a) (haY : a ≤ Y) (hu : 0 < ut)
    (huX : ut ≤ X) (hσ : σ * Y ≤ X) (hτ : 0 ≤ Y + X * τ)
    (hc : 0 ≤ a * ut * (σ * τ + 1)) :
    a * ut * (σ * τ + 1) ≤ 2 * X * Y + X * X * τ - Y * Y * σ := by
  have hab : 0 < a * ut := mul_pos ha hu
  have h1 : 0 ≤ σ * τ + 1 := nonneg_of_mul_nonneg_right hc hab
  have h2 : a * ut ≤ Y * X := mul_le_mul haY huX hu.le (ha.le.trans haY)
  nlinarith [mul_nonneg (sub_nonneg.2 h2) h1, mul_nonneg (sub_nonneg.2 hσ) hτ]

theorem sweep_right_top (X Z us vt σ τ : ℚ) (hu : 0 < us) (huX : us ≤ X) (hv : 0 < vt)
    (hvZ : vt ≤ Z) (hσ : σ * Z ≤ X) (hτ : τ * X ≤ Z)
    (hc : 0 ≤ us * vt * (1 - σ * τ)) :
    us * vt * (1 - σ * τ) ≤ 2 * X * Z - Z * Z * σ - X * X * τ := by
  have hab : 0 < us * vt := mul_pos hu hv
  have h1 : 0 ≤ 1 - σ * τ := nonneg_of_mul_nonneg_right hc hab
  have h2 : us * vt ≤ X * Z := mul_le_mul huX hvZ hv.le (hu.le.trans huX)
  nlinarith [mul_nonneg (sub_nonneg.2 h2) h1, mul_nonneg (sub_nonneg.2 hσ) (sub_nonneg.2 hτ)]

theorem sweep_bottom_top (X Y Z a vt σ ρ : ℚ) (ha : 0 < a) (haY : a ≤ Y) (hv : 0 < vt)
    (hvZ : vt ≤ Z) (hσ0 : 0 ≤ σ) (hρ0 : 0 ≤ ρ) (hσ : σ * Y ≤ X) (hρ : ρ * Z ≤ X) :
    a * vt * (σ + ρ) ≤ 2 * X * Y + 2 * X * Z - Z * Z * ρ - Y * Y * σ := by
  have h1 : 0 ≤ σ + ρ := add_nonneg hσ0 hρ0
  have h2 : a * vt ≤ Y * Z := mul_le_mul haY hvZ hv.le (ha.le.trans haY)
  have hYZ : 0 ≤ Y + Z := add_nonneg (ha.le.trans haY) (hv.le.trans hvZ)
  nlinarith [mul_nonneg (sub_nonneg.2 h2) h1,
    mul_nonneg hYZ (by linarith : (0 : ℚ) ≤ 2 * X - ρ * Z - σ * Y)]

end DSatHull
namespace DSatHull

theorem sweep_cases (X Y Z u v : ℚ) (hY : 0 ≤ Y) (hZ : 0 ≤ Z)
    (h1 : 0 ≤ u) (h2 : u ≤ X) (H : 0 < u ∨ (u = 0 ∧ v < 0)) :
    (v < 0 ∧ u * Y ≤ X * (-v) ∧
      ∃ σ, σ * (-v) = u ∧ 0 ≤ σ ∧ σ * Y ≤ X ∧ sweep X Y Z u v = Y * Y * σ) ∨
    (0 < u ∧ v * X ≤ Z * u ∧ (0 ≤ v ∨ X * (-v) < u * Y) ∧
      ∃ τ, τ * u = v ∧ τ * X ≤ Z ∧ 0 ≤ Y + X * τ ∧
        sweep X Y Z u v = 2 * X * Y + X * X * τ) ∨
    (0 < u ∧ 0 < v ∧ Z * u < v * X ∧
      ∃ ρ, ρ * v = u ∧ 0 ≤ ρ ∧ ρ * Z ≤ X ∧
        sweep X Y Z u v = 2 * X * Y + 2 * X * Z - Z * Z * ρ) := by
  have hX : 0 ≤ X := le_trans h1 h2
  by_cases hB : v < 0 ∧ u * Y ≤ X * (-v)
  · left
    have hv : 0 < -v := neg_pos.2 hB.1
    have e : u / (-v) * (-v) = u := div_mul_cancel₀ u (ne_of_gt hv)
    refine ⟨hB.1, hB.2, u / (-v), e, div_nonneg h1 hv.le, ?_, ?_⟩
    · have : u / (-v) * Y * (-v) ≤ X * (-v) := by
        have e2 : u / (-v) * Y * (-v) = u / (-v) * (-v) * Y := by ring
        rw [e2, e]; exact hB.2
      exact le_of_mul_le_mul_right this hv
    · unfold sweep
      rw [if_pos hB, mul_div_assoc]
  · right
    by_cases hR : 0 < u ∧ v * X ≤ Z * u
    · left
      have e : v / u * u = v := div_mul_cancel₀ v (ne_of_gt hR.1)
      have hd : 0 ≤ v ∨ X * (-v) < u * Y := by
        by_cases hv : 0 ≤ v
        · exact Or.inl hv
        · right
          by_contra hn
          exact hB ⟨not_le.1 hv, not_lt.1 hn⟩
      refine ⟨hR.1, hR.2, hd, v / u, e, ?_, ?_, ?_⟩
      · have : v / u * X * u ≤ Z * u := by
          have e2 : v / u * X * u = v / u * u * X := by ring
          rw [e2, e]; exact hR.2
        exact le_of_mul_le_mul_right this hR.1
      · have : 0 ≤ (Y + X * (v / u)) * u := by
          have e2 : (Y + X * (v / u)) * u = Y * u + X * (v / u * u) := by ring
          rw [e2, e]
          rcases hd with hv | hv
          · exact add_nonneg (mul_nonneg hY h1) (mul_nonneg hX hv)
          · linarith
        exact nonneg_of_mul_nonneg_left this hR.1
      · unfold sweep
        rw [if_neg hB, if_pos hR, mul_div_assoc]
    · right
      have hu : 0 < u := by
        rcases H with h | ⟨h, hv⟩
        · exact h
        · exfalso
          apply hB
          refine ⟨hv, ?_⟩
          rw [h, zero_mul]
          exact mul_nonneg hX (neg_pos.2 hv).le
      have hlt : Z * u < v * X := by
        by_contra hn
        exact hR ⟨hu, not_lt.1 hn⟩
      have hv : 0 < v := by
        by_contra hn
        have h3 : v * X ≤ 0 := mul_nonpos_of_nonpos_of_nonneg (not_lt.1 hn) hX
        have h4 : 0 ≤ Z * u := mul_nonneg hZ h1
        linarith
      have e : u / v * v = u := div_mul_cancel₀ u (ne_of_gt hv)
      refine ⟨hu, hv, hlt, u / v, e, div_nonneg h1 hv.le, ?_, ?_⟩
      · have : u / v * Z * v ≤ X * v := by
          have e2 : u / v * Z * v = u / v * v * Z := by ring
          rw [e2, e]; linarith
        exact le_of_mul_le_mul_right this hv
      · unfold sweep
        rw [if_neg hB, if_neg hR, mul_div_assoc]

theorem sweep_nonneg (X Y Z u v : ℚ) (hY : 0 ≤ Y) (hZ : 0 ≤ Z)
    (h1 : 0 ≤ u) (h2 : u ≤ X) (H : 0 < u ∨ (u = 0 ∧ v < 0)) :
    0 ≤ sweep X Y Z u v ∧ sweep X Y Z u v ≤ 2 * X * (Y + Z) := by
  have hX : 0 ≤ X := le_trans h1 h2
  rcases sweep_cases X Y Z u v hY hZ h1 h2 H with
    ⟨_, _, σ, _, s2, s3, s4⟩ | ⟨_, _, _, τ, _, s2, s3, s4⟩ | ⟨_, _, _, ρ, _, s2, s3, s4⟩
  · rw [s4]
    constructor
    · exact mul_nonneg (mul_nonneg hY hY) s2
    · nlinarith [mul_nonneg hY (sub_nonneg.2 s3), mul_nonneg hX hY, mul_nonneg hX hZ]
  · rw [s4]
    constructor
    · nlinarith [mul_nonneg hX s3, mul_nonneg hX hY]
    · nlinarith [mul_nonneg hX (sub_nonneg.2 s2), mul_nonneg hX hY, mul_nonneg hX hZ]
  · rw [s4]
    constructor
    · nlinarith [mul_nonneg hZ (sub_nonneg.2 s3), mul_nonneg hX hY, mul_nonneg hX hZ]
    · nlinarith [mul_nonneg (mul_nonneg hZ hZ) s2]

theorem sweep_step (X Y Z us vs ut vt : ℚ) (hY : 0 ≤ Y) (hZ : 0 ≤ Z)
    (hs1 : 0 ≤ us) (hs2 : us ≤ X) (hs3 : -Y ≤ vs) (hs4 : vs ≤ Z)
    (ht1 : 0 ≤ ut) (ht2 : ut ≤ X) (ht3 : -Y ≤ vt) (ht4 : vt ≤ Z)
    (Hs : 0 < us ∨ (us = 0 ∧ vs < 0)) (Ht : 0 < ut ∨ (ut = 0 ∧ vt < 0))
    (hc : 0 ≤ us * vt - ut * vs) :
    us * vt - ut * vs ≤ sweep X Y Z ut vt - sweep X Y Z us vs := by
  have hX : 0 ≤ X := le_trans hs1 hs2
  rcases sweep_cases X Y Z us vs hY hZ hs1 hs2 Hs with
    ⟨a1, a2, σs, a3, a4, a5, a6⟩ | ⟨a1, a2, a7, τs, a3, a4, a5, a6⟩ |
      ⟨a1, a2, a7, ρs, a3, a4, a5, a6⟩ <;>
  rcases sweep_cases X Y Z ut vt hY hZ ht1 ht2 Ht with
    ⟨b1, b2, σt, b3, b4, b5, b6⟩ | ⟨b1, b2, b7, τt, b3, b4, b5, b6⟩ |
      ⟨b1, b2, b7, ρt, b3, b4, b5, b6⟩
  · -- bottom, bottom
    rw [a6, b6]
    have e : us * vt - ut * vs = -vs * -vt * (σt - σs) := by
      linear_combination (-vt) * a3 + vs * b3
    rw [e] at hc ⊢
    exact sweep_same Y (-vs) (-vt) σs σt (neg_pos.2 a1) (neg_pos.2 b1) (by linarith)
      (by linarith) hc
  · -- bottom, right
    rw [a6, b6]
    have e : us * vt - ut * vs = -vs * ut * (σs * τt + 1) := by
      linear_combination (-vt) * a3 + (σs * vs) * b3
    rw [e] at hc ⊢
    have := sweep_bottom_right X Y (-vs) ut σs τt (neg_pos.2 a1) (by linarith) b1 ht2 a5 b5 hc
    linarith
  · -- bottom, top
    rw [a6, b6]
    have e : us * vt - ut * vs = -vs * vt * (σs + ρt) := by
      linear_combination (-vt) * a3 + vs * b3
    rw [e]
    have := sweep_bottom_top X Y Z (-vs) vt σs ρt (neg_pos.2 a1) (by linarith) b2 ht4 a4 b4 a5 b5
    linarith
  · -- right, bottom: impossible
    exfalso
    rcases a7 with hv | hv
    · nlinarith [mul_pos a1 (neg_pos.2 b1), mul_nonneg ht1 hv]
    · by_cases hvs : 0 ≤ vs
      · nlinarith [mul_pos a1 (neg_pos.2 b1), mul_nonneg ht1 hvs]
      · nlinarith [mul_pos (sub_pos.2 hv) (neg_pos.2 b1), mul_nonneg hc hY,
          mul_nonneg (sub_nonneg.2 b2) (neg_pos.2 (not_le.1 hvs)).le]
  · -- right, right
    rw [a6, b6]
    have e : us * vt - ut * vs = us * ut * (τt - τs) := by
      linear_combination ut * a3 + (-us) * b3
    rw [e] at hc ⊢
    have := sweep_same X us ut τs τt a1 b1 hs2 ht2 hc
    linarith
  · -- right, top
    rw [a6, b6]
    have e : us * vt - ut * vs = us * vt * (1 - ρt * τs) := by
      linear_combination (ρt * vt) * a3 + vs * b3
    rw [e] at hc ⊢
    have := sweep_right_top X Z us vt ρt τs a1 hs2 b2 ht4 b5 a4 hc
    linarith
  · -- top, bottom: impossible
    exfalso
    nlinarith [mul_pos a1 (neg_pos.2 b1), mul_nonneg ht1 a2.le]
  · -- top, right: impossible
    exfalso
    nlinarith [mul_pos (sub_pos.2 a7) b1, mul_nonneg (sub_nonneg.2 b2) a1.le, mul_nonneg hc hX]
  · -- top, top
    rw [a6, b6]
    have e : us * vt - ut * vs = vs * vt * (ρs - ρt) := by
      linear_combination (-vt) * a3 + vs * b3
    rw [e] at hc ⊢
    have := sweep_same Z vs vt ρt ρs a2 b2 hs4 ht4 hc
    linarith

end DSatHull
namespace DSatHull

theorem Point_lt_iff (a b : Point) :
    Point.lt a b = true ↔ a.x < b.x ∨ (a.x = b.x ∧ a.y < b.y) := by
  simp [Point.lt]

theorem sweepAt_step (p0 a b : Point) (hp0 : p0.isNat31) (ha : a.isNat31) (hb : b.isNat31)
    (la : Point.lt a p0 = true) (lb : Point.lt b p0 = true)
    (hc : 0 ≤ orientVal ⟨p0, a⟩ b) :
    ((orientVal ⟨p0, a⟩ b : Int) : ℚ) ≤ sweepAt p0 b - sweepAt p0 a := by
  obtain ⟨p1, p2, p3, p4⟩ := hp0
  obtain ⟨a1, a2, a3, a4⟩ := ha
  obtain ⟨b1, b2, b3, b4⟩ := hb
  rw [Point_lt_iff] at la lb
  have e : ((orientVal ⟨p0, a⟩ b : Int) : ℚ)
      = ((p0.x : ℚ) - a.x) * ((b.y : ℚ) - p0.y) - ((p0.x : ℚ) - b.x) * ((a.y : ℚ) - p0.y) := by
    simp only [orientVal]
    push_cast
    ring
  have hc2 : (0 : ℚ) ≤ ((orientVal ⟨p0, a⟩ b : Int) : ℚ) := by exact_mod_cast hc
  rw [e] at hc2 ⊢
  have q4 : (p0.y : ℚ) ≤ 2 ^ 31 - 1 := by
    have : p0.y ≤ 2 ^ 31 - 1 := by omega
    exact_mod_cast this
  have qa4 : (a.y : ℚ) ≤ 2 ^ 31 - 1 := by
    have : a.y ≤ 2 ^ 31 - 1 := by omega
    exact_mod_cast this
  have qb4 : (b.y : ℚ) ≤ 2 ^ 31 - 1 := by
    have : b.y ≤ 2 ^ 31 - 1 := by omega
    exact_mod_cast this
  have q3 : (0 : ℚ) ≤ p0.y := by exact_mod_cast p3
  have qa1 : (0 : ℚ) ≤ a.x := by exact_mod_cast a1
  have qa3 : (0 : ℚ) ≤ a.y := by exact_mod_cast a3
  have qb1 : (0 : ℚ) ≤ b.x := by exact_mod_cast b1
  have qb3 : (0 : ℚ) ≤ b.y := by exact_mod_cast b3
  have Ha : (0 : ℚ) < (p0.x : ℚ) - a.x ∨ ((p0.x : ℚ) - a.x = 0 ∧ (a.y : ℚ) - p0.y < 0) := by
    rcases la with h | ⟨h1, h2⟩
    · left
      have : (a.x : ℚ) < p0.x := by exact_mod_cast h
      linarith
    · right
      have : (a.y : ℚ) < p0.y := by exact_mod_cast h2
      rw [h1]
      exact ⟨sub_self _, by linarith⟩
  have Hb : (0 : ℚ) < (p0.x : ℚ) - b.x ∨ ((p0.x : ℚ) - b.x = 0 ∧ (b.y : ℚ) - p0.y < 0) := by
    rcases lb with h | ⟨h1, h2⟩
    · left
      have : (b.x : ℚ) < p0.x := by exact_mod_cast h
      linarith
    · right
      have : (b.y : ℚ) < p0.y := by exact_mod_cast h2
      rw [h1]
      exact ⟨sub_self _, by linarith⟩
  have ua : (0 : ℚ) ≤ (p0.x : ℚ) - a.x := by
    rcases Ha with h | h
    · exact h.le
    · exact h.1.ge
  have ub : (0 : ℚ) ≤ (p0.x : ℚ) - b.x := by
    rcases Hb with h | h
    · exact h.le
    · exact h.1.ge
  unfold sweepAt
  exact sweep_step _ _ _ _ _ _ _ q3 (by linarith) ua (by linarith) (by linarith) (by linarith)
    ub (by linarith) (by linarith) (by linarith) Ha Hb hc2

theorem sweepAt_range (p0 a : Point) (hp0 : p0.isNat31) (ha : a.isNat31)
    (la : Point.lt a p0 = true) :
    0 ≤ sweepAt p0 a ∧ sweepAt p0 a ≤ 2 * (2 ^ 31 - 1) ^ 2 := by
  obtain ⟨p1, p2, p3, p4⟩ := hp0
  obtain ⟨a1, a2, a3, a4⟩ := ha
  rw [Point_lt_iff] at la
  have q4 : (p0.y : ℚ) ≤ 2 ^ 31 - 1 := by
    have : p0.y ≤ 2 ^ 31 - 1 := by omega
    exact_mod_cast this
  have q2 : (p0.x : ℚ) ≤ 2 ^ 31 - 1 := by
    have : p0.x ≤ 2 ^ 31 - 1 := by omega
    exact_mod_cast this
  have q1 : (0 : ℚ) ≤ p0.x := by exact_mod_cast p1
  have q3 : (0 : ℚ) ≤ p0.y := by exact_mod_cast p3
  have qa1 : (0 : ℚ) ≤ a.x := by exact_mod_cast a1
  have Ha : (0 : ℚ) < (p0.x : ℚ) - a.x ∨ ((p0.x : ℚ) - a.x = 0 ∧ (a.y : ℚ) - p0.y < 0) := by
    rcases la with h | ⟨h1, h2⟩
    · left
      have : (a.x : ℚ) < p0.x := by exact_mod_cast h
      linarith
    · right
      have : (a.y : ℚ) < p0.y := by exact_mod_cast h2
      rw [h1]
      exact ⟨sub_self _, by linarith⟩
  have ua : (0 : ℚ) ≤ (p0.x : ℚ) - a.x := by
    rcases Ha with h | h
    · exact h.le
    · exact h.1.ge
  have h := sweep_nonneg (p0.x : ℚ) p0.y (2 ^ 31 - 1 - p0.y) ((p0.x : ℚ) - a.x)
    ((a.y : ℚ) - p0.y) q3 (by linarith) ua (by linarith) Ha
  unfold sweepAt
  refine ⟨h.1, h.2.trans ?_⟩
  have e : (p0.y : ℚ) + (2 ^ 31 - 1 - p0.y) = 2 ^ 31 - 1 := by ring
  rw [e]
  nlinarith

/-- The fan of a chain sorted counter-clockwise around `p0`, whose points are in
range and before `p0`, has a doubled area between `0` and `2 (2^31 - 1)^2`. -/
theorem fan_range (p0 : Point) (hp0 : p0.isNat31) :
    ∀ C : List Point, (∀ c ∈ C, c.isNat31 ∧ Point.lt c p0 = true) →
      C.Chain' (fun a b => 0 ≤ orientVal ⟨p0, a⟩ b) →
      0 ≤ fan p0 C ∧ fan p0 C ≤ 2 * (2 ^ 31 - 1) ^ 2 := by
  have aux : ∀ (C : List Point) (a : Point),
      (∀ c ∈ a :: C, c.isNat31 ∧ Point.lt c p0 = true) →
      (a :: C).Chain' (fun a b => 0 ≤ orientVal ⟨p0, a⟩ b) →
      0 ≤ fan p0 (a :: C) ∧
        ((fan p0 (a :: C) : Int) : ℚ) + sweepAt p0 a ≤ 2 * (2 ^ 31 - 1) ^ 2 := by
    intro C
    induction C with
    | nil =>
      intro a hm _
      have h := sweepAt_range p0 a hp0 (hm a (List.mem_cons_self _ _)).1
        (hm a (List.mem_cons_self _ _)).2
      refine ⟨le_refl _, ?_⟩
      simp only [fan, Int.cast_zero, zero_add]
      exact h.2
    | cons b r ih =>
      intro a hm hch
      rw [List.chain'_cons] at hch
      have hb := ih b (fun c hc => hm c (List.mem_cons_of_mem _ hc)) hch.2
      have ha := hm a (List.mem_cons_self _ _)
      have hb2 := hm b (List.mem_cons_of_mem _ (List.mem_cons_self _ _))
      have hs := sweepAt_step p0 a b hp0 ha.1 hb2.1 ha.2 hb2.2 hch.1
      refine ⟨add_nonneg hch.1 hb.1, ?_⟩
      simp only [fan, Int.cast_add]
      linarith [hb.2]
  intro C hm hch
  cases C with
  | nil => exact ⟨le_refl _, by norm_num [fan]⟩
  | cons a C =>
    obtain ⟨h1, h2⟩ := aux C a hm hch
    refine ⟨h1, ?_⟩
    have h3 := (sweepAt_range p0 a hp0 (hm a (List.mem_cons_self _ _)).1
      (hm a (List.mem_cons_self _ _)).2).1
    have h4 : ((fan p0 (a :: C) : Int) : ℚ) ≤ ((2 * (2 ^ 31 - 1) ^ 2 : Int) : ℚ) := by
      push_cast
      linarith
    exact_mod_cast h4

end DSatHull
namespace DSatHull

/-! ### The comparator of `angular_sort` on points in range -/

theorem orientation_exact (p q r : Point) (hp : p.isNat31) (hq : q.isNat31) (hr : r.isNat31) :
    orientation p q r = Int.sign (orientVal ⟨p, q⟩ r) := by
  obtain ⟨hp1, hp2, hp3, hp4⟩ := hp
  obtain ⟨hq1, hq2, hq3, hq4⟩ := hq
  obtain ⟨hr1, hr2, hr3, hr4⟩ := hr
  have m1 := mul_range_of_abs_lt (a := q.y - p.y) (b := r.x - q.x)
    (by linarith) (by linarith) (by linarith) (by linarith)
  have m2 := mul_range_of_abs_lt (a := q.x - p.x) (b := r.y - q.y)
    (by linarith) (by linarith) (by linarith) (by linarith)
  have e1 : wrap64 (q.y - p.y) = q.y - p.y := wrap64_of_range (by linarith) (by linarith)
  have e2 : wrap64 (r.x - q.x) = r.x - q.x := wrap64_of_range (by linarith) (by linarith)
  have e3 : wrap64 (q.x - p.x) = q.x - p.x := wrap64_of_range (by linarith) (by linarith)
  have e4 : wrap64 (r.y - q.y) = r.y - q.y := wrap64_of_range (by linarith) (by linarith)
  have e5 : wrap64 ((q.y - p.y) * (r.x - q.x)) = (q.y - p.y) * (r.x - q.x) :=
    wrap64_of_range (by linarith [m1.1]) (by linarith [m1.2])
  have e6 : wrap64 ((q.x - p.x) * (r.y - q.y)) = (q.x - p.x) * (r.y - q.y) :=
    wrap64_of_range (by linarith [m2.1]) (by linarith [m2.2])
  have e7 : wrap64 ((q.y - p.y) * (r.x - q.x) - (q.x - p.x) * (r.y - q.y))
      = orientVal ⟨p, q⟩ r :=
    wrap64_of_range (by linarith [m1.1, m2.2]) (by linarith [m1.2, m2.1])
  unfold orientation
  simp only [e1, e2, e3, e4, e5, e6, e7]
  exact sign_expr_eq _

theorem orientVal_swap (p0 a b : Point) : orientVal ⟨p0, b⟩ a = -orientVal ⟨p0, a⟩ b := by
  simp only [orientVal]; ring

theorem orientVal_rel (p0 a b : Point) :
    orientVal ⟨p0, a⟩ b = (p0.x - a.x) * (b.y - p0.y) - (p0.x - b.x) * (a.y - p0.y) := by
  simp only [orientVal]; ring

/-- In range, `compare(b, a)` is false exactly when `b` is not strictly before `a`:
`a` is clockwise of `b` seen from `p0`, or in the same direction with
`p0.l2sq(a) ≤ p0.l2sq(b)`. -/
theorem compare_false_iff (p0 a b : Point) (hp : p0.isNat31) (ha : a.isNat31)
    (hb : b.isNat31) :
    compare p0 b a = false ↔
      0 < orientVal ⟨p0, a⟩ b ∨ (orientVal ⟨p0, a⟩ b = 0 ∧ p0.l2sq a ≤ p0.l2sq b) := by
  unfold compare
  simp only []
  rw [orientation_exact p0 b a hp hb ha, orientVal_swap]
  rcases lt_trichotomy (orientVal ⟨p0, a⟩ b) 0 with h | h | h
  · rw [Int.sign_eq_one_of_pos (by omega)]
    simp
    omega
  · rw [h]
    simp
  · rw [Int.sign_eq_neg_one_of_neg (by omega)]
    simp [h]

theorem turn_trans (ua va ub vb uc vc : Int) (ha0 : 0 ≤ ua) (hc0 : 0 ≤ uc)
    (Ha : 0 < ua ∨ (ua = 0 ∧ va < 0)) (Hb : 0 < ub ∨ (ub = 0 ∧ vb < 0))
    (Hc : 0 < uc ∨ (uc = 0 ∧ vc < 0))
    (h1 : 0 ≤ ua * vb - ub * va) (h2 : 0 ≤ ub * vc - uc * vb) :
    0 ≤ ua * vc - uc * va ∧
      (ua * vc - uc * va = 0 → ua * vb - ub * va = 0 ∧ ub * vc - uc * vb = 0) := by
  rcases Hb with hb | ⟨hb, hvb⟩
  · have hid : (ua * vc - uc * va) * ub
        = (ua * vb - ub * va) * uc + (ub * vc - uc * vb) * ua := by ring
    have hn : 0 ≤ (ua * vc - uc * va) * ub := by
      rw [hid]; exact add_nonneg (mul_nonneg h1 hc0) (mul_nonneg h2 ha0)
    refine ⟨nonneg_of_mul_nonneg_left hn hb, fun h0 => ?_⟩
    rw [h0, zero_mul] at hid
    have k1 : (ua * vb - ub * va) * uc = 0 := by
      have := mul_nonneg h1 hc0
      have := mul_nonneg h2 ha0
      omega
    have k2 : (ub * vc - uc * vb) * ua = 0 := by
      have := mul_nonneg h1 hc0
      have := mul_nonneg h2 ha0
      omega
    have huc : 0 < uc := by
      rcases Hc with h | ⟨h, hv⟩
      · exact h
      · exfalso
        rw [h, zero_mul, sub_zero] at h2
        have := mul_pos hb (neg_pos.2 hv)
        nlinarith
    have hT1 : ua * vb - ub * va = 0 := by
      rcases mul_eq_zero.1 k1 with h | h
      · exact h
      · omega
    refine ⟨hT1, ?_⟩
    rcases mul_eq_zero.1 k2 with h | h
    · exact h
    · exfalso
      rcases Ha with h3 | ⟨_, hv⟩
      · omega
      · rw [h, zero_mul, zero_sub] at h0
        have := mul_pos huc (neg_pos.2 hv)
        nlinarith
  · subst hb
    rw [zero_mul, sub_zero] at h1
    rw [zero_mul, zero_sub] at h2
    have hua : ua = 0 := by
      rcases Ha with h | ⟨h, _⟩
      · have := mul_pos h (neg_pos.2 hvb)
        nlinarith
      · exact h
    have hva : va < 0 := by
      rcases Ha with h | ⟨_, h⟩
      · omega
      · exact h
    subst hua
    refine ⟨?_, fun h0 => ⟨by ring, ?_⟩⟩
    · have := mul_nonneg hc0 (neg_pos.2 hva).le
      nlinarith
    · rw [zero_mul, zero_sub, neg_eq_zero] at h0
      rcases mul_eq_zero.1 h0 with h | h
      · rw [h]; ring
      · omega

/-- The order of `angular_sort` around `p0` is total. -/
theorem compare_total (p0 a b : Point) (hp : p0.isNat31) (ha : a.isNat31) (hb : b.isNat31) :
    compare p0 b a = false ∨ compare p0 a b = false := by
  rw [compare_false_iff p0 a b hp ha hb, compare_false_iff p0 b a hp hb ha,
    orientVal_swap p0 a b]
  rcases lt_trichotomy (orientVal ⟨p0, a⟩ b) 0 with h | h | h
  · right; left; omega
  · rcases le_total (p0.l2sq a) (p0.l2sq b) with h2 | h2
    · left; right; exact ⟨h, h2⟩
    · right; right; exact ⟨by omega, h2⟩
  · left; left; exact h

/-- The order of `angular_sort` around `p0` is transitive on the points in range
that are before `p0` for `operator<`. -/
theorem compare_trans (p0 a b c : Point) (hp : p0.isNat31) (ha : a.isNat31) (hb : b.isNat31)
    (hc : c.isNat31) (la : Point.lt a p0 = true) (lb : Point.lt b p0 = true)
    (lc : Point.lt c p0 = true)
    (h1 : compare p0 b a = false) (h2 : compare p0 c b = false) :
    compare p0 c a = false := by
  rw [compare_false_iff p0 _ _ hp ha hb] at h1
  rw [compare_false_iff p0 _ _ hp hb hc] at h2
  rw [compare_false_iff p0 _ _ hp ha hc]
  rw [Point_lt_iff] at la lb lc
  rw [orientVal_rel] at h1 h2 ⊢
  have t := turn_trans (p0.x - a.x) (a.y - p0.y) (p0.x - b.x) (b.y - p0.y) (p0.x - c.x)
    (c.y - p0.y) (by omega) (by omega) (by omega) (by omega) (by omega)
    (by rcases h1 with h | h <;> omega) (by rcases h2 with h | h <;> omega)
  rcases lt_or_eq_of_le t.1 with h | h
  · exact Or.inl h
  · right
    obtain ⟨k1, k2⟩ := t.2 h.symm
    refine ⟨h.symm, ?_⟩
    rcases h1 with h1 | h1
    · omega
    · rcases h2 with h2 | h2
      · omega
      · exact le_trans h1.2 h2.2

end DSatHull
namespace DSatHull

/-! ### Insertion sort with an order that is total and transitive on the elements -/

theorem orderedInsert_pairwise {α : Type} (r : α → α → Prop) [DecidableRel r] (S : α → Prop)
    (htot : ∀ a b, S a → S b → r a b ∨ r b a)
    (htr : ∀ a b c, S a → S b → S c → r a b → r b c → r a c)
    (a : α) (ha : S a) :
    ∀ l : List α, (∀ x ∈ l, S x) → l.Pairwise r → (l.orderedInsert r a).Pairwise r := by
  intro l
  induction l with
  | nil => intro _ _; simp
  | cons b l ih =>
    intro hS hp
    rw [List.orderedInsert]
    have hb : S b := hS b (List.mem_cons_self _ _)
    have hl : ∀ x ∈ l, S x := fun x hx => hS x (List.mem_cons_of_mem _ hx)
    rw [List.pairwise_cons] at hp
    split_ifs with h
    · rw [List.pairwise_cons]
      refine ⟨fun x hx => ?_, List.pairwise_cons.2 hp⟩
      rcases List.mem_cons.1 hx with e | e
      · rw [e]; exact h
      · exact htr a b x ha hb (hl x e) h (hp.1 x e)
    · have hba : r b a := by
        rcases htot a b ha hb with h2 | h2
        · exact absurd h2 h
        · exact h2
      rw [List.pairwise_cons]
      refine ⟨fun x hx => ?_, ih hl hp.2⟩
      rcases (List.mem_orderedInsert r).1 hx with e | e
      · rw [e]; exact hba
      · exact hp.1 x e

theorem insertionSort_pairwise {α : Type} (r : α → α → Prop) [DecidableRel r] (S : α → Prop)
    (htot : ∀ a b, S a → S b → r a b ∨ r b a)
    (htr : ∀ a b c, S a → S b → S c → r a b → r b c → r a c) :
    ∀ l : List α, (∀ x ∈ l, S x) → (l.insertionSort r).Pairwise r := by
  intro l
  induction l with
  | nil => intro _; simp
  | cons a l ih =>
    intro hS
    rw [List.insertionSort]
    have hl : ∀ x ∈ l, S x := fun x hx => hS x (List.mem_cons_of_mem _ hx)
    exact orderedInsert_pairwise r S htot htr a (hS a (List.mem_cons_self _ _)) _
      (fun x hx => hl x ((List.perm_insertionSort r l).mem_iff.1 hx)) (ih hl)

theorem Point_lt_trans {a b c : Point} (h1 : Point.lt b a = false) (h2 : Point.lt c b = false) :
    Point.lt c a = false := by
  simp only [Point.lt, Bool.or_eq_false_iff, Bool.and_eq_false_iff, decide_eq_false_iff_not]
    at h1 h2 ⊢
  omega

theorem Point_lt_total (a b : Point) : Point.lt b a = false ∨ Point.lt a b = false := by
  cases h : Point.lt b a
  · exact Or.inl rfl
  · exact Or.inr (Point.lt_asymm h)

/-- The list `angular_sort` returns for distinct points in range: the greatest
point `p0` for `operator<` at the back, preceded by the other points, all
before `p0`, in counter-clockwise order around `p0`. -/
theorem angular_sort_spec (points : List Point) (hne : points ≠ []) (hnd : points.Nodup)
    (hr : ∀ p ∈ points, p.isNat31) :
    ∃ p0 L, angular_sort points = L ++ [p0] ∧ (L ++ [p0]).Perm points ∧
      (∀ c ∈ L, Point.lt c p0 = true) ∧
      L.Pairwise (fun a b => 0 ≤ orientVal ⟨p0, a⟩ b) := by
  have hperm : (stdSort Point.lt points).Perm points := List.perm_insertionSort _ _
  have hs : (stdSort Point.lt points).Pairwise (fun a b => Point.lt b a = false) :=
    insertionSort_pairwise _ (fun _ => True) (fun a b _ _ => Point_lt_total a b)
      (fun a b c _ _ _ h1 h2 => Point_lt_trans h1 h2) points (fun _ _ => trivial)
  have hsne : stdSort Point.lt points ≠ [] := by
    intro h
    rw [h] at hperm
    exact hne hperm.symm.eq_nil
  have hsplit := List.dropLast_append_getLast hsne
  have hp0 : (stdSort Point.lt points).getD ((stdSort Point.lt points).length - 1) ⟨0, 0⟩
      = (stdSort Point.lt points).getLast hsne := by
    rw [List.getLast_eq_getElem, List.getD_eq_getElem]
  generalize hD : (stdSort Point.lt points).dropLast = D at hsplit
  generalize hP : (stdSort Point.lt points).getLast hsne = p0 at hsplit hp0
  have hperm2 : (D ++ [p0]).Perm points := by rw [hsplit]; exact hperm
  have hnd2 : (D ++ [p0]).Nodup := hperm2.nodup_iff.2 hnd
  have hr0 : p0.isNat31 := hr p0 (hperm2.mem_iff.1 (by simp))
  have hrD : ∀ c ∈ D, c.isNat31 := fun c hc => hr c (hperm2.mem_iff.1 (by simp [hc]))
  have hlt : ∀ c ∈ D, Point.lt c p0 = true := by
    intro c hc
    rw [← hsplit, List.pairwise_append] at hs
    have h1 : Point.lt p0 c = false := hs.2.2 c hc p0 (List.mem_singleton_self _)
    cases h2 : Point.lt c p0
    · exfalso
      have e : c = p0 := Point.eq_of_not_lt h2 h1
      rw [List.nodup_append] at hnd2
      exact hnd2.2.2 hc (by rw [e]; exact List.mem_singleton_self _)
    · rfl
  have hpL : (stdSort (compare p0) D).Perm D := List.perm_insertionSort _ _
  refine ⟨p0, stdSort (compare p0) D, ?_, (hpL.append_right _).trans hperm2, ?_, ?_⟩
  · unfold angular_sort
    simp only []
    rw [hp0, hD]
  · intro c hc
    exact hlt c (hpL.mem_iff.1 hc)
  · have hs2 : (stdSort (compare p0) D).Pairwise (fun a b => compare p0 b a = false) :=
      insertionSort_pairwise _ (fun c => c.isNat31 ∧ Point.lt c p0 = true)
        (fun a b ha hb => compare_total p0 a b hr0 ha.1 hb.1)
        (fun a b c ha hb hc h1 h2 =>
          compare_trans p0 a b c hr0 ha.1 hb.1 hc.1 ha.2 hb.2 hc.2 h1 h2)
        D (fun c hc => ⟨hrD c hc, hlt c hc⟩)
    refine hs2.imp_of_mem ?_
    intro a b ha hb h
    rw [compare_false_iff p0 a b hr0 (hrD a (hpL.mem_iff.1 ha)) (hrD b (hpL.mem_iff.1 hb))] at h
    rcases h with h | h
    · exact h.le
    · exact h.1.ge

end DSatHull
namespace DSatHull

/-! ### The scan of `convex_hull_sorted` -/

theorem popWhile_cons (pt p0 : Point) : ∀ (n : Nat) (C : List Point),
    ∃ C1, popWhile pt n (p0 :: C) = p0 :: C1 ∧ C1 <+: C := by
  intro n
  induction n with
  | zero => intro C; exact ⟨C, rfl, List.prefix_refl C⟩
  | succ n ih =>
    intro C
    rw [popWhile]
    split_ifs with h
    · have hC : C ≠ [] := by
        intro e
        rw [e] at h
        exact absurd h.1 (by simp)
      rw [List.dropLast_cons_of_ne_nil hC]
      obtain ⟨C1, h1, h2⟩ := ih C.dropLast
      exact ⟨C1, h1, h2.trans (List.dropLast_prefix C)⟩
    · exact ⟨C, rfl, List.prefix_refl C⟩

theorem hull_fold (p0 : Point) : ∀ (L C0 : List Point),
    ∃ C, L.foldl (fun hull pt => popWhile pt hull.length hull ++ [pt]) (p0 :: C0) = p0 :: C ∧
      C.Sublist (C0 ++ L) ∧ (C0 ≠ [] ∨ L ≠ [] → C ≠ []) := by
  intro L
  induction L with
  | nil => intro C0; exact ⟨C0, rfl, by simp, fun h => h.elim id (fun h => absurd rfl h)⟩
  | cons pt L ih =>
    intro C0
    obtain ⟨C1, h1, h2⟩ := popWhile_cons pt p0 (p0 :: C0).length C0
    obtain ⟨C, h3, h4, h5⟩ := ih (C1 ++ [pt])
    refine ⟨C, ?_, ?_, fun _ => h5 (Or.inl (by simp))⟩
    · rw [List.foldl_cons, h1]
      exact h3
    · refine h4.trans ?_
      rw [List.append_assoc]
      exact List.Sublist.append h2.sublist (List.Sublist.refl _)

/-- On a sorted list `L ++ [p0]` where `p0` is none of the points of `L`, the scan
returns `p0` followed by points of `L` in their order, and the assertion
holds. -/
theorem convex_hull_sorted_spec (p0 : Point) (L : List Point) (hL : L ≠ [])
    (hp0 : p0 ∉ L) :
    ∃ C, convex_hull_sorted (L ++ [p0]) = Outcome.returned (p0 :: C) ∧ C.Sublist L := by
  obtain ⟨C, h1, h2, h3⟩ := hull_fold p0 L []
  have hC : C ≠ [] := h3 (Or.inr hL)
  refine ⟨C, ?_, by simpa using h2⟩
  unfold convex_hull_sorted
  simp only []
  have e1 : (L ++ [p0]).getD ((L ++ [p0]).length - 1) ⟨0, 0⟩ = p0 := by
    rw [List.length_append, List.length_singleton, Nat.add_sub_cancel,
      List.getD_eq_getElem?_getD, List.getElem?_append_right (le_refl _)]
    simp
  rw [List.dropLast_concat, e1, h1, if_pos]
  have e2 : (p0 :: C).getD ((p0 :: C).length - 1) ⟨0, 0⟩ = C.getLast hC := by
    rw [List.getD_eq_getElem _ _ (by simp), List.getLast_eq_getElem]
    have hlen : 0 < C.length := List.length_pos.2 hC
    have e3 : (p0 :: C).length - 1 = (C.length - 1) + 1 := by
      rw [List.length_cons]; omega
    simp only [e3, List.getElem_cons_succ]
  rw [e2]
  show p0 ≠ C.getLast hC
  intro e
  exact hp0 (h2.subset (by
    have : C.getLast hC ∈ C := List.getLast_mem hC
    rw [← e] at this
    simpa using this))

/-! ### The area of a hull is the area of its fan -/

theorem fan_zipWith (p0 : Point) : ∀ (C : List Point) (a : Point),
    (List.zipWith (fun a b : Point => a.x * b.y - b.x * a.y) (a :: C) (C ++ [p0])).sum
      = -(fan p0 (a :: C)) - (p0.x * a.y - a.x * p0.y) := by
  intro C
  induction C with
  | nil => intro a; simp [fan]
  | cons b r ih =>
    intro a
    rw [List.cons_append, List.zipWith_cons_cons, List.sum_cons, ih b]
    simp only [fan, orientVal]
    ring

theorem fan_self (p0 : Point) (C : List Point) : fan p0 (p0 :: C) = fan p0 C := by
  cases C with
  | nil => rfl
  | cons b r =>
    simp only [fan, orientVal]
    ring

theorem polyArea2_fan (p0 : Point) (C : List Point) :
    polyArea2 (p0 :: C) = wrap64 (fan p0 C) := by
  rw [polyArea2_cons, Spec.shoelace]
  have hr : (p0 :: C).rotate 1 = C ++ [p0] := by
    rw [List.rotate_cons_succ, List.rotate_zero]
  rw [hr, fan_zipWith, fan_self]
  congr 1
  ring

end DSatHull
namespace DSatHull

/-! ### The hulls kept by `bestAvailable` on inputs in range -/

theorem goodHull_short (h : List Point) (hne : h ≠ []) (hnd : h.Nodup)
    (hr : ∀ p ∈ h, p.isNat31) (hlen : h.length ≤ 2) : GoodHull h := by
  have e : polyArea2 h = 0 := by
    rw [polyArea2_eq h hne, shoelace_short h hlen]
    rfl
  refine ⟨hne, hnd, hr, ?_, ?_⟩
  · rw [e]
  · rw [e]; norm_num

/-- On distinct points in range, `convex_hull` returns (the assertion of
`convex_hull_sorted` holds), and the hull is made of distinct points of the
input, with a doubled area between `0` and `2 (2^31 - 1)^2`. -/
theorem convex_hull_good (points : List Point) (hne : points ≠ []) (hnd : points.Nodup)
    (hr : ∀ p ∈ points, p.isNat31) :
    ∃ h, convex_hull points = Outcome.returned h ∧ GoodHull h := by
  unfold convex_hull
  by_cases hlen : points.length ≤ 2
  · rw [if_pos hlen]
    exact ⟨points, rfl, goodHull_short points hne hnd hr hlen⟩
  · rw [if_neg hlen]
    obtain ⟨p0, L, h1, h2, h3, h4⟩ := angular_sort_spec points hne hnd hr
    have hL : L ≠ [] := by
      intro e
      have := h2.length_eq
      rw [e] at this
      simp at this
      omega
    have hnd2 : (L ++ [p0]).Nodup := h2.nodup_iff.2 hnd
    have hp0 : p0 ∉ L := by
      intro hm
      rw [List.nodup_append] at hnd2
      exact hnd2.2.2 hm (List.mem_singleton_self _)
    have hr0 : p0.isNat31 := hr p0 (h2.mem_iff.1 (by simp))
    have hrL : ∀ c ∈ L, c.isNat31 := fun c hc => hr c (h2.mem_iff.1 (by simp [hc]))
    obtain ⟨C, h5, h6⟩ := convex_hull_sorted_spec p0 L hL hp0
    rw [h1, h5]
    have hf := fan_range p0 hr0 C (fun c hc => ⟨hrL c (h6.subset hc), h3 c (h6.subset hc)⟩)
      (h4.sublist h6).chain'
    have e : polyArea2 (p0 :: C) = fan p0 C := by
      rw [polyArea2_fan]
      exact wrap64_of_range (by linarith [hf.1]) (by linarith [hf.2])
    refine ⟨p0 :: C, rfl, List.cons_ne_nil _ _, ?_, ?_, ?_, ?_⟩
    · rw [List.nodup_cons]
      exact ⟨fun hm => hp0 (h6.subset hm), (List.nodup_append.1 hnd2).1.sublist h6⟩
    · intro p hp
      rcases List.mem_cons.1 hp with e1 | e1
      · rw [e1]; exact hr0
      · exact hrL p (h6.subset e1)
    · rw [e]; exact hf.1
    · rw [e]; exact hf.2

theorem pushEnds_good (ch : List Point) (s : Segment) (hnd : ch.Nodup)
    (hr : ∀ p ∈ ch, p.isNat31) (hp : s.p.isNat31) (hq : s.q.isNat31) :
    pushEnds ch s ≠ [] ∧ (pushEnds ch s).Nodup ∧ ∀ p ∈ pushEnds ch s, p.isNat31 := by
  have step : ∀ (l : List Point) (x : Point), l.Nodup → (∀ p ∈ l, p.isNat31) → x.isNat31 →
      (if l.count x = 0 then l ++ [x] else l) ≠ [] ∧
      (if l.count x = 0 then l ++ [x] else l).Nodup ∧
      ∀ p ∈ (if l.count x = 0 then l ++ [x] else l), p.isNat31 := by
    intro l x h1 h2 h3
    split_ifs with h
    · refine ⟨by simp, ?_, ?_⟩
      · rw [List.nodup_append]
        refine ⟨h1, List.nodup_singleton x, ?_⟩
        intro a ha hb
        rw [List.mem_singleton] at hb
        rw [hb] at ha
        exact List.count_eq_zero.1 h ha
      · intro p hp
        rcases List.mem_append.1 hp with e | e
        · exact h2 p e
        · rw [List.mem_singleton.1 e]; exact h3
    · refine ⟨?_, h1, h2⟩
      intro e
      rw [e] at h
      exact h rfl
  obtain ⟨_, a2, a3⟩ := step ch s.get_p hnd hr hp
  exact step _ s.get_q a2 a3 hq

/-- The scan of `bestAvailable` over colours whose hulls are in range returns, and
its result is the starting pair or names a colour of the list. -/
theorem scan_returns (colorhulls : List (List Point)) (s : Segment) (hp : s.p.isNat31)
    (hq : s.q.isNat31)
    (hH : ∀ k, k < colorhulls.length → GoodHull (colorhulls.getD k [])) :
    ∀ (cs : List Nat) (best : Int × Int), (∀ c ∈ cs, c < colorhulls.length) →
      ∃ r, scanPossible colorhulls s cs best = Outcome.returned r ∧
        (r = best ∨ ∃ c ∈ cs, r.1 = (c : Int)) := by
  intro cs
  induction cs with
  | nil => intro best _; exact ⟨best, rfl, Or.inl rfl⟩
  | cons c rest ih =>
    intro best hcs
    obtain ⟨_, g2, g3, _, _⟩ := hH c (hcs c (List.mem_cons_self _ _))
    obtain ⟨e1, e2, e3⟩ := pushEnds_good (colorhulls.getD c []) s g2 g3 hp hq
    obtain ⟨ch2, k1, _⟩ := convex_hull_good _ e1 e2 e3
    rw [scanPossible]
    simp only []
    rw [k1, Outcome.bind]
    obtain ⟨r, r1, r2⟩ := ih
      (if wrap64 (polyArea2 ch2 - polyArea2 (colorhulls.getD c [])) < best.2
        then ((c : Int), wrap64 (polyArea2 ch2 - polyArea2 (colorhulls.getD c []))) else best)
      (fun c hc => hcs c (List.mem_cons_of_mem _ hc))
    refine ⟨r, r1, ?_⟩
    rcases r2 with e | ⟨c1, hc1, e⟩
    · split_ifs at e with hlt
      · right
        exact ⟨c, List.mem_cons_self _ _, by rw [e]⟩
      · exact Or.inl e
    · exact Or.inr ⟨c1, List.mem_cons_of_mem _ hc1, e⟩

/-- Started from `bestc = -1`, `bestdiff = LLONG_MAX` on a nonempty list of colours
whose hulls are in range, the scan ends with `bestc` one of the colours: the
first difference of areas is below `LLONG_MAX`. -/
theorem scan_finds (colorhulls : List (List Point)) (s : Segment) (hp : s.p.isNat31)
    (hq : s.q.isNat31)
    (hH : ∀ k, k < colorhulls.length → GoodHull (colorhulls.getD k []))
    (cs : List Nat) (hne : cs ≠ []) (hcs : ∀ c ∈ cs, c < colorhulls.length) :
    ∃ r c, scanPossible colorhulls s cs (-1, LLONG_MAX) = Outcome.returned r ∧
      c ∈ cs ∧ r.1 = (c : Int) := by
  cases cs with
  | nil => exact absurd rfl hne
  | cons c rest =>
    obtain ⟨_, g2, g3, g4, g5⟩ := hH c (hcs c (List.mem_cons_self _ _))
    obtain ⟨e1, e2, e3⟩ := pushEnds_good (colorhulls.getD c []) s g2 g3 hp hq
    obtain ⟨ch2, k1, _, _, _, k4, k5⟩ := convex_hull_good _ e1 e2 e3
    have hw : wrap64 (polyArea2 ch2 - polyArea2 (colorhulls.getD c []))
        = polyArea2 ch2 - polyArea2 (colorhulls.getD c []) :=
      wrap64_of_range (by linarith) (by linarith)
    have hlt : wrap64 (polyArea2 ch2 - polyArea2 (colorhulls.getD c [])) < LLONG_MAX := by
      rw [hw]
      unfold LLONG_MAX
      linarith
    rw [scanPossible]
    simp only []
    rw [k1, Outcome.bind, if_pos hlt]
    obtain ⟨r, r1, r2⟩ := scan_returns colorhulls s hp hq hH rest
      ((c : Int), wrap64 (polyArea2 ch2 - polyArea2 (colorhulls.getD c [])))
      (fun c hc => hcs c (List.mem_cons_of_mem _ hc))
    rcases r2 with e | ⟨c1, hc1, e⟩
    · exact ⟨r, c, r1, List.mem_cons_self _ _, by rw [e]⟩
    · exact ⟨r, c1, r1, List.mem_cons_of_mem _ hc1, e⟩

end DSatHull
namespace DSatHull

theorem mark_colorhulls (segments : List Segment) (vi c : Nat) (st : DSatur) (si : Nat) :
    (DSatur.mark segments vi c st si).colorhulls = st.colorhulls := by
  unfold DSatur.mark
  simp only []
  split_ifs <;> rfl

theorem paint_colorhulls (segments : List Segment) (vi c : Nat) (st : DSatur) :
    (DSatur.paint segments vi c st).colorhulls = st.colorhulls := by
  have h : ∀ (l : List Nat) (st : DSatur),
      (l.foldl (DSatur.mark segments vi c) st).colorhulls = st.colorhulls := by
    intro l
    induction l with
    | nil => intro st; rfl
    | cons a l ih =>
      intro st
      rw [List.foldl_cons, ih, mark_colorhulls]
  unfold DSatur.paint
  exact h _ _

theorem getD_concat {α : Type} (l : List α) (x d : α) (k : Nat) (hk : k < l.length + 1) :
    (l ++ [x]).getD k d = if k < l.length then l.getD k d else x := by
  rw [List.getD_eq_getElem?_getD, List.getD_eq_getElem?_getD]
  split_ifs with h
  · rw [List.getElem?_append_left h]
  · have e : k = l.length := by omega
    rw [e, List.getElem?_append_right (le_refl _)]
    simp

/-- The choice of `bestAvailable` when every hull is in range and the segment has
two distinct endpoints in range: it returns a colour below the new number of
hulls, the hulls stay in range, and either no former colour was free in the
row of the segment and a hull was added, or the colour is a former colour
that is free in the row. -/
theorem bestAvailable_spec (segments : List Segment) (st : DSatur) (si : Nat)
    (hH : ∀ k, k < st.colorhulls.length → GoodHull (st.colorhulls.getD k []))
    (hp : (segAt segments si).p.isNat31) (hq : (segAt segments si).q.isNat31)
    (hpq : (segAt segments si).p ≠ (segAt segments si).q) :
    ∃ c h, bestAvailable segments st si = Outcome.returned (c, { st with colorhulls := h }) ∧
      c < h.length ∧ (∀ k, k < h.length → GoodHull (h.getD k [])) ∧
      ((c = st.colorhulls.length ∧ h.length = st.colorhulls.length + 1 ∧
          ∀ c0, c0 < st.colorhulls.length →
            (st.neighbor_colors.getD si []).getD c0 false = true) ∨
        (c < st.colorhulls.length ∧ h.length = st.colorhulls.length ∧
          (st.neighbor_colors.getD si []).getD c false = false)) := by
  unfold bestAvailable
  simp only []
  by_cases hposs : (List.range st.colorhulls.length).filter
      (fun c => decide ((st.neighbor_colors.getD si []).length ≤ c)
        || !(st.neighbor_colors.getD si []).getD c false) = []
  · rw [if_pos hposs]
    refine ⟨_, _, rfl, ?_, ?_, Or.inl ⟨?_, ?_, ?_⟩⟩
    · simp
    · intro k hk
      rw [List.length_append, List.length_singleton] at hk
      rw [getD_concat _ _ _ _ hk]
      split_ifs with h
      · exact hH k h
      · refine goodHull_short _ (by simp) ?_ ?_ (by simp)
        · simp only [Segment.get_p, Segment.get_q]
          rw [List.nodup_cons]
          exact ⟨by simpa using hpq, List.nodup_singleton _⟩
        · intro p hm
          simp only [Segment.get_p, Segment.get_q, List.mem_cons, List.mem_singleton,
            List.not_mem_nil, or_false] at hm
          rcases hm with e | e
          · rw [e]; exact hp
          · rw [e]; exact hq
    · simp
    · simp
    · intro c0 hc0
      rw [List.filter_eq_nil_iff] at hposs
      have := hposs c0 (List.mem_range.2 hc0)
      simp only [Bool.or_eq_true, decide_eq_true_eq, Bool.not_eq_true', not_or,
        Bool.not_eq_false] at this
      exact this.2
  · rw [if_neg hposs]
    have hcs : ∀ c ∈ (List.range st.colorhulls.length).filter
        (fun c => decide ((st.neighbor_colors.getD si []).length ≤ c)
          || !(st.neighbor_colors.getD si []).getD c false), c < st.colorhulls.length :=
      fun c hc => List.mem_range.1 (List.mem_filter.1 hc).1
    obtain ⟨r, c, r1, r2, r3⟩ := scan_finds st.colorhulls (segAt segments si) hp hq hH _ hposs hcs
    have hc : c < st.colorhulls.length := hcs c r2
    have hrow : (st.neighbor_colors.getD si []).getD c false = false := by
      have := (List.mem_filter.1 r2).2
      simp only [Bool.or_eq_true, decide_eq_true_eq, Bool.not_eq_true'] at this
      rcases this with h | h
      · rw [List.getD_eq_getElem?_getD, List.getElem?_eq_none h]
        rfl
      · exact h
    obtain ⟨_, g2, g3, _, _⟩ := hH c hc
    obtain ⟨e1, e2, e3⟩ := pushEnds_good (st.colorhulls.getD c []) (segAt segments si) g2 g3 hp hq
    obtain ⟨ch, k1, k2⟩ := convex_hull_good _ e1 e2 e3
    rw [r1, Outcome.bind, if_neg (by rw [r3]; omega), r3, Int.toNat_ofNat, k1, Outcome.bind]
    refine ⟨c, _, rfl, ?_, ?_, Or.inr ⟨hc, ?_, hrow⟩⟩
    · rw [List.length_set]; exact hc
    · intro k hk
      rw [List.length_set] at hk
      rw [Conflict.getD_set_eq]
      split_ifs with h
      · exact k2
      · exact hH k hk
    · rw [List.length_set]

end DSatHull
namespace DSatHull

/-- The loop of `DSatHull::color()` on segments with distinct endpoints in range: it
returns with every segment coloured, the invariant of `DSatur::color` holds,
every hull is in range, every colour is below the number of hulls, and there
is at most one hull when no two segments cross. -/
theorem color_spec (segments : List Segment) (rnd : Nat → Nat)
    (hR : ∀ s ∈ segments, s.p.isNat31 ∧ s.q.isNat31 ∧ s.p ≠ s.q) :
    ∃ st, color segments rnd = Outcome.returned st ∧ DSatur.Inv segments st ∧
      st.uncolored = [] ∧
      (∀ v, v < segments.length → st.colorv.getD v (-1) < (st.colorhulls.length : Int)) ∧
      ((∀ i j, i < segments.length → j < segments.length →
          (segAt segments i).cross (segAt segments j) = false) →
        st.colorhulls.length ≤ 1) := by
  have hseg : ∀ vi, vi < segments.length → segAt segments vi ∈ segments := by
    intro vi hvi
    unfold segAt
    rw [List.getD_eq_getElem _ _ hvi]
    exact List.getElem_mem hvi
  obtain ⟨st, h1, h2, h3, h4⟩ := DSatur.colorLoop_inv segments (bestAvailable segments) rnd
    (fun st => (∀ k, k < st.colorhulls.length → GoodHull (st.colorhulls.getD k [])) ∧
      (∀ v, v < segments.length → v ∉ st.uncolored →
        st.colorv.getD v (-1) < (st.colorhulls.length : Int)) ∧
      ((∀ i j, i < segments.length → j < segments.length →
          (segAt segments i).cross (segAt segments j) = false) →
        st.colorhulls.length ≤ 1))
    (by
      intro st vi hI hP hvi
      obtain ⟨P1, P2, P3⟩ := hP
      have hlt := hI.lt vi hvi
      obtain ⟨r1, r2, r3⟩ := hR _ (hseg vi hlt)
      obtain ⟨c, h, b1, b2, b3, b4⟩ := bestAvailable_spec segments st vi P1 r1 r2 r3
      have hI2 : DSatur.Inv segments { st with colorhulls := h } := DSatur.inv_hulls hI h
      have hlen : st.colorhulls.length ≤ h.length := by
        rcases b4 with ⟨_, e, _⟩ | ⟨_, e, _⟩ <;> omega
      refine ⟨c, h, b1, ?_, ?_, ?_, ?_⟩
      · rcases b4 with ⟨e, _, _⟩ | ⟨_, _, e⟩
        · cases hrow : (st.neighbor_colors.getD vi []).getD c false
          · rfl
          · exfalso
            obtain ⟨v, hv, hvu, _, hcol⟩ := (hI.nc vi hvi c).1 hrow
            have := P2 v hv hvu
            rw [hcol, e] at this
            exact lt_irrefl _ this
        · exact e
      · intro k hk
        rw [paint_colorhulls] at hk ⊢
        exact b3 k hk
      · intro v hv hvu
        rw [paint_colorhulls, DSatur.paint_colorv c hI2 hvi v]
        show (if v = vi then (c : Int) else st.colorv.getD v (-1)) < (h.length : Int)
        split_ifs with e
        · exact_mod_cast b2
        · rcases (DSatur.paint_not_mem vi c hI2 v).1 hvu with e2 | e2
          · exact absurd e2 e
          · have := P2 v hv e2
            have hl : (st.colorhulls.length : Int) ≤ (h.length : Int) := by exact_mod_cast hlen
            exact lt_of_lt_of_le this hl
      · intro hX
        rw [paint_colorhulls]
        show h.length ≤ 1
        have hold := P3 hX
        rcases b4 with ⟨_, e, hrow⟩ | ⟨_, e, _⟩
        · rw [e]
          by_contra hn
          have h0 : 0 < st.colorhulls.length := by omega
          obtain ⟨v, hv, _, hx, _⟩ := (hI.nc vi hvi 0).1 (hrow 0 h0)
          rw [hX vi v hlt hv] at hx
          exact Bool.noConfusion hx
        · rw [e]; exact hold)
    segments.length 0 (DSatur.start segments) (DSatur.start_inv segments)
    ⟨fun k hk => absurd hk (Nat.not_lt_zero k),
      fun v hv hvu => absurd (List.mem_range.2 hv) hvu, fun _ => Nat.zero_le 1⟩
    (by
      show (List.range segments.length).length ≤ segments.length
      rw [List.length_range])
  have hno : ∀ i, i ∉ st.uncolored := by
    intro i; rw [h4]; exact List.not_mem_nil i
  exact ⟨st, h1, h2, h4, fun v hv => h3.2.1 v hv (hno v), h3.2.2⟩

end DSatHull
namespace DSatHull

set_option maxRecDepth 1000000 in
/-- On `degFirst`, when the segment reduced to a point is coloured first, its hull is
`{(10,0), (10,0)}`; for the second segment the sorted points end with the two
copies of `(10,0)`, the scan of `convex_hull_sorted` ends on the first copy and
`assert(hull[0] != hull.back())` fails. -/
theorem color_degFirst : color degFirst (fun _ => 0) = Outcome.assertFailed := by
  decide

/-- When no two of the `N ≥ 1` segments cross and every segment has two distinct
endpoints in range, `DSatHull::color()` gives colour `0` to every segment, and
`numColors()` is `1`. -/
theorem dsathull_color_no_cross (segments : List Segment) (rnd : Nat → Nat)
    (hN : 0 < segments.length)
    (hX : ∀ i j, i < segments.length → j < segments.length →
      (segAt segments i).cross (segAt segments j) = false)
    (hR : ∀ s ∈ segments, s.p.isNat31 ∧ s.q.isNat31 ∧ s.p ≠ s.q) :
    ∃ st, color segments rnd = Outcome.returned st ∧
      Solution.numColors st.colorv = Outcome.returned 1 := by
  obtain ⟨st, h1, hI, h2, h3, h4⟩ := color_spec segments rnd hR
  have hno : ∀ i, i ∉ st.uncolored := by
    intro i; rw [h2]; exact List.not_mem_nil i
  have hlen : (st.colorhulls.length : Int) ≤ 1 := by exact_mod_cast h4 hX
  have hcol : ∀ i, i < segments.length → st.colorv.getD i (-1) = 0 := by
    intro i hi
    have a := hI.col i hi (hno i)
    have b := h3 i hi
    omega
  refine ⟨st, h1, ?_⟩
  exact Solution.numColors_of_getD st.colorv 0 0 (by rw [hI.len_cv]; exact hN)
    (hcol 0 hN) (fun i hi => le_of_eq (hcol i (by rw [← hI.len_cv]; exact hi)))

end DSatHull

/-! ## The properties -/

/-- C1: after `Greedy::color()`, two distinct segments with the same colour do not
cross, in either argument order of `cross`. -/
theorem C1_greedy_same_colour_no_cross (segs : List Segment) (i j : Nat)
    (hi : i < segs.length) (hj : j < segs.length) (hij : i ≠ j)
    (hc : (Greedy.color segs).colorv.getD i (-1) = (Greedy.color segs).colorv.getD j (-1)) :
    (segAt segs i).cross (segAt segs j) = false ∧
    (segAt segs j).cross (segAt segs i) = false := by
  obtain ⟨c, _, hm⟩ := Greedy.color_exists_class segs i hi
  have hci := (Greedy.color_colorv_iff segs i c hi).2 hm
  have hmj := (Greedy.color_colorv_iff segs j c hj).1 (hc ▸ hci)
  have hcf := Greedy.color_crossFree segs _ (Greedy.mem_getD_of_mem hm).2
  exact ⟨hcf i hm j hmj hij, hcf j hmj i hm (fun e => hij e.symm)⟩

set_option maxRecDepth 100000 in
/-- Witness of C1 on scenario S3: segments 0 and 1 both get colour 0. -/
theorem C1_greedy_same_colour_no_cross_witness :
    (segAt [Segment.build ⟨0, 0⟩ ⟨1, 1⟩, Segment.build ⟨1, 1⟩ ⟨2, 0⟩,
        Segment.build ⟨0, 0⟩ ⟨2, 0⟩] 0).cross
      (segAt [Segment.build ⟨0, 0⟩ ⟨1, 1⟩, Segment.build ⟨1, 1⟩ ⟨2, 0⟩,
        Segment.build ⟨0, 0⟩ ⟨2, 0⟩] 1) = false ∧
    (segAt [Segment.build ⟨0, 0⟩ ⟨1, 1⟩, Segment.build ⟨1, 1⟩ ⟨2, 0⟩,
        Segment.build ⟨0, 0⟩ ⟨2, 0⟩] 1).cross
      (segAt [Segment.build ⟨0, 0⟩ ⟨1, 1⟩, Segment.build ⟨1, 1⟩ ⟨2, 0⟩,
        Segment.build ⟨0, 0⟩ ⟨2, 0⟩] 0) = false :=
  C1_greedy_same_colour_no_cross
    [Segment.build ⟨0, 0⟩ ⟨1, 1⟩, Segment.build ⟨1, 1⟩ ⟨2, 0⟩, Segment.build ⟨0, 0⟩ ⟨2, 0⟩]
    0 1 (by decide) (by decide) (by decide) (by decide)

/-- C2: after `Greedy::color()` on `N` segments the classes partition the index
set: the concatenation of the classes is a permutation of `0..N-1`; every
index `i < N` lies in exactly one class, and occurs exactly once in it; `colorv`
has `N` entries and `colorv[i]` is not `-1`. -/
theorem C2_greedy_partition (segs : List Segment) (i : Nat) (hi : i < segs.length) :
    (Greedy.color segs).classes.flatten.Perm (List.range segs.length) ∧
    (∃! c, c < (Greedy.color segs).classes.length ∧ i ∈ (Greedy.color segs).classes.getD c []) ∧
    (∀ c, i ∈ (Greedy.color segs).classes.getD c [] →
      ((Greedy.color segs).classes.getD c []).count i = 1) ∧
    (Greedy.color segs).colorv.length = segs.length ∧
    (Greedy.color segs).colorv.getD i (-1) ≠ -1 := by
  have hnd := Greedy.color_nodup segs
  obtain ⟨c, hc, hm⟩ := Greedy.color_exists_class segs i hi
  refine ⟨Greedy.color_classes_perm segs, ⟨c, ⟨hc, hm⟩, fun c' h => ?_⟩, fun c' h => ?_,
    Greedy.color_colorv_length segs, ?_⟩
  · exact Greedy.class_unique hnd h.2 hm
  · exact List.count_eq_one_of_mem
      ((List.nodup_flatten.1 hnd).1 _ (Greedy.mem_getD_of_mem h).2) h
  · rw [(Greedy.color_colorv_iff segs i c hi).2 hm]
    omega

/-- Witness of C2 on scenario S1 (two crossing segments), at index 1. -/
theorem C2_greedy_partition_witness :
    (Greedy.color [Segment.build ⟨0, 0⟩ ⟨10, 0⟩, Segment.build ⟨5, -5⟩ ⟨5, 5⟩]).colorv.getD 1 (-1)
      ≠ -1 :=
  (C2_greedy_partition [Segment.build ⟨0, 0⟩ ⟨10, 0⟩, Segment.build ⟨5, -5⟩ ⟨5, 5⟩] 1
    (by decide)).2.2.2.2

/-- C3: `Segment::cross` is symmetric: `s.cross(t) = t.cross(s)` for every two
segments, in particular for every two segments built by the constructor from
arbitrary points (collinear and shared-endpoint cases included). -/
theorem C3_cross_symmetric :
    (∀ s t : Segment, s.cross t = t.cross s) ∧
    (∀ a b c d : Point,
      (Segment.build a b).cross (Segment.build c d)
        = (Segment.build c d).cross (Segment.build a b)) :=
  ⟨Segment.cross_comm, fun _ _ _ _ => Segment.cross_comm _ _⟩

/-- C4: after `generate_intersection_map()` on `N` segments, for all `i, j < N`:
`crosses(i, j) = crosses(j, i)`, and `crosses(i, i)` is false. -/
theorem C4_intersection_map_symmetric (segs : List Segment) (i j : Nat)
    (_hi : i < segs.length) (_hj : j < segs.length) :
    Conflict.crosses (Conflict.generate_intersection_map segs) i j
      = Conflict.crosses (Conflict.generate_intersection_map segs) j i ∧
    Conflict.crosses (Conflict.generate_intersection_map segs) i i = false := by
  constructor
  · rw [Bool.eq_iff_iff, Conflict.crosses_generate, Conflict.crosses_generate]
    exact or_comm
  · have := Conflict.crosses_generate segs i i
    cases h : Conflict.crosses (Conflict.generate_intersection_map segs) i i
    · rfl
    · rcases this.1 h with ⟨a, _⟩ | ⟨a, _⟩ <;> exact absurd a (lt_irrefl i)

/-- Witness of C4 on scenario S1. -/
theorem C4_intersection_map_symmetric_witness :
    Conflict.crosses (Conflict.generate_intersection_map
        [Segment.build ⟨0, 0⟩ ⟨10, 0⟩, Segment.build ⟨5, -5⟩ ⟨5, 5⟩]) 0 1
      = Conflict.crosses (Conflict.generate_intersection_map
        [Segment.build ⟨0, 0⟩ ⟨10, 0⟩, Segment.build ⟨5, -5⟩ ⟨5, 5⟩]) 1 0 ∧
    Conflict.crosses (Conflict.generate_intersection_map
        [Segment.build ⟨0, 0⟩ ⟨10, 0⟩, Segment.build ⟨5, -5⟩ ⟨5, 5⟩]) 0 0 = false :=
  C4_intersection_map_symmetric [Segment.build ⟨0, 0⟩ ⟨10, 0⟩, Segment.build ⟨5, -5⟩ ⟨5, 5⟩]
    0 1 (by decide) (by decide)

/-- C5: the packed matrix encodes the predicate faithfully. For `i < j < N`
(whatever `N`, `i` and `j` are modulo 32), `crosses(i, j)` and `crosses(j, i)`
both equal `segments[i].cross(segments[j])`; and no other bit is set: a set bit
`k` of word `w` of row `a` has `k < 32` and is the bit of a column
`b = 32 w + k < N` different from `a` whose pair with `a` was found crossing. -/
theorem C5_intersection_map_faithful (segs : List Segment) (i j : Nat)
    (hij : i < j) (hj : j < segs.length) :
    Conflict.crosses (Conflict.generate_intersection_map segs) i j
      = (segAt segs i).cross (segAt segs j) ∧
    Conflict.crosses (Conflict.generate_intersection_map segs) j i
      = (segAt segs i).cross (segAt segs j) ∧
    (∀ a w k, Conflict.wordBit (Conflict.generate_intersection_map segs) a w k = true →
      k < 32 ∧
      ((a < 32 * w + k ∧ 32 * w + k < segs.length ∧
          (segAt segs a).cross (segAt segs (32 * w + k)) = true) ∨
        (32 * w + k < a ∧ a < segs.length ∧
          (segAt segs (32 * w + k)).cross (segAt segs a) = true))) := by
  refine ⟨?_, ?_, ?_⟩
  · rw [Bool.eq_iff_iff, Conflict.crosses_generate]
    constructor
    · rintro (⟨_, _, h⟩ | ⟨h, _⟩)
      · exact h
      · exact absurd h (by omega)
    · intro h; exact Or.inl ⟨hij, hj, h⟩
  · rw [Bool.eq_iff_iff, Conflict.crosses_generate]
    constructor
    · rintro (⟨h, _⟩ | ⟨_, _, h⟩)
      · exact absurd h (by omega)
      · exact h
    · intro h; exact Or.inr ⟨hij, hj, h⟩
  · intro a w k h
    obtain ⟨x, y, hxy, hy, hc, ⟨h1, h2, h3⟩ | ⟨h1, h2, h3⟩⟩ :=
      (Conflict.wordBit_generate segs a w k).1 h
    · have e : 32 * w + k = y := by omega
      rw [e, h1]
      exact ⟨by omega, Or.inl ⟨hxy, hy, hc⟩⟩
    · have e : 32 * w + k = x := by omega
      rw [e, h1]
      exact ⟨by omega, Or.inr ⟨hxy, hy, hc⟩⟩

/-- Witness of C5 on `N = 33` segments (not a multiple of 32), at the pair `i = 0`,
`j = 31` (so `j mod 32 = 31`): segment `k` is the vertical segment
`(k,0)-(k,1)`. -/
theorem C5_intersection_map_faithful_witness :
    Conflict.crosses (Conflict.generate_intersection_map
        ((List.range 33).map (fun k => Segment.build ⟨k, 0⟩ ⟨k, 1⟩))) 0 31
      = (segAt ((List.range 33).map (fun k => Segment.build ⟨k, 0⟩ ⟨k, 1⟩)) 0).cross
          (segAt ((List.range 33).map (fun k => Segment.build ⟨k, 0⟩ ⟨k, 1⟩)) 31) :=
  (C5_intersection_map_faithful ((List.range 33).map (fun k => Segment.build ⟨k, 0⟩ ⟨k, 1⟩))
    0 31 (by decide) (by decide)).1

/-- C6: when the four orientations `o(p,q,a)`, `o(p,q,b)`, `o(a,b,p)`, `o(a,b,q)` of
`s = (p,q)` and `t = (a,b)` are all nonzero, `s.cross(t)` is true iff
`o(p,q,a) ≠ o(p,q,b)` and `o(a,b,p) ≠ o(a,b,q)`. -/
theorem C6_cross_all_nonzero (s t : Segment)
    (h1 : s.orientation t.p ≠ 0) (h2 : s.orientation t.q ≠ 0)
    (h3 : t.orientation s.p ≠ 0) (h4 : t.orientation s.q ≠ 0) :
    s.cross t = true ↔
      (s.orientation t.p ≠ s.orientation t.q ∧ t.orientation s.p ≠ t.orientation s.q) := by
  unfold Segment.cross
  simp [h1, h2, h3, h4]

/-- Witness of C6 on the two segments of scenario S1, `(0,0)-(10,0)` and `(5,-5)-(5,5)`. -/
theorem C6_cross_all_nonzero_witness :
    ((Segment.build ⟨0, 0⟩ ⟨10, 0⟩).cross (Segment.build ⟨5, -5⟩ ⟨5, 5⟩) = true ↔
      ((Segment.build ⟨0, 0⟩ ⟨10, 0⟩).orientation (Segment.build ⟨5, -5⟩ ⟨5, 5⟩).p
          ≠ (Segment.build ⟨0, 0⟩ ⟨10, 0⟩).orientation (Segment.build ⟨5, -5⟩ ⟨5, 5⟩).q ∧
        (Segment.build ⟨5, -5⟩ ⟨5, 5⟩).orientation (Segment.build ⟨0, 0⟩ ⟨10, 0⟩).p
          ≠ (Segment.build ⟨5, -5⟩ ⟨5, 5⟩).orientation (Segment.build ⟨0, 0⟩ ⟨10, 0⟩).q)) :=
  C6_cross_all_nonzero (Segment.build ⟨0, 0⟩ ⟨10, 0⟩) (Segment.build ⟨5, -5⟩ ⟨5, 5⟩)
    (by decide) (by decide) (by decide) (by decide)

/-- C7, as stated for every two segments, fails beyond the `int` range: the
segments `(0,0)-(2^32,0)` and `(0,0)-(2^32,2^32)` are non-degenerate and meet
only at their shared endpoint `(0,0)`, but every product in the four
orientations is a multiple of `2^64`, so the four 64-bit orientations are zero
and the bounding-box test of the collinear branch answers true. -/
theorem C7_counterexample :
    (Segment.build ⟨0, 0⟩ ⟨4294967296, 0⟩).p ≠ (Segment.build ⟨0, 0⟩ ⟨4294967296, 0⟩).q ∧
    (Segment.build ⟨0, 0⟩ ⟨4294967296, 4294967296⟩).p
      ≠ (Segment.build ⟨0, 0⟩ ⟨4294967296, 4294967296⟩).q ∧
    Spec.onlyCommonPoint (Segment.build ⟨0, 0⟩ ⟨4294967296, 0⟩)
      (Segment.build ⟨0, 0⟩ ⟨4294967296, 4294967296⟩) ⟨0, 0⟩ ∧
    (Segment.build ⟨0, 0⟩ ⟨4294967296, 0⟩).cross
      (Segment.build ⟨0, 0⟩ ⟨4294967296, 4294967296⟩) = true := by
  refine ⟨by decide, by decide, ?_, by decide⟩
  have e1 : Segment.build ⟨0, 0⟩ ⟨4294967296, 0⟩ = { p := ⟨0, 0⟩, q := ⟨4294967296, 0⟩ } := by
    decide
  have e2 : Segment.build ⟨0, 0⟩ ⟨4294967296, 4294967296⟩
      = { p := ⟨0, 0⟩, q := ⟨4294967296, 4294967296⟩ } := by decide
  rw [e1, e2]
  refine ⟨Or.inl rfl, Or.inl rfl, ?_⟩
  rintro x y ⟨u, _, _, hx, hy⟩ ⟨v, _, _, hx', hy'⟩
  simp only [Int.cast_zero, Int.cast_ofNat] at hx hy hx' hy' ⊢
  constructor <;> linarith

/-- C7, amended: two non-degenerate segments (each with two distinct endpoints)
with coordinates in the `int` range, in which the reader of instances builds
every point, whose only common point is one shared endpoint `e` do not cross;
and the three segments of scenario S3, `(0,0)-(1,1)`, `(1,1)-(2,0)`,
`(0,0)-(2,0)`, are pairwise non-crossing (in both argument orders). -/
theorem C7_shared_endpoint_only :
    (∀ (t s : Segment) (e : Point),
      t.p.isInt32 → t.q.isInt32 → s.p.isInt32 → s.q.isInt32 →
      t.p ≠ t.q → s.p ≠ s.q → Spec.onlyCommonPoint t s e → t.cross s = false) ∧
    ((Segment.build ⟨0, 0⟩ ⟨1, 1⟩).cross (Segment.build ⟨1, 1⟩ ⟨2, 0⟩) = false ∧
     (Segment.build ⟨1, 1⟩ ⟨2, 0⟩).cross (Segment.build ⟨0, 0⟩ ⟨1, 1⟩) = false ∧
     (Segment.build ⟨0, 0⟩ ⟨1, 1⟩).cross (Segment.build ⟨0, 0⟩ ⟨2, 0⟩) = false ∧
     (Segment.build ⟨0, 0⟩ ⟨2, 0⟩).cross (Segment.build ⟨0, 0⟩ ⟨1, 1⟩) = false ∧
     (Segment.build ⟨1, 1⟩ ⟨2, 0⟩).cross (Segment.build ⟨0, 0⟩ ⟨2, 0⟩) = false ∧
     (Segment.build ⟨0, 0⟩ ⟨2, 0⟩).cross (Segment.build ⟨1, 1⟩ ⟨2, 0⟩) = false) :=
  ⟨fun t s e htp htq hsp hsq hnt hns h =>
      Segment.cross_false_of_onlyCommonPoint t s e htp htq hsp hsq hnt hns h,
    by decide, by decide, by decide, by decide, by decide, by decide⟩

/-- The segments `(0,0)-(1,1)` and `(1,1)-(2,0)` of scenario S3 meet only at `(1,1)`. -/
theorem Spec.onlyCommonPoint_S3 :
    Spec.onlyCommonPoint (Segment.build ⟨0, 0⟩ ⟨1, 1⟩) (Segment.build ⟨1, 1⟩ ⟨2, 0⟩) ⟨1, 1⟩ := by
  have e1 : Segment.build ⟨0, 0⟩ ⟨1, 1⟩ = { p := ⟨0, 0⟩, q := ⟨1, 1⟩ } := by decide
  have e2 : Segment.build ⟨1, 1⟩ ⟨2, 0⟩ = { p := ⟨1, 1⟩, q := ⟨2, 0⟩ } := by decide
  rw [e1, e2]
  refine ⟨Or.inr rfl, Or.inl rfl, ?_⟩
  rintro x y ⟨u, hu0, hu1, hx, hy⟩ ⟨v, hv0, hv1, hx', hy'⟩
  simp only [Int.cast_zero, Int.cast_one, Int.cast_ofNat] at hx hy hx' hy' ⊢
  constructor <;> nlinarith

/-- Witness of the amended C7: the general statement applied to the first two
segments of S3. -/
theorem C7_shared_endpoint_only_witness :
    (Segment.build ⟨0, 0⟩ ⟨1, 1⟩).cross (Segment.build ⟨1, 1⟩ ⟨2, 0⟩) = false :=
  C7_shared_endpoint_only.1 (Segment.build ⟨0, 0⟩ ⟨1, 1⟩) (Segment.build ⟨1, 1⟩ ⟨2, 0⟩) ⟨1, 1⟩
    (by decide) (by decide) (by decide) (by decide) (by decide) (by decide)
    Spec.onlyCommonPoint_S3

/-- C8, as stated, fails: `(0,0)-(2,2)` and `(0,0)-(1,0)` share exactly the
endpoint `(0,0)`, an orientation is zero, and the non-shared endpoint `(1,0)`
lies in the closed bounding box of `(0,0)-(2,2)`, yet `cross` is false (the
three points are not collinear). And for the degenerate segment `(0,0)-(0,0)`
and `(0,0)-(1,1)`, which share exactly the endpoint `(0,0)`, no non-shared
endpoint lies in the bounding box of the other segment, yet `cross` is true. -/
theorem C8_counterexample :
    (Spec.shareExactlyOneEndpoint (Segment.build ⟨0, 0⟩ ⟨2, 2⟩) (Segment.build ⟨0, 0⟩ ⟨1, 0⟩) ∧
      (Segment.build ⟨0, 0⟩ ⟨2, 2⟩).orientation (Segment.build ⟨0, 0⟩ ⟨1, 0⟩).p = 0 ∧
      Spec.nonSharedInside (Segment.build ⟨0, 0⟩ ⟨2, 2⟩) (Segment.build ⟨0, 0⟩ ⟨1, 0⟩) ∧
      (Segment.build ⟨0, 0⟩ ⟨2, 2⟩).cross (Segment.build ⟨0, 0⟩ ⟨1, 0⟩) = false) ∧
    (Spec.shareExactlyOneEndpoint (Segment.build ⟨0, 0⟩ ⟨0, 0⟩) (Segment.build ⟨0, 0⟩ ⟨1, 1⟩) ∧
      (Segment.build ⟨0, 0⟩ ⟨0, 0⟩).orientation (Segment.build ⟨0, 0⟩ ⟨1, 1⟩).p = 0 ∧
      ¬ Spec.nonSharedInside (Segment.build ⟨0, 0⟩ ⟨0, 0⟩) (Segment.build ⟨0, 0⟩ ⟨1, 1⟩) ∧
      (Segment.build ⟨0, 0⟩ ⟨0, 0⟩).cross (Segment.build ⟨0, 0⟩ ⟨1, 1⟩) = true) := by
  have e1 : Segment.build ⟨0, 0⟩ ⟨2, 2⟩ = { p := ⟨0, 0⟩, q := ⟨2, 2⟩ } := by decide
  have e2 : Segment.build ⟨0, 0⟩ ⟨1, 0⟩ = { p := ⟨0, 0⟩, q := ⟨1, 0⟩ } := by decide
  have e3 : Segment.build ⟨0, 0⟩ ⟨0, 0⟩ = { p := ⟨0, 0⟩, q := ⟨0, 0⟩ } := by decide
  have e4 : Segment.build ⟨0, 0⟩ ⟨1, 1⟩ = { p := ⟨0, 0⟩, q := ⟨1, 1⟩ } := by decide
  refine ⟨⟨?_, by decide, ?_, by decide⟩, ⟨?_, by decide, ?_, by decide⟩⟩
  · rw [e1, e2]
    refine ⟨⟨0, 0⟩, ⟨Or.inl rfl, Or.inl rfl⟩, ?_⟩
    rintro r ⟨h1 | h1, h2 | h2⟩
    · exact h1
    · exact h1
    · exact h2
    · rw [h1] at h2; exact absurd h2 (by decide)
  · rw [e1, e2]
    exact ⟨⟨1, 0⟩, Or.inr ⟨Or.inr rfl, by unfold Spec.isEndpoint; decide, by decide⟩⟩
  · rw [e3, e4]
    refine ⟨⟨0, 0⟩, ⟨Or.inl rfl, Or.inl rfl⟩, ?_⟩
    rintro r ⟨h1 | h1, _⟩
    · exact h1
    · exact h1
  · rw [e3, e4]
    rintro ⟨r, ⟨h1, h2, _⟩ | ⟨h1, h2, h3⟩⟩
    · rcases h1 with h1 | h1 <;> exact h2 (Or.inl h1)
    · rcases h1 with h1 | h1
      · exact h2 (Or.inl h1)
      · rw [h1] at h3; exact absurd h3 (by decide)

/-- C8, amended: for every two non-degenerate segments that share exactly one
endpoint, `Segment::cross` returns true iff all four orientations are zero and
the non-shared endpoint of one of them lies in the closed bounding box of the
other. -/
theorem C8_shared_endpoint_collinear (t s : Segment) (hnt : t.p ≠ t.q) (hns : s.p ≠ s.q)
    (h : Spec.shareExactlyOneEndpoint t s) :
    t.cross s = true ↔
      ((t.orientation s.p = 0 ∧ t.orientation s.q = 0 ∧ s.orientation t.p = 0
          ∧ s.orientation t.q = 0) ∧ Spec.nonSharedInside t s) :=
  Segment.cross_iff_of_shareExactlyOne t s hnt hns h

/-- The segments `(0,0)-(2,2)` and `(0,0)-(1,1)` share exactly the endpoint `(0,0)`. -/
theorem Spec.shareExactlyOneEndpoint_example :
    Spec.shareExactlyOneEndpoint (Segment.build ⟨0, 0⟩ ⟨2, 2⟩) (Segment.build ⟨0, 0⟩ ⟨1, 1⟩) := by
  have e1 : Segment.build ⟨0, 0⟩ ⟨2, 2⟩ = { p := ⟨0, 0⟩, q := ⟨2, 2⟩ } := by decide
  have e2 : Segment.build ⟨0, 0⟩ ⟨1, 1⟩ = { p := ⟨0, 0⟩, q := ⟨1, 1⟩ } := by decide
  rw [e1, e2]
  refine ⟨⟨0, 0⟩, ⟨Or.inl rfl, Or.inl rfl⟩, ?_⟩
  rintro r ⟨h1 | h1, h2 | h2⟩
  · exact h1
  · exact h1
  · exact h2
  · rw [h1] at h2; exact absurd h2 (by decide)

/-- Witness of the amended C8 on the collinear segments `(0,0)-(2,2)` and `(0,0)-(1,1)`. -/
theorem C8_shared_endpoint_collinear_witness :
    ((Segment.build ⟨0, 0⟩ ⟨2, 2⟩).cross (Segment.build ⟨0, 0⟩ ⟨1, 1⟩) = true ↔
      (((Segment.build ⟨0, 0⟩ ⟨2, 2⟩).orientation (Segment.build ⟨0, 0⟩ ⟨1, 1⟩).p = 0 ∧
        (Segment.build ⟨0, 0⟩ ⟨2, 2⟩).orientation (Segment.build ⟨0, 0⟩ ⟨1, 1⟩).q = 0 ∧
        (Segment.build ⟨0, 0⟩ ⟨1, 1⟩).orientation (Segment.build ⟨0, 0⟩ ⟨2, 2⟩).p = 0 ∧
        (Segment.build ⟨0, 0⟩ ⟨1, 1⟩).orientation (Segment.build ⟨0, 0⟩ ⟨2, 2⟩).q = 0) ∧
        Spec.nonSharedInside (Segment.build ⟨0, 0⟩ ⟨2, 2⟩) (Segment.build ⟨0, 0⟩ ⟨1, 1⟩))) ∧
    (Segment.build ⟨0, 0⟩ ⟨2, 2⟩).cross (Segment.build ⟨0, 0⟩ ⟨1, 1⟩) = true :=
  ⟨C8_shared_endpoint_collinear (Segment.build ⟨0, 0⟩ ⟨2, 2⟩) (Segment.build ⟨0, 0⟩ ⟨1, 1⟩)
    (by decide) (by decide) Spec.shareExactlyOneEndpoint_example, by decide⟩

/-- C9: two segments with the same endpoints, given in either order, do not
cross: `s.cross(s)` is false for every segment, and the segments built from
`(a, b)` and from `(b, a)` do not cross each other. -/
theorem C9_same_endpoints_do_not_cross :
    (∀ s : Segment, s.cross s = false) ∧
    (∀ a b : Point,
      (Segment.build a b).cross (Segment.build a b) = false ∧
      (Segment.build a b).cross (Segment.build b a) = false ∧
      (Segment.build b a).cross (Segment.build a b) = false) := by
  refine ⟨Segment.cross_self, fun a b => ⟨Segment.cross_self _, ?_, ?_⟩⟩
  · rw [Segment.build_swap b a]; exact Segment.cross_self _
  · rw [Segment.build_swap b a]; exact Segment.cross_self _

/-- C10: `Segment(a, b)` stores its endpoints with `get_p() ≤ get_q()` in
lexicographic (x then y) order, so `get_q() < get_p()` is false for the
source's `operator<`; its endpoints are `a` and `b`; and `Segment(a, b)` equals
`Segment(b, a)`. -/
theorem C10_constructor_canonical (a b : Point) :
    ((Segment.build a b).get_p.x < (Segment.build a b).get_q.x ∨
      ((Segment.build a b).get_p.x = (Segment.build a b).get_q.x ∧
        (Segment.build a b).get_p.y ≤ (Segment.build a b).get_q.y)) ∧
    Point.lt (Segment.build a b).get_q (Segment.build a b).get_p = false ∧
    (((Segment.build a b).get_p = a ∧ (Segment.build a b).get_q = b) ∨
      ((Segment.build a b).get_p = b ∧ (Segment.build a b).get_q = a)) ∧
    Segment.build a b = Segment.build b a := by
  refine ⟨?_, ?_, ?_, Segment.build_swap a b⟩
  · unfold Segment.build Segment.get_p Segment.get_q
    cases h : Point.lt a b
    · simp only [Point.lt, Bool.or_eq_false_iff, Bool.and_eq_false_iff,
        decide_eq_false_iff_not] at h
      simp only [Bool.false_eq_true, if_false]
      omega
    · simp only [Point.lt, Bool.or_eq_true, Bool.and_eq_true, decide_eq_true_eq] at h
      simp only [if_true]
      omega
  · unfold Segment.build Segment.get_p Segment.get_q
    cases h : Point.lt a b
    · simpa using h
    · simpa using Point.lt_asymm h
  · unfold Segment.build Segment.get_p Segment.get_q
    cases h : Point.lt a b <;> simp

/-- Claim C11: for stored endpoints `p`, `q` and a point `r` whose coordinates all
satisfy `0 ≤ x, y < 2^31`, none of the seven 64-bit operations of
`Segment::orientation` wraps (each wrapped value equals the exact one) and the
call returns exactly the sign of
`(q.y - p.y) (r.x - q.x) - (q.x - p.x) (r.y - q.y)`. -/
theorem C11_orientation_exact_below_2_31 (s : Segment) (r : Point)
    (hp : s.p.isNat31) (hq : s.q.isNat31) (hr : r.isNat31) :
    wrap64 (s.q.y - s.p.y) = s.q.y - s.p.y ∧
    wrap64 (r.x - s.q.x) = r.x - s.q.x ∧
    wrap64 (s.q.x - s.p.x) = s.q.x - s.p.x ∧
    wrap64 (r.y - s.q.y) = r.y - s.q.y ∧
    wrap64 ((s.q.y - s.p.y) * (r.x - s.q.x)) = (s.q.y - s.p.y) * (r.x - s.q.x) ∧
    wrap64 ((s.q.x - s.p.x) * (r.y - s.q.y)) = (s.q.x - s.p.x) * (r.y - s.q.y) ∧
    wrap64 ((s.q.y - s.p.y) * (r.x - s.q.x) - (s.q.x - s.p.x) * (r.y - s.q.y))
      = orientVal s r ∧
    s.orientation r = Int.sign (orientVal s r) := by
  obtain ⟨hp1, hp2, hp3, hp4⟩ := hp
  obtain ⟨hq1, hq2, hq3, hq4⟩ := hq
  obtain ⟨hr1, hr2, hr3, hr4⟩ := hr
  have m1 := mul_range_of_abs_lt (a := s.q.y - s.p.y) (b := r.x - s.q.x)
    (by linarith) (by linarith) (by linarith) (by linarith)
  have m2 := mul_range_of_abs_lt (a := s.q.x - s.p.x) (b := r.y - s.q.y)
    (by linarith) (by linarith) (by linarith) (by linarith)
  have e1 : wrap64 (s.q.y - s.p.y) = s.q.y - s.p.y :=
    wrap64_of_range (by linarith) (by linarith)
  have e2 : wrap64 (r.x - s.q.x) = r.x - s.q.x :=
    wrap64_of_range (by linarith) (by linarith)
  have e3 : wrap64 (s.q.x - s.p.x) = s.q.x - s.p.x :=
    wrap64_of_range (by linarith) (by linarith)
  have e4 : wrap64 (r.y - s.q.y) = r.y - s.q.y :=
    wrap64_of_range (by linarith) (by linarith)
  have e5 : wrap64 ((s.q.y - s.p.y) * (r.x - s.q.x)) = (s.q.y - s.p.y) * (r.x - s.q.x) :=
    wrap64_of_range (by linarith [m1.1]) (by linarith [m1.2])
  have e6 : wrap64 ((s.q.x - s.p.x) * (r.y - s.q.y)) = (s.q.x - s.p.x) * (r.y - s.q.y) :=
    wrap64_of_range (by linarith [m2.1]) (by linarith [m2.2])
  have e7 : wrap64 ((s.q.y - s.p.y) * (r.x - s.q.x) - (s.q.x - s.p.x) * (r.y - s.q.y))
      = orientVal s r :=
    wrap64_of_range (by linarith [m1.1, m2.2]) (by linarith [m1.2, m2.1])
  refine ⟨e1, e2, e3, e4, e5, e6, e7, ?_⟩
  unfold Segment.orientation
  simp only [e1, e2, e3, e4, e5, e6, e7]
  exact sign_expr_eq _

/-- Witness for C11: the segment `(0,0)-(2^31-1, 2^31-1)` and the point
`(2^31-1, 0)`, at the top of the range. -/
theorem C11_orientation_exact_below_2_31_witness :
    Segment.orientation { p := { x := 0, y := 0 }, q := { x := 2147483647, y := 2147483647 } }
      { x := 2147483647, y := 0 }
      = Int.sign (orientVal { p := { x := 0, y := 0 }, q := { x := 2147483647, y := 2147483647 } }
          { x := 2147483647, y := 0 }) :=
  (C11_orientation_exact_below_2_31
    { p := { x := 0, y := 0 }, q := { x := 2147483647, y := 2147483647 } }
    { x := 2147483647, y := 0 } (by decide) (by decide) (by decide)).2.2.2.2.2.2.2

/-- Claim C12: for every segment list and every sequence `rnd` of values of
`rand()`, the loop of `DSatur::color()` ends within one iteration per segment
(the run returns a state with nothing left uncoloured), every segment is
coloured (`colorv[i] ≥ 0`) and no two crossing segments share a colour. -/
theorem C12_dsatur_terminates_valid (segments : List Segment) (rnd : Nat → Nat) :
    ∃ st, DSatur.color segments rnd = Outcome.returned st ∧
      st.uncolored = [] ∧ st.colorv.length = segments.length ∧
      (∀ i, i < segments.length → 0 ≤ st.colorv.getD i (-1)) ∧
      (∀ i j, i < segments.length → j < segments.length →
        (segAt segments i).cross (segAt segments j) = true →
        st.colorv.getD i (-1) ≠ st.colorv.getD j (-1)) := by
  obtain ⟨st, h1, hI, _, h2⟩ := DSatur.color_inv segments rnd (fun _ => True) trivial
    (fun _ _ _ _ _ => trivial)
  have hno : ∀ i, i ∉ st.uncolored := by
    intro i; rw [h2]; exact List.not_mem_nil i
  exact ⟨st, h1, h2, hI.len_cv, fun i hi => hI.col i hi (hno i),
    fun i j hi hj hx => hI.valid i j hi hj (hno i) (hno j) hx⟩

set_option maxRecDepth 1000000 in
/-- Claim C13 fails outside the range of the instances and on a segment reduced to a
point. On `DSatHull.bigTriangle` (two segments with distinct endpoints, `int`
coordinates of both signs, which do not cross), once the first segment has
colour `0`, the scan of `bestAvailable` for the second ends with `bestc = -1`
and `bestdiff = LLONG_MAX` (the area difference is `LLONG_MAX` itself, never
`< bestdiff`), `colorhulls[bestc]` is out of bounds, and `DSatHull::color()`
ends that way for every sequence of values of `rand()`. On
`DSatHull.degFirst` (coordinates `0 ≤ x, y < 2^31`, the first segment reduced
to a point), when `rand()` always returns `0` the run ends on the failed
assertion of `convex_hull_sorted`. -/
theorem C13_counterexample :
    ((∀ s ∈ DSatHull.bigTriangle, s.p.isInt32 ∧ s.q.isInt32 ∧ s.p ≠ s.q) ∧
      (segAt DSatHull.bigTriangle 0).cross (segAt DSatHull.bigTriangle 1) = false ∧
      DSatHull.scanPossible [[⟨-1161911544, -1984525431⟩, ⟨1161911545, -1984525431⟩]]
        (segAt DSatHull.bigTriangle 1) [0] (-1, DSatHull.LLONG_MAX)
          = Outcome.returned (-1, DSatHull.LLONG_MAX) ∧
      ∀ rnd : Nat → Nat, DSatHull.color DSatHull.bigTriangle rnd = Outcome.outOfBounds) ∧
    ((∀ s ∈ DSatHull.degFirst, s.p.isNat31 ∧ s.q.isNat31) ∧
      DSatHull.color DSatHull.degFirst (fun _ => 0) = Outcome.assertFailed) :=
  ⟨⟨by decide, by decide, by decide, DSatHull.color_fails⟩, by decide, DSatHull.color_degFirst⟩

/-- Claim C13, amended: for every list of segments that each have two distinct
endpoints with coordinates `0 ≤ x, y < 2^31`, and every sequence `rnd` of values
of `rand()`, `DSatHull::color()` returns (no call of `bestAvailable` ends with
`bestc = -1`, no assertion fails) with nothing left uncoloured, every segment
has a colour `c` with `0 ≤ c < colorhulls.size()`, and no two crossing segments
share a colour. -/
theorem C13_dsathull_colours_in_range (segments : List Segment) (rnd : Nat → Nat)
    (hR : ∀ s ∈ segments, s.p.isNat31 ∧ s.q.isNat31 ∧ s.p ≠ s.q) :
    ∃ st, DSatHull.color segments rnd = Outcome.returned st ∧
      st.uncolored = [] ∧ st.colorv.length = segments.length ∧
      (∀ i, i < segments.length → 0 ≤ st.colorv.getD i (-1) ∧
        st.colorv.getD i (-1) < (st.colorhulls.length : Int)) ∧
      (∀ i j, i < segments.length → j < segments.length →
        (segAt segments i).cross (segAt segments j) = true →
        st.colorv.getD i (-1) ≠ st.colorv.getD j (-1)) := by
  obtain ⟨st, h1, hI, h2, h3, _⟩ := DSatHull.color_spec segments rnd hR
  have hno : ∀ i, i ∉ st.uncolored := by
    intro i; rw [h2]; exact List.not_mem_nil i
  exact ⟨st, h1, h2, hI.len_cv, fun i hi => ⟨hI.col i hi (hno i), h3 i hi⟩,
    fun i j hi hj hx => hI.valid i j hi hj (hno i) (hno j) hx⟩

/-- Witness for C13: the crossing segments `(0,5)-(10,5)` and `(5,0)-(5,10)` and the
segment `(20,0)-(30,0)`, which crosses neither, with `rand()` always `0`. -/
theorem C13_dsathull_colours_in_range_witness :
    ∃ st, DSatHull.color [Segment.build ⟨0, 5⟩ ⟨10, 5⟩, Segment.build ⟨5, 0⟩ ⟨5, 10⟩,
        Segment.build ⟨20, 0⟩ ⟨30, 0⟩] (fun _ => 0) = Outcome.returned st ∧
      st.uncolored = [] ∧
      st.colorv.length = [Segment.build ⟨0, 5⟩ ⟨10, 5⟩, Segment.build ⟨5, 0⟩ ⟨5, 10⟩,
        Segment.build ⟨20, 0⟩ ⟨30, 0⟩].length ∧
      (∀ i, i < [Segment.build ⟨0, 5⟩ ⟨10, 5⟩, Segment.build ⟨5, 0⟩ ⟨5, 10⟩,
          Segment.build ⟨20, 0⟩ ⟨30, 0⟩].length →
        0 ≤ st.colorv.getD i (-1) ∧ st.colorv.getD i (-1) < (st.colorhulls.length : Int)) ∧
      (∀ i j, i < [Segment.build ⟨0, 5⟩ ⟨10, 5⟩, Segment.build ⟨5, 0⟩ ⟨5, 10⟩,
          Segment.build ⟨20, 0⟩ ⟨30, 0⟩].length →
        j < [Segment.build ⟨0, 5⟩ ⟨10, 5⟩, Segment.build ⟨5, 0⟩ ⟨5, 10⟩,
          Segment.build ⟨20, 0⟩ ⟨30, 0⟩].length →
        (segAt [Segment.build ⟨0, 5⟩ ⟨10, 5⟩, Segment.build ⟨5, 0⟩ ⟨5, 10⟩,
          Segment.build ⟨20, 0⟩ ⟨30, 0⟩] i).cross
          (segAt [Segment.build ⟨0, 5⟩ ⟨10, 5⟩, Segment.build ⟨5, 0⟩ ⟨5, 10⟩,
            Segment.build ⟨20, 0⟩ ⟨30, 0⟩] j) = true →
        st.colorv.getD i (-1) ≠ st.colorv.getD j (-1)) :=
  C13_dsathull_colours_in_range
    [Segment.build ⟨0, 5⟩ ⟨10, 5⟩, Segment.build ⟨5, 0⟩ ⟨5, 10⟩, Segment.build ⟨20, 0⟩ ⟨30, 0⟩]
    (fun _ => 0) (by decide)

/-- Claim C14: if all `N ≥ 1` segments pairwise cross, then `Greedy::color()` makes
the `N` classes `{0}, …, {N-1}` and `numColors()` is `N`; `DSatur::color()`, for
every sequence of values of `rand()`, returns with each of the colours
`0, …, N-1` on exactly one segment and `numColors()` is `N`; and
`Conflict::init_solution()` without a solution to read makes the `N` classes
`{0}, …, {N-1}` from the generated intersection map. -/
theorem C14_all_crossing_gives_N_colours (segments : List Segment) (rnd : Nat → Nat)
    (hN : 1 ≤ segments.length)
    (hX : ∀ i j, i < segments.length → j < segments.length → i ≠ j →
      (segAt segments i).cross (segAt segments j) = true) :
    ((Greedy.color segments).classes = (List.range segments.length).map (fun i => [i]) ∧
      Solution.numColors (Greedy.color segments).colorv
        = Outcome.returned (segments.length : Int)) ∧
    (∃ st, DSatur.color segments rnd = Outcome.returned st ∧
      (∀ c : Nat, c < segments.length → ∃ i, i < segments.length ∧
        st.colorv.getD i (-1) = (c : Int) ∧
        ∀ j, j < segments.length → st.colorv.getD j (-1) = (c : Int) → j = i) ∧
      Solution.numColors st.colorv = Outcome.returned (segments.length : Int)) ∧
    Conflict.init_solution segments.length (Conflict.generate_intersection_map segments) []
      = (List.range segments.length).map (fun i => [i]) :=
  ⟨Greedy.greedy_color_all_cross segments hN hX, DSatur.dsatur_color_all_cross segments rnd hN hX,
    Conflict.init_solution_all_cross segments hX⟩

set_option maxRecDepth 100000 in
/-- Witness for C14: the two crossing segments `(0,0)-(10,0)` and `(5,-5)-(5,5)`. -/
theorem C14_all_crossing_gives_N_colours_witness :
    Conflict.init_solution 2 (Conflict.generate_intersection_map
        [Segment.build ⟨0, 0⟩ ⟨10, 0⟩, Segment.build ⟨5, -5⟩ ⟨5, 5⟩]) [] = [[0], [1]] :=
  (C14_all_crossing_gives_N_colours
    [Segment.build ⟨0, 0⟩ ⟨10, 0⟩, Segment.build ⟨5, -5⟩ ⟨5, 5⟩] (fun _ => 0) (by decide)
    (by
      intro i j hi hj hij
      have hi2 : i < 2 := hi
      have hj2 : j < 2 := hj
      interval_cases i <;> interval_cases j <;> first | exact absurd rfl hij | decide)).2.2


set_option maxRecDepth 1000000 in
/-- Claim C15 fails for DSatHull outside the range of the instances and on a segment
reduced to a point. `DSatHull.bigTriangle` has two segments with `int`
coordinates of both signs, no two of which cross, and for every sequence of
values of `rand()` the run of `DSatHull::color()` followed by `numColors()`
ends out of bounds instead of returning `1` (`bestAvailable` keeps `bestc = -1`
when the area difference is `LLONG_MAX`). `DSatHull.degFirst` has two segments
with coordinates `0 ≤ x, y < 2^31`, which do not cross, the first one reduced
to a point; when `rand()` always returns `0` the run ends on the failed
assertion of `convex_hull_sorted`. -/
theorem C15_counterexample :
    (1 ≤ DSatHull.bigTriangle.length ∧
      (∀ i, i < DSatHull.bigTriangle.length → ∀ j, j < DSatHull.bigTriangle.length →
        (segAt DSatHull.bigTriangle i).cross (segAt DSatHull.bigTriangle j) = false) ∧
      ∀ rnd : Nat → Nat,
        (DSatHull.color DSatHull.bigTriangle rnd).bind (fun st => Solution.numColors st.colorv)
          = Outcome.outOfBounds) ∧
    (1 ≤ DSatHull.degFirst.length ∧
      (∀ s ∈ DSatHull.degFirst, s.p.isNat31 ∧ s.q.isNat31) ∧
      (∀ i, i < DSatHull.degFirst.length → ∀ j, j < DSatHull.degFirst.length →
        (segAt DSatHull.degFirst i).cross (segAt DSatHull.degFirst j) = false) ∧
      (DSatHull.color DSatHull.degFirst (fun _ => 0)).bind
          (fun st => Solution.numColors st.colorv) = Outcome.assertFailed) := by
  refine ⟨⟨by decide, by decide, fun rnd => ?_⟩, by decide, by decide, by decide, ?_⟩
  · rw [DSatHull.color_fails rnd]
    rfl
  · rw [DSatHull.color_degFirst]
    rfl

/-- Claim C15, amended: if no two of the `N ≥ 1` segments cross, then `Greedy`,
`Angle` (for every sorted order and value of `rand()`), `Bad` (first call, for
every listing order of its sets) and `DSatur` (for every sequence of values of
`rand()`) return with `numColors() = 1`; and so does `DSatHull`, for every
sequence of values of `rand()`, when every segment has two distinct endpoints
with coordinates `0 ≤ x, y < 2^31`. -/
theorem C15_noncrossing_one_colour (segments : List Segment) (hN : 1 ≤ segments.length)
    (hX : ∀ i j, i < segments.length → j < segments.length →
      (segAt segments i).cross (segAt segments j) = false) :
    Solution.numColors (Greedy.color segments).colorv = Outcome.returned 1 ∧
    (∀ indices r, indices.Perm (List.range segments.length) →
      ∃ g, Angle.color segments indices r = Outcome.returned g ∧
        Solution.numColors g.colorv = Outcome.returned 1) ∧
    (∀ ord : List Nat → List Nat, (∀ l, (ord l).Perm l) →
      ∃ st, Bad.color segments ord { greedy := Greedy.clearSol segments, good := [], bad := [] }
          = Outcome.returned st ∧
        Solution.numColors st.greedy.colorv = Outcome.returned 1) ∧
    (∀ rnd, ∃ st, DSatur.color segments rnd = Outcome.returned st ∧
      Solution.numColors st.colorv = Outcome.returned 1) ∧
    ((∀ s ∈ segments, s.p.isNat31 ∧ s.q.isNat31 ∧ s.p ≠ s.q) →
      ∀ rnd, ∃ st, DSatHull.color segments rnd = Outcome.returned st ∧
        Solution.numColors st.colorv = Outcome.returned 1) := by
  obtain ⟨h1, h2, h3, h4⟩ := noncrossing_one_colour segments hN hX
  exact ⟨h1, h2, h3, h4, fun hR rnd => DSatHull.dsathull_color_no_cross segments rnd hN hX hR⟩

set_option maxRecDepth 100000 in
/-- Witness for C15: scenario S2, the segments `(0,0)-(2,0)`, `(3,0)-(5,0)` and
`(6,0)-(8,0)`, with `rand()` always `0` for DSatur and DSatHull. -/
theorem C15_noncrossing_one_colour_witness :
    Solution.numColors (Greedy.color [Segment.build ⟨0, 0⟩ ⟨2, 0⟩, Segment.build ⟨3, 0⟩ ⟨5, 0⟩,
      Segment.build ⟨6, 0⟩ ⟨8, 0⟩]).colorv = Outcome.returned 1 ∧
    (∃ st, DSatur.color [Segment.build ⟨0, 0⟩ ⟨2, 0⟩, Segment.build ⟨3, 0⟩ ⟨5, 0⟩,
        Segment.build ⟨6, 0⟩ ⟨8, 0⟩] (fun _ => 0) = Outcome.returned st ∧
      Solution.numColors st.colorv = Outcome.returned 1) ∧
    ∃ st, DSatHull.color [Segment.build ⟨0, 0⟩ ⟨2, 0⟩, Segment.build ⟨3, 0⟩ ⟨5, 0⟩,
        Segment.build ⟨6, 0⟩ ⟨8, 0⟩] (fun _ => 0) = Outcome.returned st ∧
      Solution.numColors st.colorv = Outcome.returned 1 :=
  have h := C15_noncrossing_one_colour
    [Segment.build ⟨0, 0⟩ ⟨2, 0⟩, Segment.build ⟨3, 0⟩ ⟨5, 0⟩, Segment.build ⟨6, 0⟩ ⟨8, 0⟩]
    (by decide)
    (by
      intro i j hi hj
      have hi2 : i < 3 := hi
      have hj2 : j < 3 := hj
      interval_cases i <;> interval_cases j <;> decide)
  ⟨h.1, h.2.2.2.1 (fun _ => 0), h.2.2.2.2 (by decide) (fun _ => 0)⟩

set_option maxRecDepth 100000 in
/-- Claim C16: for the instance S1 = `{(0,0)-(10,0), (5,-5)-(5,5)}`, `Segment::cross`
of the two segments is true (in both call orders), `Greedy::color()` gives
`numColors() = 2`, and `DSatur::color()` returns with `numColors() = 2` for
every sequence of values of `rand()`. -/
theorem C16_scenario_S1 :
    (Segment.build ⟨0, 0⟩ ⟨10, 0⟩).cross (Segment.build ⟨5, -5⟩ ⟨5, 5⟩) = true ∧
    (Segment.build ⟨5, -5⟩ ⟨5, 5⟩).cross (Segment.build ⟨0, 0⟩ ⟨10, 0⟩) = true ∧
    Solution.numColors
      (Greedy.color [Segment.build ⟨0, 0⟩ ⟨10, 0⟩, Segment.build ⟨5, -5⟩ ⟨5, 5⟩]).colorv
        = Outcome.returned 2 ∧
    ∀ rnd : Nat → Nat, ∃ st,
      DSatur.color [Segment.build ⟨0, 0⟩ ⟨10, 0⟩, Segment.build ⟨5, -5⟩ ⟨5, 5⟩] rnd
        = Outcome.returned st ∧
      Solution.numColors st.colorv = Outcome.returned 2 := by
  refine ⟨by decide, by decide, by decide, fun rnd => ?_⟩
  obtain ⟨st, h1, _, h3⟩ := DSatur.dsatur_color_all_cross
    [Segment.build ⟨0, 0⟩ ⟨10, 0⟩, Segment.build ⟨5, -5⟩ ⟨5, 5⟩] rnd (by decide)
    (by
      intro i j hi hj hij
      have hi2 : i < 2 := hi
      have hj2 : j < 2 := hj
      interval_cases i <;> interval_cases j <;> first | exact absurd rfl hij | decide)
  exact ⟨st, h1, h3⟩

set_option maxRecDepth 100000 in
/-- Counterexample to C17 as stated, on the segments `0 = (0,0)-(10,0)`,
`1 = (0,5)-(10,5)`, `2 = (5,-5)-(5,2)` (segment 2 crosses segment 0 only), with
breadth 3 and depth 3. From the classes `[[0, 1]]` and `todo = [2]`, `dfsOptimize`
returns `-1` and leaves `[[1, 0]]`: segment 0 was removed and pushed back.
And when the segment of `todo` is already in the class, `[[0, 1, 2]]`, the
failed call removes both of its occurrences and leaves `[[1, 0]]`. -/
theorem C17_counterexample :
    Conflict.dfsOptimize (Conflict.generate_intersection_map
        [Segment.build ⟨0, 0⟩ ⟨10, 0⟩, Segment.build ⟨0, 5⟩ ⟨10, 5⟩, Segment.build ⟨5, -5⟩ ⟨5, 2⟩])
      3 [[0, 1]] [2] [] 3 3 [] = Outcome.returned (-1, [[1, 0]], []) ∧
    Conflict.dfsOptimize (Conflict.generate_intersection_map
        [Segment.build ⟨0, 0⟩ ⟨10, 0⟩, Segment.build ⟨0, 5⟩ ⟨10, 5⟩, Segment.build ⟨5, -5⟩ ⟨5, 2⟩])
      3 [[0, 1, 2]] [2] [] 3 3 [] = Outcome.returned (-1, [[1, 0]], []) := by
  constructor <;> decide

/-- Claim C17, amended: for every crossing matrix, classes, `todo`, `forbidden`,
breadth and depth (and every number of nested calls allowed), when no segment
occurs twice among the classes and `todo` and `dfsOptimize`, called with an
empty list `changes` as at its call sites, returns `-1`, then `changes` is
empty again, the number of classes is unchanged and every class holds the same
segments as on entry, each once, possibly in another order. -/
theorem C17_dfs_failure_restores_up_to_order (crossings : List (List Nat)) (fuel : Nat)
    (classes : List (List Nat)) (todo forbidden : List Nat) (breadth depth : Int)
    (classes1 : List (List Nat)) (changes1 : List Conflict.stack_event_t)
    (hnd : (classes.flatten ++ todo).Nodup)
    (h : Conflict.dfsOptimize crossings fuel classes todo forbidden breadth depth []
      = Outcome.returned (-1, classes1, changes1)) :
    changes1 = [] ∧ classes1.length = classes.length ∧
      ∀ c, (classes1.getD c []).Perm (classes.getD c []) := by
  obtain ⟨h1, h2⟩ := (Conflict.dfsOptimize_spec crossings fuel classes todo forbidden breadth
    depth _ hnd h).1 rfl
  exact ⟨h1, h2.1, h2.2⟩

set_option maxRecDepth 100000 in
/-- Witness for C17: the failing call of the counterexample, from `[[0, 1]]` and
`todo = [2]`. -/
theorem C17_dfs_failure_restores_up_to_order_witness :
    ([] : List Conflict.stack_event_t) = [] ∧ [[1, 0]].length = [[0, 1]].length ∧
      ∀ c, (([[1, 0]] : List (List Nat)).getD c []).Perm (([[0, 1]] : List (List Nat)).getD c []) :=
  C17_dfs_failure_restores_up_to_order (Conflict.generate_intersection_map
      [Segment.build ⟨0, 0⟩ ⟨10, 0⟩, Segment.build ⟨0, 5⟩ ⟨10, 5⟩, Segment.build ⟨5, -5⟩ ⟨5, 2⟩])
    3 [[0, 1]] [2] [] 3 3 [[1, 0]] [] (by decide) (by decide)

set_option maxRecDepth 100000 in
/-- Counterexample to C18 as stated, on the segments `0 = (0,0)-(10,10)`,
`1 = (0,10)-(10,0)`, `2 = (5,-1)-(5,11)` (pairwise crossing) and
`3 = (-1,1)-(2,1)` (crossing segment 0 only), with the generated (symmetric)
matrix: `remove_easy_segs(2)` gives `easy_segs = [3]`; the classes `[[0], [0]]`
are crossing-free, hold no easy segment and number 2; yet `add_easy_segs`
reaches `exit(EXIT_FAILURE)`, because segment 0 sits in both classes. -/
theorem C18_counterexample :
    Conflict.remove_easy_segs 4 (Conflict.generate_intersection_map
        [Segment.build ⟨0, 0⟩ ⟨10, 10⟩, Segment.build ⟨0, 10⟩ ⟨10, 0⟩,
          Segment.build ⟨5, -1⟩ ⟨5, 11⟩, Segment.build ⟨-1, 1⟩ ⟨2, 1⟩])
      [[0], [1], [2, 3]] 2 = Outcome.returned ([3], [[0], [1], [2]]) ∧
    (∀ cl ∈ ([[0], [0]] : List (List Nat)), Conflict.CrossFree
      (Conflict.generate_intersection_map
        [Segment.build ⟨0, 0⟩ ⟨10, 10⟩, Segment.build ⟨0, 10⟩ ⟨10, 0⟩,
          Segment.build ⟨5, -1⟩ ⟨5, 11⟩, Segment.build ⟨-1, 1⟩ ⟨2, 1⟩]) cl) ∧
    (∀ x ∈ ([[0], [0]] : List (List Nat)).flatten, x ∉ [3]) ∧
    (2 : Int) ≤ (([[0], [0]] : List (List Nat)).length : Int) ∧
    Conflict.add_easy_segs true
      [Segment.build ⟨0, 0⟩ ⟨10, 10⟩, Segment.build ⟨0, 10⟩ ⟨10, 0⟩,
        Segment.build ⟨5, -1⟩ ⟨5, 11⟩, Segment.build ⟨-1, 1⟩ ⟨2, 1⟩]
      (Conflict.generate_intersection_map
        [Segment.build ⟨0, 0⟩ ⟨10, 10⟩, Segment.build ⟨0, 10⟩ ⟨10, 0⟩,
          Segment.build ⟨5, -1⟩ ⟨5, 11⟩, Segment.build ⟨-1, 1⟩ ⟨2, 1⟩])
      [3] [[0], [0]] = Outcome.exitFailure := by
  refine ⟨by decide, ?_, by decide, by decide, by decide⟩
  intro cl hcl i hi j hj hij
  have hcl0 : cl = [0] := by simpa using hcl
  subst hcl0
  exact absurd ((List.mem_singleton.1 hi).trans (List.mem_singleton.1 hj).symm) hij

/-- Claim C18, amended: let `easy_segs` be produced by `remove_easy_segs(bound)` on a
symmetric crossing matrix with a row per segment (`n_segments` and `bound` being
`int` values). If the current classes hold segment indices below `n_segments`,
no segment is in two classes or twice in a class, no easy segment is in a
class, and there are at least `bound` classes, then `add_easy_segs()` returns
(it does not reach `exit(EXIT_FAILURE)`), whether `param.easy` is set or not. -/
theorem C18_add_easy_segs_finds_a_class (n_segments : Nat) (crossings : List (List Nat))
    (classes0 : List (List Nat)) (bound : Int) (easy_segs : List Nat)
    (classes1 classes : List (List Nat)) (easy : Bool) (segments : List Segment)
    (hn : (n_segments : Int) < 2 ^ 31) (hb : bound < 2 ^ 31)
    (hrows : crossings.length = n_segments)
    (hsym : ∀ i j, Conflict.crosses crossings i j = Conflict.crosses crossings j i)
    (hrem : Conflict.remove_easy_segs n_segments crossings classes0 bound
      = Outcome.returned (easy_segs, classes1))
    (hdisj : classes.flatten.Nodup)
    (hlt : ∀ x ∈ classes.flatten, x < n_segments)
    (hno : ∀ x ∈ classes.flatten, x ∉ easy_segs)
    (hB : bound ≤ (classes.length : Int)) :
    ∃ cls, Conflict.add_easy_segs easy segments crossings easy_segs classes
      = Outcome.returned (crossings, cls) := by
  cases easy with
  | false => exact ⟨classes, rfl⟩
  | true =>
    have hpos := Conflict.remove_easy_segs_pos hrem
    obtain ⟨E, h1, h2, h3, h4⟩ := Conflict.remove_easy_segs_spec n_segments crossings classes0
      bound hpos (by unfold Conflict.LONG_MAX; omega) (by unfold Conflict.LONG_MAX; omega) hsym
    rw [hrem] at h1
    have hE : easy_segs = E := (Prod.mk.inj (Outcome.returned.inj h1)).1
    subst hE
    have hne : crossings ≠ [] := by
      intro h
      rw [h] at hrows
      simp at hrows
      omega
    obtain ⟨cls, r1, _⟩ := Conflict.add_easy_segs_spec n_segments crossings bound hsym segments
      hne easy_segs classes h4 h2 h3 hdisj (fun x hx => ⟨hlt x hx, hno x hx⟩) hB
    exact ⟨cls, r1⟩

set_option maxRecDepth 100000 in
/-- Witness for C18: the instance of the counterexample with the classes
`[[0], [1], [2]]` left by `remove_easy_segs(2)`. -/
theorem C18_add_easy_segs_finds_a_class_witness :
    ∃ cls, Conflict.add_easy_segs true
      [Segment.build ⟨0, 0⟩ ⟨10, 10⟩, Segment.build ⟨0, 10⟩ ⟨10, 0⟩,
        Segment.build ⟨5, -1⟩ ⟨5, 11⟩, Segment.build ⟨-1, 1⟩ ⟨2, 1⟩]
      (Conflict.generate_intersection_map
        [Segment.build ⟨0, 0⟩ ⟨10, 10⟩, Segment.build ⟨0, 10⟩ ⟨10, 0⟩,
          Segment.build ⟨5, -1⟩ ⟨5, 11⟩, Segment.build ⟨-1, 1⟩ ⟨2, 1⟩])
      [3] [[0], [1], [2]]
      = Outcome.returned (Conflict.generate_intersection_map
        [Segment.build ⟨0, 0⟩ ⟨10, 10⟩, Segment.build ⟨0, 10⟩ ⟨10, 0⟩,
          Segment.build ⟨5, -1⟩ ⟨5, 11⟩, Segment.build ⟨-1, 1⟩ ⟨2, 1⟩], cls) :=
  C18_add_easy_segs_finds_a_class 4
    (Conflict.generate_intersection_map
      [Segment.build ⟨0, 0⟩ ⟨10, 10⟩, Segment.build ⟨0, 10⟩ ⟨10, 0⟩,
        Segment.build ⟨5, -1⟩ ⟨5, 11⟩, Segment.build ⟨-1, 1⟩ ⟨2, 1⟩])
    [[0], [1], [2, 3]] 2 [3] [[0], [1], [2]] [[0], [1], [2]] true
    [Segment.build ⟨0, 0⟩ ⟨10, 10⟩, Segment.build ⟨0, 10⟩ ⟨10, 0⟩,
      Segment.build ⟨5, -1⟩ ⟨5, 11⟩, Segment.build ⟨-1, 1⟩ ⟨2, 1⟩]
    (by decide) (by decide) (by decide)
    (Conflict.crosses_generate_symm _) (by decide) (by decide) (by decide) (by decide)
    (by decide)

set_option maxRecDepth 100000 in
/-- Counterexample to C19 as stated. With no segment (`N = 0`, no class, `k = 0`)
`remove_easy_segs(k - 1)` reads `degree[0]` of an empty vector. And on the
segments `0 = (0,0)-(10,10)`, `1 = (0,10)-(10,0)`, `2 = (5,-1)-(5,11)`,
`3 = (-1,1)-(2,1)` with the valid colouring `[[0], [1], [2, 3]]` (`k = 3`),
`remove_easy_segs(2)` takes segment 3 out, and `add_easy_segs()` with
`param.easy` unset leaves it out. -/
theorem C19_counterexample :
    Conflict.remove_easy_segs 0 (Conflict.generate_intersection_map []) [] (0 - 1)
      = Outcome.outOfBounds ∧
    Conflict.remove_easy_segs 4 (Conflict.generate_intersection_map
        [Segment.build ⟨0, 0⟩ ⟨10, 10⟩, Segment.build ⟨0, 10⟩ ⟨10, 0⟩,
          Segment.build ⟨5, -1⟩ ⟨5, 11⟩, Segment.build ⟨-1, 1⟩ ⟨2, 1⟩])
      [[0], [1], [2, 3]] (3 - 1) = Outcome.returned ([3], [[0], [1], [2]]) ∧
    Conflict.add_easy_segs false
      [Segment.build ⟨0, 0⟩ ⟨10, 10⟩, Segment.build ⟨0, 10⟩ ⟨10, 0⟩,
        Segment.build ⟨5, -1⟩ ⟨5, 11⟩, Segment.build ⟨-1, 1⟩ ⟨2, 1⟩]
      (Conflict.generate_intersection_map
        [Segment.build ⟨0, 0⟩ ⟨10, 10⟩, Segment.build ⟨0, 10⟩ ⟨10, 0⟩,
          Segment.build ⟨5, -1⟩ ⟨5, 11⟩, Segment.build ⟨-1, 1⟩ ⟨2, 1⟩])
      [3] [[0], [1], [2]]
      = Outcome.returned (Conflict.generate_intersection_map
        [Segment.build ⟨0, 0⟩ ⟨10, 10⟩, Segment.build ⟨0, 10⟩ ⟨10, 0⟩,
          Segment.build ⟨5, -1⟩ ⟨5, 11⟩, Segment.build ⟨-1, 1⟩ ⟨2, 1⟩], [[0], [1], [2]]) := by
  refine ⟨by decide, by decide, by decide⟩

/-- Claim C19, amended: for `N ≥ 1` segments (`N` and the number `k` of classes being
`int` values) with their generated intersection map, starting from a valid
colouring of all `N` segments with `k` classes (every index `0..N-1` in exactly
one class, once, and no two members of a class crossing), `remove_easy_segs(k-1)`
returns, `add_easy_segs()` with `param.easy` set then returns with the same
matrix, and afterwards there are `k` classes again, every index `0..N-1` is in
exactly one class, once, and every class is crossing-free. -/
theorem C19_remove_then_add_easy_segs (segments : List Segment) (classes : List (List Nat))
    (hN : 1 ≤ segments.length) (hN2 : (segments.length : Int) < 2 ^ 31)
    (hk : (classes.length : Int) ≤ 2 ^ 31)
    (hpart : classes.flatten.Perm (List.range segments.length))
    (hvalid : ∀ cl ∈ classes,
      Conflict.CrossFree (Conflict.generate_intersection_map segments) cl) :
    ∃ easy_segs classes1 classes2,
      Conflict.remove_easy_segs segments.length (Conflict.generate_intersection_map segments)
        classes ((classes.length : Int) - 1) = Outcome.returned (easy_segs, classes1) ∧
      Conflict.add_easy_segs true segments (Conflict.generate_intersection_map segments)
        easy_segs classes1
        = Outcome.returned (Conflict.generate_intersection_map segments, classes2) ∧
      classes2.length = classes.length ∧
      classes2.flatten.Perm (List.range segments.length) ∧
      ∀ cl ∈ classes2, Conflict.CrossFree (Conflict.generate_intersection_map segments) cl := by
  have hsym := Conflict.crosses_generate_symm segments
  obtain ⟨E, h1, h2, h3, h4⟩ := Conflict.remove_easy_segs_spec segments.length
    (Conflict.generate_intersection_map segments) classes ((classes.length : Int) - 1)
    hN (by unfold Conflict.LONG_MAX; omega) (by unfold Conflict.LONG_MAX; omega) hsym
  have hne : Conflict.generate_intersection_map segments ≠ [] := by
    intro h
    have := Conflict.generate_length segments
    rw [h] at this
    simp at this
    omega
  have hnd : classes.flatten.Nodup := hpart.nodup_iff.2 (List.nodup_range _)
  have hflat : (classes.map (fun cl => cl.filter (fun x => !E.contains x))).flatten
      = classes.flatten.filter (fun x => !E.contains x) := (List.filter_flatten _ _).symm
  obtain ⟨cls, r1, r2, r3, r4⟩ := Conflict.add_easy_segs_spec segments.length
    (Conflict.generate_intersection_map segments) ((classes.length : Int) - 1) hsym segments hne
    E (classes.map (fun cl => cl.filter (fun x => !E.contains x))) h4 h2 h3
    (by rw [hflat]; exact hnd.filter _)
    (by
      intro x hx
      rw [hflat] at hx
      obtain ⟨hx1, hx2⟩ := List.mem_filter.1 hx
      exact ⟨List.mem_range.1 (hpart.mem_iff.1 hx1), by simpa using hx2⟩)
    (by rw [List.length_map]; omega)
  refine ⟨E, _, cls, h1, r1, by rw [r2, List.length_map], ?_, r4 ?_⟩
  · refine r3.trans ?_
    rw [hflat]
    exact (Conflict.filter_not_mem_append_perm hnd h2
      (fun x hx => hpart.mem_iff.2 (List.mem_range.2 (h3 x hx)))).trans hpart
  · intro cl hcl
    obtain ⟨cl0, hcl0, rfl⟩ := List.mem_map.1 hcl
    intro i hi j hj hij
    exact hvalid cl0 hcl0 i (List.mem_filter.1 hi).1 j (List.mem_filter.1 hj).1 hij

set_option maxRecDepth 100000 in
/-- Witness for C19: the four segments of the counterexample with the valid
colouring `[[0], [1], [2, 3]]`. -/
theorem C19_remove_then_add_easy_segs_witness :
    ∃ easy_segs classes1 classes2,
      Conflict.remove_easy_segs 4 (Conflict.generate_intersection_map
          [Segment.build ⟨0, 0⟩ ⟨10, 10⟩, Segment.build ⟨0, 10⟩ ⟨10, 0⟩,
            Segment.build ⟨5, -1⟩ ⟨5, 11⟩, Segment.build ⟨-1, 1⟩ ⟨2, 1⟩])
        [[0], [1], [2, 3]] ((3 : Int) - 1) = Outcome.returned (easy_segs, classes1) ∧
      Conflict.add_easy_segs true
        [Segment.build ⟨0, 0⟩ ⟨10, 10⟩, Segment.build ⟨0, 10⟩ ⟨10, 0⟩,
          Segment.build ⟨5, -1⟩ ⟨5, 11⟩, Segment.build ⟨-1, 1⟩ ⟨2, 1⟩]
        (Conflict.generate_intersection_map
          [Segment.build ⟨0, 0⟩ ⟨10, 10⟩, Segment.build ⟨0, 10⟩ ⟨10, 0⟩,
            Segment.build ⟨5, -1⟩ ⟨5, 11⟩, Segment.build ⟨-1, 1⟩ ⟨2, 1⟩])
        easy_segs classes1
        = Outcome.returned (Conflict.generate_intersection_map
          [Segment.build ⟨0, 0⟩ ⟨10, 10⟩, Segment.build ⟨0, 10⟩ ⟨10, 0⟩,
            Segment.build ⟨5, -1⟩ ⟨5, 11⟩, Segment.build ⟨-1, 1⟩ ⟨2, 1⟩], classes2) ∧
      classes2.length = 3 ∧
      classes2.flatten.Perm (List.range 4) ∧
      ∀ cl ∈ classes2, Conflict.CrossFree (Conflict.generate_intersection_map
          [Segment.build ⟨0, 0⟩ ⟨10, 10⟩, Segment.build ⟨0, 10⟩ ⟨10, 0⟩,
            Segment.build ⟨5, -1⟩ ⟨5, 11⟩, Segment.build ⟨-1, 1⟩ ⟨2, 1⟩]) cl :=
  C19_remove_then_add_easy_segs
    [Segment.build ⟨0, 0⟩ ⟨10, 10⟩, Segment.build ⟨0, 10⟩ ⟨10, 0⟩,
      Segment.build ⟨5, -1⟩ ⟨5, 11⟩, Segment.build ⟨-1, 1⟩ ⟨2, 1⟩]
    [[0], [1], [2, 3]] (by decide) (by decide) (by decide) (by decide)
    (by
      intro cl hcl i hi j hj hij
      simp only [List.mem_cons, List.mem_singleton, List.not_mem_nil, or_false] at hcl
      rcases hcl with h | h | h
      · subst h
        exact absurd ((List.mem_singleton.1 hi).trans (List.mem_singleton.1 hj).symm) hij
      · subst h
        exact absurd ((List.mem_singleton.1 hi).trans (List.mem_singleton.1 hj).symm) hij
      · subst h
        simp only [List.mem_cons, List.mem_singleton, List.not_mem_nil, or_false] at hi hj
        rcases hi with a | a <;> rcases hj with b | b <;> subst a <;> subst b <;>
          first | exact absurd rfl hij | decide)

set_option maxRecDepth 1000000 in
/-- Counterexample to C20 as stated, on the two parallel segments `(0,0)-(10,0)` and
`(0,5)-(10,5)` with the valid colouring `[[0], [1]]` (two classes), a clock that
shows `0`, `0`, then `100` seconds (`max_run_time = 10`) and a noise always
equal to `1`: `shuffle()` merges the two classes, and its return value is not
read; `conflict_dfs_optim_solution` then changes nothing, the third reading of
the clock is past the limit, and `optimize()` returns `false` with one class
left: strictly fewer classes, although `true` was not returned. -/
theorem C20_counterexample :
    (∀ cl ∈ Conflict.twoParallel.classes,
      Conflict.CrossFree Conflict.twoParallel.crossings cl) ∧
    Conflict.twoParallel.classes.flatten.Perm (List.range Conflict.twoParallel.n_segments) ∧
    Conflict.twoParallel.classes.length = 2 ∧
    Conflict.optimize Conflict.lateClock 5 Conflict.twoParallel
      = Outcome.returned (false,
          { Conflict.twoParallel with classes := [[1, 0]], clockCalls := 3 }) := by
  refine ⟨?_, by decide, rfl, by with_unfolding_all rfl⟩
  intro cl hcl i hi j hj hij
  have hcl0 : cl = [0] ∨ cl = [1] := by simpa [Conflict.twoParallel] using hcl
  rcases hcl0 with h | h <;> subst h <;>
    exact absurd ((List.mem_singleton.1 hi).trans (List.mem_singleton.1 hj).symm) hij

/-- Claim C20, amended: for every state of the optimizer (in particular every valid
colouring), every behaviour of the clock, of the random noise and of `pow`, and
every result of `std::sort` that is a rearrangement of the classes, whenever
`Conflict::optimize()` returns, the number of classes after it is at most the
number before it, and it is strictly smaller if `optimize()` returned `true`.
(The converse fails: see the counterexample.) -/
theorem C20_optimize_never_adds_classes (w : World) (fuel : Nat) (st st1 : Conflict)
    (b : Bool) (hsort : ∀ l, (w.sortBySize l).Perm l)
    (h : Conflict.optimize w fuel st = Outcome.returned (b, st1)) :
    st1.classes.length ≤ st.classes.length ∧
      (b = true → st1.classes.length < st.classes.length) :=
  Conflict.optimize_length w hsort fuel st (b, st1) h

set_option maxRecDepth 1000000 in
/-- Witness for C20: six segments along the sides of a hexagon, each crossing its two
neighbours, with the valid colouring `[[0, 3], [1, 4], [2, 5]]`, a clock that
always shows `0` and a noise always equal to `1`: `optimize()` returns `true`
and leaves the two classes `[[1, 5, 3], [2, 0, 4]]`. -/
theorem C20_optimize_never_adds_classes_witness :
    ([[1, 5, 3], [2, 0, 4]] : List (List Nat)).length ≤ Conflict.hexagon.classes.length ∧
      (true = true →
        ([[1, 5, 3], [2, 0, 4]] : List (List Nat)).length < Conflict.hexagon.classes.length) :=
  C20_optimize_never_adds_classes Conflict.stillClock 6 Conflict.hexagon
    { Conflict.hexagon with
      classes := [[1, 5, 3], [2, 0, 4]], queue_count := [1, 0, 0, 1, 0, 0],
      clockCalls := 3, noiseCalls := 4 }
    true (fun l => List.perm_insertionSort _ l) (by with_unfolding_all rfl)

set_option maxRecDepth 1000000 in
/-- Claim C21 fails on `Conflict.doubleHexagon` (thirteen segments, `param.easy` set,
a clock that always shows `0` and a noise always equal to `1`). The colouring on
entry is valid and holds every segment once. `remove_easy_segs(3)` takes
segment `12` out; `shuffle()` erases the class left empty, calls
`add_easy_segs()` and returns; `conflict_dfs_optim_solution` then removes one
more class and `optimize()` calls `add_easy_segs()` again before it returns
`true`: segment `12` is inserted a second time and ends in both classes. -/
theorem C21_easy_segment_inserted_twice :
    (∀ cl ∈ Conflict.doubleHexagon.classes,
      Conflict.CrossFree Conflict.doubleHexagon.crossings cl) ∧
    Conflict.doubleHexagon.classes.flatten.Perm
      (List.range Conflict.doubleHexagon.n_segments) ∧
    Conflict.optimize Conflict.stillClock 8 Conflict.doubleHexagon
      = Outcome.returned (true,
          { Conflict.doubleHexagon with
            classes := [[5, 11, 1, 3, 9, 7, 12], [12, 0, 6, 2, 8, 4, 10]]
            easy_segs := [12]
            queue_count := [0, 1, 0, 0, 1, 0, 0, 1, 0, 0, 1, 0, 0]
            clockCalls := 6
            noiseCalls := 8 }) ∧
    ([[5, 11, 1, 3, 9, 7, 12], [12, 0, 6, 2, 8, 4, 10]] : List (List Nat)).flatten.count 12
      = 2 := by
  refine ⟨?_, by with_unfolding_all decide, by with_unfolding_all rfl, by decide⟩
  unfold Conflict.CrossFree
  with_unfolding_all decide

set_option maxRecDepth 1000000 in
/-- Counterexample to C22 as stated, on `Conflict.looseSegment` (segments `0` and
`1` cross, segment `2` crosses nothing, `param.easy` unset) with the valid
colouring `[[0], [1, 2]]`: every pass of `shuffle_once` moves segment `2` to
the other class, and `shuffle()` makes 11 passes; one run leaves segment `2`
with segment `0`, a second run leaves it with segment `1`. -/
theorem C22_counterexample :
    (∀ cl ∈ Conflict.looseSegment.classes,
      Conflict.CrossFree Conflict.looseSegment.crossings cl) ∧
    Conflict.looseSegment.classes.flatten.Perm
      (List.range Conflict.looseSegment.n_segments) ∧
    Conflict.shuffle Conflict.stillClock 11 Conflict.looseSegment
      = Outcome.returned (false, { Conflict.looseSegment with classes := [[0, 2], [1]] }) ∧
    Conflict.shuffle Conflict.stillClock 11
        { Conflict.looseSegment with classes := [[0, 2], [1]] }
      = Outcome.returned (false, { Conflict.looseSegment with classes := [[1, 2], [0]] }) := by
  refine ⟨?_, by with_unfolding_all decide, by with_unfolding_all rfl,
    by with_unfolding_all rfl⟩
  unfold Conflict.CrossFree
  with_unfolding_all decide

/-- Claim C22, amended: shuffle is idempotent once a fixed point is reached. For
every colouring (easy disabled), every behaviour of `std::sort` that rearranges
the classes, if the colouring left by a first run of `shuffle()` is a fixed
point (no segment can be added to another class), then a second run of
`shuffle()` returns `false` and leaves the same classes, up to their order and
to empty classes: the same partition of the segments as running it once. -/
theorem C22_shuffle_idempotent_at_fixed_point (w : World) (st st1 : Conflict) (b : Bool)
    (hsort : ∀ l, (w.sortBySize l).Perm l) (heasy : st.param.easy = false)
    (h1 : Conflict.shuffle w 11 st = Outcome.returned (b, st1))
    (hfix : Conflict.FixedPoint st1.crossings st1.classes) :
    ∃ st2, Conflict.shuffle w 11 st1 = Outcome.returned (false, st2) ∧
      st2.classes.Perm (st1.classes.filter (fun cl => decide (cl ≠ []))) := by
  have hp : st1.param = st.param := Conflict.shuffleLoop_param w 11 _ _ _ _ _ h1
  exact Conflict.shuffle_fixed w hsort st1 (by rw [hp]; exact heasy) hfix

set_option maxRecDepth 1000000 in
/-- Witness for C22: the hexagon with the colouring `[[0, 3], [1, 4], [2, 5]]`, which
`shuffle()` leaves as it is and which is a fixed point. -/
theorem C22_shuffle_idempotent_at_fixed_point_witness :
    ∃ st2, Conflict.shuffle Conflict.stillClock 11 Conflict.hexagon
        = Outcome.returned (false, st2) ∧
      st2.classes.Perm (Conflict.hexagon.classes.filter (fun cl => decide (cl ≠ []))) :=
  C22_shuffle_idempotent_at_fixed_point Conflict.stillClock Conflict.hexagon Conflict.hexagon
    false (fun l => List.perm_insertionSort _ l) rfl (by with_unfolding_all rfl)
    (by unfold Conflict.FixedPoint; with_unfolding_all decide)

set_option maxRecDepth 1000000 in
/-- Claim C23 fails on `Conflict.cliquePair`: two crossing segments, segment `0` in
the clique, `max_queue` automatic. `process_parameters` sets `max_queue` to
`2812500000000`, `reset_queue_count()` gives the clique segment the count
`INT_MAX = 2147483647`, which is below `max_queue`, so `best_color(1)` does not
reject the class of segment `0`: its cost `2147483648` is below
`max_queue * N`, and `best_color` returns `true` with `best_c = 0` and
`conflicting_segs = [0]`, the clique segment. -/
theorem C23_clique_member_displaced :
    Solution.process_parameters (-1) 2
      = Outcome.returned Conflict.cliquePair.param.max_queue ∧
    Conflict.reset_queue_count Conflict.cliquePair.n_segments Conflict.cliquePair.clique
      = Outcome.returned Conflict.cliquePair.queue_count ∧
    Conflict.best_color Conflict.stillClock Conflict.cliquePair 1 1
      = Outcome.returned ((true, 0, [0]), { Conflict.cliquePair with noiseCalls := 1 }) ∧
    0 ∈ Conflict.cliquePair.clique := by
  refine ⟨by with_unfolding_all rfl, by with_unfolding_all rfl, by with_unfolding_all rfl,
    by with_unfolding_all decide⟩

/-- Counterexample to C24 as stated: with an empty main queue the depth is `7`, not
`3`; so an iteration of the loop on the hexagon instance with an empty main
queue and segment `0` in the DFS queue calls `dfsOptimize` with depth `7`. The
main queue is empty at that point when the class taken apart held a single
segment and `best_color` has put its conflicting segments in the DFS queue. -/
theorem C24_counterexample :
    Conflict.dfs_depth 0 = 7 ∧ Conflict.dfs_depth 0 ≠ 3 ∧
    Conflict.queueLoop Conflict.stillClock [] 1 Conflict.hexagon [] [0]
      = (Conflict.dfsOptimize
          (Conflict.switchParam Conflict.stillClock
            (Conflict.timeIsUp Conflict.stillClock Conflict.hexagon).2).crossings
          7
          (Conflict.switchParam Conflict.stillClock
            (Conflict.timeIsUp Conflict.stillClock Conflict.hexagon).2).classes
          [0] [] 3 7 []).bind fun r =>
          if r.1 = 0 then
            Conflict.queueLoop Conflict.stillClock [] 0
              { Conflict.switchParam Conflict.stillClock
                  (Conflict.timeIsUp Conflict.stillClock Conflict.hexagon).2 with
                classes := r.2.1 } [] []
          else
            Conflict.queueLoop Conflict.stillClock [] 0
              { Conflict.switchParam Conflict.stillClock
                  (Conflict.timeIsUp Conflict.stillClock Conflict.hexagon).2 with
                classes := r.2.1 } ([] ++ [0]) [] :=
  ⟨by decide, by decide,
    Conflict.queueLoop_dfs_step Conflict.stillClock [] 0 Conflict.hexagon [] 0 []
      (by with_unfolding_all rfl) rfl⟩

/-- Claim C24, amended: in an iteration of the loop of `conflict_dfs_optim_solution`
with a nonempty DFS queue (the time not being up, `param.dfs` set), the call is
`dfsOptimize({s}, ∅, 3, d, …)` where the depth `d` is a function of the
main-queue length `q`: `5` if `q = 1`, `7` if `q = 2` or `q = 0`, and `3` for
every `q ≥ 3`; the breadth is always `3`. -/
theorem C24_dfs_depth_by_queue_length (w : World) (temp_sol : List (List Nat)) (fuel : Nat)
    (st : Conflict) (queue : List Nat) (cur_seg : Nat) (dfs_rest : List Nat)
    (htime : (Conflict.timeIsUp w st).1 = false)
    (hdfs : (Conflict.switchParam w (Conflict.timeIsUp w st).2).param.dfs = true) :
    Conflict.queueLoop w temp_sol (fuel + 1) st queue (cur_seg :: dfs_rest)
      = ((Conflict.dfsOptimize (Conflict.switchParam w (Conflict.timeIsUp w st).2).crossings
          (Conflict.dfs_depth queue.length).toNat
          (Conflict.switchParam w (Conflict.timeIsUp w st).2).classes
          [cur_seg] [] 3 (Conflict.dfs_depth queue.length) []).bind fun r =>
          if r.1 = 0 then
            Conflict.queueLoop w temp_sol fuel
              { Conflict.switchParam w (Conflict.timeIsUp w st).2 with classes := r.2.1 }
              queue dfs_rest
          else
            Conflict.queueLoop w temp_sol fuel
              { Conflict.switchParam w (Conflict.timeIsUp w st).2 with classes := r.2.1 }
              (queue ++ [cur_seg]) dfs_rest) ∧
    Conflict.dfs_depth queue.length
      = (if queue.length = 1 then 5
        else if queue.length = 2 ∨ queue.length = 0 then 7 else 3) := by
  refine ⟨Conflict.queueLoop_dfs_step w temp_sol fuel st queue cur_seg dfs_rest htime hdfs, ?_⟩
  unfold Conflict.dfs_depth
  split_ifs <;> first | rfl | omega

/-- Witness for C24: the hexagon instance with segment `3` in the main queue and
segment `1` in the DFS queue: the depth is `5`. -/
theorem C24_dfs_depth_by_queue_length_witness :
    Conflict.queueLoop Conflict.stillClock [] (0 + 1) Conflict.hexagon [3] [1]
      = ((Conflict.dfsOptimize
          (Conflict.switchParam Conflict.stillClock
            (Conflict.timeIsUp Conflict.stillClock Conflict.hexagon).2).crossings
          (Conflict.dfs_depth [3].length).toNat
          (Conflict.switchParam Conflict.stillClock
            (Conflict.timeIsUp Conflict.stillClock Conflict.hexagon).2).classes
          [1] [] 3 (Conflict.dfs_depth [3].length) []).bind fun r =>
          if r.1 = 0 then
            Conflict.queueLoop Conflict.stillClock [] 0
              { Conflict.switchParam Conflict.stillClock
                  (Conflict.timeIsUp Conflict.stillClock Conflict.hexagon).2 with
                classes := r.2.1 } [3] []
          else
            Conflict.queueLoop Conflict.stillClock [] 0
              { Conflict.switchParam Conflict.stillClock
                  (Conflict.timeIsUp Conflict.stillClock Conflict.hexagon).2 with
                classes := r.2.1 } ([3] ++ [1]) []) ∧
    Conflict.dfs_depth [3].length
      = (if [3].length = 1 then 5 else if [3].length = 2 ∨ [3].length = 0 then 7 else 3) :=
  C24_dfs_depth_by_queue_length Conflict.stillClock [] 0 Conflict.hexagon [3] 1 []
    (by with_unfolding_all rfl) rfl

set_option maxRecDepth 100000 in
/-- Counterexample to C25 as stated, on the two crossing segments `(0,0)-(10,10)`
(slope `1`) and `(0,10)-(10,0)` (slope `-1`), for which the order of the
comparator is segment `1`, then segment `0`. The first call of `Bad::color()`
leaves `classes = [[0], [1]]`, `good = {0}`, `bad = {1}`. The second call
leaves `classes = [[1], [0]]`: the last class is `[0]`, yet `bad = {1, 0}` and
`good` is empty: segment `1`, demoted by the first call and no longer in the
last class, is still in `bad`. -/
theorem C25_counterexample :
    Bad.color [Segment.build ⟨0, 0⟩ ⟨10, 10⟩, Segment.build ⟨0, 10⟩ ⟨10, 0⟩]
        (fun l => l.insertionSort (fun a b => b ≤ a))
        { greedy := Greedy.clearSol [Segment.build ⟨0, 0⟩ ⟨10, 10⟩, Segment.build ⟨0, 10⟩ ⟨10, 0⟩]
          good := [], bad := [] }
      = Outcome.returned
          { greedy := { classes := [[0], [1]], colorv := [0, 1] }, good := [0], bad := [1] } ∧
    Bad.color [Segment.build ⟨0, 0⟩ ⟨10, 10⟩, Segment.build ⟨0, 10⟩ ⟨10, 0⟩]
        (fun l => l.insertionSort (fun a b => b ≤ a))
        { greedy := { classes := [[0], [1]], colorv := [0, 1] }, good := [0], bad := [1] }
      = Outcome.returned
          { greedy := { classes := [[1], [0]], colorv := [1, 0] }, good := [], bad := [1, 0] } := by
  constructor <;> decide

/-- Claim C25, amended: after every call of `Bad::color()` on `N ≥ 1` segments (from
the initial state, where `good` and `bad` are empty, or from a state where they
partition the segments), the call returns, the set `bad` is exactly the set of
the segments in the last class of that call's colouring together with the
segments that were in `bad` before the call, and `good` is exactly the set of
all other segments; `good` and `bad` partition the segments again. The
listing `ord` of a set in the order of the comparator is any rearrangement. -/
theorem C25_bad_is_last_class_and_earlier_bad (segs : List Segment)
    (ord : List Nat → List Nat) (st : Bad)
    (hord : ∀ l, (ord l).Perm l) (hN : 0 < segs.length)
    (hst : (st.good = [] ∧ st.bad = []) ∨ (st.good ++ st.bad).Perm (List.range segs.length)) :
    ∃ st1 last, Bad.color segs ord st = Outcome.returned st1 ∧
      st1.greedy.classes.getLast? = some last ∧
      (∀ i, i ∈ st1.bad ↔ i ∈ last ∨ i ∈ st.bad) ∧
      (∀ i, i ∈ st1.good ↔ i < segs.length ∧ i ∉ st1.bad) ∧
      (st1.good ++ st1.bad).Perm (List.range segs.length) :=
  Bad.color_sets segs ord st hord hN hst

set_option maxRecDepth 100000 in
/-- Witness for C25: the second call of the counterexample. -/
theorem C25_bad_is_last_class_and_earlier_bad_witness :
    ∃ st1 last,
      Bad.color [Segment.build ⟨0, 0⟩ ⟨10, 10⟩, Segment.build ⟨0, 10⟩ ⟨10, 0⟩]
        (fun l => l.insertionSort (fun a b => b ≤ a))
        { greedy := { classes := [[0], [1]], colorv := [0, 1] }, good := [0], bad := [1] }
        = Outcome.returned st1 ∧
      st1.greedy.classes.getLast? = some last ∧
      (∀ i, i ∈ st1.bad ↔ i ∈ last ∨ i ∈ ([1] : List Nat)) ∧
      (∀ i, i ∈ st1.good ↔
        i < [Segment.build ⟨0, 0⟩ ⟨10, 10⟩, Segment.build ⟨0, 10⟩ ⟨10, 0⟩].length ∧
          i ∉ st1.bad) ∧
      (st1.good ++ st1.bad).Perm
        (List.range [Segment.build ⟨0, 0⟩ ⟨10, 10⟩, Segment.build ⟨0, 10⟩ ⟨10, 0⟩].length) :=
  C25_bad_is_last_class_and_earlier_bad
    [Segment.build ⟨0, 0⟩ ⟨10, 10⟩, Segment.build ⟨0, 10⟩ ⟨10, 0⟩]
    (fun l => l.insertionSort (fun a b => b ≤ a))
    { greedy := { classes := [[0], [1]], colorv := [0, 1] }, good := [0], bad := [1] }
    (fun l => List.perm_insertionSort _ l) (by decide) (Or.inr (by decide))

set_option maxRecDepth 100000 in
/-- Counterexample to C26 as stated, on the two crossing segments `(0,0)-(10,10)` and
`(0,10)-(10,0)`: `uncolored` is `[1, 0]` and the loop of `greedy` takes its
back first, so segment `0` is coloured first and segment `N - 1 = 1` last; it
receives colour `1`, not `0`. -/
theorem C26_counterexample :
    Greedy.greedyLoop [Segment.build ⟨0, 0⟩ ⟨10, 10⟩, Segment.build ⟨0, 10⟩ ⟨10, 0⟩] 2
        ((List.range 2).map (fun si => 2 - si - 1)) [] []
      = ([], [[0], [1]], [0, 1]) ∧
    Greedy.color [Segment.build ⟨0, 0⟩ ⟨10, 10⟩, Segment.build ⟨0, 10⟩ ⟨10, 0⟩]
      = { classes := [[0], [1]], colorv := [0, 1] } := by
  constructor <;> decide

/-- Claim C26, amended: `Greedy::color()` assigns colours to the `N ≥ 1` segments in
index order: the loop of `greedy` empties `uncolored` in `N` iterations, the
`k`-th segment it handles is segment `k`, so segment `0` is coloured first and
segment `N - 1` last, and segment `0` always receives colour `0`. -/
theorem C26_greedy_colours_in_index_order (segs : List Segment) (hN : 0 < segs.length) :
    Greedy.greedyLoop segs segs.length
        ((List.range segs.length).map (fun si => segs.length - si - 1)) [] []
      = ([], (Greedy.color segs).classes, List.range segs.length) ∧
    (Greedy.color segs).colorv.getD 0 (-1) = 0 := by
  refine ⟨?_, Greedy.color_first_segment segs hN⟩
  have h := Greedy.greedyLoop_full segs
    ((List.range segs.length).map (fun si => segs.length - si - 1))
  rw [List.length_map, List.length_range] at h
  have hr : ((List.range segs.length).map (fun si => segs.length - si - 1)).reverse
      = List.range segs.length := by
    rw [Greedy.uncolored_eq_reverse, List.reverse_reverse]
  rw [h, hr]
  rfl

set_option maxRecDepth 100000 in
/-- Witness for C26: the two crossing segments of the counterexample. -/
theorem C26_greedy_colours_in_index_order_witness :
    Greedy.greedyLoop [Segment.build ⟨0, 0⟩ ⟨10, 10⟩, Segment.build ⟨0, 10⟩ ⟨10, 0⟩]
        [Segment.build ⟨0, 0⟩ ⟨10, 10⟩, Segment.build ⟨0, 10⟩ ⟨10, 0⟩].length
        ((List.range [Segment.build ⟨0, 0⟩ ⟨10, 10⟩, Segment.build ⟨0, 10⟩ ⟨10, 0⟩].length).map
          (fun si =>
            [Segment.build ⟨0, 0⟩ ⟨10, 10⟩, Segment.build ⟨0, 10⟩ ⟨10, 0⟩].length - si - 1))
        [] []
      = ([], (Greedy.color
            [Segment.build ⟨0, 0⟩ ⟨10, 10⟩, Segment.build ⟨0, 10⟩ ⟨10, 0⟩]).classes,
          List.range [Segment.build ⟨0, 0⟩ ⟨10, 10⟩, Segment.build ⟨0, 10⟩ ⟨10, 0⟩].length) ∧
    (Greedy.color [Segment.build ⟨0, 0⟩ ⟨10, 10⟩, Segment.build ⟨0, 10⟩ ⟨10, 0⟩]).colorv.getD
      0 (-1) = 0 :=
  C26_greedy_colours_in_index_order
    [Segment.build ⟨0, 0⟩ ⟨10, 10⟩, Segment.build ⟨0, 10⟩ ⟨10, 0⟩] (by decide)

set_option maxRecDepth 100000 in
/-- Counterexample to C27 as stated, on the two crossing segments `(0,0)-(10,10)`
(slope `1`) and `(0,10)-(10,0)` (slope `-1`), whose sorted list is `[1, 0]`,
with rotation `r = 0`: `uncolored` is `[1, 0]` and the loop of `greedy` takes
its back first, so the first segment coloured is `sorted[1] = 0`, not
`sorted[0] = 1`, and segment `0` receives colour `0`. -/
theorem C27_counterexample :
    Greedy.greedyLoop [Segment.build ⟨0, 0⟩ ⟨10, 10⟩, Segment.build ⟨0, 10⟩ ⟨10, 0⟩] 2
        ((List.range 2).map (fun si => ([1, 0] : List Nat).getD ((si + 0 % 2) % 2) 0)) [] []
      = ([], [[0], [1]], [0, 1]) ∧
    Angle.color [Segment.build ⟨0, 0⟩ ⟨10, 10⟩, Segment.build ⟨0, 10⟩ ⟨10, 0⟩] [1, 0] 0
      = Outcome.returned { classes := [[0], [1]], colorv := [0, 1] } := by
  constructor <;> decide

/-- Claim C27, amended: `Angle::color()` with rotation `r` on `N ≥ 1` segments, `sorted`
being the list of the indices in ascending order of (slope, index), colours
the segments in descending cyclic order, ending at position `r` of the sorted
list: the loop of `greedy` empties `uncolored` in `N` iterations and the `k`-th
segment coloured (`k = 0, …, N - 1`) is `sorted[(r + N - 1 - k) mod N]`. -/
theorem C27_angle_colours_in_descending_cyclic_order (segs : List Segment)
    (sorted : List Nat) (r : Nat) (hN : 0 < segs.length) (hlen : sorted.length = segs.length) :
    ∃ g, Angle.color segs sorted r = Outcome.returned g ∧
      Greedy.greedyLoop segs segs.length
          ((List.range segs.length).map
            (fun si => sorted.getD ((si + r % sorted.length) % segs.length) 0)) [] []
        = ([], g.classes,
            (List.range segs.length).map
              (fun k => sorted.getD ((r + segs.length - 1 - k) % segs.length) 0)) := by
  refine ⟨Greedy.greedy segs ((List.range segs.length).map
    (fun si => sorted.getD ((si + r % sorted.length) % segs.length) 0))
    (Greedy.clearSol segs), ?_, ?_⟩
  · unfold Angle.color
    rw [if_neg (by omega)]
  · have h := Greedy.greedyLoop_full segs ((List.range segs.length).map
      (fun si => sorted.getD ((si + r % sorted.length) % segs.length) 0))
    rw [List.length_map, List.length_range] at h
    rw [h, Angle.uncolored_reverse sorted segs.length r hlen]

set_option maxRecDepth 100000 in
/-- Witness for C27: the two crossing segments of the counterexample, with rotation
`r = 1`. -/
theorem C27_angle_colours_in_descending_cyclic_order_witness :
    ∃ g, Angle.color [Segment.build ⟨0, 0⟩ ⟨10, 10⟩, Segment.build ⟨0, 10⟩ ⟨10, 0⟩] [1, 0] 1
        = Outcome.returned g ∧
      Greedy.greedyLoop [Segment.build ⟨0, 0⟩ ⟨10, 10⟩, Segment.build ⟨0, 10⟩ ⟨10, 0⟩]
          [Segment.build ⟨0, 0⟩ ⟨10, 10⟩, Segment.build ⟨0, 10⟩ ⟨10, 0⟩].length
          ((List.range
              [Segment.build ⟨0, 0⟩ ⟨10, 10⟩, Segment.build ⟨0, 10⟩ ⟨10, 0⟩].length).map
            (fun si => ([1, 0] : List Nat).getD ((si + 1 % ([1, 0] : List Nat).length) %
              [Segment.build ⟨0, 0⟩ ⟨10, 10⟩, Segment.build ⟨0, 10⟩ ⟨10, 0⟩].length) 0)) [] []
        = ([], g.classes,
            (List.range
                [Segment.build ⟨0, 0⟩ ⟨10, 10⟩, Segment.build ⟨0, 10⟩ ⟨10, 0⟩].length).map
              (fun k => ([1, 0] : List Nat).getD
                ((1 + [Segment.build ⟨0, 0⟩ ⟨10, 10⟩, Segment.build ⟨0, 10⟩ ⟨10, 0⟩].length
                  - 1 - k) %
                  [Segment.build ⟨0, 0⟩ ⟨10, 10⟩, Segment.build ⟨0, 10⟩ ⟨10, 0⟩].length) 0)) :=
  C27_angle_colours_in_descending_cyclic_order
    [Segment.build ⟨0, 0⟩ ⟨10, 10⟩, Segment.build ⟨0, 10⟩ ⟨10, 0⟩] [1, 0] 1
    (by decide) (by decide)

/-- Claim C29: loop invariant of `DSatur::color()`. For every `k` and all values of
`rand()`, the loop reaches the start of iteration `k` (or has ended before),
`N - k` segments are then uncoloured, and for every uncoloured segment `u`:
`neighbor_colors[u][c]` is true iff some coloured segment crossing `u` has
colour `c`, and `dsat[u]` is the number of distinct colours among the coloured
segments crossing `u`. -/
theorem C29_dsatur_loop_invariant (segments : List Segment) (rnd : Nat → Nat) (k : Nat) :
    ∃ st, DSatur.stateAt segments rnd k = Outcome.returned st ∧
      st.uncolored.length = segments.length - k ∧
      ∀ u ∈ st.uncolored,
        (∀ c : Nat, (st.neighbor_colors.getD u []).getD c false = true ↔
          ∃ v, v < segments.length ∧ v ∉ st.uncolored ∧
            (segAt segments u).cross (segAt segments v) = true ∧
            st.colorv.getD v (-1) = (c : Int)) ∧
        st.dsat.getD u 0 = ((DSatur.neighborColorList segments st u).length : Int) := by
  obtain ⟨st, h1, hI, hQ, hlen⟩ := DSatur.stateAt_inv segments rnd
    (DSatur.DsatCount segments) (DSatur.start_dsatCount segments)
    (fun st vi hI hQ _ => DSatur.paint_dsatCount _ hI hQ) k
  exact ⟨st, h1, hlen, fun u hu => ⟨hI.nc u hu, DSatur.dsat_eq_colours hI hQ hu⟩⟩

/-- Claim C30: with every noise sample equal to `1` and the costs exact (`pow` being
any function with nonnegative values on the queue counts), `best_color(s)`
returns, and it returns `true` iff some class has no crossing member `t` with
`queue_count[t] ≥ max_queue` and has `cost(c, s)`, the sum over its members
`t` crossing `s` of `queue_count[t] ^ power + 1`, strictly below
`max_queue * N`; in that case `best_c` is such a class, of minimum cost among
such classes, and of lowest index among those of minimum cost. -/
theorem C30_best_color_lowest_cost_class (w : World) (st : Conflict) (seg fuel : Nat)
    (hfuel : 0 < fuel) (hnoise : ∀ k, w.sample k = 1)
    (hpow : ∀ t, 0 ≤ w.powf (st.queue_count.getD t 0 : ℚ) st.param.power) :
    ∃ (b : Bool) (best_c : Nat) (conflicting_segs : List Nat) (st1 : Conflict),
      Conflict.best_color w st seg fuel
        = Outcome.returned ((b, best_c, conflicting_segs), st1) ∧
      (b = true ↔ ∃ c, Spec.eligible w st seg c) ∧
      (b = true → Spec.eligible w st seg best_c ∧
        ∀ c, Spec.eligible w st seg c →
          Spec.cost w st seg best_c ≤ Spec.cost w st seg c ∧
            (Spec.cost w st seg c = Spec.cost w st seg best_c → best_c ≤ c)) := by
  obtain ⟨f, rfl⟩ : ∃ f, fuel = f + 1 := ⟨fuel - 1, by omega⟩
  obtain ⟨r, hr, r1, r2, r3⟩ := Conflict.bestFrom_spec w st seg f hnoise hpow
    ((st.param.max_queue * (st.n_segments : Int) : Int) : ℚ) st.classes.length 0
    (((st.param.max_queue * (st.n_segments : Int) : Int) : ℚ), 0, [], st.noiseCalls)
    (Nat.zero_add _) (le_refl _) (fun h => absurd h (lt_irrefl _))
    (fun c hc => absurd hc (Nat.not_lt_zero c))
  rw [← List.range_eq_range'] at hr
  refine ⟨decide (r.1 < ((st.param.max_queue * (st.n_segments : Int) : Int) : ℚ)), r.2.1,
    r.2.2.1, { st with noiseCalls := r.2.2.2 }, ?_, ?_, ?_⟩
  · unfold Conflict.best_color
    dsimp only
    rw [hr]
    rfl
  · rw [decide_eq_true_eq]
    constructor
    · intro h
      obtain ⟨x1, x2, x3⟩ := r2 h
      exact ⟨r.2.1, x1, x2, by rw [x3]; exact h⟩
    · rintro ⟨c, c1, c2, c3⟩
      exact lt_of_le_of_lt (r3 c c1 c2).1 c3
  · intro h
    rw [decide_eq_true_eq] at h
    obtain ⟨x1, x2, x3⟩ := r2 h
    refine ⟨⟨x1, x2, by rw [x3]; exact h⟩, ?_⟩
    rintro c ⟨c1, c2, _⟩
    rw [x3]
    exact ⟨(r3 c c1 c2).1, fun e => (r3 c c1 c2).2 e h⟩

set_option maxRecDepth 100000 in
/-- Witness for C30: segment `0` of the two parallel segments, with the clock and
noise of `stillClock`. -/
theorem C30_best_color_lowest_cost_class_witness :
    ∃ (b : Bool) (best_c : Nat) (conflicting_segs : List Nat) (st1 : Conflict),
      Conflict.best_color Conflict.stillClock Conflict.twoParallel 0 1
        = Outcome.returned ((b, best_c, conflicting_segs), st1) ∧
      (b = true ↔ ∃ c, Spec.eligible Conflict.stillClock Conflict.twoParallel 0 c) ∧
      (b = true → Spec.eligible Conflict.stillClock Conflict.twoParallel 0 best_c ∧
        ∀ c, Spec.eligible Conflict.stillClock Conflict.twoParallel 0 c →
          Spec.cost Conflict.stillClock Conflict.twoParallel 0 best_c
              ≤ Spec.cost Conflict.stillClock Conflict.twoParallel 0 c ∧
            (Spec.cost Conflict.stillClock Conflict.twoParallel 0 c
              = Spec.cost Conflict.stillClock Conflict.twoParallel 0 best_c → best_c ≤ c)) :=
  C30_best_color_lowest_cost_class Conflict.stillClock Conflict.twoParallel 0 1 (by decide)
    (fun _ => rfl)
    (fun t => by
      have h : (0 : Int) ≤ ([0, 0] : List Int).getD t 0 := by
        rcases t with _ | _ | t
        · decide
        · decide
        · exact le_refl _
      show (0 : ℚ) ≤ ((([0, 0] : List Int).getD t 0 : Int) : ℚ)
      exact_mod_cast h)

/-- Claim C31: in `conflict_dfs_optim_solution`, during the elimination of class `c`
the `while` loop is run with `temp_sol` the classes saved after
`move_segments(c)` (class `c` still present) on the classes without class `c`.
The loop sets `successfull_removal` to false only where `best_color` returns
false; whenever it ends so, whatever the number of scored moves and of calls of
`dfsOptimize` before, the classes are exactly the saved ones. -/
theorem C31_blocked_restores_saved_coloring (w : World) (fuelQ : Nat) (st r : Conflict)
    (c : Nat) (qc : List Int)
    (h : Conflict.queueLoop w (Conflict.move_segments st.crossings st.classes c) fuelQ
        { st with
          classes := (Conflict.move_segments st.crossings st.classes c).eraseIdx c
          queue_count := qc }
        ((Conflict.move_segments st.crossings st.classes c).getD c []) []
      = Outcome.returned (false, r)) :
    r.classes = Conflict.move_segments st.crossings st.classes c :=
  (Conflict.queueLoop_length w _ fuelQ _ _ _ _ h).2 rfl

set_option maxRecDepth 1000000 in
/-- Witness for C31: three pairwise crossing segments, each in a class of its own,
with `max_queue = 2`, a clock that always shows `0` and a noise always equal to
`1`. The elimination of class `0` makes five scored moves and as many failing
calls of `dfsOptimize`, then `best_color` is blocked and the three classes are
back. -/
theorem C31_blocked_restores_saved_coloring_witness :
    ({ Conflict.threeCrossing with
        queue_count := [2, 1, 2], clockCalls := 11, noiseCalls := 12 } : Conflict).classes
      = Conflict.move_segments Conflict.threeCrossing.crossings
          Conflict.threeCrossing.classes 0 :=
  C31_blocked_restores_saved_coloring Conflict.stillClock 12 Conflict.threeCrossing
    { Conflict.threeCrossing with queue_count := [2, 1, 2], clockCalls := 11, noiseCalls := 12 }
    0 [0, 0, 0] (by with_unfolding_all rfl)

/-- Claim C32: on a symmetric crossing matrix with `N ≥ 1` segments (`N` and the
bound `B` being `int` values), `remove_easy_segs(B)` returns; `easy_segs` is a
duplicate-free list of segment indices; (a) the `k`-th removed segment, among
the segments not removed before it, crossed fewer than `B` segments and had the
minimum degree; (b) every segment not removed crosses at least `B` segments not
removed; and the classes are the former ones with exactly the removed segments
erased, the other members staying in their order. -/
theorem C32_remove_easy_segs_peels_by_minimum_degree (n_segments : Nat)
    (crossings : List (List Nat)) (classes : List (List Nat)) (bound : Int)
    (hN : 1 ≤ n_segments) (hN2 : (n_segments : Int) ≤ Conflict.INT_MAX)
    (hB : bound ≤ Conflict.INT_MAX)
    (hsym : ∀ i j, Conflict.crosses crossings i j = Conflict.crosses crossings j i) :
    ∃ easy_segs, Conflict.remove_easy_segs n_segments crossings classes bound
        = Outcome.returned (easy_segs,
            classes.map (fun cl => cl.filter (fun x => !easy_segs.contains x))) ∧
      easy_segs.Nodup ∧ (∀ s ∈ easy_segs, s < n_segments) ∧
      (∀ k, k < easy_segs.length →
        (Conflict.crossDegree n_segments crossings (easy_segs.take k) (easy_segs.getD k 0) : Int)
          < bound ∧
        ∀ i, i < n_segments → i ∉ easy_segs.take k →
          Conflict.crossDegree n_segments crossings (easy_segs.take k) (easy_segs.getD k 0)
            ≤ Conflict.crossDegree n_segments crossings (easy_segs.take k) i) ∧
      ∀ i, i < n_segments → i ∉ easy_segs →
        bound ≤ (Conflict.crossDegree n_segments crossings easy_segs i : Int) :=
  Conflict.remove_easy_segs_order n_segments crossings classes bound hN
    (by unfold Conflict.LONG_MAX; unfold Conflict.INT_MAX at hN2; omega)
    (by unfold Conflict.LONG_MAX; unfold Conflict.INT_MAX at hB; omega) hsym

/-- Witness for C32: three pairwise crossing segments, a fourth one crossing only
the first, the classes `[[0], [1], [2, 3]]` and the bound `2`. -/
theorem C32_remove_easy_segs_peels_by_minimum_degree_witness :
    ∃ easy_segs, Conflict.remove_easy_segs 4
        (Conflict.generate_intersection_map
          [Segment.build ⟨0, 0⟩ ⟨10, 10⟩, Segment.build ⟨0, 10⟩ ⟨10, 0⟩,
            Segment.build ⟨5, -1⟩ ⟨5, 11⟩, Segment.build ⟨-1, 1⟩ ⟨2, 1⟩])
        [[0], [1], [2, 3]] 2
        = Outcome.returned (easy_segs,
            ([[0], [1], [2, 3]] : List (List Nat)).map
              (fun cl => cl.filter (fun x => !easy_segs.contains x))) ∧
      easy_segs.Nodup ∧ (∀ s ∈ easy_segs, s < 4) ∧
      (∀ k, k < easy_segs.length →
        (Conflict.crossDegree 4
          (Conflict.generate_intersection_map
            [Segment.build ⟨0, 0⟩ ⟨10, 10⟩, Segment.build ⟨0, 10⟩ ⟨10, 0⟩,
              Segment.build ⟨5, -1⟩ ⟨5, 11⟩, Segment.build ⟨-1, 1⟩ ⟨2, 1⟩])
          (easy_segs.take k) (easy_segs.getD k 0) : Int) < 2 ∧
        ∀ i, i < 4 → i ∉ easy_segs.take k →
          Conflict.crossDegree 4
            (Conflict.generate_intersection_map
              [Segment.build ⟨0, 0⟩ ⟨10, 10⟩, Segment.build ⟨0, 10⟩ ⟨10, 0⟩,
                Segment.build ⟨5, -1⟩ ⟨5, 11⟩, Segment.build ⟨-1, 1⟩ ⟨2, 1⟩])
            (easy_segs.take k) (easy_segs.getD k 0)
            ≤ Conflict.crossDegree 4
              (Conflict.generate_intersection_map
                [Segment.build ⟨0, 0⟩ ⟨10, 10⟩, Segment.build ⟨0, 10⟩ ⟨10, 0⟩,
                  Segment.build ⟨5, -1⟩ ⟨5, 11⟩, Segment.build ⟨-1, 1⟩ ⟨2, 1⟩])
              (easy_segs.take k) i) ∧
      ∀ i, i < 4 → i ∉ easy_segs →
        (2 : Int) ≤ (Conflict.crossDegree 4
          (Conflict.generate_intersection_map
            [Segment.build ⟨0, 0⟩ ⟨10, 10⟩, Segment.build ⟨0, 10⟩ ⟨10, 0⟩,
              Segment.build ⟨5, -1⟩ ⟨5, 11⟩, Segment.build ⟨-1, 1⟩ ⟨2, 1⟩])
          easy_segs i : Int) :=
  C32_remove_easy_segs_peels_by_minimum_degree 4
    (Conflict.generate_intersection_map
      [Segment.build ⟨0, 0⟩ ⟨10, 10⟩, Segment.build ⟨0, 10⟩ ⟨10, 0⟩,
        Segment.build ⟨5, -1⟩ ⟨5, 11⟩, Segment.build ⟨-1, 1⟩ ⟨2, 1⟩])
    [[0], [1], [2, 3]] 2 (by decide) (by decide) (by decide)
    (Conflict.crosses_generate_symm _)

/-- Counterexample to C33 as stated: for the counter-clockwise triangle `(0,0)`,
`(1,0)`, `(0,1)` the shoelace sum is `1` and `polyArea2` returns `-1`; and for
the triangle `(-2^31,-2^31)`, `(2^31-1,-2^31)`, `(-2^31,2^31-1)`, whose
coordinates are `int` values, the shoelace sum is `(2^32-1)^2`, outside the
`i64` range, and `polyArea2` returns `2^33 - 1`. -/
theorem C33_counterexample :
    Spec.shoelace [⟨0, 0⟩, ⟨1, 0⟩, ⟨0, 1⟩] = 1 ∧
    DSatHull.polyArea2 [⟨0, 0⟩, ⟨1, 0⟩, ⟨0, 1⟩] = -1 ∧
    Spec.shoelace [⟨-2147483648, -2147483648⟩, ⟨2147483647, -2147483648⟩,
      ⟨-2147483648, 2147483647⟩] = 18446744065119617025 ∧
    DSatHull.polyArea2 [⟨-2147483648, -2147483648⟩, ⟨2147483647, -2147483648⟩,
      ⟨-2147483648, 2147483647⟩] = 8589934591 := by
  refine ⟨by decide, by decide, by decide, by decide⟩

/-- Claim C33, amended: for every non-empty point list, `polyArea2` returns minus
the shoelace sum over the cyclically consecutive points, reduced to the signed
64-bit range; so it is exactly minus the shoelace sum whenever that value lies
in the range. It is `0` for lists of one or two points, and it is invariant
under translation and under cyclic rotation of the list. -/
theorem C33_polyArea2_is_minus_shoelace (poly : List Point) (hne : poly ≠ []) :
    DSatHull.polyArea2 poly = wrap64 (-(Spec.shoelace poly)) ∧
    (-2 ^ 63 ≤ -(Spec.shoelace poly) → -(Spec.shoelace poly) < 2 ^ 63 →
      DSatHull.polyArea2 poly = -(Spec.shoelace poly)) ∧
    (poly.length ≤ 2 → DSatHull.polyArea2 poly = 0) ∧
    (∀ dx dy : Int,
      DSatHull.polyArea2 (poly.map (Spec.translate dx dy)) = DSatHull.polyArea2 poly) ∧
    (∀ k : Nat, DSatHull.polyArea2 (poly.rotate k) = DSatHull.polyArea2 poly) := by
  have h := DSatHull.polyArea2_eq poly hne
  refine ⟨h, fun h1 h2 => by rw [h, wrap64_of_range h1 h2], fun hl => ?_, fun dx dy => ?_,
    fun k => ?_⟩
  · rw [h, DSatHull.shoelace_short poly hl]; rfl
  · rw [h, DSatHull.polyArea2_eq _ (by simpa using hne), DSatHull.shoelace_translate]
  · rw [h, DSatHull.polyArea2_eq _ (by simpa using hne), DSatHull.shoelace_rotate]

/-- Witness for C33: the clockwise triangle `(0,0)`, `(0,1)`, `(1,0)`, whose shoelace
sum is `-1`. -/
theorem C33_polyArea2_is_minus_shoelace_witness :
    DSatHull.polyArea2 [⟨0, 0⟩, ⟨0, 1⟩, ⟨1, 0⟩]
      = wrap64 (-(Spec.shoelace [⟨0, 0⟩, ⟨0, 1⟩, ⟨1, 0⟩])) ∧
    (-2 ^ 63 ≤ -(Spec.shoelace [⟨0, 0⟩, ⟨0, 1⟩, ⟨1, 0⟩]) →
      -(Spec.shoelace [⟨0, 0⟩, ⟨0, 1⟩, ⟨1, 0⟩]) < 2 ^ 63 →
      DSatHull.polyArea2 [⟨0, 0⟩, ⟨0, 1⟩, ⟨1, 0⟩]
        = -(Spec.shoelace [⟨0, 0⟩, ⟨0, 1⟩, ⟨1, 0⟩])) ∧
    (([⟨0, 0⟩, ⟨0, 1⟩, ⟨1, 0⟩] : List Point).length ≤ 2 →
      DSatHull.polyArea2 [⟨0, 0⟩, ⟨0, 1⟩, ⟨1, 0⟩] = 0) ∧
    (∀ dx dy : Int,
      DSatHull.polyArea2 (([⟨0, 0⟩, ⟨0, 1⟩, ⟨1, 0⟩] : List Point).map (Spec.translate dx dy))
        = DSatHull.polyArea2 [⟨0, 0⟩, ⟨0, 1⟩, ⟨1, 0⟩]) ∧
    (∀ k : Nat, DSatHull.polyArea2 (([⟨0, 0⟩, ⟨0, 1⟩, ⟨1, 0⟩] : List Point).rotate k)
      = DSatHull.polyArea2 [⟨0, 0⟩, ⟨0, 1⟩, ⟨1, 0⟩]) :=
  C33_polyArea2_is_minus_shoelace [⟨0, 0⟩, ⟨0, 1⟩, ⟨1, 0⟩] (by decide)

/-- Counterexample to C34 as stated: with no segment `Greedy::greedy` leaves no class
and an empty `colorv`, and `numColors()` dereferences the end iterator of the
empty vector, so there is no value `numColors() - 1`. -/
theorem C34_counterexample :
    (Greedy.greedy [] [] (Greedy.clearSol [])).classes = [] ∧
    (Greedy.greedy [] [] (Greedy.clearSol [])).colorv = [] ∧
    Solution.numColors (Greedy.greedy [] [] (Greedy.clearSol [])).colorv
      = Outcome.outOfBounds := by
  refine ⟨by decide, by decide, by decide⟩

/-- Claim C34, amended: with `N ≥ 1` segments, after `Greedy::greedy` (entered after
`clear()`, as at every call, with segment indices in `uncolored`), for every
segment `i` and class index `c`, `colorv[i] = c` iff `i` is a member of
`classes[c]`; every class is non-empty; `numColors()` is the number of classes;
every label `0..numColors()-1` is the label of some segment, and the label of
every segment of `uncolored` is one of them. -/
theorem C34_greedy_labels_match_classes (segments : List Segment) (uncolored : List Nat)
    (hN : 1 ≤ segments.length) (hlt : ∀ v ∈ uncolored, v < segments.length) :
    (∀ i c : Nat, i < segments.length →
      ((Greedy.greedy segments uncolored (Greedy.clearSol segments)).colorv.getD i (-1) = (c : Int)
        ↔ i ∈ (Greedy.greedy segments uncolored (Greedy.clearSol segments)).classes.getD c [])) ∧
    (∀ cl ∈ (Greedy.greedy segments uncolored (Greedy.clearSol segments)).classes, cl ≠ []) ∧
    Solution.numColors (Greedy.greedy segments uncolored (Greedy.clearSol segments)).colorv
      = Outcome.returned
        ((Greedy.greedy segments uncolored (Greedy.clearSol segments)).classes.length : Int) ∧
    (∀ c : Nat, c < (Greedy.greedy segments uncolored (Greedy.clearSol segments)).classes.length →
      ∃ i, i < segments.length ∧
        (Greedy.greedy segments uncolored (Greedy.clearSol segments)).colorv.getD i (-1)
          = (c : Int)) ∧
    (∀ i, i ∈ uncolored →
      ∃ c : Nat, c < (Greedy.greedy segments uncolored (Greedy.clearSol segments)).classes.length ∧
        (Greedy.greedy segments uncolored (Greedy.clearSol segments)).colorv.getD i (-1)
          = (c : Int)) := by
  refine ⟨fun i c hi => Greedy.greedy_colorv_iff segments uncolored i c hi,
    Greedy.foldr_place_nonempty segments uncolored,
    Greedy.greedy_numColors segments uncolored hlt hN, fun c hc => ?_, fun i hi => ?_⟩
  · obtain ⟨i, hi⟩ := Greedy.greedy_nonempty_class segments uncolored c hc
    have hlt2 := Greedy.greedy_mem_lt segments uncolored hlt hi
    exact ⟨i, hlt2, (Greedy.greedy_colorv_iff segments uncolored i c hlt2).2 hi⟩
  · have hp := Greedy.flatten_foldr_place segments [] uncolored
    rw [List.flatten_nil, List.append_nil] at hp
    obtain ⟨cl, hcl, hicl⟩ := List.mem_flatten.1 (hp.mem_iff.2 hi)
    obtain ⟨c, hc, e⟩ := List.mem_iff_getElem.1 hcl
    have hm : i ∈ (uncolored.foldr (Greedy.place segments) []).getD c [] := by
      rw [List.getD_eq_getElem _ _ hc]
      exact e ▸ hicl
    exact ⟨c, hc, (Greedy.greedy_colorv_iff segments uncolored i c (hlt i hi)).2 hm⟩

/-- Witness for C34: the two crossing segments `(0,0)-(10,0)` and `(5,-5)-(5,5)` with
`uncolored = [1, 0]`. -/
theorem C34_greedy_labels_match_classes_witness :
    (∀ i c : Nat,
      i < [Segment.build ⟨0, 0⟩ ⟨10, 0⟩, Segment.build ⟨5, -5⟩ ⟨5, 5⟩].length →
      ((Greedy.greedy [Segment.build ⟨0, 0⟩ ⟨10, 0⟩, Segment.build ⟨5, -5⟩ ⟨5, 5⟩] [1, 0]
          (Greedy.clearSol [Segment.build ⟨0, 0⟩ ⟨10, 0⟩, Segment.build ⟨5, -5⟩ ⟨5, 5⟩])).colorv.getD
            i (-1) = (c : Int)
        ↔ i ∈ (Greedy.greedy [Segment.build ⟨0, 0⟩ ⟨10, 0⟩, Segment.build ⟨5, -5⟩ ⟨5, 5⟩] [1, 0]
          (Greedy.clearSol
            [Segment.build ⟨0, 0⟩ ⟨10, 0⟩, Segment.build ⟨5, -5⟩ ⟨5, 5⟩])).classes.getD c [])) ∧
    (∀ cl ∈ (Greedy.greedy [Segment.build ⟨0, 0⟩ ⟨10, 0⟩, Segment.build ⟨5, -5⟩ ⟨5, 5⟩] [1, 0]
        (Greedy.clearSol [Segment.build ⟨0, 0⟩ ⟨10, 0⟩, Segment.build ⟨5, -5⟩ ⟨5, 5⟩])).classes,
      cl ≠ []) ∧
    Solution.numColors
        (Greedy.greedy [Segment.build ⟨0, 0⟩ ⟨10, 0⟩, Segment.build ⟨5, -5⟩ ⟨5, 5⟩] [1, 0]
          (Greedy.clearSol [Segment.build ⟨0, 0⟩ ⟨10, 0⟩, Segment.build ⟨5, -5⟩ ⟨5, 5⟩])).colorv
      = Outcome.returned
        ((Greedy.greedy [Segment.build ⟨0, 0⟩ ⟨10, 0⟩, Segment.build ⟨5, -5⟩ ⟨5, 5⟩] [1, 0]
          (Greedy.clearSol
            [Segment.build ⟨0, 0⟩ ⟨10, 0⟩, Segment.build ⟨5, -5⟩ ⟨5, 5⟩])).classes.length : Int) ∧
    (∀ c : Nat,
      c < (Greedy.greedy [Segment.build ⟨0, 0⟩ ⟨10, 0⟩, Segment.build ⟨5, -5⟩ ⟨5, 5⟩] [1, 0]
        (Greedy.clearSol
          [Segment.build ⟨0, 0⟩ ⟨10, 0⟩, Segment.build ⟨5, -5⟩ ⟨5, 5⟩])).classes.length →
      ∃ i, i < [Segment.build ⟨0, 0⟩ ⟨10, 0⟩, Segment.build ⟨5, -5⟩ ⟨5, 5⟩].length ∧
        (Greedy.greedy [Segment.build ⟨0, 0⟩ ⟨10, 0⟩, Segment.build ⟨5, -5⟩ ⟨5, 5⟩] [1, 0]
          (Greedy.clearSol
            [Segment.build ⟨0, 0⟩ ⟨10, 0⟩, Segment.build ⟨5, -5⟩ ⟨5, 5⟩])).colorv.getD i (-1)
          = (c : Int)) ∧
    (∀ i, i ∈ ([1, 0] : List Nat) →
      ∃ c : Nat,
        c < (Greedy.greedy [Segment.build ⟨0, 0⟩ ⟨10, 0⟩, Segment.build ⟨5, -5⟩ ⟨5, 5⟩] [1, 0]
          (Greedy.clearSol
            [Segment.build ⟨0, 0⟩ ⟨10, 0⟩, Segment.build ⟨5, -5⟩ ⟨5, 5⟩])).classes.length ∧
        (Greedy.greedy [Segment.build ⟨0, 0⟩ ⟨10, 0⟩, Segment.build ⟨5, -5⟩ ⟨5, 5⟩] [1, 0]
          (Greedy.clearSol
            [Segment.build ⟨0, 0⟩ ⟨10, 0⟩, Segment.build ⟨5, -5⟩ ⟨5, 5⟩])).colorv.getD i (-1)
          = (c : Int)) :=
  C34_greedy_labels_match_classes
    [Segment.build ⟨0, 0⟩ ⟨10, 0⟩, Segment.build ⟨5, -5⟩ ⟨5, 5⟩] [1, 0] (by decide) (by decide)

/-- Claim C35 fails on the segments `(0,0)-(10,10)` and `(5,4)-(20,20)`: both are
non-degenerate with coordinates of the instance range, and they have no common
point (the second one meets the line `y = x` only at its endpoint `(20,20)`,
which is outside the first one), yet `Segment::cross` returns true in both
argument orders: the orientation of `(20,20)` is `0`, the four endpoints are
distinct, and `(5,4)` lies in the bounding box of the first segment. -/
theorem C35_disjoint_segments_reported_crossing :
    (Segment.build ⟨0, 0⟩ ⟨10, 10⟩).p ≠ (Segment.build ⟨0, 0⟩ ⟨10, 10⟩).q ∧
    (Segment.build ⟨5, 4⟩ ⟨20, 20⟩).p ≠ (Segment.build ⟨5, 4⟩ ⟨20, 20⟩).q ∧
    (Segment.build ⟨0, 0⟩ ⟨10, 10⟩).p.isNat31 ∧ (Segment.build ⟨0, 0⟩ ⟨10, 10⟩).q.isNat31 ∧
    (Segment.build ⟨5, 4⟩ ⟨20, 20⟩).p.isNat31 ∧ (Segment.build ⟨5, 4⟩ ⟨20, 20⟩).q.isNat31 ∧
    (Segment.build ⟨0, 0⟩ ⟨10, 10⟩).orientation (Segment.build ⟨5, 4⟩ ⟨20, 20⟩).q = 0 ∧
    (Segment.build ⟨0, 0⟩ ⟨10, 10⟩).cross (Segment.build ⟨5, 4⟩ ⟨20, 20⟩) = true ∧
    (Segment.build ⟨5, 4⟩ ⟨20, 20⟩).cross (Segment.build ⟨0, 0⟩ ⟨10, 10⟩) = true ∧
    ∀ x y : ℝ, Spec.onSegment (Segment.build ⟨0, 0⟩ ⟨10, 10⟩) x y →
      ¬ Spec.onSegment (Segment.build ⟨5, 4⟩ ⟨20, 20⟩) x y := by
  refine ⟨by decide, by decide, by decide, by decide, by decide, by decide, by decide,
    by decide, by decide, ?_⟩
  rintro x y ⟨u, _, hu1, hx, hy⟩ ⟨v, _, hv1, hx2, hy2⟩
  have e1 : (Segment.build ⟨0, 0⟩ ⟨10, 10⟩) = ⟨⟨0, 0⟩, ⟨10, 10⟩⟩ := by decide
  have e2 : (Segment.build ⟨5, 4⟩ ⟨20, 20⟩) = ⟨⟨5, 4⟩, ⟨20, 20⟩⟩ := by decide
  rw [e1] at hx hy
  rw [e2] at hx2 hy2
  norm_num at hx hy hx2 hy2
  linarith

/-- Claim C36: if every class is crossing-free and the crossing matrix is symmetric,
then after `move_segments(c)` every class is crossing-free (also when several
segments of class `c` go to the same class, chosen against the classes on
entry), the segments in the classes are the same with the same multiplicities,
and the number of classes is the same. -/
theorem C36_move_segments_preserves_validity (crossings : List (List Nat))
    (classes : List (List Nat)) (c : Nat)
    (hsym : ∀ i j, Conflict.crosses crossings i j = Conflict.crosses crossings j i)
    (hvalid : ∀ cl ∈ classes, Conflict.CrossFree crossings cl) :
    (∀ cl ∈ Conflict.move_segments crossings classes c, Conflict.CrossFree crossings cl) ∧
    (Conflict.move_segments crossings classes c).flatten.Perm classes.flatten ∧
    (Conflict.move_segments crossings classes c).length = classes.length :=
  ⟨Conflict.move_segments_crossFree crossings classes c hsym hvalid,
    List.perm_iff_count.2 (fun x => Conflict.move_segments_count crossings classes c x),
    Conflict.move_segments_length crossings classes c⟩

set_option maxRecDepth 100000 in
/-- Witness for C36: the parallel segments `(0,0)-(10,0)`, `(0,5)-(10,5)` and
`(0,9)-(10,9)` with the classes `[[0, 1], [2]]`: `move_segments(0)` sends both
segments of class `0` to class `1`, leaving `[[], [2, 0, 1]]`. -/
theorem C36_move_segments_preserves_validity_witness :
    Conflict.move_segments
        (Conflict.generate_intersection_map
          [Segment.build ⟨0, 0⟩ ⟨10, 0⟩, Segment.build ⟨0, 5⟩ ⟨10, 5⟩,
            Segment.build ⟨0, 9⟩ ⟨10, 9⟩]) [[0, 1], [2]] 0 = [[], [2, 0, 1]] ∧
    (∀ cl ∈ Conflict.move_segments
        (Conflict.generate_intersection_map
          [Segment.build ⟨0, 0⟩ ⟨10, 0⟩, Segment.build ⟨0, 5⟩ ⟨10, 5⟩,
            Segment.build ⟨0, 9⟩ ⟨10, 9⟩]) [[0, 1], [2]] 0,
      Conflict.CrossFree
        (Conflict.generate_intersection_map
          [Segment.build ⟨0, 0⟩ ⟨10, 0⟩, Segment.build ⟨0, 5⟩ ⟨10, 5⟩,
            Segment.build ⟨0, 9⟩ ⟨10, 9⟩]) cl) ∧
    (Conflict.move_segments
        (Conflict.generate_intersection_map
          [Segment.build ⟨0, 0⟩ ⟨10, 0⟩, Segment.build ⟨0, 5⟩ ⟨10, 5⟩,
            Segment.build ⟨0, 9⟩ ⟨10, 9⟩]) [[0, 1], [2]] 0).flatten.Perm
      ([[0, 1], [2]] : List (List Nat)).flatten ∧
    (Conflict.move_segments
        (Conflict.generate_intersection_map
          [Segment.build ⟨0, 0⟩ ⟨10, 0⟩, Segment.build ⟨0, 5⟩ ⟨10, 5⟩,
            Segment.build ⟨0, 9⟩ ⟨10, 9⟩]) [[0, 1], [2]] 0).length
      = ([[0, 1], [2]] : List (List Nat)).length :=
  ⟨by decide,
    C36_move_segments_preserves_validity
      (Conflict.generate_intersection_map
        [Segment.build ⟨0, 0⟩ ⟨10, 0⟩, Segment.build ⟨0, 5⟩ ⟨10, 5⟩,
          Segment.build ⟨0, 9⟩ ⟨10, 9⟩]) [[0, 1], [2]] 0
      (Conflict.crosses_generate_symm _)
      (by
        intro cl hcl
        unfold Conflict.CrossFree
        have hcl0 : cl = [0, 1] ∨ cl = [2] := by simpa using hcl
        rcases hcl0 with h | h <;> subst h <;> decide)⟩

set_option maxRecDepth 1000000 in
/-- Counterexample to C37 as stated: in the state `Conflict.crossingClass` the
crossing segments `0` and `1` share class `0`; `best_color(2)` returns true with
`best_c = 0` and no conflicting segment (segment `2` crosses nothing), which is
the complete list, yet after adding segment `2` class `0` is not crossing-free. -/
theorem C37_counterexample :
    Conflict.best_color Conflict.stillClock Conflict.crossingClass 2 1
      = Outcome.returned ((true, 0, []), { Conflict.crossingClass with noiseCalls := 1 }) ∧
    ([] : List Nat) = (Conflict.crossingClass.classes.getD 0 []).filter
      (fun si => Conflict.crosses Conflict.crossingClass.crossings 2 si) ∧
    ¬ Conflict.CrossFree Conflict.crossingClass.crossings
      (((Conflict.remove_edges_from_color Conflict.crossingClass.classes 0 []).set 0
        ((Conflict.remove_edges_from_color Conflict.crossingClass.classes 0 []).getD 0 []
          ++ [2])).getD 0 []) := by
  refine ⟨by with_unfolding_all rfl, by with_unfolding_all decide, ?_⟩
  intro h
  have := h 0 (by with_unfolding_all decide) 1 (by with_unfolding_all decide) (by decide)
  revert this
  with_unfolding_all decide

/-- Claim C37, amended: whenever `best_color(seg, best_c, conflicting_segs)` returns
true (every noise kept is at least `0.001`; exact arithmetic, any `pow`),
`best_c` is a class index and `conflicting_segs` is exactly the list of all
members of `classes[best_c]` that cross `seg`, in the order of the class; so,
if `classes[best_c]` was crossing-free and the crossing matrix is symmetric,
removing them and adding `seg` leaves `classes[best_c]` crossing-free. -/
theorem C37_best_color_conflicts_complete (w : World) (st : Conflict) (seg fuel : Nat)
    (best_c : Nat) (conflicting_segs : List Nat) (st1 : Conflict)
    (h : Conflict.best_color w st seg fuel
      = Outcome.returned ((true, best_c, conflicting_segs), st1)) :
    best_c < st.classes.length ∧ st1.classes = st.classes ∧
    conflicting_segs
      = (st.classes.getD best_c []).filter (fun si => Conflict.crosses st.crossings seg si) ∧
    ((∀ i j, Conflict.crosses st.crossings i j = Conflict.crosses st.crossings j i) →
      Conflict.CrossFree st.crossings (st.classes.getD best_c []) →
      Conflict.CrossFree st.crossings
        (((Conflict.remove_edges_from_color st1.classes best_c conflicting_segs).set best_c
          ((Conflict.remove_edges_from_color st1.classes best_c conflicting_segs).getD best_c []
            ++ [seg])).getD best_c [])) := by
  obtain ⟨h1, h2, h3⟩ := Conflict.best_color_full w st seg fuel best_c conflicting_segs st1 h
  refine ⟨h1, h2, h3, fun hsym hfree => ?_⟩
  rw [h2, h3]
  exact Conflict.place_after_removal_crossFree st.crossings st.classes best_c seg h1 hsym hfree

set_option maxRecDepth 1000000 in
/-- Witness for C37: the state `Conflict.cliquePair`, where `best_color(1)` returns
true with `best_c = 0` and `conflicting_segs = [0]`. -/
theorem C37_best_color_conflicts_complete_witness :
    0 < Conflict.cliquePair.classes.length ∧
    ({ Conflict.cliquePair with noiseCalls := 1 } : Conflict).classes
      = Conflict.cliquePair.classes ∧
    [0] = (Conflict.cliquePair.classes.getD 0 []).filter
      (fun si => Conflict.crosses Conflict.cliquePair.crossings 1 si) ∧
    ((∀ i j, Conflict.crosses Conflict.cliquePair.crossings i j
        = Conflict.crosses Conflict.cliquePair.crossings j i) →
      Conflict.CrossFree Conflict.cliquePair.crossings (Conflict.cliquePair.classes.getD 0 []) →
      Conflict.CrossFree Conflict.cliquePair.crossings
        (((Conflict.remove_edges_from_color
            ({ Conflict.cliquePair with noiseCalls := 1 } : Conflict).classes 0 [0]).set 0
          ((Conflict.remove_edges_from_color
            ({ Conflict.cliquePair with noiseCalls := 1 } : Conflict).classes 0 [0]).getD 0 []
              ++ [1])).getD 0 [])) :=
  C37_best_color_conflicts_complete Conflict.stillClock Conflict.cliquePair 1 1 0 [0]
    { Conflict.cliquePair with noiseCalls := 1 } (by with_unfolding_all rfl)

set_option maxRecDepth 1000000 in
/-- Counterexample to C38 as stated, on six segments with the symmetric crossing
matrix whose crossing pairs are `0-1`, `0-2`, `0-3`, `1-3`, `1-4`, `2-3`, `3-4`:
the classes `[[1, 2], [3], [4], [5]]` are crossing-free and hold no segment
twice, and segment `0` is in no class; with `todo = [0, 0]`, an empty
`forbidden`, breadth `1` and depth `4`, `dfsOptimize` returns `0` and leaves the
classes `[[4, 0], [0], [2, 1], [5, 3]]`, where segment `0` is in two classes. -/
theorem C38_counterexample :
    (∀ i, i < 6 → ∀ j, j < 6 →
      Conflict.crosses [[14], [25], [9], [23], [10], [0]] i j
        = Conflict.crosses [[14], [25], [9], [23], [10], [0]] j i) ∧
    (∀ cl ∈ ([[1, 2], [3], [4], [5]] : List (List Nat)),
      Conflict.CrossFree [[14], [25], [9], [23], [10], [0]] cl) ∧
    ([[1, 2], [3], [4], [5]] : List (List Nat)).flatten.Nodup ∧
    (∀ e ∈ ([0, 0] : List Nat), e ∉ ([[1, 2], [3], [4], [5]] : List (List Nat)).flatten) ∧
    Conflict.dfsOptimize [[14], [25], [9], [23], [10], [0]] 4
        [[1, 2], [3], [4], [5]] [0, 0] [] 1 4 []
      = Outcome.returned (0, [[4, 0], [0], [2, 1], [5, 3]],
          [Conflict.stack_event_t.added 1 0, Conflict.stack_event_t.removed 1 3,
            Conflict.stack_event_t.added 2 3, Conflict.stack_event_t.removed 2 4,
            Conflict.stack_event_t.added 0 4, Conflict.stack_event_t.removed 0 1,
            Conflict.stack_event_t.added 3 1, Conflict.stack_event_t.added 0 0,
            Conflict.stack_event_t.removed 0 2, Conflict.stack_event_t.added 2 2,
            Conflict.stack_event_t.removed 2 3, Conflict.stack_event_t.added 3 3,
            Conflict.stack_event_t.removed 3 1, Conflict.stack_event_t.added 2 1]) ∧
    0 ∈ ([[4, 0], [0], [2, 1], [5, 3]] : List (List Nat)).getD 0 [] ∧
    0 ∈ ([[4, 0], [0], [2, 1], [5, 3]] : List (List Nat)).getD 1 [] := by
  refine ⟨by decide, ?_, by decide, by decide, by decide, by decide, by decide⟩
  intro cl hcl
  unfold Conflict.CrossFree
  have hcl0 : cl = [1, 2] ∨ cl = [3] ∨ cl = [4] ∨ cl = [5] := by simpa using hcl
  rcases hcl0 with h | h | h | h <;> subst h <;> decide

/-- Claim C38, amended: for every `depth ≥ 1`, `dfsOptimize` (entered with an empty
list of changes and allowed at least `depth` nested calls) returns, with `0` or
`-1`. When it returns `0` from a state where the crossing matrix is symmetric,
all classes are crossing-free, and no segment occurs twice among the classes
and `todo` together (so `todo` has no repeated segment and none of its
segments is in a class), then every `todo` segment is in exactly one class,
no segment occurs twice in the classes, every class is crossing-free, the
classes hold exactly the segments they held and those of `todo`, the number of
classes is unchanged, and every segment of `forbidden` that was in a class is
still in that class. -/
theorem C38_dfsOptimize_returns_and_keeps_validity (crossings : List (List Nat))
    (fuel : Nat) (cls : List (List Nat)) (todo forbidden : List Nat) (breadth depth : Int)
    (hdepth : 1 ≤ depth) (hfuel : depth ≤ (fuel : Int)) :
    ∃ r, Conflict.dfsOptimize crossings fuel cls todo forbidden breadth depth []
        = Outcome.returned r ∧ (r.1 = 0 ∨ r.1 = -1) ∧
      ((∀ i j, Conflict.crosses crossings i j = Conflict.crosses crossings j i) →
        (∀ cl ∈ cls, Conflict.CrossFree crossings cl) →
        (cls.flatten ++ todo).Nodup → r.1 = 0 →
        (∀ e ∈ todo, ∃! c, c < r.2.1.length ∧ e ∈ r.2.1.getD c []) ∧
        r.2.1.flatten.Nodup ∧
        (∀ cl ∈ r.2.1, Conflict.CrossFree crossings cl) ∧
        r.2.1.flatten.Perm (cls.flatten ++ todo) ∧
        r.2.1.length = cls.length ∧
        (∀ f ∈ forbidden, ∀ c, f ∈ cls.getD c [] → f ∈ r.2.1.getD c [])) := by
  obtain ⟨r, hr, h01⟩ := Conflict.dfsOptimize_total crossings fuel cls todo forbidden breadth
    depth [] (Or.inr ⟨hdepth, hfuel⟩)
  refine ⟨r, hr, h01, fun hsym hvalid hnd h0 => ?_⟩
  have hne : r.1 ≠ -1 := by rw [h0]; decide
  obtain ⟨_, s2⟩ := Conflict.dfsOptimize_spec crossings fuel cls todo forbidden breadth depth r
    hnd hr
  obtain ⟨p1, p2⟩ := s2 hne
  obtain ⟨k1, k2⟩ := Conflict.dfsOptimize_keep crossings hsym fuel cls todo forbidden breadth
    depth r hnd hr hne
  have hnd2 : r.2.1.flatten.Nodup := p1.nodup_iff.2 hnd
  refine ⟨fun e he => ?_, hnd2, k1 hvalid, p1, ?_, k2⟩
  · have hm : e ∈ r.2.1.flatten := p1.mem_iff.2 (List.mem_append_right _ he)
    obtain ⟨cl, hcl, hecl⟩ := List.mem_flatten.1 hm
    obtain ⟨c, hc, e1⟩ := List.mem_iff_getElem.1 hcl
    have hec : e ∈ r.2.1.getD c [] := by
      rw [List.getD_eq_getElem _ _ hc, e1]; exact hecl
    exact ⟨c, ⟨hc, hec⟩, fun c2 h2 => Greedy.class_unique hnd2 h2.2 hec⟩
  · rw [← p2.1, Conflict.undo_changes_length]

set_option maxRecDepth 1000000 in
/-- Witness for C38: the segments `0 = (0,0)-(10,0)`, `1 = (0,5)-(10,5)` and
`2 = (5,-5)-(5,2)`, which crosses segment `0` only, with the classes
`[[0], [1]]`, `todo = [2]`, breadth `3` and depth `3`. -/
theorem C38_dfsOptimize_returns_and_keeps_validity_witness :
    ∃ r, Conflict.dfsOptimize
        (Conflict.generate_intersection_map
          [Segment.build ⟨0, 0⟩ ⟨10, 0⟩, Segment.build ⟨0, 5⟩ ⟨10, 5⟩,
            Segment.build ⟨5, -5⟩ ⟨5, 2⟩]) 3 [[0], [1]] [2] [] 3 3 []
        = Outcome.returned r ∧ (r.1 = 0 ∨ r.1 = -1) ∧
      ((∀ i j, Conflict.crosses
          (Conflict.generate_intersection_map
            [Segment.build ⟨0, 0⟩ ⟨10, 0⟩, Segment.build ⟨0, 5⟩ ⟨10, 5⟩,
              Segment.build ⟨5, -5⟩ ⟨5, 2⟩]) i j
          = Conflict.crosses
            (Conflict.generate_intersection_map
              [Segment.build ⟨0, 0⟩ ⟨10, 0⟩, Segment.build ⟨0, 5⟩ ⟨10, 5⟩,
                Segment.build ⟨5, -5⟩ ⟨5, 2⟩]) j i) →
        (∀ cl ∈ ([[0], [1]] : List (List Nat)), Conflict.CrossFree
          (Conflict.generate_intersection_map
            [Segment.build ⟨0, 0⟩ ⟨10, 0⟩, Segment.build ⟨0, 5⟩ ⟨10, 5⟩,
              Segment.build ⟨5, -5⟩ ⟨5, 2⟩]) cl) →
        (([[0], [1]] : List (List Nat)).flatten ++ [2]).Nodup → r.1 = 0 →
        (∀ e ∈ ([2] : List Nat), ∃! c, c < r.2.1.length ∧ e ∈ r.2.1.getD c []) ∧
        r.2.1.flatten.Nodup ∧
        (∀ cl ∈ r.2.1, Conflict.CrossFree
          (Conflict.generate_intersection_map
            [Segment.build ⟨0, 0⟩ ⟨10, 0⟩, Segment.build ⟨0, 5⟩ ⟨10, 5⟩,
              Segment.build ⟨5, -5⟩ ⟨5, 2⟩]) cl) ∧
        r.2.1.flatten.Perm (([[0], [1]] : List (List Nat)).flatten ++ [2]) ∧
        r.2.1.length = ([[0], [1]] : List (List Nat)).length ∧
        (∀ f ∈ ([] : List Nat), ∀ c,
          f ∈ ([[0], [1]] : List (List Nat)).getD c [] → f ∈ r.2.1.getD c [])) :=
  C38_dfsOptimize_returns_and_keeps_validity
    (Conflict.generate_intersection_map
      [Segment.build ⟨0, 0⟩ ⟨10, 0⟩, Segment.build ⟨0, 5⟩ ⟨10, 5⟩,
        Segment.build ⟨5, -5⟩ ⟨5, 2⟩]) 3 [[0], [1]] [2] [] 3 3 (by decide) (by decide)

/-- Counterexample to C39 as stated: with no segment `Greedy::color()` leaves an
empty `colorv`, and `numColors()` dereferences the end iterator of the empty
vector, so it has no value to compare with the maximum degree. -/
theorem C39_counterexample :
    (Greedy.color []).colorv = [] ∧
    Solution.numColors (Greedy.color []).colorv = Outcome.outOfBounds := by
  refine ⟨by decide, by decide⟩

/-- Claim C39, amended: with `N ≥ 1` segments, after `Greedy::color()` every segment
with colour `c` crosses, for each `c' < c`, some segment of class `c'` (whose
colour is `c'`); and `numColors()` returns the number of classes, which is at
most `1 +` the maximum crossing degree of the instance. -/
theorem C39_greedy_colour_blocked_below (segments : List Segment)
    (hN : 1 ≤ segments.length) :
    (∀ i c c2 : Nat, i < segments.length →
      (Greedy.color segments).colorv.getD i (-1) = (c : Int) → c2 < c →
      ∃ j, j < segments.length ∧ j ∈ (Greedy.color segments).classes.getD c2 [] ∧
        (Greedy.color segments).colorv.getD j (-1) = (c2 : Int) ∧
        (segAt segments i).cross (segAt segments j) = true) ∧
    ∃ k : Int, Solution.numColors (Greedy.color segments).colorv = Outcome.returned k ∧
      k = ((Greedy.color segments).classes.length : Int) ∧
      k ≤ 1 + (Spec.maxDegree segments : Int) := by
  refine ⟨fun i c c2 hi hc hc2 => ?_, Greedy.color_numColors_le segments hN⟩
  have hB : Greedy.Blocked segments (Greedy.color segments).classes :=
    Greedy.foldr_place_blocked segments [] (Greedy.blocked_nil segments) _
  obtain ⟨j, hj, hx⟩ := hB c i ((Greedy.color_colorv_iff segments i c hi).1 hc) c2 hc2
  have hjlt : j < segments.length :=
    List.mem_range.1 ((Greedy.color_classes_perm segments).mem_iff.1
      (List.mem_flatten.2 ⟨_, (Greedy.mem_getD_of_mem hj).2, hj⟩))
  exact ⟨j, hjlt, hj, (Greedy.color_colorv_iff segments j c2 hjlt).2 hj, hx⟩

/-- Witness for C39: the two crossing segments `(0,0)-(10,0)` and `(5,-5)-(5,5)`. -/
theorem C39_greedy_colour_blocked_below_witness :
    (∀ i c c2 : Nat,
      i < [Segment.build ⟨0, 0⟩ ⟨10, 0⟩, Segment.build ⟨5, -5⟩ ⟨5, 5⟩].length →
      (Greedy.color [Segment.build ⟨0, 0⟩ ⟨10, 0⟩, Segment.build ⟨5, -5⟩ ⟨5, 5⟩]).colorv.getD
        i (-1) = (c : Int) → c2 < c →
      ∃ j, j < [Segment.build ⟨0, 0⟩ ⟨10, 0⟩, Segment.build ⟨5, -5⟩ ⟨5, 5⟩].length ∧
        j ∈ (Greedy.color
          [Segment.build ⟨0, 0⟩ ⟨10, 0⟩, Segment.build ⟨5, -5⟩ ⟨5, 5⟩]).classes.getD c2 [] ∧
        (Greedy.color [Segment.build ⟨0, 0⟩ ⟨10, 0⟩, Segment.build ⟨5, -5⟩ ⟨5, 5⟩]).colorv.getD
          j (-1) = (c2 : Int) ∧
        (segAt [Segment.build ⟨0, 0⟩ ⟨10, 0⟩, Segment.build ⟨5, -5⟩ ⟨5, 5⟩] i).cross
          (segAt [Segment.build ⟨0, 0⟩ ⟨10, 0⟩, Segment.build ⟨5, -5⟩ ⟨5, 5⟩] j) = true) ∧
    ∃ k : Int,
      Solution.numColors
        (Greedy.color [Segment.build ⟨0, 0⟩ ⟨10, 0⟩, Segment.build ⟨5, -5⟩ ⟨5, 5⟩]).colorv
        = Outcome.returned k ∧
      k = ((Greedy.color
        [Segment.build ⟨0, 0⟩ ⟨10, 0⟩, Segment.build ⟨5, -5⟩ ⟨5, 5⟩]).classes.length : Int) ∧
      k ≤ 1 + (Spec.maxDegree
        [Segment.build ⟨0, 0⟩ ⟨10, 0⟩, Segment.build ⟨5, -5⟩ ⟨5, 5⟩] : Int) :=
  C39_greedy_colour_blocked_below
    [Segment.build ⟨0, 0⟩ ⟨10, 0⟩, Segment.build ⟨5, -5⟩ ⟨5, 5⟩] (by decide)

set_option maxRecDepth 1000000 in
/-- Claim C40 fails on the DIMACS instance `Conflict.dimacsCycle` (six vertices, the
cycle `1 - 3 - 5 - 2 - 4 - 6 - 1`), with a clock that always shows `0` and a
noise always equal to `1`. On every DIMACS instance `segments` is empty, so
`Solution::clear` leaves `colorv` empty, whatever `n_segments` is. Here
`n_segments = 6`, `init_solution()` makes the classes `[[0, 1], [2, 3], [4, 5]]`,
the first call of `optimize()` returns true with the classes
`[[2, 5, 1], [4, 0, 3]]`, and `build_colorv()` then writes `colorv[2]` in the
empty vector: `Conflict::color` ends out of bounds; `numColors()` on the empty
`colorv` is out of bounds too. -/
theorem C40_dimacs_colorv_is_empty :
    (∀ param edges pairs st, Conflict.ofDimacs param edges pairs = Outcome.returned st →
      st.n_segments = edges ∧ (Solution.clear st.segments).length = 0) ∧
    Conflict.dimacsCycle = Outcome.returned Conflict.dimacsCycleState ∧
    Conflict.dimacsCycleState.n_segments = 6 ∧
    Solution.clear Conflict.dimacsCycleState.segments = [] ∧
    Conflict.init_solution Conflict.dimacsCycleState.n_segments
      Conflict.dimacsCycleState.crossings Conflict.dimacsCycleState.classes
      = [[0, 1], [2, 3], [4, 5]] ∧
    Conflict.optimize Conflict.stillClock 6
        { Conflict.dimacsCycleState with classes := [[0, 1], [2, 3], [4, 5]], clockCalls := 1 }
      = Outcome.returned (true,
          { Conflict.dimacsCycleState with
            classes := [[2, 5, 1], [4, 0, 3]]
            queue_count := [1, 1, 0, 0, 0, 0]
            clockCalls := 4
            noiseCalls := 4 }) ∧
    Conflict.build_colorv [[2, 5, 1], [4, 0, 3]]
        (Solution.clear Conflict.dimacsCycleState.segments) = Outcome.outOfBounds ∧
    Solution.numColors (Solution.clear Conflict.dimacsCycleState.segments)
      = Outcome.outOfBounds ∧
    Conflict.color Conflict.stillClock 6 1 Conflict.dimacsCycleState
        (Solution.clear Conflict.dimacsCycleState.segments) = Outcome.outOfBounds := by
  refine ⟨fun param edges pairs st h => ?_, by with_unfolding_all rfl, rfl, rfl,
    by with_unfolding_all rfl, by with_unfolding_all rfl, by with_unfolding_all rfl,
    by with_unfolding_all rfl, by with_unfolding_all rfl⟩
  unfold Conflict.ofDimacs at h
  obtain ⟨cr, _, h2⟩ := Conflict.Outcome_bind_returned h
  rw [← Outcome.returned.inj h2]
  exact ⟨rfl, rfl⟩

end Shadoks
